import Mathlib

/-!
# Side-effect classifier of the JavaScript AST helpers

A shallow embedding of `internal/js_ast/js_ast_helpers.go`: the expression and
statement node model, the primitive type oracle `KnownPrimitiveType`, and the
removability classifiers `ExprCanBeRemovedIfUnused`,
`StmtsCanBeRemovedIfUnused` and `classCanBeRemovedIfUnused`.

The node declarations (`js_ast.go`) are not among the sources: the node model
below is written from the data model of the specification and from the fields
the helpers read.

Conventions of the embedding:
* a Go interface value `Data` that may be `nil` is the constructor `E.nil`;
* a Go `panic` is the result `none`; a returned verdict `b` is `some b`;
* Go's short-circuit `&&` / `||` are `andAlso` / `orElse`, which only look at
  their second argument when the first does not already decide the result;
* pointers that the code dereferences without a nil check are plain values.
-/

namespace JsAst

/-! ## Node model -/

/-- Modelled from the spec: source location (`logger.Loc`), a byte offset. -/
structure Loc where
  start : Int
  deriving DecidableEq, Repr, Inhabited

/-- Modelled from the spec: `Ref`, the opaque, comparable handle of a declared
symbol. -/
structure Ref where
  sourceIndex : Nat
  innerIndex : Nat
  deriving DecidableEq, Repr, Inhabited

/-- Modelled from the spec: the `float64` payload of a number literal, kept as
the three bit fields of an IEEE-754 binary64 value. -/
structure Float64 where
  sign : Bool
  exponent : Nat
  mantissa : Nat
  deriving DecidableEq, Repr, Inhabited

/-- Modelled from the spec: operator codes, with the names the helpers use;
unary and binary operators share the one Go type `OpCode`. -/
inductive OpCode where
  | UnOpPos | UnOpNeg | UnOpCpl | UnOpNot | UnOpVoid | UnOpTypeof | UnOpDelete
  | UnOpPreDec | UnOpPreInc | UnOpPostDec | UnOpPostInc
  | BinOpAdd | BinOpSub | BinOpMul | BinOpDiv | BinOpRem | BinOpPow
  | BinOpLt | BinOpLe | BinOpGt | BinOpGe | BinOpIn | BinOpInstanceof
  | BinOpShl | BinOpShr | BinOpUShr
  | BinOpLooseEq | BinOpLooseNe | BinOpStrictEq | BinOpStrictNe
  | BinOpNullishCoalescing | BinOpLogicalOr | BinOpLogicalAnd
  | BinOpBitwiseOr | BinOpBitwiseAnd | BinOpBitwiseXor
  | BinOpComma
  | BinOpAssign | BinOpAddAssign | BinOpSubAssign | BinOpMulAssign
  | BinOpDivAssign | BinOpRemAssign | BinOpPowAssign
  | BinOpShlAssign | BinOpShrAssign | BinOpUShrAssign
  | BinOpBitwiseOrAssign | BinOpBitwiseAndAssign | BinOpBitwiseXorAssign
  | BinOpNullishCoalescingAssign | BinOpLogicalOrAssign | BinOpLogicalAndAssign
  deriving DecidableEq, Repr, Inhabited

/-- Modelled from the spec: optional chain state of a `Dot` / `Index` / `Call`
node. -/
inductive OptionalChain where
  | OptionalChainNone | OptionalChainStart | OptionalChainContinue
  deriving DecidableEq, Repr, Inhabited

/-- Modelled from the spec: kind of a call expression; the helpers only name
`InternalPublicFieldCall`. -/
inductive CallKind where
  | NormalCall | DirectEval | TargetWasOriginallyPropertyAccess | InternalPublicFieldCall
  deriving DecidableEq, Repr, Inhabited

/-- Modelled from the spec: kind of an object or class property; the helpers
name `PropertyNormal`, `PropertySpread` and `PropertyClassStaticBlock`. -/
inductive PropertyKind where
  | PropertyNormal | PropertyGet | PropertySet | PropertySpread
  | PropertyDeclare | PropertyClassStaticBlock
  deriving DecidableEq, Repr, Inhabited

/-- Modelled from the spec: the property flag bits that the helpers test with
`Flags.Has`. -/
structure PropertyFlags where
  isComputed : Bool
  isStatic : Bool
  deriving DecidableEq, Repr, Inhabited

/-- Modelled from the spec: kind of a local declaration statement. -/
inductive LocalKind where
  | LocalVar | LocalLet | LocalConst
  deriving DecidableEq, Repr, Inhabited

/-- Modelled from the spec: a binding pattern, location and pattern data in
one constructor. Default values and
computed keys of destructuring patterns are never read by the helpers of this
development and are left out. -/
inductive Binding where
  | BMissing (loc : Loc)
  | BIdentifier (loc : Loc) (ref : Ref)
  | BArray (loc : Loc) (items : List Binding) (hasSpread : Bool) (isSingleLine : Bool)
  | BObject (loc : Loc) (properties : List Binding) (isSingleLine : Bool)

mutual

/-- Modelled from the spec: an expression, that is a location and the node
data (possibly `nil`). -/
inductive Expr where
  | mk (loc : Loc) (data : E)

/-- Modelled from the spec: expression node data, one constructor per node kind
of the data model, with the fields the helpers read. -/
inductive E where
  | nil
  | ENull
  | EUndefined
  | EMissing
  | EThis
  | EImportMeta
  | EBoolean (value : Bool)
  | ENumber (value : Float64)
  | EBigInt (value : String)
  | EString (value : List Nat)
  | ERegExp (value : String)
  | EIdentifier (ref : Ref) (mustKeepDueToWithStmt : Bool) (canBeRemovedIfUnused : Bool)
  | EImportIdentifier (ref : Ref)
  | EInlinedEnum (value : Expr) (original : Ref)
  | EDot (target : Expr) (name : String) (optionalChain : OptionalChain)
      (canBeRemovedIfUnused : Bool) (callCanBeUnwrappedIfUnused : Bool)
  | EIndex (target : Expr) (index : Expr) (optionalChain : OptionalChain)
      (canBeRemovedIfUnused : Bool) (callCanBeUnwrappedIfUnused : Bool)
  | ECall (target : Expr) (args : List Expr) (optionalChain : OptionalChain)
      (canBeUnwrappedIfUnused : Bool) (kind : CallKind)
  | ENew (target : Expr) (args : List Expr) (canBeUnwrappedIfUnused : Bool)
  | EUnary (op : OpCode) (value : Expr) (valueWasOriginallyIdentifier : Bool)
  | EBinary (op : OpCode) (left : Expr) (right : Expr)
  | EIf (test : Expr) (yes : Expr) (no : Expr)
  | ETemplate (tagOrNil : Expr) (headCooked : List Nat) (parts : List TemplatePart)
  | EArray (items : List Expr) (isSingleLine : Bool)
  | EObject (properties : List Property) (isSingleLine : Bool)
  | EFunction (fn : Fn)
  | EArrow (args : List Binding) (body : List Stmt) (isAsync : Bool) (preferExpr : Bool)
  | EClass (cls : Class)
  | ESpread (value : Expr)

/-- Modelled from the spec: one interpolated part of a template literal. -/
inductive TemplatePart where
  | mk (value : Expr) (tailCooked : List Nat)

/-- Modelled from the spec: a property of an object literal or of a class body.
The static block is only read when the kind is `PropertyClassStaticBlock`. -/
inductive Property where
  | mk (kind : PropertyKind) (flags : PropertyFlags) (key : Expr) (valueOrNil : Expr)
      (initializerOrNil : Expr) (classStaticBlock : List Stmt)

/-- Modelled from the spec: a class, with its `extends` expression (or nil) and
its members. -/
inductive Class where
  | mk (extendsOrNil : Expr) (properties : List Property)

/-- Modelled from the spec: a function, with its parameters and body. -/
inductive Fn where
  | mk (args : List Binding) (body : List Stmt) (isAsync : Bool) (isGenerator : Bool)

/-- Modelled from the spec: a statement, that is a location and the node data. -/
inductive Stmt where
  | mk (loc : Loc) (data : S)

/-- Modelled from the spec: statement node data. The kinds up to `SReturn` are
the ones the helpers name; the kinds after it stand for the statement kinds
that `js_ast_helpers.go` never names. -/
inductive S where
  | SFunction (fn : Fn) (isExport : Bool)
  | SEmpty
  | SImport (namespaceRef : Ref) (importRecordIndex : Nat)
  | SClass (cls : Class) (isExport : Bool)
  | SExpr (value : Expr) (doesNotAffectTreeShaking : Bool)
  | SLocal (decls : List Decl) (kind : LocalKind) (isExport : Bool)
  | STry (block : List Stmt) (catch_ : Option (List Stmt)) (finally_ : Option (List Stmt))
  | SExportFrom (namespaceRef : Ref) (importRecordIndex : Nat)
  | SExportClause
  | SExportDefault (defaultName : Ref) (value : Stmt)
  | SReturn (valueOrNil : Expr)
  | SThrow (value : Expr)
  | SBlock (stmts : List Stmt)
  | SIf (test : Expr) (yes : Stmt) (noOrNil : Option Stmt)
  | SWhile (test : Expr) (body : Stmt)
  | SDebugger

/-- Modelled from the spec: one declarator of a local declaration. -/
inductive Decl where
  | mk (binding : Binding) (valueOrNil : Expr)

end

/-- Field `Data` of an expression. -/
def Expr.data : Expr → E
  | .mk _ d => d

/-- Field `Loc` of an expression. -/
def Expr.loc : Expr → Loc
  | .mk l _ => l

/-! ## Primitive type oracle -/

/-- The closed lattice of statically known primitive kinds. -/
inductive PrimitiveType where
  | PrimitiveUnknown | PrimitiveMixed | PrimitiveNull | PrimitiveUndefined
  | PrimitiveBoolean | PrimitiveNumber | PrimitiveString | PrimitiveBigInt
  deriving DecidableEq, Repr, Inhabited

open PrimitiveType OpCode

/-- The join used by `MergedKnownPrimitiveTypes`, on already computed types. -/
def mergeTypes (x y : PrimitiveType) : PrimitiveType :=
  if x = PrimitiveUnknown ∨ y = PrimitiveUnknown then PrimitiveUnknown
  else if x = y then x
  else PrimitiveMixed

/-- Go function `KnownPrimitiveType(a)`. -/
def KnownPrimitiveType : Expr → PrimitiveType
  | ⟨_, .EInlinedEnum value _⟩ => KnownPrimitiveType value
  | ⟨_, .ENull⟩ => PrimitiveNull
  | ⟨_, .EUndefined⟩ => PrimitiveUndefined
  | ⟨_, .EBoolean _⟩ => PrimitiveBoolean
  | ⟨_, .ENumber _⟩ => PrimitiveNumber
  | ⟨_, .EString _⟩ => PrimitiveString
  | ⟨_, .EBigInt _⟩ => PrimitiveBigInt
  | ⟨_, .ETemplate ⟨_, .nil⟩ _ _⟩ => PrimitiveString
  | ⟨_, .EIf _ yes no⟩ => mergeTypes (KnownPrimitiveType yes) (KnownPrimitiveType no)
  | ⟨_, .EUnary op value _⟩ =>
    match op with
    | UnOpVoid => PrimitiveUndefined
    | UnOpTypeof => PrimitiveString
    | UnOpNot | UnOpDelete => PrimitiveBoolean
    | UnOpPos => PrimitiveNumber
    | UnOpNeg | UnOpCpl =>
      let v := KnownPrimitiveType value
      if v = PrimitiveBigInt then PrimitiveBigInt
      else if v ≠ PrimitiveUnknown ∧ v ≠ PrimitiveMixed then PrimitiveNumber
      else PrimitiveMixed
    | UnOpPreDec | UnOpPreInc | UnOpPostDec | UnOpPostInc => PrimitiveMixed
    | _ => PrimitiveUnknown
  | ⟨_, .EBinary op left right⟩ =>
    match op with
    | BinOpStrictEq | BinOpStrictNe | BinOpLooseEq | BinOpLooseNe
    | BinOpLt | BinOpGt | BinOpLe | BinOpGe
    | BinOpInstanceof | BinOpIn => PrimitiveBoolean
    | BinOpLogicalOr | BinOpLogicalAnd =>
      mergeTypes (KnownPrimitiveType left) (KnownPrimitiveType right)
    | BinOpNullishCoalescing =>
      let l := KnownPrimitiveType left
      let r := KnownPrimitiveType right
      if l = PrimitiveNull ∨ l = PrimitiveUndefined then r
      else if l ≠ PrimitiveUnknown then
        if l ≠ PrimitiveMixed then l
        else if r ≠ PrimitiveUnknown then PrimitiveMixed
        else PrimitiveUnknown
      else PrimitiveUnknown
    | BinOpAdd =>
      let l := KnownPrimitiveType left
      let r := KnownPrimitiveType right
      if l = PrimitiveString ∨ r = PrimitiveString then PrimitiveString
      else if l = PrimitiveBigInt ∧ r = PrimitiveBigInt then PrimitiveBigInt
      else if l ≠ PrimitiveUnknown ∧ l ≠ PrimitiveMixed ∧ l ≠ PrimitiveBigInt ∧
          r ≠ PrimitiveUnknown ∧ r ≠ PrimitiveMixed ∧ r ≠ PrimitiveBigInt then PrimitiveNumber
      else PrimitiveMixed
    | BinOpAddAssign =>
      if KnownPrimitiveType right = PrimitiveString then PrimitiveString else PrimitiveMixed
    | BinOpSub | BinOpSubAssign | BinOpMul | BinOpMulAssign
    | BinOpDiv | BinOpDivAssign | BinOpRem | BinOpRemAssign
    | BinOpPow | BinOpPowAssign
    | BinOpBitwiseAnd | BinOpBitwiseAndAssign | BinOpBitwiseOr | BinOpBitwiseOrAssign
    | BinOpBitwiseXor | BinOpBitwiseXorAssign
    | BinOpShl | BinOpShlAssign | BinOpShr | BinOpShrAssign
    | BinOpUShr | BinOpUShrAssign => PrimitiveMixed
    | BinOpAssign | BinOpComma => KnownPrimitiveType right
    | _ => PrimitiveUnknown
  | _ => PrimitiveUnknown

/-- Go function `MergedKnownPrimitiveTypes(a, b)`. `KnownPrimitiveType` applies
its body, `mergeTypes`, to the types of the two subexpressions. -/
def MergedKnownPrimitiveTypes (a b : Expr) : PrimitiveType :=
  mergeTypes (KnownPrimitiveType a) (KnownPrimitiveType b)

/-- Go function `CanChangeStrictToLoose(a, b)`. -/
def CanChangeStrictToLoose (a b : Expr) : Bool :=
  let x := KnownPrimitiveType a
  let y := KnownPrimitiveType b
  decide (x = y) && decide (x ≠ PrimitiveUnknown) && decide (x ≠ PrimitiveMixed)

/-- Go function `IsPrimitiveLiteral(data)`. -/
def IsPrimitiveLiteral : E → Bool
  | .EInlinedEnum ⟨_, d⟩ _ => IsPrimitiveLiteral d
  | .ENull | .EUndefined | .EString _ | .EBoolean _ | .ENumber _ | .EBigInt _ => true
  | _ => false

/-! ## Side-effect classifier -/

/-- The test `x.Data == nil`. -/
def E.isNil : E → Bool
  | .nil => true
  | _ => false

/-- The type assertion `x.Data.(*EString)` succeeds. -/
def E.isEString : E → Bool
  | .EString _ => true
  | _ => false

/-- The type assertion `x.Data.(*EIdentifier)` succeeds. -/
def E.isEIdentifier : E → Bool
  | .EIdentifier _ _ _ => true
  | _ => false

/-- UTF-16 code units of the ASCII text `undefined`. -/
def strUndefined : List Nat := [117, 110, 100, 101, 102, 105, 110, 101, 100]

/-- UTF-16 code units of the ASCII text `u`. -/
def strU : List Nat := [117]

/-- Modelled from the spec: `helpers.UTF16EqualsString` is not among the
sources; for the ASCII texts it is called with here it holds exactly when the
UTF-16 code units of `text` are the character codes of `str`. -/
def UTF16EqualsString (text : List Nat) (str : List Nat) : Bool :=
  decide (text = str)

/-- Go's short-circuit `a && b` over results that may be a panic (`none`). -/
def andAlso (a b : Option Bool) : Option Bool :=
  match a with
  | none => none
  | some false => some false
  | some true => b

/-- Go's short-circuit `a || b` over results that may be a panic (`none`). -/
def orElse (a b : Option Bool) : Option Bool :=
  match a with
  | none => none
  | some true => some true
  | some false => b

/-- Go function `isSideEffectFreeUnboundIdentifierRef(value, guardCondition, isYesBranch, isUnbound)`. -/
def isSideEffectFreeUnboundIdentifierRef (value guardCondition : Expr) (isYesBranch : Bool)
    (isUnbound : Ref → Bool) : Bool :=
  match value.data with
  | .EIdentifier idRef _ _ =>
    if isUnbound idRef then
      match guardCondition.data with
      | .EBinary op left right =>
        if op = BinOpStrictEq ∨ op = BinOpStrictNe ∨ op = BinOpLooseEq ∨ op = BinOpLooseNe then
          -- Pattern match for "typeof x !== <string>"
          let typeof := if left.data.isEString then right else left
          let string := if left.data.isEString then left else right
          match typeof.data with
          | .EUnary typeofOp typeofValue valueWasOriginallyIdentifier =>
            if typeofOp = UnOpTypeof ∧ valueWasOriginallyIdentifier = true then
              match string.data with
              | .EString text =>
                if (UTF16EqualsString text strUndefined == isYesBranch) ==
                    (decide (op = BinOpStrictNe) || decide (op = BinOpLooseNe)) then
                  match typeofValue.data with
                  | .EIdentifier ref2 _ _ => decide (ref2 = idRef)
                  | _ => false
                else false
              | _ => false
            else false
          | _ => false
        else if op = BinOpLt ∨ op = BinOpGt ∨ op = BinOpLe ∨ op = BinOpGe then
          -- Pattern match for "typeof x < <string>"
          let typeof := if left.data.isEString then right else left
          let string := if left.data.isEString then left else right
          let isYesBranch := if left.data.isEString then !isYesBranch else isYesBranch
          match typeof.data with
          | .EUnary typeofOp typeofValue valueWasOriginallyIdentifier =>
            if typeofOp = UnOpTypeof ∧ valueWasOriginallyIdentifier = true then
              match string.data with
              | .EString text =>
                if UTF16EqualsString text strU = true then
                  if isYesBranch == (decide (op = BinOpLt) || decide (op = BinOpLe)) then
                    match typeofValue.data with
                    | .EIdentifier ref2 _ _ => decide (ref2 = idRef)
                    | _ => false
                  else false
                else false
              | _ => false
            else false
          | _ => false
        else false
      | _ => false
    else false
  | _ => false

/-- Flags of `StmtsCanBeRemovedIfUnused` (a `uint8` bit set). -/
abbrev StmtsCanBeRemovedIfUnusedFlags := Nat

/-- The flag bit `KeepExportClauses = 1 << 0`. -/
def KeepExportClauses : StmtsCanBeRemovedIfUnusedFlags := 1

mutual

/-- Go function `ExprCanBeRemovedIfUnused(expr, isUnbound)`; `none` is a panic raised while
classifying a class body nested in the expression. -/
def ExprCanBeRemovedIfUnused (expr : Expr) (isUnbound : Ref → Bool) : Option Bool :=
  match expr with
  | ⟨_, .EInlinedEnum value _⟩ => ExprCanBeRemovedIfUnused value isUnbound
  | ⟨_, .ENull⟩ | ⟨_, .EUndefined⟩ | ⟨_, .EMissing⟩ | ⟨_, .EBoolean _⟩ | ⟨_, .ENumber _⟩
  | ⟨_, .EBigInt _⟩ | ⟨_, .EString _⟩ | ⟨_, .EThis⟩ | ⟨_, .ERegExp _⟩ | ⟨_, .EFunction _⟩
  | ⟨_, .EArrow _ _ _ _⟩ | ⟨_, .EImportMeta⟩ => some true
  | ⟨_, .EDot _ _ _ canBeRemovedIfUnused _⟩ => some canBeRemovedIfUnused
  | ⟨_, .EClass cls⟩ => classCanBeRemovedIfUnused cls isUnbound
  | ⟨_, .EIdentifier ref mustKeepDueToWithStmt canBeRemovedIfUnused⟩ =>
    if mustKeepDueToWithStmt then some false
    else if canBeRemovedIfUnused || !isUnbound ref then some true
    else some false
  | ⟨_, .EImportIdentifier _⟩ => some true
  | ⟨_, .EIf test yes no⟩ =>
    andAlso (ExprCanBeRemovedIfUnused test isUnbound)
      (andAlso
        (orElse (some (isSideEffectFreeUnboundIdentifierRef yes test true isUnbound))
          (ExprCanBeRemovedIfUnused yes isUnbound))
        (orElse (some (isSideEffectFreeUnboundIdentifierRef no test false isUnbound))
          (ExprCanBeRemovedIfUnused no isUnbound)))
  | ⟨_, .EArray items _⟩ => exprsCanBeRemovedIfUnused items isUnbound
  | ⟨_, .EObject properties _⟩ => objectPropertiesCanBeRemovedIfUnused properties isUnbound
  | ⟨_, .ECall _ args _ canBeUnwrappedIfUnused kind⟩ =>
    if canBeUnwrappedIfUnused || decide (kind = CallKind.InternalPublicFieldCall) then
      exprsCanBeRemovedIfUnused args isUnbound
    else some false
  | ⟨_, .ENew _ args canBeUnwrappedIfUnused⟩ =>
    if canBeUnwrappedIfUnused then exprsCanBeRemovedIfUnused args isUnbound
    else some false
  | ⟨_, .EUnary op value valueWasOriginallyIdentifier⟩ =>
    match op with
    | UnOpVoid | UnOpNot => ExprCanBeRemovedIfUnused value isUnbound
    | UnOpTypeof =>
      if value.data.isEIdentifier && valueWasOriginallyIdentifier then some true
      else ExprCanBeRemovedIfUnused value isUnbound
    | _ => some false
  | ⟨_, .EBinary op left right⟩ =>
    match op with
    | BinOpStrictEq | BinOpStrictNe | BinOpComma | BinOpNullishCoalescing =>
      andAlso (ExprCanBeRemovedIfUnused left isUnbound) (ExprCanBeRemovedIfUnused right isUnbound)
    | BinOpLogicalOr =>
      andAlso (ExprCanBeRemovedIfUnused left isUnbound)
        (orElse (some (isSideEffectFreeUnboundIdentifierRef right left false isUnbound))
          (ExprCanBeRemovedIfUnused right isUnbound))
    | BinOpLogicalAnd =>
      andAlso (ExprCanBeRemovedIfUnused left isUnbound)
        (orElse (some (isSideEffectFreeUnboundIdentifierRef right left true isUnbound))
          (ExprCanBeRemovedIfUnused right isUnbound))
    | BinOpLooseEq | BinOpLooseNe =>
      andAlso (some (CanChangeStrictToLoose left right))
        (andAlso (ExprCanBeRemovedIfUnused left isUnbound)
          (ExprCanBeRemovedIfUnused right isUnbound))
    | BinOpLt | BinOpGt | BinOpLe | BinOpGe =>
      let leftType := KnownPrimitiveType left
      if leftType = PrimitiveString ∨ leftType = PrimitiveNumber ∨ leftType = PrimitiveBigInt then
        andAlso (some (decide (KnownPrimitiveType right = leftType)))
          (andAlso (ExprCanBeRemovedIfUnused left isUnbound)
            (ExprCanBeRemovedIfUnused right isUnbound))
      else some false
    | _ => some false
  | ⟨_, .ETemplate tagOrNil _ parts⟩ =>
    if tagOrNil.data.isNil then templatePartsCanBeRemovedIfUnused parts isUnbound
    else some false
  | _ => some false

/-- The loop `for _, item := range items` of `ExprCanBeRemovedIfUnused`, over
array items and over call arguments. -/
def exprsCanBeRemovedIfUnused (items : List Expr) (isUnbound : Ref → Bool) : Option Bool :=
  match items with
  | [] => some true
  | item :: rest =>
    andAlso (ExprCanBeRemovedIfUnused item isUnbound) (exprsCanBeRemovedIfUnused rest isUnbound)

/-- The loop over `e.Properties` in the `EObject` case. -/
def objectPropertiesCanBeRemovedIfUnused (properties : List Property)
    (isUnbound : Ref → Bool) : Option Bool :=
  match properties with
  | [] => some true
  | ⟨kind, flags, key, valueOrNil, _, _⟩ :: rest =>
    if decide (kind = PropertyKind.PropertySpread) ||
        (flags.isComputed && !IsPrimitiveLiteral key.data) then some false
    else
      andAlso
        (if valueOrNil.data.isNil then some true
         else ExprCanBeRemovedIfUnused valueOrNil isUnbound)
        (objectPropertiesCanBeRemovedIfUnused rest isUnbound)

/-- The loop over `e.Parts` in the untagged `ETemplate` case. -/
def templatePartsCanBeRemovedIfUnused (parts : List TemplatePart)
    (isUnbound : Ref → Bool) : Option Bool :=
  match parts with
  | [] => some true
  | ⟨value, _⟩ :: rest =>
    andAlso (ExprCanBeRemovedIfUnused value isUnbound)
      (if KnownPrimitiveType value = PrimitiveUnknown then some false
       else templatePartsCanBeRemovedIfUnused rest isUnbound)

/-- Go function `classCanBeRemovedIfUnused(class, isUnbound)`. -/
def classCanBeRemovedIfUnused (cls : Class) (isUnbound : Ref → Bool) : Option Bool :=
  match cls with
  | ⟨extendsOrNil, properties⟩ =>
    andAlso
      (if extendsOrNil.data.isNil then some true
       else ExprCanBeRemovedIfUnused extendsOrNil isUnbound)
      (classPropertiesCanBeRemovedIfUnused properties isUnbound)

/-- The loop over `class.Properties` of `classCanBeRemovedIfUnused`. -/
def classPropertiesCanBeRemovedIfUnused (properties : List Property)
    (isUnbound : Ref → Bool) : Option Bool :=
  match properties with
  | [] => some true
  | ⟨kind, flags, key, valueOrNil, initializerOrNil, classStaticBlock⟩ :: rest =>
    if kind = PropertyKind.PropertyClassStaticBlock then
      andAlso (StmtsCanBeRemovedIfUnused classStaticBlock 0 isUnbound)
        (classPropertiesCanBeRemovedIfUnused rest isUnbound)
    else if flags.isComputed && !IsPrimitiveLiteral key.data then some false
    else if flags.isStatic then
      andAlso
        (if valueOrNil.data.isNil then some true
         else ExprCanBeRemovedIfUnused valueOrNil isUnbound)
        (andAlso
          (if initializerOrNil.data.isNil then some true
           else ExprCanBeRemovedIfUnused initializerOrNil isUnbound)
          (classPropertiesCanBeRemovedIfUnused rest isUnbound))
    else classPropertiesCanBeRemovedIfUnused rest isUnbound

/-- The loop over `s.Decls` in the `SLocal` case. -/
def declsCanBeRemovedIfUnused (decls : List Decl) (isUnbound : Ref → Bool) : Option Bool :=
  match decls with
  | [] => some true
  | ⟨binding, valueOrNil⟩ :: rest =>
    match binding with
    | .BIdentifier _ _ =>
      andAlso
        (if valueOrNil.data.isNil then some true
         else ExprCanBeRemovedIfUnused valueOrNil isUnbound)
        (declsCanBeRemovedIfUnused rest isUnbound)
    | _ => some false

/-- Go function `StmtsCanBeRemovedIfUnused(stmts, flags, isUnbound)`; `none` is the
`panic("Internal error")` of the `SExportDefault` case. -/
def StmtsCanBeRemovedIfUnused (stmts : List Stmt) (flags : StmtsCanBeRemovedIfUnusedFlags)
    (isUnbound : Ref → Bool) : Option Bool :=
  match stmts with
  | [] => some true
  | ⟨_, s⟩ :: rest =>
    match s with
    | .SFunction _ _ | .SEmpty => StmtsCanBeRemovedIfUnused rest flags isUnbound
    | .SImport _ _ => StmtsCanBeRemovedIfUnused rest flags isUnbound
    | .SClass cls _ =>
      andAlso (classCanBeRemovedIfUnused cls isUnbound)
        (StmtsCanBeRemovedIfUnused rest flags isUnbound)
    | .SExpr value doesNotAffectTreeShaking =>
      if doesNotAffectTreeShaking then StmtsCanBeRemovedIfUnused rest flags isUnbound
      else
        andAlso (ExprCanBeRemovedIfUnused value isUnbound)
          (StmtsCanBeRemovedIfUnused rest flags isUnbound)
    | .SLocal decls _ _ =>
      andAlso (declsCanBeRemovedIfUnused decls isUnbound)
        (StmtsCanBeRemovedIfUnused rest flags isUnbound)
    | .STry block _ finally_ =>
      andAlso
        (andAlso (StmtsCanBeRemovedIfUnused block 0 isUnbound)
          (match finally_ with
           | none => some true
           | some finallyBlock => StmtsCanBeRemovedIfUnused finallyBlock 0 isUnbound))
        (StmtsCanBeRemovedIfUnused rest flags isUnbound)
    | .SExportFrom _ _ => StmtsCanBeRemovedIfUnused rest flags isUnbound
    | .SExportClause =>
      if (flags &&& KeepExportClauses) ≠ 0 then some false
      else StmtsCanBeRemovedIfUnused rest flags isUnbound
    | .SExportDefault _ ⟨_, s2⟩ =>
      match s2 with
      | .SExpr value _ =>
        andAlso (ExprCanBeRemovedIfUnused value isUnbound)
          (StmtsCanBeRemovedIfUnused rest flags isUnbound)
      | .SFunction _ _ => StmtsCanBeRemovedIfUnused rest flags isUnbound
      | .SClass cls _ =>
        andAlso (classCanBeRemovedIfUnused cls isUnbound)
          (StmtsCanBeRemovedIfUnused rest flags isUnbound)
      | _ => none
    | _ => some false

end

/-! ## Well-formed export defaults

The only panic of the classifiers is the `default:` arm of the `SExportDefault`
case. The predicates below say that every `export default` statement in a
position the classifiers can reach (statement lists, `try` and `finally`
bodies, class static blocks, and the classes nested in the expressions they
visit) wraps an expression, function or class statement. -/

mutual

/-- Export defaults reachable from an expression are well formed. -/
def exprWellFormed : Expr → Bool
  | ⟨_, .EInlinedEnum value _⟩ => exprWellFormed value
  | ⟨_, .EClass cls⟩ => classWellFormed cls
  | ⟨_, .EIf test yes no⟩ => exprWellFormed test && (exprWellFormed yes && exprWellFormed no)
  | ⟨_, .EArray items _⟩ => exprsWellFormed items
  | ⟨_, .EObject properties _⟩ => propertiesWellFormed properties
  | ⟨_, .ECall _ args _ _ _⟩ => exprsWellFormed args
  | ⟨_, .ENew _ args _⟩ => exprsWellFormed args
  | ⟨_, .EUnary _ value _⟩ => exprWellFormed value
  | ⟨_, .EBinary _ left right⟩ => exprWellFormed left && exprWellFormed right
  | ⟨_, .ETemplate _ _ parts⟩ => templatePartsWellFormed parts
  | _ => true

/-- Export defaults reachable from a list of expressions are well formed. -/
def exprsWellFormed : List Expr → Bool
  | [] => true
  | item :: rest => exprWellFormed item && exprsWellFormed rest

/-- Export defaults reachable from a list of properties are well formed. -/
def propertiesWellFormed : List Property → Bool
  | [] => true
  | ⟨_, _, _, valueOrNil, initializerOrNil, classStaticBlock⟩ :: rest =>
    exprWellFormed valueOrNil && (exprWellFormed initializerOrNil &&
      (stmtsWellFormed classStaticBlock && propertiesWellFormed rest))

/-- Export defaults reachable from the parts of a template are well formed. -/
def templatePartsWellFormed : List TemplatePart → Bool
  | [] => true
  | ⟨value, _⟩ :: rest => exprWellFormed value && templatePartsWellFormed rest

/-- Export defaults reachable from a class are well formed. -/
def classWellFormed : Class → Bool
  | ⟨extendsOrNil, properties⟩ => exprWellFormed extendsOrNil && propertiesWellFormed properties

/-- Export defaults reachable from the declarators of a local are well formed. -/
def declsWellFormed : List Decl → Bool
  | [] => true
  | ⟨_, valueOrNil⟩ :: rest => exprWellFormed valueOrNil && declsWellFormed rest

/-- Every reachable export default of a statement list wraps an expression,
function or class statement. -/
def stmtsWellFormed : List Stmt → Bool
  | [] => true
  | ⟨_, s⟩ :: rest =>
    (match s with
     | .SClass cls _ => classWellFormed cls
     | .SExpr value _ => exprWellFormed value
     | .SLocal decls _ _ => declsWellFormed decls
     | .STry block _ finally_ =>
       stmtsWellFormed block &&
         (match finally_ with
          | none => true
          | some finallyBlock => stmtsWellFormed finallyBlock)
     | .SExportDefault _ ⟨_, s2⟩ =>
       (match s2 with
        | .SExpr value _ => exprWellFormed value
        | .SFunction _ _ => true
        | .SClass cls _ => classWellFormed cls
        | _ => false)
     | _ => true) && stmtsWellFormed rest

end

/-! ## Helpers of the simplifiers -/

/-- Go test `f == 0` on a `float64`: positive or negative zero. -/
def Float64.isZero (f : Float64) : Bool :=
  decide (f.exponent % 2048 = 0) && decide (f.mantissa % 2 ^ 52 = 0)

/-- Go function `math.IsNaN`. -/
def Float64.isNaN (f : Float64) : Bool :=
  decide (f.exponent % 2048 = 2047) && decide (f.mantissa % 2 ^ 52 ≠ 0)

/-- Modelled from the spec: the one capability the helpers ask of
`compat.JSFeature`, namely whether the set has the `OptionalChain` feature
(`unsupportedFeatures.Has(compat.OptionalChain)`). -/
structure JSFeature where
  hasOptionalChain : Bool
  deriving DecidableEq, Repr, Inhabited

/-- Go function `MaybeSimplifyNot(expr)`; `none` is the result `Expr{}, false`.
Every in-place update of the Go code is followed by `return expr, true`, so a
failing call leaves its argument as it was. The `BinOpComma` case holds the
body of `Not` applied to the right operand. -/
def MaybeSimplifyNot : Expr → Option Expr
  | ⟨_, .EInlinedEnum value _⟩ => MaybeSimplifyNot value
  | ⟨loc, .ENull⟩ | ⟨loc, .EUndefined⟩ => some ⟨loc, .EBoolean true⟩
  | ⟨loc, .EBoolean value⟩ => some ⟨loc, .EBoolean (!value)⟩
  | ⟨loc, .ENumber value⟩ => some ⟨loc, .EBoolean (value.isZero || value.isNaN)⟩
  | ⟨loc, .EBigInt value⟩ => some ⟨loc, .EBoolean (decide (value = "0"))⟩
  | ⟨loc, .EString value⟩ => some ⟨loc, .EBoolean (decide (value.length = 0))⟩
  | ⟨loc, .EFunction _⟩ | ⟨loc, .EArrow _ _ _ _⟩ | ⟨loc, .ERegExp _⟩ =>
    some ⟨loc, .EBoolean false⟩
  | ⟨_, .EUnary op value _⟩ =>
    -- "!!!a" => "!a"
    if op = UnOpNot ∧ KnownPrimitiveType value = PrimitiveBoolean then some value else none
  | ⟨loc, .EBinary op left right⟩ =>
    if op = BinOpLooseEq then some ⟨loc, .EBinary BinOpLooseNe left right⟩
    else if op = BinOpLooseNe then some ⟨loc, .EBinary BinOpLooseEq left right⟩
    else if op = BinOpStrictEq then some ⟨loc, .EBinary BinOpStrictNe left right⟩
    else if op = BinOpStrictNe then some ⟨loc, .EBinary BinOpStrictEq left right⟩
    else if op = BinOpComma then
      -- "!(a, b)" => "a, !b"
      some ⟨loc, .EBinary op left
        (match MaybeSimplifyNot right with
         | some result => result
         | none => ⟨right.loc, .EUnary UnOpNot right false⟩)⟩
    else none
  | _ => none

/-- Go function `Not(expr)`. -/
def Not (expr : Expr) : Expr :=
  match MaybeSimplifyNot expr with
  | some result => result
  | none => ⟨expr.loc, .EUnary UnOpNot expr false⟩

/-- The first branch of `JoinWithLeftAssociativeOp`: while the left operand is
a comma expression, descend into its right operand (`comma.Right = ...;
return a`); `f` is what the function does on the first operand that is not a
comma expression. -/
def joinAtCommaTail (f : Expr → Expr) : Expr → Expr
  | ⟨loc, .EBinary op left right⟩ =>
    if op = BinOpComma then ⟨loc, .EBinary op left (joinAtCommaTail f right)⟩
    else f ⟨loc, .EBinary op left right⟩
  | a => f a

/-- Go function `JoinWithLeftAssociativeOp(op, a, b)`. The recursion on `a`
(first branch) is `joinAtCommaTail`; the recursion on `b` is structural. -/
def JoinWithLeftAssociativeOp (op : OpCode) (a b : Expr) : Expr :=
  match b with
  | ⟨bLoc, .EBinary bOp bLeft bRight⟩ =>
    joinAtCommaTail (fun a0 =>
      -- "a op (b op c)" => "(a op b) op c"
      if bOp = op then
        JoinWithLeftAssociativeOp op (JoinWithLeftAssociativeOp op a0 bLeft) bRight
      else ⟨a0.loc, .EBinary op a0 ⟨bLoc, .EBinary bOp bLeft bRight⟩⟩) a
  | b => joinAtCommaTail (fun a0 => ⟨a0.loc, .EBinary op a0 b⟩) a

/-- Go function `JoinWithComma(a, b)`. -/
def JoinWithComma (a b : Expr) : Expr :=
  if a.data.isNil then b
  else if b.data.isNil then a
  else ⟨a.loc, .EBinary BinOpComma a b⟩

/-- The zero value `Expr{}`: no location, no data. -/
def Expr.empty : Expr := ⟨⟨0⟩, .nil⟩

/-- Go function `IsPrimitiveWithSideEffects(data)`. -/
def IsPrimitiveWithSideEffects : E → Bool
  | .EInlinedEnum ⟨_, d⟩ _ => IsPrimitiveWithSideEffects d
  | .ENull | .EUndefined | .EBoolean _ | .ENumber _ | .EBigInt _ | .EString _ => true
  | .EUnary op _ _ =>
    decide (op ∈ [UnOpPos, UnOpNeg, UnOpCpl, UnOpPreDec, UnOpPreInc, UnOpPostDec, UnOpPostInc,
      UnOpNot, UnOpDelete, UnOpVoid, UnOpTypeof])
  | .EBinary op ⟨_, l⟩ ⟨_, r⟩ =>
    if op ∈ [BinOpLt, BinOpLe, BinOpGt, BinOpGe, BinOpIn, BinOpInstanceof,
        BinOpLooseEq, BinOpLooseNe, BinOpStrictEq, BinOpStrictNe,
        BinOpAdd, BinOpAddAssign,
        BinOpSub, BinOpMul, BinOpDiv, BinOpRem, BinOpPow,
        BinOpSubAssign, BinOpMulAssign, BinOpDivAssign, BinOpRemAssign, BinOpPowAssign,
        BinOpShl, BinOpShr, BinOpUShr, BinOpShlAssign, BinOpShrAssign, BinOpUShrAssign,
        BinOpBitwiseOr, BinOpBitwiseAnd, BinOpBitwiseXor,
        BinOpBitwiseOrAssign, BinOpBitwiseAndAssign, BinOpBitwiseXorAssign] then true
    else if op ∈ [BinOpLogicalAnd, BinOpLogicalOr, BinOpNullishCoalescing,
        BinOpLogicalAndAssign, BinOpLogicalOrAssign, BinOpNullishCoalescingAssign] then
      IsPrimitiveWithSideEffects l && IsPrimitiveWithSideEffects r
    else if op = BinOpComma then IsPrimitiveWithSideEffects r
    else false
  | .EIf _ ⟨_, yes⟩ ⟨_, no⟩ => IsPrimitiveWithSideEffects yes && IsPrimitiveWithSideEffects no
  | _ => false

/-- Go function `simplifyUnusedStringAdditionChain(expr)`. -/
def simplifyUnusedStringAdditionChain : Expr → Expr × Bool
  | ⟨loc, .EString _⟩ =>
    -- "'x' + y" => "'' + y"
    (⟨loc, .EString []⟩, true)
  | ⟨loc, .EBinary op left right⟩ =>
    if op = BinOpAdd then
      let result := simplifyUnusedStringAdditionChain left
      if right.data.isEString then
        if result.2 then
          -- "('' + x) + 'y'" => "'' + x"
          (result.1, true)
        else
          -- "x + 'y'" => "x + ''"
          (⟨loc, .EBinary op result.1 ⟨right.loc, .EString []⟩⟩, true)
      else (⟨loc, .EBinary op result.1 right⟩, result.2)
    else (⟨loc, .EBinary op left right⟩, false)
  | expr => (expr, false)

/-- Go function `isInt32OrUint32(data)`. -/
def isInt32OrUint32 : E → Bool
  | .EUnary op _ _ => decide (op = UnOpCpl)
  | .EBinary op ⟨_, l⟩ ⟨_, r⟩ =>
    if op ∈ [BinOpBitwiseAnd, BinOpBitwiseOr, BinOpBitwiseXor, BinOpShl, BinOpShr, BinOpUShr]
    then true
    else if op = BinOpLogicalOr ∨ op = BinOpLogicalAnd then
      isInt32OrUint32 l && isInt32OrUint32 r
    else false
  | .EIf _ ⟨_, yes⟩ ⟨_, no⟩ => isInt32OrUint32 yes && isInt32OrUint32 no
  | _ => false

/-- Go function `extractNumericValue(data)`; `none` is the result `0, false`. -/
def extractNumericValue : E → Option Float64
  | .EInlinedEnum ⟨_, d⟩ _ => extractNumericValue d
  | .ENumber value => some value
  | _ => none

/-- The tag attached to boolean and null-ness evaluation results. -/
inductive SideEffects where
  | CouldHaveSideEffects | NoSideEffects
  deriving DecidableEq, Repr, Inhabited

open SideEffects

/-- Go function `ToBooleanWithSideEffects(data)`, returning
`(boolean, SideEffects, ok)`. -/
def ToBooleanWithSideEffects : E → Bool × SideEffects × Bool
  | .EInlinedEnum ⟨_, d⟩ _ => ToBooleanWithSideEffects d
  | .ENull | .EUndefined => (false, NoSideEffects, true)
  | .EBoolean value => (value, NoSideEffects, true)
  | .ENumber value => (!value.isZero && !value.isNaN, NoSideEffects, true)
  | .EBigInt value => (decide (value ≠ "0"), NoSideEffects, true)
  | .EString value => (decide (value.length > 0), NoSideEffects, true)
  | .EFunction _ | .EArrow _ _ _ _ | .ERegExp _ => (true, NoSideEffects, true)
  | .EObject _ _ | .EArray _ _ | .EClass _ => (true, CouldHaveSideEffects, true)
  | .EUnary op ⟨_, value⟩ valueWasOriginallyIdentifier =>
    if op = UnOpVoid then (false, CouldHaveSideEffects, true)
    else if op = UnOpTypeof then
      -- Never an empty string
      if valueWasOriginallyIdentifier then (true, NoSideEffects, true)
      else (true, CouldHaveSideEffects, true)
    else if op = UnOpNot then
      let result := ToBooleanWithSideEffects value
      if result.2.2 then (!result.1, result.2.1, true)
      else (false, CouldHaveSideEffects, false)
    else (false, CouldHaveSideEffects, false)
  | .EBinary op _ ⟨_, right⟩ =>
    let result := ToBooleanWithSideEffects right
    if op = BinOpLogicalOr then
      -- "anything || truthy" is truthy
      if result.2.2 && result.1 then (true, CouldHaveSideEffects, true)
      else (false, CouldHaveSideEffects, false)
    else if op = BinOpLogicalAnd then
      -- "anything && falsy" is falsy
      if result.2.2 && !result.1 then (false, CouldHaveSideEffects, true)
      else (false, CouldHaveSideEffects, false)
    else if op = BinOpComma then
      -- "anything, truthy/falsy" is truthy/falsy
      if result.2.2 then (result.1, CouldHaveSideEffects, true)
      else (false, CouldHaveSideEffects, false)
    else (false, CouldHaveSideEffects, false)
  | _ => (false, CouldHaveSideEffects, false)

/-! ## Equality oracles and the optional-chain reconstructor -/

/-- Go `==` on two `float64` values: a NaN equals nothing, the two zeros are
equal, any other two values are equal when their bits are. -/
def Float64.eq (a b : Float64) : Bool :=
  !a.isNaN && !b.isNaN &&
    ((a.isZero && b.isZero) ||
      (decide (a.sign = b.sign) && decide (a.exponent % 2048 = b.exponent % 2048) &&
        decide (a.mantissa % 2 ^ 52 = b.mantissa % 2 ^ 52)))

/-- Modelled from the spec: `helpers.UTF16EqualsUTF16` is not among the
sources; it compares two UTF-16 strings code unit by code unit. -/
def UTF16EqualsUTF16 (a b : List Nat) : Bool :=
  decide (a = b)

/-- The `switch` of `CheckEqualityIfNoSideEffects`, reached once `right` is not
an inlined enum; the `EInlinedEnum` case of `left` comes back here because
`right` is unchanged. Returns `(equal, ok)`. -/
def checkEqualityLeft : E → E → Bool × Bool
  | .EInlinedEnum ⟨_, d⟩ _, right => checkEqualityLeft d right
  | .ENull, right =>
    match right with
    | .ENull => (true, true)
    | _ => (false, false)
  | .EUndefined, right =>
    match right with
    | .EUndefined => (true, true)
    | _ => (false, false)
  | .EBoolean l, right =>
    match right with
    | .EBoolean r => (decide (l = r), true)
    | _ => (false, false)
  | .ENumber l, right =>
    match right with
    | .ENumber r => (l.eq r, true)
    | _ => (false, false)
  | .EBigInt l, right =>
    match right with
    | .EBigInt r => (decide (l = r), true)
    | _ => (false, false)
  | .EString l, right =>
    match right with
    | .EString r => (UTF16EqualsUTF16 l r, true)
    | _ => (false, false)
  | _, _ => (false, false)

/-- Go function `CheckEqualityIfNoSideEffects(left, right)`, returning
`(equal, ok)`. -/
def CheckEqualityIfNoSideEffects (left : E) : E → Bool × Bool
  | .EInlinedEnum ⟨_, d⟩ _ => CheckEqualityIfNoSideEffects left d
  | right => checkEqualityLeft left right

/-- Removes the inlined-enum wrappers around node data, as the first `if` of
`ValuesLookTheSame` does for `right`. -/
def E.unwrapInlinedEnum : E → E
  | .EInlinedEnum ⟨_, d⟩ _ => E.unwrapInlinedEnum d
  | e => e

mutual

/-- The `switch` of `ValuesLookTheSame`, reached once `right` is not an inlined
enum. A recursive call `ValuesLookTheSame(x.Data, y.Data)` on operands is this
function on `x.Data` and on `y.Data` without its inlined-enum wrappers. The
flag comparison `HasSameFlagsAs` is modelled from the spec as equality of the
flag fields of the two nodes. -/
def valuesLookTheSameLeft : E → E → Bool
  | .EInlinedEnum ⟨_, d⟩ _, right => valuesLookTheSameLeft d right
  | .EIdentifier ref x y, right =>
    (match right with
     | .EIdentifier ref2 _ _ => decide (ref = ref2)
     | _ => false) ||
    (checkEqualityLeft (.EIdentifier ref x y) right).2 &&
      (checkEqualityLeft (.EIdentifier ref x y) right).1
  | .EDot ⟨aLoc, aTarget⟩ aName aChain aRemove aUnwrap, right =>
    (match right with
     | .EDot ⟨_, bTarget⟩ bName bChain bRemove bUnwrap =>
       (decide (aChain = bChain) && decide (aRemove = bRemove) && decide (aUnwrap = bUnwrap)) &&
         decide (aName = bName) && valuesLookTheSameLeft aTarget bTarget.unwrapInlinedEnum
     | _ => false) ||
    (checkEqualityLeft (.EDot ⟨aLoc, aTarget⟩ aName aChain aRemove aUnwrap) right).2 &&
      (checkEqualityLeft (.EDot ⟨aLoc, aTarget⟩ aName aChain aRemove aUnwrap) right).1
  | .EIndex ⟨aLoc, aTarget⟩ ⟨aLoc2, aIndex⟩ aChain aRemove aUnwrap, right =>
    (match right with
     | .EIndex ⟨_, bTarget⟩ ⟨_, bIndex⟩ bChain bRemove bUnwrap =>
       (decide (aChain = bChain) && decide (aRemove = bRemove) && decide (aUnwrap = bUnwrap)) &&
         valuesLookTheSameLeft aTarget bTarget.unwrapInlinedEnum &&
         valuesLookTheSameLeft aIndex bIndex.unwrapInlinedEnum
     | _ => false) ||
    (checkEqualityLeft (.EIndex ⟨aLoc, aTarget⟩ ⟨aLoc2, aIndex⟩ aChain aRemove aUnwrap) right).2 &&
      (checkEqualityLeft (.EIndex ⟨aLoc, aTarget⟩ ⟨aLoc2, aIndex⟩ aChain aRemove aUnwrap) right).1
  | .EIf ⟨l1, aTest⟩ ⟨l2, aYes⟩ ⟨l3, aNo⟩, right =>
    (match right with
     | .EIf ⟨_, bTest⟩ ⟨_, bYes⟩ ⟨_, bNo⟩ =>
       valuesLookTheSameLeft aTest bTest.unwrapInlinedEnum &&
         valuesLookTheSameLeft aYes bYes.unwrapInlinedEnum &&
         valuesLookTheSameLeft aNo bNo.unwrapInlinedEnum
     | _ => false) ||
    (checkEqualityLeft (.EIf ⟨l1, aTest⟩ ⟨l2, aYes⟩ ⟨l3, aNo⟩) right).2 &&
      (checkEqualityLeft (.EIf ⟨l1, aTest⟩ ⟨l2, aYes⟩ ⟨l3, aNo⟩) right).1
  | .EUnary aOp ⟨l1, aValue⟩ aFlag, right =>
    (match right with
     | .EUnary bOp ⟨_, bValue⟩ _ =>
       decide (aOp = bOp) && valuesLookTheSameLeft aValue bValue.unwrapInlinedEnum
     | _ => false) ||
    (checkEqualityLeft (.EUnary aOp ⟨l1, aValue⟩ aFlag) right).2 &&
      (checkEqualityLeft (.EUnary aOp ⟨l1, aValue⟩ aFlag) right).1
  | .EBinary aOp ⟨l1, aLeft⟩ ⟨l2, aRight⟩, right =>
    (match right with
     | .EBinary bOp ⟨_, bLeft⟩ ⟨_, bRight⟩ =>
       decide (aOp = bOp) && valuesLookTheSameLeft aLeft bLeft.unwrapInlinedEnum &&
         valuesLookTheSameLeft aRight bRight.unwrapInlinedEnum
     | _ => false) ||
    (checkEqualityLeft (.EBinary aOp ⟨l1, aLeft⟩ ⟨l2, aRight⟩) right).2 &&
      (checkEqualityLeft (.EBinary aOp ⟨l1, aLeft⟩ ⟨l2, aRight⟩) right).1
  | .ECall ⟨l1, aTarget⟩ aArgs aChain aUnwrap aKind, right =>
    match right with
    | .ECall ⟨_, bTarget⟩ bArgs bChain bUnwrap bKind =>
      if ((decide (aChain = bChain) && decide (aUnwrap = bUnwrap) && decide (aKind = bKind)) &&
          decide (aArgs.length = bArgs.length) &&
          valuesLookTheSameLeft aTarget bTarget.unwrapInlinedEnum) = true then
        valuesLookTheSameArgs aArgs bArgs
      else
        (checkEqualityLeft (.ECall ⟨l1, aTarget⟩ aArgs aChain aUnwrap aKind) right).2 &&
          (checkEqualityLeft (.ECall ⟨l1, aTarget⟩ aArgs aChain aUnwrap aKind) right).1
    | _ =>
      (checkEqualityLeft (.ECall ⟨l1, aTarget⟩ aArgs aChain aUnwrap aKind) right).2 &&
        (checkEqualityLeft (.ECall ⟨l1, aTarget⟩ aArgs aChain aUnwrap aKind) right).1
  | .ENumber a, right =>
    if (match right with
        | .ENumber b => a.isZero && b.isZero && decide (a.sign ≠ b.sign)
        | _ => false) = true then false
    else (checkEqualityLeft (.ENumber a) right).2 && (checkEqualityLeft (.ENumber a) right).1
  | left, right => (checkEqualityLeft left right).2 && (checkEqualityLeft left right).1

/-- The loop `for i := range a.Args` of the `ECall` case of `ValuesLookTheSame`,
over two argument lists of the same length. -/
def valuesLookTheSameArgs : List Expr → List Expr → Bool
  | ⟨_, a⟩ :: aRest, ⟨_, b⟩ :: bRest =>
    if valuesLookTheSameLeft a b.unwrapInlinedEnum then valuesLookTheSameArgs aRest bRest
    else false
  | _, _ => true

end

/-- Go function `ValuesLookTheSame(left, right)`. -/
def ValuesLookTheSame (left right : E) : Bool :=
  valuesLookTheSameLeft left right.unwrapInlinedEnum

open OptionalChain in
/-- Go function `TryToInsertOptionalChain(test, expr)`. The result is the
returned boolean and the expression `expr` as the call leaves it. -/
def TryToInsertOptionalChain (test : Expr) : Expr → Bool × Expr
  | ⟨loc, .EDot target name optionalChain remove unwrap⟩ =>
    if ValuesLookTheSame test.data target.data then
      (true, ⟨loc, .EDot target name OptionalChainStart remove unwrap⟩)
    else
      let inner := TryToInsertOptionalChain test target
      if inner.1 then
        (true, ⟨loc, .EDot inner.2 name
          (if optionalChain = OptionalChainNone then OptionalChainContinue else optionalChain)
          remove unwrap⟩)
      else (false, ⟨loc, .EDot inner.2 name optionalChain remove unwrap⟩)
  | ⟨loc, .EIndex target index optionalChain remove unwrap⟩ =>
    if ValuesLookTheSame test.data target.data then
      (true, ⟨loc, .EIndex target index OptionalChainStart remove unwrap⟩)
    else
      let inner := TryToInsertOptionalChain test target
      if inner.1 then
        (true, ⟨loc, .EIndex inner.2 index
          (if optionalChain = OptionalChainNone then OptionalChainContinue else optionalChain)
          remove unwrap⟩)
      else (false, ⟨loc, .EIndex inner.2 index optionalChain remove unwrap⟩)
  | ⟨loc, .ECall target args optionalChain unwrap kind⟩ =>
    if ValuesLookTheSame test.data target.data then
      (true, ⟨loc, .ECall target args OptionalChainStart unwrap kind⟩)
    else
      let inner := TryToInsertOptionalChain test target
      if inner.1 then
        (true, ⟨loc, .ECall inner.2 args
          (if optionalChain = OptionalChainNone then OptionalChainContinue else optionalChain)
          unwrap kind⟩)
      else (false, ⟨loc, .ECall inner.2 args optionalChain unwrap kind⟩)
  | expr => (false, expr)

/-! ## Boolean-context simplifier -/

/-- Go function `SimplifyBooleanExpr(expr)`. -/
def SimplifyBooleanExpr : Expr → Expr
  | ⟨loc, .EUnary op value flag⟩ =>
    if op = UnOpNot then
      -- "!!!a" => "!a"
      let simplified : Expr := ⟨loc, .EUnary op (SimplifyBooleanExpr value) flag⟩
      match value with
      | ⟨_, .EUnary op2 value2 _⟩ =>
        -- "!!a" => "a"
        if op2 = UnOpNot then SimplifyBooleanExpr value2 else simplified
      | _ => simplified
    else ⟨loc, .EUnary op value flag⟩
  | ⟨loc, .EBinary op left right⟩ =>
    if op = BinOpStrictEq ∨ op = BinOpStrictNe ∨ op = BinOpLooseEq ∨ op = BinOpLooseNe then
      if (match extractNumericValue right.data with
          | some value => value.isZero && isInt32OrUint32 left.data
          | none => false) = true then
        if op = BinOpStrictNe ∨ op = BinOpLooseNe then
          -- "if ((a | b) !== 0)" => "if (a | b)"
          left
        else
          -- "if ((a | b) === 0)" => "if (!(a | b))"
          Not left
      else ⟨loc, .EBinary op left right⟩
    else if op = BinOpLogicalAnd then
      -- "if (!!a && !!b)" => "if (a && b)"
      let left := SimplifyBooleanExpr left
      let right := SimplifyBooleanExpr right
      let result := ToBooleanWithSideEffects right.data
      if result.2.2 = true ∧ result.1 = true ∧ result.2.1 = NoSideEffects then
        -- "if (anything && truthyNoSideEffects)" => "if (anything)"
        left
      else ⟨loc, .EBinary op left right⟩
    else if op = BinOpLogicalOr then
      -- "if (!!a || !!b)" => "if (a || b)"
      let left := SimplifyBooleanExpr left
      let right := SimplifyBooleanExpr right
      let result := ToBooleanWithSideEffects right.data
      if result.2.2 = true ∧ result.1 = false ∧ result.2.1 = NoSideEffects then
        -- "if (anything || falsyNoSideEffects)" => "if (anything)"
        left
      else ⟨loc, .EBinary op left right⟩
    else ⟨loc, .EBinary op left right⟩
  | ⟨loc, .EIf test yes no⟩ =>
    -- "if (a ? !!b : !!c)" => "if (a ? b : c)"
    let yes := SimplifyBooleanExpr yes
    let no := SimplifyBooleanExpr no
    let yesResult := ToBooleanWithSideEffects yes.data
    let noResult := ToBooleanWithSideEffects no.data
    if yesResult.2.2 = true ∧ yesResult.2.1 = NoSideEffects then
      if yesResult.1 then
        -- "if (anything1 ? truthyNoSideEffects : anything2)" => "if (anything1 || anything2)"
        JoinWithLeftAssociativeOp BinOpLogicalOr test no
      else
        -- "if (anything1 ? falsyNoSideEffects : anything2)" => "if (!anything1 || anything2)"
        JoinWithLeftAssociativeOp BinOpLogicalAnd (Not test) no
    else if noResult.2.2 = true ∧ noResult.2.1 = NoSideEffects then
      if noResult.1 then
        -- "if (anything1 ? anything2 : truthyNoSideEffects)" => "if (!anything1 || anything2)"
        JoinWithLeftAssociativeOp BinOpLogicalOr (Not test) yes
      else
        -- "if (anything1 ? anything2 : falsyNoSideEffects)" => "if (anything1 && anything2)"
        JoinWithLeftAssociativeOp BinOpLogicalAnd test yes
    else ⟨loc, .EIf test yes no⟩
  | expr => expr

/-! ## Unused-value reducer

`SimplifyUnusedExpr` calls itself on direct operands, and in one place on an
operand that `SimplifyBooleanExpr` has rewritten first (`e.Left`, when the right
operand of `&&` / `||` / `??` reduces to nothing). `SimplifyUnusedExprWith` is
the body of the function with that one call abstracted as `again`;
`SimplifyUnusedExprFuel` ties the knot with a bound on the number of nested
such calls, and `SimplifyUnusedExpr` supplies a bound that is always enough:
the number of nodes of the expression (`SimplifyUnusedExpr_unfold`). -/

/-- The type assertion `x.Data.(*ESpread)` succeeds. -/
def E.isESpread : E → Bool
  | .ESpread _ => true
  | _ => false

/-- The type assertion `x.Data.(*ENull)` succeeds. -/
def E.isENull : E → Bool
  | .ENull => true
  | _ => false

/-- Field `Kind` of a property. -/
def Property.kind : Property → PropertyKind
  | .mk kind _ _ _ _ _ => kind

/-- The untagged template that the `ETemplate` case builds from the parts
collected so far. -/
def pendingTemplate (templateLoc : Loc) (collected : List TemplatePart) : Expr :=
  ⟨templateLoc, .ETemplate Expr.empty [] collected⟩

/-- The end of the logical-operator case of `SimplifyUnusedExpr` (`Try to take
advantage of the optional chain operator to shorten code`), once the left
operand has been put in boolean context (`left`) and the right operand has been
reduced to `right`, which is not empty: the optional-chain rewrite, or the
updated `left op right`. -/
def logicalWithOptionalChain (loc : Loc) (op : OpCode) (left right : Expr)
    (unsupportedFeatures : JSFeature) : Expr :=
  if !unsupportedFeatures.hasOptionalChain then
    match left with
    | ⟨_, .EBinary binaryOp binaryLeft binaryRight⟩ =>
      -- "a != null && a.b()" => "a?.b()"
      -- "a == null || a.b()" => "a?.b()"
      if (binaryOp = BinOpLooseNe ∧ op = BinOpLogicalAnd) ∨
          (binaryOp = BinOpLooseEq ∧ op = BinOpLogicalOr) then
        let test :=
          if binaryRight.data.isENull then binaryLeft
          else if binaryLeft.data.isENull then binaryRight
          else Expr.empty
        match test with
        | ⟨_, .EIdentifier _ mustKeepDueToWithStmt _⟩ =>
          if !mustKeepDueToWithStmt then
            let inserted := TryToInsertOptionalChain test right
            if inserted.1 then inserted.2 else ⟨loc, .EBinary op left inserted.2⟩
          else ⟨loc, .EBinary op left right⟩
        | _ => ⟨loc, .EBinary op left right⟩
      else ⟨loc, .EBinary op left right⟩
    | _ => ⟨loc, .EBinary op left right⟩
  else ⟨loc, .EBinary op left right⟩

mutual

/-- Body of Go function `SimplifyUnusedExpr(expr, unsupportedFeatures,
isUnbound)`; `again` stands for the function itself where it is applied to the
rewritten left operand of a logical operator. The result `Expr{}` is
`Expr.empty`. -/
def SimplifyUnusedExprWith (again : Expr → Expr) (expr : Expr)
    (unsupportedFeatures : JSFeature) (isUnbound : Ref → Bool) : Expr :=
  match expr with
  | ⟨_, .EInlinedEnum value _⟩ =>
    SimplifyUnusedExprWith again value unsupportedFeatures isUnbound
  | ⟨_, .ENull⟩ | ⟨_, .EUndefined⟩ | ⟨_, .EMissing⟩ | ⟨_, .EBoolean _⟩ | ⟨_, .ENumber _⟩
  | ⟨_, .EBigInt _⟩ | ⟨_, .EString _⟩ | ⟨_, .EThis⟩ | ⟨_, .ERegExp _⟩ | ⟨_, .EFunction _⟩
  | ⟨_, .EArrow _ _ _ _⟩ | ⟨_, .EImportMeta⟩ => Expr.empty
  | ⟨loc, .EDot target name optionalChain canBeRemovedIfUnused unwrap⟩ =>
    if canBeRemovedIfUnused then Expr.empty
    else ⟨loc, .EDot target name optionalChain canBeRemovedIfUnused unwrap⟩
  | ⟨loc, .EIdentifier ref mustKeepDueToWithStmt canBeRemovedIfUnused⟩ =>
    if mustKeepDueToWithStmt then ⟨loc, .EIdentifier ref mustKeepDueToWithStmt canBeRemovedIfUnused⟩
    else if canBeRemovedIfUnused || !isUnbound ref then Expr.empty
    else ⟨loc, .EIdentifier ref mustKeepDueToWithStmt canBeRemovedIfUnused⟩
  | ⟨loc, .ETemplate tagOrNil headCooked parts⟩ =>
    if tagOrNil.data.isNil then
      simplifyUnusedTemplateParts again parts Expr.empty ⟨0⟩ none unsupportedFeatures isUnbound
    else ⟨loc, .ETemplate tagOrNil headCooked parts⟩
  | ⟨loc, .EArray items isSingleLine⟩ =>
    -- Arrays with "..." spread expressions can't be unwrapped
    if items.any (fun item => item.data.isESpread) then
      ⟨loc, .EArray (simplifyUnusedKeepNonEmpty again items unsupportedFeatures isUnbound)
        isSingleLine⟩
    else simplifyUnusedAndJoin again items Expr.empty unsupportedFeatures isUnbound
  | ⟨loc, .EObject properties isSingleLine⟩ =>
    -- Objects with "..." spread expressions can't be unwrapped
    if properties.any (fun property => decide (property.kind = PropertyKind.PropertySpread)) then
      ⟨loc, .EObject
        (simplifyUnusedObjectWithSpread again properties unsupportedFeatures isUnbound)
        isSingleLine⟩
    else simplifyUnusedPropertiesAndJoin again properties Expr.empty unsupportedFeatures isUnbound
  | ⟨loc, .EIf test yes no⟩ =>
    let yes := SimplifyUnusedExprWith again yes unsupportedFeatures isUnbound
    let no := SimplifyUnusedExprWith again no unsupportedFeatures isUnbound
    -- "foo() ? 1 : 2" => "foo()"
    if yes.data.isNil && no.data.isNil then
      SimplifyUnusedExprWith again test unsupportedFeatures isUnbound
    -- "foo() ? 1 : bar()" => "foo() || bar()"
    else if yes.data.isNil then JoinWithLeftAssociativeOp BinOpLogicalOr test no
    -- "foo() ? bar() : 2" => "foo() && bar()"
    else if no.data.isNil then JoinWithLeftAssociativeOp BinOpLogicalAnd test yes
    else ⟨loc, .EIf test yes no⟩
  | ⟨loc, .EUnary op value valueWasOriginallyIdentifier⟩ =>
    if op = UnOpVoid ∨ op = UnOpNot then
      SimplifyUnusedExprWith again value unsupportedFeatures isUnbound
    else if op = UnOpTypeof then
      if value.data.isEIdentifier && valueWasOriginallyIdentifier then Expr.empty
      else SimplifyUnusedExprWith again value unsupportedFeatures isUnbound
    else ⟨loc, .EUnary op value valueWasOriginallyIdentifier⟩
  | ⟨loc, .EBinary op left right⟩ =>
    if op = BinOpStrictEq ∨ op = BinOpStrictNe ∨ op = BinOpComma then
      JoinWithComma (SimplifyUnusedExprWith again left unsupportedFeatures isUnbound)
        (SimplifyUnusedExprWith again right unsupportedFeatures isUnbound)
    else if op = BinOpLooseEq ∨ op = BinOpLooseNe then
      if IsPrimitiveWithSideEffects left.data && IsPrimitiveWithSideEffects right.data then
        JoinWithComma (SimplifyUnusedExprWith again left unsupportedFeatures isUnbound)
          (SimplifyUnusedExprWith again right unsupportedFeatures isUnbound)
      else ⟨loc, .EBinary op left right⟩
    else if op = BinOpLogicalAnd ∨ op = BinOpLogicalOr ∨ op = BinOpNullishCoalescing then
      -- the left operand will only be used for its boolean value
      let left := if op ≠ BinOpNullishCoalescing then SimplifyBooleanExpr left else left
      -- Preserve short-circuit behavior
      let right := SimplifyUnusedExprWith again right unsupportedFeatures isUnbound
      if right.data.isNil then again left
      -- Try to take advantage of the optional chain operator to shorten code
      else logicalWithOptionalChain loc op left right unsupportedFeatures
    else if op = BinOpAdd then
      let result := simplifyUnusedStringAdditionChain ⟨loc, .EBinary op left right⟩
      if result.2 then result.1
      -- `return expr`: the node that the call above has updated in place and returned
      else result.1
    else ⟨loc, .EBinary op left right⟩
  | ⟨loc, .ECall target args optionalChain canBeUnwrappedIfUnused kind⟩ =>
    -- A call that has been marked "__PURE__" can be removed if all arguments can be removed
    if canBeUnwrappedIfUnused then
      simplifyUnusedArgsAndJoin again args Expr.empty unsupportedFeatures isUnbound
    -- Attempt to shorten IIFEs
    else if args.length = 0 then
      match target with
      | ⟨_, .EFunction ⟨fnArgs, fnBody, _, _⟩⟩ =>
        if fnArgs.length ≠ 0 then
          ⟨loc, .ECall target args optionalChain canBeUnwrappedIfUnused kind⟩
        -- Just delete "(function() {})()" completely
        else if fnBody.length = 0 then Expr.empty
        else ⟨loc, .ECall target args optionalChain canBeUnwrappedIfUnused kind⟩
      | ⟨targetLoc, .EArrow arrowArgs arrowBody isAsync _⟩ =>
        if arrowArgs.length ≠ 0 then
          ⟨loc, .ECall target args optionalChain canBeUnwrappedIfUnused kind⟩
        -- Just delete "(() => {})()" completely
        else if arrowBody.length = 0 then Expr.empty
        else
          match arrowBody with
          | [⟨stmtLoc, .SExpr value _⟩] =>
            if !isAsync then
              -- Replace "(() => { foo() })()" with "foo()"
              value
            else
              -- Replace "(async () => { foo() })()" with "(async () => foo())()"
              ⟨loc, .ECall ⟨targetLoc, .EArrow arrowArgs [⟨stmtLoc, .SReturn value⟩] isAsync true⟩
                args optionalChain canBeUnwrappedIfUnused kind⟩
          | [⟨_, .SReturn valueOrNil⟩] =>
            if !isAsync then
              -- Replace "(() => foo())()" with "foo()"
              valueOrNil
            else ⟨loc, .ECall target args optionalChain canBeUnwrappedIfUnused kind⟩
          | _ => ⟨loc, .ECall target args optionalChain canBeUnwrappedIfUnused kind⟩
      | _ => ⟨loc, .ECall target args optionalChain canBeUnwrappedIfUnused kind⟩
    else ⟨loc, .ECall target args optionalChain canBeUnwrappedIfUnused kind⟩
  | ⟨loc, .ENew target args canBeUnwrappedIfUnused⟩ =>
    if canBeUnwrappedIfUnused then
      simplifyUnusedArgsAndJoin again args Expr.empty unsupportedFeatures isUnbound
    else ⟨loc, .ENew target args canBeUnwrappedIfUnused⟩
  | expr => expr
termination_by structural expr

/-- The loop over `e.Parts` of the untagged `ETemplate` case. The state is
`comma`, `templateLoc` and `template` (`none` for a nil pointer, else the parts
appended so far). -/
def simplifyUnusedTemplateParts (again : Expr → Expr) (parts : List TemplatePart)
    (comma : Expr) (templateLoc : Loc) (template : Option (List TemplatePart))
    (unsupportedFeatures : JSFeature) (isUnbound : Ref → Bool) : Expr :=
  match parts with
  | [] =>
    match template with
    | some collected => JoinWithComma comma (pendingTemplate templateLoc collected)
    | none => comma
  | ⟨value, _⟩ :: rest =>
    -- If we know this value is some kind of primitive, then "ToString" has no side effects
    if KnownPrimitiveType value ≠ PrimitiveUnknown then
      let comma :=
        match template with
        | some collected => JoinWithComma comma (pendingTemplate templateLoc collected)
        | none => comma
      simplifyUnusedTemplateParts again rest
        (JoinWithComma comma (SimplifyUnusedExprWith again value unsupportedFeatures isUnbound))
        templateLoc none unsupportedFeatures isUnbound
    else
      -- Make sure "ToString" is still evaluated on the value
      match template with
      | none =>
        simplifyUnusedTemplateParts again rest comma value.loc (some [⟨value, []⟩])
          unsupportedFeatures isUnbound
      | some collected =>
        simplifyUnusedTemplateParts again rest comma templateLoc
          (some (collected ++ [⟨value, []⟩])) unsupportedFeatures isUnbound
termination_by structural parts

/-- The inner loop of the `EArray` case with a spread: every item is reduced
and kept unless it reduces to nothing. -/
def simplifyUnusedKeepNonEmpty (again : Expr → Expr) (items : List Expr)
    (unsupportedFeatures : JSFeature) (isUnbound : Ref → Bool) : List Expr :=
  match items with
  | [] => []
  | item :: rest =>
    let item := SimplifyUnusedExprWith again item unsupportedFeatures isUnbound
    if item.data.isNil then simplifyUnusedKeepNonEmpty again rest unsupportedFeatures isUnbound
    else item :: simplifyUnusedKeepNonEmpty again rest unsupportedFeatures isUnbound
termination_by structural items

/-- The loop of the `EArray` case without a spread: the comma-join of the
reductions of the items, starting from `result`. -/
def simplifyUnusedAndJoin (again : Expr → Expr) (items : List Expr) (result : Expr)
    (unsupportedFeatures : JSFeature) (isUnbound : Ref → Bool) : Expr :=
  match items with
  | [] => result
  | item :: rest =>
    simplifyUnusedAndJoin again rest
      (JoinWithComma result (SimplifyUnusedExprWith again item unsupportedFeatures isUnbound))
      unsupportedFeatures isUnbound
termination_by structural items

/-- The inner loop of the `EObject` case with a spread. -/
def simplifyUnusedObjectWithSpread (again : Expr → Expr) (properties : List Property)
    (unsupportedFeatures : JSFeature) (isUnbound : Ref → Bool) : List Property :=
  match properties with
  | [] => []
  | ⟨kind, flags, key, valueOrNil, initializerOrNil, classStaticBlock⟩ :: rest =>
    -- Spread properties must always be evaluated
    if kind ≠ PropertyKind.PropertySpread then
      let value := SimplifyUnusedExprWith again valueOrNil unsupportedFeatures isUnbound
      if !value.data.isNil then
        -- Keep the value
        ⟨kind, flags, key, value, initializerOrNil, classStaticBlock⟩ ::
          simplifyUnusedObjectWithSpread again rest unsupportedFeatures isUnbound
      else if !flags.isComputed then
        -- Skip this property if the key doesn't need to be computed
        simplifyUnusedObjectWithSpread again rest unsupportedFeatures isUnbound
      else
        -- Replace values without side effects with "0" because it's short
        ⟨kind, flags, key, ⟨valueOrNil.loc, .ENumber ⟨false, 0, 0⟩⟩, initializerOrNil,
            classStaticBlock⟩ ::
          simplifyUnusedObjectWithSpread again rest unsupportedFeatures isUnbound
    else
      ⟨kind, flags, key, valueOrNil, initializerOrNil, classStaticBlock⟩ ::
        simplifyUnusedObjectWithSpread again rest unsupportedFeatures isUnbound
termination_by structural properties

/-- The loop of the `EObject` case without a spread. -/
def simplifyUnusedPropertiesAndJoin (again : Expr → Expr) (properties : List Property)
    (result : Expr) (unsupportedFeatures : JSFeature) (isUnbound : Ref → Bool) : Expr :=
  match properties with
  | [] => result
  | ⟨_, flags, key, valueOrNil, _, _⟩ :: rest =>
    let result :=
      if flags.isComputed then
        -- Make sure "ToString" is still evaluated on the key
        JoinWithComma result ⟨key.loc, .EBinary BinOpAdd key ⟨key.loc, .EString []⟩⟩
      else result
    simplifyUnusedPropertiesAndJoin again rest
      (JoinWithComma result
        (SimplifyUnusedExprWith again valueOrNil unsupportedFeatures isUnbound))
      unsupportedFeatures isUnbound
termination_by structural properties

/-- The loop over `e.Args` of the pure `ECall` and `ENew` cases. A spread
argument is first wrapped in a one-item array; the reduction of that array
is its `EArray` case with a spread, written out here. -/
def simplifyUnusedArgsAndJoin (again : Expr → Expr) (args : List Expr) (result : Expr)
    (unsupportedFeatures : JSFeature) (isUnbound : Ref → Bool) : Expr :=
  match args with
  | [] => result
  | arg :: rest =>
    let reduced := SimplifyUnusedExprWith again arg unsupportedFeatures isUnbound
    let value :=
      if arg.data.isESpread then
        ⟨arg.loc, .EArray (if reduced.data.isNil then [] else [reduced]) true⟩
      else reduced
    simplifyUnusedArgsAndJoin again rest (JoinWithComma result value)
      unsupportedFeatures isUnbound
termination_by structural args

end

mutual

/-- Number of expression nodes on the paths that `SimplifyUnusedExpr` and
`SimplifyBooleanExpr` walk. -/
def Expr.size : Expr → Nat
  | ⟨_, .EInlinedEnum value _⟩ => value.size + 1
  | ⟨_, .EIf test yes no⟩ => test.size + yes.size + no.size + 1
  | ⟨_, .EUnary _ value _⟩ => value.size + 1
  | ⟨_, .EBinary _ left right⟩ => left.size + right.size + 1
  | ⟨_, .EArray items _⟩ => Expr.sizeList items + 1
  | ⟨_, .EObject properties _⟩ => Expr.sizeProperties properties + 1
  | ⟨_, .ECall _ args _ _ _⟩ => Expr.sizeList args + 1
  | ⟨_, .ENew _ args _⟩ => Expr.sizeList args + 1
  | ⟨_, .ETemplate _ _ parts⟩ => Expr.sizeParts parts + 1
  | _ => 1

/-- Size of a list of expressions. -/
def Expr.sizeList : List Expr → Nat
  | [] => 0
  | item :: rest => item.size + Expr.sizeList rest

/-- Size of the values of a list of properties. -/
def Expr.sizeProperties : List Property → Nat
  | [] => 0
  | ⟨_, _, _, valueOrNil, _, _⟩ :: rest => valueOrNil.size + Expr.sizeProperties rest

/-- Size of the values of a list of template parts. -/
def Expr.sizeParts : List TemplatePart → Nat
  | [] => 0
  | ⟨value, _⟩ :: rest => value.size + Expr.sizeParts rest

end

/-- The reducer with a bound `fuel` on the nesting of its calls on rewritten
operands; with no fuel left the expression is handed back as it is. -/
def SimplifyUnusedExprFuel (fuel : Nat) (expr : Expr) (unsupportedFeatures : JSFeature)
    (isUnbound : Ref → Bool) : Expr :=
  match fuel with
  | 0 => expr
  | fuel + 1 =>
    SimplifyUnusedExprWith
      (fun operand => SimplifyUnusedExprFuel fuel operand unsupportedFeatures isUnbound)
      expr unsupportedFeatures isUnbound

/-- Go function `SimplifyUnusedExpr(expr, unsupportedFeatures, isUnbound)`. -/
def SimplifyUnusedExpr (expr : Expr) (unsupportedFeatures : JSFeature)
    (isUnbound : Ref → Bool) : Expr :=
  SimplifyUnusedExprFuel expr.size expr unsupportedFeatures isUnbound

/-! ## Expression and statement shapes named by the properties -/

/-- Field `Data` of a statement. -/
def Stmt.data : Stmt → S
  | .mk _ d => d

/-- The statement kinds that have a `case` of their own in the `switch` of
`StmtsCanBeRemovedIfUnused`; every other kind takes the `default:` arm. -/
def S.hasCase : S → Bool
  | .SFunction _ _ | .SEmpty | .SImport _ _ | .SClass _ _ | .SExpr _ _ | .SLocal _ _ _
  | .STry _ _ _ | .SExportFrom _ _ | .SExportClause | .SExportDefault _ _ => true
  | _ => false

/-- The expression `typeof x` whose operand is the identifier `ref`, with
`ValueWasOriginallyIdentifier` set. -/
def typeofIdentifier (loc idLoc : Loc) (ref : Ref) (mustKeep canBeRemoved : Bool) : Expr :=
  ⟨loc, .EUnary UnOpTypeof ⟨idLoc, .EIdentifier ref mustKeep canBeRemoved⟩ true⟩

/-- A string literal. -/
def stringLiteral (loc : Loc) (text : List Nat) : Expr :=
  ⟨loc, .EString text⟩

/-- An oracle that reports every reference as unbound. -/
def allUnbound : Ref → Bool := fun _ => true

/-- An oracle that reports every reference as bound. -/
def allBound : Ref → Bool := fun _ => false

/-- Sample reference `x`. -/
def refX : Ref := ⟨0, 1⟩

/-- Sample location. -/
def loc0 : Loc := ⟨0⟩

/-- Sample: the unbound identifier `x`, flagged `MustKeepDueToWithStmt` or not. -/
def identX (mustKeep : Bool) : Expr := ⟨loc0, .EIdentifier refX mustKeep false⟩

/-- Sample: `typeof x`. -/
def typeofX : Expr := typeofIdentifier loc0 loc0 refX false false

/-- Sample: the literal `"undefined"`. -/
def undefinedLiteral : Expr := stringLiteral loc0 strUndefined

/-- Sample: the literal `null`. -/
def nullLiteral : Expr := ⟨loc0, .ENull⟩

/-- Sample: the number literal `1`. -/
def oneLiteral : Expr := ⟨loc0, .ENumber ⟨false, 1023, 0⟩⟩

/-- Sample: a call `x()` that is not annotated pure. -/
def impureCall : Expr :=
  ⟨loc0, .ECall (identX false) [] OptionalChain.OptionalChainNone false CallKind.NormalCall⟩

/-- Sample: `typeof x` where the operand is flagged `MustKeepDueToWithStmt`. -/
def typeofKeptX : Expr := typeofIdentifier loc0 loc0 refX true false

/-- Sample: the guard `typeof x !== "undefined"` inside a `with` scope. -/
def guardNotUndefined : Expr := ⟨loc0, .EBinary BinOpStrictNe typeofKeptX undefinedLiteral⟩

/-- Sample: the guard `typeof x === "undefined"` inside a `with` scope. -/
def guardIsUndefined : Expr := ⟨loc0, .EBinary BinOpStrictEq typeofKeptX undefinedLiteral⟩

/-- Sample: the statement `export * from "..."`. -/
def exportFromStmt : Stmt := ⟨loc0, .SExportFrom refX 0⟩

/-- Sample: the statement `return`. -/
def returnStmt : Stmt := ⟨loc0, .SReturn ⟨loc0, .nil⟩⟩

/-- Sample: an `export default` that wraps an empty statement, which no parser
produces. -/
def malformedExportDefault : Stmt := ⟨loc0, .SExportDefault refX ⟨loc0, .SEmpty⟩⟩

/-- Sample: the expression statement `x();`. -/
def impureCallStmt : Stmt := ⟨loc0, .SExpr impureCall false⟩

/-- Sample: the statement `try { 1 } finally { }`. -/
def tryStmt : Stmt := ⟨loc0, .STry [⟨loc0, .SExpr oneLiteral false⟩] none (some [])⟩

/-- Sample: the statement `export default 1`. -/
def exportDefaultStmt : Stmt := ⟨loc0, .SExportDefault refX ⟨loc0, .SExpr oneLiteral false⟩⟩

/-! ## Shapes and samples for the simplifier properties -/

/-- Sample: the bound identifier `a`. -/
def refA : Ref := ⟨0, 2⟩

/-- Sample: the identifier `a`, not flagged in any way. -/
def identA : Expr := ⟨loc0, .EIdentifier refA false false⟩

/-- Sample: the instance property `p = x()` of a class (not static, not
computed), whose value is not removable. -/
def instanceProperty (value : Expr) : Property :=
  ⟨PropertyKind.PropertyNormal, ⟨false, false⟩, identA, value, ⟨loc0, .nil⟩, []⟩

/-- Sample: the number literal `2`. -/
def twoLiteral : Expr := ⟨loc0, .ENumber ⟨false, 1024, 0⟩⟩

/-- Sample: a target that supports optional chaining (the feature is not among
the unsupported ones). -/
def chainSupported : JSFeature := ⟨false⟩

/-- Sample: a target without optional chaining. -/
def chainUnsupported : JSFeature := ⟨true⟩

/-- The left operand of a logical operator as `SimplifyUnusedExpr` keeps it:
in boolean context for `&&` and `||`, as it is for `??`. -/
def logicalLeft (op : OpCode) (left : Expr) : Expr :=
  if op ≠ BinOpNullishCoalescing then SimplifyBooleanExpr left else left

/-- The comparisons that the optional-chain rewrite looks for on the left of
`op`: `x != null` or `null != x` under `&&`, `x == null` or `null == x` under
`||`. -/
def isNullComparisonFor (op : OpCode) (left : Expr) : Bool :=
  match left with
  | ⟨_, .EBinary binaryOp binaryLeft binaryRight⟩ =>
    (decide (binaryOp = BinOpLooseNe ∧ op = BinOpLogicalAnd) ||
      decide (binaryOp = BinOpLooseEq ∧ op = BinOpLogicalOr)) &&
    (binaryRight.data.isENull || binaryLeft.data.isENull)
  | _ => false

/-- The reduction of a call that is not marked pure, in the words of the
property: an immediately-invoked function or arrow without parameters and
without arguments disappears when its body is empty; a non-async arrow whose
body is one expression statement or one `return` is replaced by that
expression; an async arrow whose body is one expression statement is kept, the
statement becoming a `return` and `PreferExpr` being set; any other call is
left as it is. -/
def shortenIIFE (loc : Loc) (target : Expr) (args : List Expr) (optionalChain : OptionalChain)
    (kind : CallKind) : Expr :=
  match args, target with
  | [], ⟨_, .EFunction ⟨[], [], _, _⟩⟩ => Expr.empty
  | [], ⟨_, .EArrow [] [] _ _⟩ => Expr.empty
  | [], ⟨_, .EArrow [] [⟨_, .SExpr e _⟩] false _⟩ => e
  | [], ⟨_, .EArrow [] [⟨_, .SReturn e⟩] false _⟩ => e
  | [], ⟨targetLoc, .EArrow [] [⟨stmtLoc, .SExpr e _⟩] true _⟩ =>
    ⟨loc, .ECall ⟨targetLoc, .EArrow [] [⟨stmtLoc, .SReturn e⟩] true true⟩ [] optionalChain
      false kind⟩
  | _, _ => ⟨loc, .ECall target args optionalChain false kind⟩

/-- Sample: the call `foo()`, not marked pure. -/
def fooCall : Expr :=
  ⟨loc0, .ECall ⟨loc0, .EIdentifier refX false false⟩ [] OptionalChain.OptionalChainNone false
    CallKind.NormalCall⟩

/-- Sample: the immediately-invoked arrow `(() => { foo() })()`. -/
def iifeOfFoo : Expr :=
  ⟨loc0, .ECall ⟨loc0, .EArrow [] [⟨loc0, .SExpr fooCall false⟩] false false⟩ []
    OptionalChain.OptionalChainNone false CallKind.NormalCall⟩

/-- Sample: the literal `true`. -/
def trueLiteral : Expr := ⟨loc0, .EBoolean true⟩

/-- Sample: the literal `false`. -/
def falseLiteral : Expr := ⟨loc0, .EBoolean false⟩

/-- Sample: `a || true`. -/
def aOrTrue : Expr := ⟨loc0, .EBinary BinOpLogicalOr identA trueLiteral⟩

/-- Sample: `a && false`. -/
def aAndFalse : Expr := ⟨loc0, .EBinary BinOpLogicalAnd identA falseLiteral⟩

/-- The operands of a chain of `+`, read off its left spine from left to right:
the leftmost leaf first, then the right operand of every `+` node on the way
up. An expression that is not a `+` is its own single operand. -/
def spineOperands : Expr → List Expr
  | ⟨loc, .EBinary op left right⟩ =>
    if op = BinOpAdd then spineOperands left ++ [right] else [⟨loc, .EBinary op left right⟩]
  | e => [e]

/-- The operands of the spine that are not string literals. -/
def otherOperands (e : Expr) : List Expr :=
  (spineOperands e).filter (fun x => !x.data.isEString)

/-- Sample: the string literal `'x'`. -/
def xLiteral : Expr := stringLiteral loc0 [120]

/-- Sample: the string literal `'z'`. -/
def zLiteral : Expr := stringLiteral loc0 [122]

/-- Sample: the empty string literal. -/
def emptyLiteral : Expr := stringLiteral loc0 []

/-- Sample: the sum of two expressions. -/
def plus (left right : Expr) : Expr := ⟨loc0, .EBinary BinOpAdd left right⟩

open OptionalChain in
/-- The target chain of `e` (the `Dot` / `Index` / `Call` nodes reached from
`e` by going to the target) contains a node whose target looks the same as
`a`. -/
def hasGuardedTarget (a : Expr) : Expr → Bool
  | ⟨_, .EDot target _ _ _ _⟩ =>
    ValuesLookTheSame a.data target.data || hasGuardedTarget a target
  | ⟨_, .EIndex target _ _ _ _⟩ =>
    ValuesLookTheSame a.data target.data || hasGuardedTarget a target
  | ⟨_, .ECall target _ _ _ _⟩ =>
    ValuesLookTheSame a.data target.data || hasGuardedTarget a target
  | _ => false

/-- Length of the target chain of an expression: the number of `Dot` / `Index`
/ `Call` nodes reached by going to the target. -/
def chainDepth : Expr → Nat
  | ⟨_, .EDot target _ _ _ _⟩ => chainDepth target + 1
  | ⟨_, .EIndex target _ _ _ _⟩ => chainDepth target + 1
  | ⟨_, .ECall target _ _ _ _⟩ => chainDepth target + 1
  | _ => 0

open OptionalChain in
/-- The chain state of a node that encloses the start of an optional chain: a
node without chain state continues the chain, a node that has one keeps it. -/
def continueChain (optionalChain : OptionalChain) : OptionalChain :=
  if optionalChain = OptionalChainNone then OptionalChainContinue else optionalChain

open OptionalChain in
/-- The expression `e` with the optional chain on `a` marked: the node of the
target chain whose target looks the same as `a` becomes `OptionalChainStart`,
the chain nodes that enclose it get `continueChain` of their state, and
nothing else changes. -/
def markOptionalChain (a : Expr) : Expr → Expr
  | ⟨loc, .EDot target name optionalChain remove unwrap⟩ =>
    if ValuesLookTheSame a.data target.data then
      ⟨loc, .EDot target name OptionalChainStart remove unwrap⟩
    else ⟨loc, .EDot (markOptionalChain a target) name (continueChain optionalChain) remove unwrap⟩
  | ⟨loc, .EIndex target index optionalChain remove unwrap⟩ =>
    if ValuesLookTheSame a.data target.data then
      ⟨loc, .EIndex target index OptionalChainStart remove unwrap⟩
    else
      ⟨loc, .EIndex (markOptionalChain a target) index (continueChain optionalChain) remove
        unwrap⟩
  | ⟨loc, .ECall target args optionalChain unwrap kind⟩ =>
    if ValuesLookTheSame a.data target.data then
      ⟨loc, .ECall target args OptionalChainStart unwrap kind⟩
    else
      ⟨loc, .ECall (markOptionalChain a target) args (continueChain optionalChain) unwrap kind⟩
  | e => e

/-- The node is an identifier that is not flagged `MustKeepDueToWithStmt`. -/
def E.isUnflaggedIdentifier : E → Bool
  | .EIdentifier _ mustKeepDueToWithStmt _ => !mustKeepDueToWithStmt
  | _ => false

/-- The comparison `left op right` at location `loc`. -/
def compare (loc : Loc) (op : OpCode) (left right : Expr) : Expr :=
  ⟨loc, .EBinary op left right⟩

/-- Sample: the property access `a.b` with the given chain state. -/
def aDotB (optionalChain : OptionalChain) : Expr :=
  ⟨loc0, .EDot identA "b" optionalChain false false⟩

/-- Sample: the property access `(a.b).c` with the given chain states. -/
def aDotBDotC (inner outer : OptionalChain) : Expr :=
  ⟨loc0, .EDot (aDotB inner) "c" outer false false⟩

/-- Sample: the call `(a.b.c)()` with the given chain states, not marked
pure. -/
def aDotBDotCCall (inner middle outer : OptionalChain) : Expr :=
  ⟨loc0, .ECall (aDotBDotC inner middle) [] outer false CallKind.NormalCall⟩

/-- Sample: `a != null`. -/
def aNotNull : Expr := compare loc0 BinOpLooseNe identA nullLiteral

/-- Sample: the identifier `a` flagged `MustKeepDueToWithStmt`. -/
def flaggedA : Expr := ⟨loc0, .EIdentifier refA true false⟩

/-- Go function `JoinAllWithComma(all)`. -/
def JoinAllWithComma (all : List Expr) : Expr :=
  all.foldl JoinWithComma Expr.empty

/-- Field `Value` of a template part. -/
def TemplatePart.value : TemplatePart → Expr
  | .mk value _ => value

/-- One piece of what is left of an untagged template whose value is unused:
the reduction of a part with a known primitive type, or a run of consecutive
parts with unknown type, with the location of the first of them. -/
inductive TemplatePiece where
  | reduced (value : Expr)
  | run (loc : Loc) (values : List Expr)

/-- The expression that stands for a piece: the reduction itself, or one
untagged template that contains exactly the values of the run, in order. -/
def TemplatePiece.toExpr : TemplatePiece → Expr
  | .reduced value => value
  | .run loc values => ⟨loc, .ETemplate Expr.empty [] (values.map fun value => ⟨value, []⟩)⟩

/-- The values of the parts with unknown type that a piece holds. -/
def TemplatePiece.runValues : TemplatePiece → List Expr
  | .reduced _ => []
  | .run _ values => values

/-- Puts the values `values`, found at `loc`, in front of the pieces: they join
the run that starts the pieces, if any, so that runs stay maximal. -/
def prependRun (loc : Loc) (values : List Expr) : List TemplatePiece → List TemplatePiece
  | .run _ more :: pieces => .run loc (values ++ more) :: pieces
  | pieces => .run loc values :: pieces

/-- The pieces of an untagged template, in source order: for each part whose
`KnownPrimitiveType` is not unknown, the reduction `reduce value` of its value;
for each maximal run of consecutive parts of unknown type, one run. -/
def templatePieces (reduce : Expr → Expr) : List TemplatePart → List TemplatePiece
  | [] => []
  | part :: rest =>
    if KnownPrimitiveType part.value ≠ PrimitiveUnknown then
      .reduced (reduce part.value) :: templatePieces reduce rest
    else prependRun part.value.loc [part.value] (templatePieces reduce rest)

/-- Sample: the untagged template with the three parts `x`, `1`, `x`. -/
def sampleTemplate : Expr :=
  ⟨loc0, .ETemplate Expr.empty [] [⟨identX false, []⟩, ⟨oneLiteral, []⟩, ⟨identX false, []⟩]⟩

/-- Sample: the untagged template with the one part `x`. -/
def templateOfX : Expr := ⟨loc0, .ETemplate Expr.empty [] [⟨identX false, []⟩]⟩

/-- The call is an immediately-invoked arrow function that `SimplifyUnusedExpr`
replaces by the expression of its body: no argument, and the target a
non-async arrow without parameters whose body is exactly one expression
statement or one `return`. -/
def isInlinableIIFE (target : Expr) (args : List Expr) : Bool :=
  match args, target with
  | [], ⟨_, .EArrow [] [⟨_, .SExpr _ _⟩] false _⟩ => true
  | [], ⟨_, .EArrow [] [⟨_, .SReturn _⟩] false _⟩ => true
  | _, _ => false

/-- Field `Flags` of a property. -/
def Property.flags : Property → PropertyFlags
  | .mk _ flags _ _ _ _ => flags

/-- Field `ValueOrNil` of a property. -/
def Property.valueOrNil : Property → Expr
  | .mk _ _ _ valueOrNil _ _ => valueOrNil

/-- Sample: the immediately-invoked arrow `(() => { 1 })()`. -/
def iifeOfOne : Expr :=
  ⟨loc0, .ECall ⟨loc0, .EArrow [] [⟨loc0, .SExpr oneLiteral false⟩] false false⟩ []
    OptionalChain.OptionalChainNone false CallKind.NormalCall⟩

/-- Sample: `!!a`. -/
def notNotA : Expr := ⟨loc0, .EUnary UnOpNot ⟨loc0, .EUnary UnOpNot identA false⟩ false⟩

/-- Sample: the ternary `!!a ? 1 : x()`. -/
def sampleTernary : Expr := ⟨loc0, .EIf notNotA oneLiteral impureCall⟩

/-- Sample: the array `[x(), 1, a]`. -/
def sampleArray : Expr := ⟨loc0, .EArray [impureCall, oneLiteral, identA] false⟩

/-- Sample: the string literal `'x'` joined to the number `1` by `??`, that is
`1 ?? 'x'`. -/
def oneOrElseX : Expr := ⟨loc0, .EBinary BinOpNullishCoalescing oneLiteral xLiteral⟩

/-- Number of inlined-enum wrappers around node data. -/
def enumDepth : E → Nat
  | .EInlinedEnum ⟨_, d⟩ _ => enumDepth d + 1
  | _ => 0

/-- The literal kind of node data: Null, Undefined, Boolean, Number, BigInt or
String for a literal of that kind, Unknown for anything that is not one of
these literals. -/
def E.literalKind : E → PrimitiveType
  | .ENull => PrimitiveNull
  | .EUndefined => PrimitiveUndefined
  | .EBoolean _ => PrimitiveBoolean
  | .ENumber _ => PrimitiveNumber
  | .EBigInt _ => PrimitiveBigInt
  | .EString _ => PrimitiveString
  | _ => PrimitiveUnknown

/-- Two literals of the same kind hold equal values: the same boolean, numbers
that are numerically equal, bigints with the same text, strings with the same
code units. -/
def E.sameLiteralValue : E → E → Bool
  | .EBoolean l, right =>
    match right with
    | .EBoolean r => decide (l = r)
    | _ => false
  | .ENumber l, right =>
    match right with
    | .ENumber r => l.eq r
    | _ => false
  | .EBigInt l, right =>
    match right with
    | .EBigInt r => decide (l = r)
    | _ => false
  | .EString l, right =>
    match right with
    | .EString r => decide (l = r)
    | _ => false
  | _, _ => false

/-- Sample: the `float64` value `+0`. -/
def positiveZero : Float64 := ⟨false, 0, 0⟩

/-- Sample: the `float64` value `-0`. -/
def negativeZero : Float64 := ⟨true, 0, 0⟩

/-- Sample: the number literal `-0` as the value of an inlined enum member. -/
def inlinedNegativeZero : E := .EInlinedEnum ⟨loc0, .ENumber negativeZero⟩ refX

/-- The chain state of a `Dot`, `Index` or `Call` node; an expression of
another kind has none. -/
def chainState : Expr → OptionalChain
  | ⟨_, .EDot _ _ optionalChain _ _⟩ => optionalChain
  | ⟨_, .EIndex _ _ optionalChain _ _⟩ => optionalChain
  | ⟨_, .ECall _ _ optionalChain _ _⟩ => optionalChain
  | _ => OptionalChain.OptionalChainNone

/-- The target of a `Dot`, `Index` or `Call` node. -/
def chainTarget : Expr → Option Expr
  | ⟨_, .EDot target _ _ _ _⟩ => some target
  | ⟨_, .EIndex target _ _ _ _⟩ => some target
  | ⟨_, .ECall target _ _ _ _⟩ => some target
  | _ => none

/-- The nodes of the target chain of an expression, from the outside inward:
the `Dot`, `Index` and `Call` nodes reached by going to the target. -/
def chainNodes : Expr → List Expr
  | ⟨loc, .EDot target name optionalChain remove unwrap⟩ =>
    ⟨loc, .EDot target name optionalChain remove unwrap⟩ :: chainNodes target
  | ⟨loc, .EIndex target index optionalChain remove unwrap⟩ =>
    ⟨loc, .EIndex target index optionalChain remove unwrap⟩ :: chainNodes target
  | ⟨loc, .ECall target args optionalChain unwrap kind⟩ =>
    ⟨loc, .ECall target args optionalChain unwrap kind⟩ :: chainNodes target
  | _ => []

open OptionalChain in
/-- The changes of chain state that marking a chain on `guard` makes to one
node: none; or from no state to `OptionalChainContinue`; or to
`OptionalChainStart`, on a node whose target looks the same as `guard`. -/
def chainTransition (guard before after : Expr) : Bool :=
  decide (chainState after = chainState before) ||
  (decide (chainState before = OptionalChainNone) &&
    decide (chainState after = OptionalChainContinue)) ||
  (decide (chainState after = OptionalChainStart) &&
    match chainTarget before with
    | some target => ValuesLookTheSame guard.data target.data
    | none => false)

/-- Sample: `!true`. -/
def notTrue : Expr := ⟨loc0, .EUnary UnOpNot trueLiteral false⟩

/-- The node is a negation `!x`. -/
def E.isNot : E → Bool
  | .EUnary op _ _ => decide (op = UnOpNot)
  | _ => false

/-- The comparison `left op right` tests an expression that is known to be a
32-bit integer against a numeric zero, the pattern that `SimplifyBooleanExpr`
replaces by `left` or `!left`. -/
def comparesIntegerWithZero (left right : Expr) : Bool :=
  match extractNumericValue right.data with
  | some value => value.isZero && isInt32OrUint32 left.data
  | none => false

/-- The boolean value of `e` is known, without side effects. -/
def hasKnownPureBoolean (e : Expr) : Bool :=
  (ToBooleanWithSideEffects e.data).2.2 &&
    decide ((ToBooleanWithSideEffects e.data).2.1 = NoSideEffects)

/-- The right operand `right` lets `SimplifyBooleanExpr` drop it from
`left op right`: its boolean value is known without side effects, truthy
under `&&`, falsy under `||`. -/
def rightOperandIsNeutral (op : OpCode) (right : Expr) : Bool :=
  hasKnownPureBoolean right &&
    ((decide (op = BinOpLogicalAnd) && (ToBooleanWithSideEffects right.data).1) ||
      (decide (op = BinOpLogicalOr) && !(ToBooleanWithSideEffects right.data).1))

/-- Sample: the ternary `!!a ? x() : false`. -/
def booleanTernary : Expr := ⟨loc0, .EIf notNotA impureCall falseLiteral⟩

/-- Sample: `!!a && x()`. -/
def notNotAAndCall : Expr := ⟨loc0, .EBinary BinOpLogicalAnd notNotA impureCall⟩

/-- Sample: `a && x()`. -/
def aAndCall : Expr := ⟨loc0, .EBinary BinOpLogicalAnd identA impureCall⟩

/-- Go operator `^x` on a `uint32`: the bitwise complement, with the value
taken modulo `2 ^ 32`. -/
def complement32 (x : Nat) : Nat :=
  2 ^ 32 - 1 - x % 2 ^ 32

/-- Go type `Index32` of `ast.go`: a 32-bit index stored with its bits flipped,
so that the zero value is an invalid index. -/
structure Index32 where
  flippedBits : Nat
  deriving DecidableEq, Repr, Inhabited

/-- The zero value `Index32{}`. -/
def Index32.zero : Index32 := ⟨0⟩

/-- Go function `MakeIndex32(index)`. -/
def MakeIndex32 (index : Nat) : Index32 :=
  ⟨complement32 index⟩

/-- Go method `Index32.IsValid()`. -/
def Index32.IsValid (i : Index32) : Bool :=
  decide (i.flippedBits % 2 ^ 32 ≠ 0)

/-- Go method `Index32.GetIndex()`. -/
def Index32.GetIndex (i : Index32) : Nat :=
  complement32 i.flippedBits

/-- Sample: the bitwise expression `a | x`. -/
def aBitOrX : Expr := ⟨loc0, .EBinary BinOpBitwiseOr identA (identX false)⟩

/-- Sample: the number literal `0`. -/
def zeroLiteral : Expr := ⟨loc0, .ENumber positiveZero⟩

/-- Sample: the comparison `(a | x) === 0`. -/
def aBitOrXIsZero : Expr := ⟨loc0, .EBinary BinOpStrictEq aBitOrX zeroLiteral⟩

/-- Sample: the bigint literal `1n`. -/
def oneBigInt : Expr := ⟨loc0, .EBigInt "1"⟩

/-- Sample: `~1n`, the complement of a bigint. -/
def complementOfBigInt : Expr := ⟨loc0, .EUnary UnOpCpl oneBigInt false⟩

/-- Every `typeof` flagged `ValueWasOriginallyIdentifier` that the boolean
evaluation of `e` looks at (under inlined enums and negations) has an
identifier as its operand. -/
def flaggedTypeofHasIdentifier : Expr → Bool
  | ⟨_, .EInlinedEnum value _⟩ => flaggedTypeofHasIdentifier value
  | ⟨_, .EUnary op value valueWasOriginallyIdentifier⟩ =>
    if op = UnOpTypeof then !valueWasOriginallyIdentifier || value.data.isEIdentifier
    else if op = UnOpNot then flaggedTypeofHasIdentifier value
    else true
  | _ => true

/-- Sample: `!typeof x`. -/
def notTypeofX : Expr := ⟨loc0, .EUnary UnOpNot typeofX false⟩

/-- Sample: the comma expression `a, true`. -/
def aCommaTrue : Expr := ⟨loc0, .EBinary BinOpComma identA trueLiteral⟩

/-- The node is one of the operands that `MaybeSimplifyNot` evaluates on the
spot: a null, undefined, boolean, number, bigint or string literal, a function,
an arrow or a regular expression. -/
def E.isLiteralOrFunction : E → Bool
  | .ENull | .EUndefined | .EBoolean _ | .ENumber _ | .EBigInt _ | .EString _
  | .EFunction _ | .EArrow _ _ _ _ | .ERegExp _ => true
  | _ => false

/-- Whether the expression is a binary node with operator `op` (the Go test
`x, ok := e.Data.(*EBinary); ok && x.Op == op`). -/
def Expr.isBinaryWith (op : OpCode) : Expr → Bool
  | ⟨_, .EBinary o _ _⟩ => decide (o = op)
  | _ => false

/-- Spec side of the join: the operands of `b` obtained by fully flattening
its nested `op` nodes, from left to right. -/
def opOperands (op : OpCode) : Expr → List Expr
  | ⟨loc, .EBinary o left right⟩ =>
    if o = op then opOperands op left ++ opOperands op right
    else [⟨loc, .EBinary o left right⟩]
  | b => [b]

/-- Spec side of the join: the left fold of `op` over `a` followed by the
operands `bs`; every node takes the location of its left operand. -/
def leftFold (op : OpCode) (a : Expr) (bs : List Expr) : Expr :=
  bs.foldl (fun x y => ⟨x.loc, .EBinary op x y⟩) a

/-- A transcription of the Go recursion of `JoinWithLeftAssociativeOp` that
follows its three branches literally, one unit of fuel for every call. -/
def JoinWithLeftAssociativeOpFuel : Nat → OpCode → Expr → Expr → Option Expr
  | 0, _, _, _ => none
  | fuel + 1, op, a, b =>
    match a with
    | ⟨aLoc, .EBinary BinOpComma aLeft aRight⟩ =>
      -- "(a, b) op c" => "a, b op c"
      match JoinWithLeftAssociativeOpFuel fuel op aRight b with
      | some right => some ⟨aLoc, .EBinary BinOpComma aLeft right⟩
      | none => none
    | a =>
      match b with
      | ⟨bLoc, .EBinary bOp bLeft bRight⟩ =>
        -- "a op (b op c)" => "(a op b) op c"
        if bOp = op then
          match JoinWithLeftAssociativeOpFuel fuel op a bLeft with
          | some inner => JoinWithLeftAssociativeOpFuel fuel op inner bRight
          | none => none
        else some ⟨a.loc, .EBinary op a ⟨bLoc, .EBinary bOp bLeft bRight⟩⟩
      | b => some ⟨a.loc, .EBinary op a b⟩

/-- The arguments `(a, b)` of the recursive calls that one call of
`JoinWithLeftAssociativeOp(op, a, b)` makes directly. -/
def joinRecursiveCalls (op : OpCode) (a b : Expr) : List (Expr × Expr) :=
  match a with
  | ⟨_, .EBinary BinOpComma _ aRight⟩ => [(aRight, b)]
  | a =>
    match b with
    | ⟨_, .EBinary bOp bLeft bRight⟩ =>
      if bOp = op then [(a, bLeft), (JoinWithLeftAssociativeOp op a bLeft, bRight)] else []
    | _ => []

/-- Sample reference `b`. -/
def refB : Ref := ⟨0, 3⟩

/-- Sample reference `c`. -/
def refC : Ref := ⟨0, 4⟩

/-- Sample reference `d`. -/
def refD : Ref := ⟨0, 5⟩

/-- Sample `b`. -/
def identB : Expr := ⟨loc0, .EIdentifier refB false false⟩

/-- Sample `c`. -/
def identC : Expr := ⟨loc0, .EIdentifier refC false false⟩

/-- Sample `d`. -/
def identD : Expr := ⟨loc0, .EIdentifier refD false false⟩

/-- Sample `b && (c && d)`. -/
def bAndCAndD : Expr :=
  ⟨loc0, .EBinary BinOpLogicalAnd identB ⟨loc0, .EBinary BinOpLogicalAnd identC identD⟩⟩
mutual

/-- Number of nodes on the paths that `ValuesLookTheSame` walks. -/
def lookSize : E → Nat
  | .EInlinedEnum ⟨_, d⟩ _ => lookSize d + 1
  | .EDot ⟨_, target⟩ _ _ _ _ => lookSize target + 1
  | .EIndex ⟨_, target⟩ ⟨_, index⟩ _ _ _ => lookSize target + lookSize index + 1
  | .EIf ⟨_, test⟩ ⟨_, yes⟩ ⟨_, no⟩ => lookSize test + lookSize yes + lookSize no + 1
  | .EUnary _ ⟨_, value⟩ _ => lookSize value + 1
  | .EBinary _ ⟨_, left⟩ ⟨_, right⟩ => lookSize left + lookSize right + 1
  | .ECall ⟨_, target⟩ args _ _ _ => lookSize target + lookSizeArgs args + 1
  | _ => 1

/-- The same count over the arguments of a call. -/
def lookSizeArgs : List Expr → Nat
  | [] => 0
  | ⟨_, d⟩ :: rest => lookSize d + lookSizeArgs rest

end

/-- Normal form of the boolean simplifier, read off the expression alone: at
every node the simplifier reaches (operands of `!`, `&&`, `||`, branches of a
ternary) there is no `!` directly under a `!`, no `==`, `!=`, `===`, `!==` of
a 32-bit integer with zero, no `&&` or `||` whose right operand is neutral,
and no ternary with a branch whose boolean value is known without side
effects. -/
def Expr.booleanNormal : Expr → Bool
  | ⟨_, .EUnary op value _⟩ =>
    if op = UnOpNot then !value.data.isNot && value.booleanNormal else true
  | ⟨_, .EBinary op left right⟩ =>
    if op = BinOpStrictEq ∨ op = BinOpStrictNe ∨ op = BinOpLooseEq ∨ op = BinOpLooseNe then
      !comparesIntegerWithZero left right
    else if op = BinOpLogicalAnd ∨ op = BinOpLogicalOr then
      left.booleanNormal && right.booleanNormal && !rightOperandIsNeutral op right
    else true
  | ⟨_, .EIf _ yes no⟩ =>
    yes.booleanNormal && no.booleanNormal && !hasKnownPureBoolean yes && !hasKnownPureBoolean no
  | _ => true

/-- Sample: `a && true`. -/
def aAndTrue : Expr := ⟨loc0, .EBinary BinOpLogicalAnd identA trueLiteral⟩

/-- Sample: the ternary `a ? true : x()`. -/
def aThenTrueElseCall : Expr := ⟨loc0, .EIf identA trueLiteral impureCall⟩

/-- Sample: the ternary `a ? true : false`. -/
def aThenTrueElseFalse : Expr := ⟨loc0, .EIf identA trueLiteral falseLiteral⟩

/-- Sample: `!((a | x) === 0)`. -/
def notABitOrXIsZero : Expr := ⟨loc0, .EUnary UnOpNot aBitOrXIsZero false⟩
/-- The left spine of a chain of `+` has a string literal: the second result
of `simplifyUnusedStringAdditionChain`, read off the expression. -/
def spineHasString : Expr → Bool
  | ⟨_, .EString _⟩ => true
  | ⟨_, .EBinary op left right⟩ =>
    if op = BinOpAdd then right.data.isEString || spineHasString left else false
  | _ => false

/-- The node is the empty string literal. -/
def E.isEmptyString : E → Bool
  | .EString value => decide (value = [])
  | _ => false

/-- Normal form of `simplifyUnusedStringAdditionChain`: the only string
literal the left spine of the chain of `+` may hold is one empty string, as
the leftmost operand or as the right operand of the lowest `+` that has one. -/
def stringChainNormal : Expr → Bool
  | ⟨_, .EString value⟩ => decide (value = [])
  | ⟨_, .EBinary op left right⟩ =>
    if op = BinOpAdd then
      if right.data.isEString then !spineHasString left && right.data.isEmptyString
      else stringChainNormal left
    else true
  | _ => true

/-- The optional-chain rewrite of `left op right` applies: the target has
optional chaining, `left` is `t != null` or `null != t` under `&&`, or
`t == null` or `null == t` under `||`, `t` is an identifier that is not
flagged `MustKeepDueToWithStmt`, and the target chain of `right` has a node
whose target looks the same as `t`. -/
def optionalChainApplies (unsupportedFeatures : JSFeature) (op : OpCode) (left right : Expr) :
    Bool :=
  !unsupportedFeatures.hasOptionalChain &&
    match left with
    | ⟨_, .EBinary binaryOp binaryLeft binaryRight⟩ =>
      (decide (binaryOp = BinOpLooseNe ∧ op = BinOpLogicalAnd) ||
        decide (binaryOp = BinOpLooseEq ∧ op = BinOpLogicalOr)) &&
      (if binaryRight.data.isENull then
        binaryLeft.data.isUnflaggedIdentifier && hasGuardedTarget binaryLeft right
      else if binaryLeft.data.isENull then
        binaryRight.data.isUnflaggedIdentifier && hasGuardedTarget binaryRight right
      else false)
    | _ => false

/-- The call is an immediately-invoked function that the reducer does not
leave as it is: no argument, and the target a function or arrow without
parameters whose body is empty, or an arrow without parameters whose body is
exactly one expression statement, or a non-async one whose body is exactly
one `return`. -/
def isShortenedIIFE (target : Expr) (args : List Expr) : Bool :=
  match args, target with
  | [], ⟨_, .EFunction ⟨[], [], _, _⟩⟩ => true
  | [], ⟨_, .EArrow [] [] _ _⟩ => true
  | [], ⟨_, .EArrow [] [⟨_, .SExpr _ _⟩] _ _⟩ => true
  | [], ⟨_, .EArrow [] [⟨_, .SReturn _⟩] false _⟩ => true
  | _, _ => false

/-- The node is the number literal that the reducer writes for the value of a
computed property it could otherwise drop: positive zero. -/
def E.isPlaceholderZero : E → Bool
  | .ENumber value => decide (value = ⟨false, 0, 0⟩)
  | _ => false

/-- Every part has an empty tail and a value of unknown primitive type. -/
def isRunOfUnknownParts : List TemplatePart → Bool
  | [] => true
  | ⟨value, tailCooked⟩ :: rest =>
    decide (tailCooked = []) && decide (KnownPrimitiveType value = PrimitiveUnknown) &&
      isRunOfUnknownParts rest

/-- The untagged template is one that the reducer builds for a run of parts of
unknown type: no tag, no head, located at its first part, every part with an
empty tail and a value of unknown type. -/
def isRunTemplate (loc : Loc) (tagOrNil : Expr) (headCooked : List Nat)
    (parts : List TemplatePart) : Bool :=
  decide (tagOrNil.loc = ⟨0⟩) && decide (headCooked = []) &&
    (match parts with
     | [] => false
     | ⟨value, _⟩ :: _ => decide (loc = value.loc)) &&
    isRunOfUnknownParts parts

mutual

/-- Reduced form of `SimplifyUnusedExpr`, read off the expression alone: the
empty expression, or an expression that the reducer keeps, in which every
operand that the reducer would reduce again is itself in reduced form and not
empty. It leaves out the nodes the reducer drops or unwraps (inlined enums,
literals, `this`, functions, removable identifiers and property accesses,
`void`, `!`, `typeof`, `===`, `!==`, arrays and objects without a spread,
calls and `new` marked pure, shortened immediately-invoked functions), and
asks that a `&&` or `||` has its left operand in boolean normal form and is
not an optional-chain pattern, that a comma sits at the location of its left
operand, that a chain of `+` is in `stringChainNormal` form and that an
untagged template is a run template. -/
def Expr.reduced (unsupportedFeatures : JSFeature) (isUnbound : Ref → Bool) : Expr → Bool
  | ⟨_, .EInlinedEnum _ _⟩ => false
  | ⟨_, .ENull⟩ | ⟨_, .EUndefined⟩ | ⟨_, .EMissing⟩ | ⟨_, .EBoolean _⟩ | ⟨_, .ENumber _⟩
  | ⟨_, .EBigInt _⟩ | ⟨_, .EString _⟩ | ⟨_, .EThis⟩ | ⟨_, .ERegExp _⟩ | ⟨_, .EFunction _⟩
  | ⟨_, .EArrow _ _ _ _⟩ | ⟨_, .EImportMeta⟩ => false
  | ⟨_, .EDot _ _ _ canBeRemovedIfUnused _⟩ => !canBeRemovedIfUnused
  | ⟨_, .EIdentifier ref mustKeepDueToWithStmt canBeRemovedIfUnused⟩ =>
    mustKeepDueToWithStmt || !(canBeRemovedIfUnused || !isUnbound ref)
  | ⟨loc, .ETemplate tagOrNil headCooked parts⟩ =>
    !tagOrNil.data.isNil || isRunTemplate loc tagOrNil headCooked parts
  | ⟨_, .EArray items _⟩ =>
    items.any (fun item => item.data.isESpread) &&
      Expr.reducedList unsupportedFeatures isUnbound items
  | ⟨_, .EObject properties _⟩ =>
    properties.any (fun property => decide (property.kind = PropertyKind.PropertySpread)) &&
      Expr.reducedProperties unsupportedFeatures isUnbound properties
  | ⟨_, .EIf _ yes no⟩ =>
    yes.reduced unsupportedFeatures isUnbound && !yes.data.isNil &&
      no.reduced unsupportedFeatures isUnbound && !no.data.isNil
  | ⟨_, .EUnary op _ _⟩ => !decide (op = UnOpVoid ∨ op = UnOpNot ∨ op = UnOpTypeof)
  | ⟨loc, .EBinary op left right⟩ =>
    if op = BinOpStrictEq ∨ op = BinOpStrictNe then false
    else if op = BinOpComma then
      decide (loc = left.loc) &&
        left.reduced unsupportedFeatures isUnbound && !left.data.isNil &&
        right.reduced unsupportedFeatures isUnbound && !right.data.isNil
    else if op = BinOpLooseEq ∨ op = BinOpLooseNe then
      !(IsPrimitiveWithSideEffects left.data && IsPrimitiveWithSideEffects right.data)
    else if op = BinOpLogicalAnd ∨ op = BinOpLogicalOr ∨ op = BinOpNullishCoalescing then
      (decide (op = BinOpNullishCoalescing) || left.booleanNormal) &&
        right.reduced unsupportedFeatures isUnbound && !right.data.isNil &&
        !optionalChainApplies unsupportedFeatures op left right
    else if op = BinOpAdd then stringChainNormal ⟨loc, .EBinary op left right⟩
    else true
  | ⟨_, .ECall target args _ canBeUnwrappedIfUnused _⟩ =>
    !canBeUnwrappedIfUnused && !isShortenedIIFE target args
  | ⟨_, .ENew _ _ canBeUnwrappedIfUnused⟩ => !canBeUnwrappedIfUnused
  | _ => true
termination_by structural e => e

/-- Every expression of the list is in reduced form and not empty. -/
def Expr.reducedList (unsupportedFeatures : JSFeature) (isUnbound : Ref → Bool) :
    List Expr → Bool
  | [] => true
  | item :: rest =>
    item.reduced unsupportedFeatures isUnbound && !item.data.isNil &&
      Expr.reducedList unsupportedFeatures isUnbound rest
termination_by structural items => items

/-- Every property that is not a spread has a value in reduced form that is
not empty, or a computed key and the placeholder value zero. -/
def Expr.reducedProperties (unsupportedFeatures : JSFeature) (isUnbound : Ref → Bool) :
    List Property → Bool
  | [] => true
  | ⟨kind, flags, _, valueOrNil, _, _⟩ :: rest =>
    (decide (kind = PropertyKind.PropertySpread) ||
      (valueOrNil.reduced unsupportedFeatures isUnbound && !valueOrNil.data.isNil) ||
      (flags.isComputed && valueOrNil.data.isPlaceholderZero)) &&
      Expr.reducedProperties unsupportedFeatures isUnbound rest
termination_by structural properties => properties

end

/-- Sample: `a ?? x()`. -/
def aNullishCall : Expr := ⟨loc0, .EBinary BinOpNullishCoalescing identA impureCall⟩

/-- Sample: the ternary `a ? 1 : x()`. -/
def aThenOneElseCall : Expr := ⟨loc0, .EIf identA oneLiteral impureCall⟩

mutual

/-- Weight of an expression: the number of expression nodes the reducer can
hand back, with room for the nodes it adds (one comma for every array item,
argument, property value and template part it joins, the array it wraps a
spread argument in, the `+ ''` it puts after a computed key, the template it
builds for a run of parts). -/
def Expr.weight : Expr → Nat
  | ⟨_, .EInlinedEnum value _⟩ => value.weight + 1
  | ⟨_, .EDot target _ _ _ _⟩ => target.weight + 1
  | ⟨_, .EIndex target index _ _ _⟩ => target.weight + index.weight + 1
  | ⟨_, .ECall target args _ _ _⟩ => target.weight + Expr.weightArgs args + 1
  | ⟨_, .ENew target args _⟩ => target.weight + Expr.weightArgs args + 1
  | ⟨_, .EUnary _ value _⟩ => value.weight + 1
  | ⟨_, .EBinary _ left right⟩ => left.weight + right.weight + 1
  | ⟨_, .EIf test yes no⟩ => test.weight + yes.weight + no.weight + 1
  | ⟨_, .ETemplate tagOrNil _ parts⟩ => tagOrNil.weight + Expr.weightParts parts + 1
  | ⟨_, .EArray items _⟩ => Expr.weightList items + 1
  | ⟨_, .EObject properties _⟩ => Expr.weightProperties properties + 1
  | ⟨_, .EArrow _ body _ _⟩ => Expr.weightStmts body + 1
  | _ => 1
termination_by structural e => e

/-- Weight of the items of an array. -/
def Expr.weightList : List Expr → Nat
  | [] => 0
  | item :: rest => item.weight + 1 + Expr.weightList rest
termination_by structural items => items

/-- Weight of the arguments of a call. -/
def Expr.weightArgs : List Expr → Nat
  | [] => 0
  | arg :: rest => arg.weight + 3 + Expr.weightArgs rest
termination_by structural args => args

/-- Weight of the parts of a template. -/
def Expr.weightParts : List TemplatePart → Nat
  | [] => 0
  | ⟨value, _⟩ :: rest => value.weight + 4 + Expr.weightParts rest
termination_by structural parts => parts

/-- Weight of the keys and values of a list of properties. -/
def Expr.weightProperties : List Property → Nat
  | [] => 0
  | ⟨_, _, key, valueOrNil, _, _⟩ :: rest =>
    key.weight + valueOrNil.weight + 4 + Expr.weightProperties rest
termination_by structural properties => properties

/-- Weight of the statements of an arrow body. -/
def Expr.weightStmts : List Stmt → Nat
  | [] => 0
  | stmt :: rest => stmt.weight + Expr.weightStmts rest
termination_by structural stmts => stmts

/-- Weight of a statement: that of its data. -/
def Stmt.weight : Stmt → Nat
  | ⟨_, data⟩ => data.weight
termination_by structural stmt => stmt

/-- Weight of statement data: that of the value of an expression statement or
of a `return`. -/
def S.weight : S → Nat
  | .SExpr value _ => value.weight
  | .SReturn valueOrNil => valueOrNil.weight
  | _ => 0
termination_by structural s => s

end

/-- Cost of an expression as an operand of `JoinWithComma`: nothing for the
empty expression, else its weight and the comma that joins it. -/
def Expr.cost (e : Expr) : Nat :=
  if e.data.isNil then 0 else e.weight + 1

/-- The pieces of a template start with a run. -/
def startsWithRun : List TemplatePiece → Bool
  | .run _ _ :: _ => true
  | _ => false

/-- Cost of the expressions that stand for the pieces of a template. -/
def piecesCost : List TemplatePiece → Nat
  | [] => 0
  | piece :: rest => piece.toExpr.cost + piecesCost rest

/-! ## Basic facts about the short-circuit connectives -/

theorem andAlso_some (a b : Bool) : andAlso (some a) (some b) = some (a && b) := by
  cases a <;> rfl

theorem orElse_some (a b : Bool) : orElse (some a) (some b) = some (a || b) := by
  cases a <;> rfl

theorem andAlso_false_left (b : Option Bool) : andAlso (some false) b = some false := rfl

theorem andAlso_true_left (b : Option Bool) : andAlso (some true) b = b := rfl

theorem orElse_true_left (b : Option Bool) : orElse (some true) b = some true := rfl

theorem orElse_false_left (b : Option Bool) : orElse (some false) b = b := rfl

theorem andAlso_assoc (a b c : Option Bool) :
    andAlso (andAlso a b) c = andAlso a (andAlso b c) := by
  rcases a with _ | a
  · rfl
  · cases a <;> rfl

theorem andAlso_eq_some_true (a b : Option Bool) :
    andAlso a b = some true ↔ a = some true ∧ b = some true := by
  rcases a with _ | a
  · simp [andAlso]
  · cases a <;> simp [andAlso]

theorem orElse_eq_some_true (a b : Option Bool) :
    orElse a b = some true ↔ a = some true ∨ (a = some false ∧ b = some true) := by
  rcases a with _ | a
  · simp [orElse]
  · cases a <;> simp [orElse]

theorem andAlso_returns {a b : Option Bool} (ha : ∃ x, a = some x) (hb : ∃ y, b = some y) :
    ∃ z, andAlso a b = some z := by
  obtain ⟨x, rfl⟩ := ha
  obtain ⟨y, rfl⟩ := hb
  exact ⟨x && y, andAlso_some x y⟩

theorem orElse_returns {a b : Option Bool} (ha : ∃ x, a = some x) (hb : ∃ y, b = some y) :
    ∃ z, orElse a b = some z := by
  obtain ⟨x, rfl⟩ := ha
  obtain ⟨y, rfl⟩ := hb
  exact ⟨x || y, orElse_some x y⟩

/-! ## The classifiers return a verdict on well-formed input -/

theorem ite_returns {c : Prop} [Decidable c] {a b : Option Bool}
    (ha : c → ∃ x, a = some x) (hb : ¬ c → ∃ y, b = some y) :
    ∃ z, (if c then a else b) = some z := by
  by_cases h : c
  · rw [if_pos h]; exact ha h
  · rw [if_neg h]; exact hb h

set_option maxHeartbeats 1000000 in
mutual

theorem ExprCanBeRemovedIfUnused_returns (isUnbound : Ref → Bool) :
    (expr : Expr) → exprWellFormed expr = true →
      ∃ b, ExprCanBeRemovedIfUnused expr isUnbound = some b
  | ⟨_, .nil⟩, _ | ⟨_, .ENull⟩, _ | ⟨_, .EUndefined⟩, _ | ⟨_, .EMissing⟩, _ | ⟨_, .EThis⟩, _
  | ⟨_, .EImportMeta⟩, _ | ⟨_, .EBoolean _⟩, _ | ⟨_, .ENumber _⟩, _ | ⟨_, .EBigInt _⟩, _
  | ⟨_, .EString _⟩, _ | ⟨_, .ERegExp _⟩, _ | ⟨_, .EImportIdentifier _⟩, _
  | ⟨_, .EDot _ _ _ _ _⟩, _ | ⟨_, .EIndex _ _ _ _ _⟩, _ | ⟨_, .EFunction _⟩, _
  | ⟨_, .EArrow _ _ _ _⟩, _ | ⟨_, .ESpread _⟩, _ => ⟨_, rfl⟩
  | ⟨_, .EIdentifier ref mustKeep canBeRemoved⟩, _ =>
    ite_returns (fun _ => ⟨_, rfl⟩) (fun _ => ite_returns (fun _ => ⟨_, rfl⟩) (fun _ => ⟨_, rfl⟩))
  | ⟨_, .EInlinedEnum value _⟩, h => ExprCanBeRemovedIfUnused_returns isUnbound value h
  | ⟨_, .EClass cls⟩, h => classCanBeRemovedIfUnused_returns isUnbound cls h
  | ⟨_, .EIf test yes no⟩, h => by
    have h' : (exprWellFormed test && (exprWellFormed yes && exprWellFormed no)) = true := h
    simp only [Bool.and_eq_true] at h'
    exact andAlso_returns (ExprCanBeRemovedIfUnused_returns isUnbound test h'.1)
      (andAlso_returns
        (orElse_returns ⟨_, rfl⟩ (ExprCanBeRemovedIfUnused_returns isUnbound yes h'.2.1))
        (orElse_returns ⟨_, rfl⟩ (ExprCanBeRemovedIfUnused_returns isUnbound no h'.2.2)))
  | ⟨_, .EArray items _⟩, h => exprsCanBeRemovedIfUnused_returns isUnbound items h
  | ⟨_, .EObject properties _⟩, h =>
    objectPropertiesCanBeRemovedIfUnused_returns isUnbound properties h
  | ⟨_, .ECall _ args _ canBeUnwrappedIfUnused kind⟩, h =>
    ite_returns (fun _ => exprsCanBeRemovedIfUnused_returns isUnbound args h) (fun _ => ⟨_, rfl⟩)
  | ⟨_, .ENew _ args canBeUnwrappedIfUnused⟩, h =>
    ite_returns (fun _ => exprsCanBeRemovedIfUnused_returns isUnbound args h) (fun _ => ⟨_, rfl⟩)
  | ⟨_, .EUnary op value _⟩, h => by
    have ih := ExprCanBeRemovedIfUnused_returns isUnbound value h
    cases op <;> first
      | exact ⟨_, rfl⟩
      | exact ih
      | exact ite_returns (fun _ => ⟨_, rfl⟩) (fun _ => ih)
  | ⟨_, .EBinary op left right⟩, h => by
    have h' : (exprWellFormed left && exprWellFormed right) = true := h
    simp only [Bool.and_eq_true] at h'
    have ihl := ExprCanBeRemovedIfUnused_returns isUnbound left h'.1
    have ihr := ExprCanBeRemovedIfUnused_returns isUnbound right h'.2
    cases op <;> first
      | exact ⟨_, rfl⟩
      | exact andAlso_returns ihl ihr
      | exact andAlso_returns ihl (orElse_returns ⟨_, rfl⟩ ihr)
      | exact andAlso_returns ⟨_, rfl⟩ (andAlso_returns ihl ihr)
      | exact ite_returns (fun _ => andAlso_returns ⟨_, rfl⟩ (andAlso_returns ihl ihr))
          (fun _ => ⟨_, rfl⟩)
  | ⟨_, .ETemplate tagOrNil _ parts⟩, h =>
    ite_returns (fun _ => templatePartsCanBeRemovedIfUnused_returns isUnbound parts h)
      (fun _ => ⟨_, rfl⟩)

theorem exprsCanBeRemovedIfUnused_returns (isUnbound : Ref → Bool) :
    (items : List Expr) → exprsWellFormed items = true →
      ∃ b, exprsCanBeRemovedIfUnused items isUnbound = some b
  | [], _ => ⟨_, rfl⟩
  | item :: rest, h => by
    have h' : (exprWellFormed item && exprsWellFormed rest) = true := h
    simp only [Bool.and_eq_true] at h'
    exact andAlso_returns (ExprCanBeRemovedIfUnused_returns isUnbound item h'.1)
      (exprsCanBeRemovedIfUnused_returns isUnbound rest h'.2)

theorem objectPropertiesCanBeRemovedIfUnused_returns (isUnbound : Ref → Bool) :
    (properties : List Property) → propertiesWellFormed properties = true →
      ∃ b, objectPropertiesCanBeRemovedIfUnused properties isUnbound = some b
  | [], _ => ⟨_, rfl⟩
  | ⟨kind, flags, key, valueOrNil, initializerOrNil, classStaticBlock⟩ :: rest, h => by
    have h' : (exprWellFormed valueOrNil && (exprWellFormed initializerOrNil &&
      (stmtsWellFormed classStaticBlock && propertiesWellFormed rest))) = true := h
    simp only [Bool.and_eq_true] at h'
    exact ite_returns (fun _ => ⟨_, rfl⟩) (fun _ =>
      andAlso_returns
        (ite_returns (fun _ => ⟨_, rfl⟩)
          (fun _ => ExprCanBeRemovedIfUnused_returns isUnbound valueOrNil h'.1))
        (objectPropertiesCanBeRemovedIfUnused_returns isUnbound rest h'.2.2.2))

theorem templatePartsCanBeRemovedIfUnused_returns (isUnbound : Ref → Bool) :
    (parts : List TemplatePart) → templatePartsWellFormed parts = true →
      ∃ b, templatePartsCanBeRemovedIfUnused parts isUnbound = some b
  | [], _ => ⟨_, rfl⟩
  | ⟨value, _⟩ :: rest, h => by
    have h' : (exprWellFormed value && templatePartsWellFormed rest) = true := h
    simp only [Bool.and_eq_true] at h'
    exact andAlso_returns (ExprCanBeRemovedIfUnused_returns isUnbound value h'.1)
      (ite_returns (fun _ => ⟨_, rfl⟩)
        (fun _ => templatePartsCanBeRemovedIfUnused_returns isUnbound rest h'.2))

theorem classCanBeRemovedIfUnused_returns (isUnbound : Ref → Bool) :
    (cls : Class) → classWellFormed cls = true →
      ∃ b, classCanBeRemovedIfUnused cls isUnbound = some b
  | ⟨extendsOrNil, properties⟩, h => by
    have h' : (exprWellFormed extendsOrNil && propertiesWellFormed properties) = true := h
    simp only [Bool.and_eq_true] at h'
    exact andAlso_returns
      (ite_returns (fun _ => ⟨_, rfl⟩)
        (fun _ => ExprCanBeRemovedIfUnused_returns isUnbound extendsOrNil h'.1))
      (classPropertiesCanBeRemovedIfUnused_returns isUnbound properties h'.2)

theorem classPropertiesCanBeRemovedIfUnused_returns (isUnbound : Ref → Bool) :
    (properties : List Property) → propertiesWellFormed properties = true →
      ∃ b, classPropertiesCanBeRemovedIfUnused properties isUnbound = some b
  | [], _ => ⟨_, rfl⟩
  | ⟨kind, flags, key, valueOrNil, initializerOrNil, classStaticBlock⟩ :: rest, h => by
    have h' : (exprWellFormed valueOrNil && (exprWellFormed initializerOrNil &&
      (stmtsWellFormed classStaticBlock && propertiesWellFormed rest))) = true := h
    simp only [Bool.and_eq_true] at h'
    have ihRest := classPropertiesCanBeRemovedIfUnused_returns isUnbound rest h'.2.2.2
    exact ite_returns
      (fun _ => andAlso_returns
        (StmtsCanBeRemovedIfUnused_returns isUnbound classStaticBlock 0 h'.2.2.1) ihRest)
      (fun _ => ite_returns (fun _ => ⟨_, rfl⟩) (fun _ =>
        ite_returns
          (fun _ => andAlso_returns
            (ite_returns (fun _ => ⟨_, rfl⟩)
              (fun _ => ExprCanBeRemovedIfUnused_returns isUnbound valueOrNil h'.1))
            (andAlso_returns
              (ite_returns (fun _ => ⟨_, rfl⟩)
                (fun _ => ExprCanBeRemovedIfUnused_returns isUnbound initializerOrNil h'.2.1))
              ihRest))
          (fun _ => ihRest)))

theorem declsCanBeRemovedIfUnused_returns (isUnbound : Ref → Bool) :
    (decls : List Decl) → declsWellFormed decls = true →
      ∃ b, declsCanBeRemovedIfUnused decls isUnbound = some b
  | [], _ => ⟨_, rfl⟩
  | ⟨binding, valueOrNil⟩ :: rest, h => by
    have h' : (exprWellFormed valueOrNil && declsWellFormed rest) = true := h
    simp only [Bool.and_eq_true] at h'
    have ihRest := declsCanBeRemovedIfUnused_returns isUnbound rest h'.2
    have ihValue := ExprCanBeRemovedIfUnused_returns isUnbound valueOrNil h'.1
    cases binding <;> first
      | exact ⟨_, rfl⟩
      | exact andAlso_returns (ite_returns (fun _ => ⟨_, rfl⟩) (fun _ => ihValue)) ihRest

theorem StmtsCanBeRemovedIfUnused_returns (isUnbound : Ref → Bool) :
    (stmts : List Stmt) → (flags : StmtsCanBeRemovedIfUnusedFlags) →
      stmtsWellFormed stmts = true →
      ∃ b, StmtsCanBeRemovedIfUnused stmts flags isUnbound = some b
  | [], _, _ => ⟨_, rfl⟩
  | ⟨_, .SFunction _ _⟩ :: rest, flags, h
  | ⟨_, .SEmpty⟩ :: rest, flags, h
  | ⟨_, .SImport _ _⟩ :: rest, flags, h
  | ⟨_, .SExportFrom _ _⟩ :: rest, flags, h =>
    StmtsCanBeRemovedIfUnused_returns isUnbound rest flags h
  | ⟨_, .SReturn _⟩ :: _, _, _ | ⟨_, .SThrow _⟩ :: _, _, _ | ⟨_, .SBlock _⟩ :: _, _, _
  | ⟨_, .SIf _ _ _⟩ :: _, _, _ | ⟨_, .SWhile _ _⟩ :: _, _, _ | ⟨_, .SDebugger⟩ :: _, _, _ =>
    ⟨_, rfl⟩
  | ⟨_, .SExportClause⟩ :: rest, flags, h =>
    ite_returns (fun _ => ⟨_, rfl⟩)
      (fun _ => StmtsCanBeRemovedIfUnused_returns isUnbound rest flags h)
  | ⟨_, .SClass cls _⟩ :: rest, flags, h => by
    have h' : (classWellFormed cls && stmtsWellFormed rest) = true := h
    simp only [Bool.and_eq_true] at h'
    exact andAlso_returns (classCanBeRemovedIfUnused_returns isUnbound cls h'.1)
      (StmtsCanBeRemovedIfUnused_returns isUnbound rest flags h'.2)
  | ⟨_, .SExpr value doesNotAffectTreeShaking⟩ :: rest, flags, h => by
    have h' : (exprWellFormed value && stmtsWellFormed rest) = true := h
    simp only [Bool.and_eq_true] at h'
    have ihRest := StmtsCanBeRemovedIfUnused_returns isUnbound rest flags h'.2
    exact ite_returns (fun _ => ihRest)
      (fun _ => andAlso_returns (ExprCanBeRemovedIfUnused_returns isUnbound value h'.1) ihRest)
  | ⟨_, .SLocal decls _ _⟩ :: rest, flags, h => by
    have h' : (declsWellFormed decls && stmtsWellFormed rest) = true := h
    simp only [Bool.and_eq_true] at h'
    exact andAlso_returns (declsCanBeRemovedIfUnused_returns isUnbound decls h'.1)
      (StmtsCanBeRemovedIfUnused_returns isUnbound rest flags h'.2)
  | ⟨_, .STry block _ none⟩ :: rest, flags, h => by
    have h' : ((stmtsWellFormed block && true) && stmtsWellFormed rest) = true := h
    simp only [Bool.and_eq_true] at h'
    exact andAlso_returns
      (andAlso_returns (StmtsCanBeRemovedIfUnused_returns isUnbound block 0 h'.1.1) ⟨_, rfl⟩)
      (StmtsCanBeRemovedIfUnused_returns isUnbound rest flags h'.2)
  | ⟨_, .STry block _ (some finallyBlock)⟩ :: rest, flags, h => by
    have h' : ((stmtsWellFormed block && stmtsWellFormed finallyBlock) &&
      stmtsWellFormed rest) = true := h
    simp only [Bool.and_eq_true] at h'
    exact andAlso_returns
      (andAlso_returns (StmtsCanBeRemovedIfUnused_returns isUnbound block 0 h'.1.1)
        (StmtsCanBeRemovedIfUnused_returns isUnbound finallyBlock 0 h'.1.2))
      (StmtsCanBeRemovedIfUnused_returns isUnbound rest flags h'.2)
  | ⟨_, .SExportDefault _ ⟨_, s2⟩⟩ :: rest, flags, h => by
    cases s2 <;> first
      | exact StmtsCanBeRemovedIfUnused_returns isUnbound rest flags h
      | (have h' : (exprWellFormed _ && stmtsWellFormed rest) = true := h
         simp only [Bool.and_eq_true] at h'
         exact andAlso_returns (ExprCanBeRemovedIfUnused_returns isUnbound _ h'.1)
           (StmtsCanBeRemovedIfUnused_returns isUnbound rest flags h'.2))
      | (have h' : (classWellFormed _ && stmtsWellFormed rest) = true := h
         simp only [Bool.and_eq_true] at h'
         exact andAlso_returns (classCanBeRemovedIfUnused_returns isUnbound _ h'.1)
           (StmtsCanBeRemovedIfUnused_returns isUnbound rest flags h'.2))
      | (have h' : (false && stmtsWellFormed rest) = true := h
         exact absurd h' (by simp))

end

/-! ## Equations of `ExprCanBeRemovedIfUnused`, one per node kind -/

theorem ExprCanBeRemovedIfUnused_EIdentifier (loc : Loc) (ref : Ref)
    (mustKeep canBeRemoved : Bool) (isUnbound : Ref → Bool) :
    ExprCanBeRemovedIfUnused ⟨loc, .EIdentifier ref mustKeep canBeRemoved⟩ isUnbound =
      some (!mustKeep && (canBeRemoved || !isUnbound ref)) := by
  show (if mustKeep = true then some false
    else if (canBeRemoved || !isUnbound ref) = true then some true else some false) = _
  cases mustKeep <;> cases canBeRemoved <;> cases isUnbound ref <;> rfl

theorem ExprCanBeRemovedIfUnused_EIf (loc : Loc) (test yes no : Expr) (isUnbound : Ref → Bool) :
    ExprCanBeRemovedIfUnused ⟨loc, .EIf test yes no⟩ isUnbound =
      andAlso (ExprCanBeRemovedIfUnused test isUnbound)
        (andAlso
          (orElse (some (isSideEffectFreeUnboundIdentifierRef yes test true isUnbound))
            (ExprCanBeRemovedIfUnused yes isUnbound))
          (orElse (some (isSideEffectFreeUnboundIdentifierRef no test false isUnbound))
            (ExprCanBeRemovedIfUnused no isUnbound))) := rfl

theorem ExprCanBeRemovedIfUnused_LogicalAnd (loc : Loc) (left right : Expr)
    (isUnbound : Ref → Bool) :
    ExprCanBeRemovedIfUnused ⟨loc, .EBinary BinOpLogicalAnd left right⟩ isUnbound =
      andAlso (ExprCanBeRemovedIfUnused left isUnbound)
        (orElse (some (isSideEffectFreeUnboundIdentifierRef right left true isUnbound))
          (ExprCanBeRemovedIfUnused right isUnbound)) := rfl

theorem ExprCanBeRemovedIfUnused_LogicalOr (loc : Loc) (left right : Expr)
    (isUnbound : Ref → Bool) :
    ExprCanBeRemovedIfUnused ⟨loc, .EBinary BinOpLogicalOr left right⟩ isUnbound =
      andAlso (ExprCanBeRemovedIfUnused left isUnbound)
        (orElse (some (isSideEffectFreeUnboundIdentifierRef right left false isUnbound))
          (ExprCanBeRemovedIfUnused right isUnbound)) := rfl

theorem exprsCanBeRemovedIfUnused_cons (item : Expr) (rest : List Expr)
    (isUnbound : Ref → Bool) :
    exprsCanBeRemovedIfUnused (item :: rest) isUnbound =
      andAlso (ExprCanBeRemovedIfUnused item isUnbound)
        (exprsCanBeRemovedIfUnused rest isUnbound) := rfl

/-- The argument loop answers true exactly when every item is removable. -/
theorem exprsCanBeRemovedIfUnused_eq_true (items : List Expr) (isUnbound : Ref → Bool) :
    exprsCanBeRemovedIfUnused items isUnbound = some true ↔
      ∀ item ∈ items, ExprCanBeRemovedIfUnused item isUnbound = some true := by
  induction items with
  | nil => exact ⟨fun _ _ h => absurd h (List.not_mem_nil _), fun _ => rfl⟩
  | cons item rest ih =>
    rw [exprsCanBeRemovedIfUnused_cons, andAlso_eq_some_true, ih]
    simp only [List.mem_cons, forall_eq_or_imp]

/-! ## Guard narrowing -/

/-- The guard helper on `typeof x OP "text"` for an equality operator. -/
theorem guard_typeof_equality (idLoc loc tLoc tIdLoc sLoc : Loc) (ref : Ref)
    (mustKeep canBeRemoved mustKeep2 canBeRemoved2 : Bool) (text : List Nat) (op : OpCode)
    (isYesBranch : Bool) (isUnbound : Ref → Bool) (hunbound : isUnbound ref = true)
    (hop : op = BinOpStrictEq ∨ op = BinOpStrictNe ∨ op = BinOpLooseEq ∨ op = BinOpLooseNe) :
    isSideEffectFreeUnboundIdentifierRef ⟨idLoc, .EIdentifier ref mustKeep canBeRemoved⟩
        ⟨loc, .EBinary op (typeofIdentifier tLoc tIdLoc ref mustKeep2 canBeRemoved2)
          (stringLiteral sLoc text)⟩ isYesBranch isUnbound =
      ((decide (text = strUndefined) == isYesBranch) ==
        (decide (op = BinOpStrictNe) || decide (op = BinOpLooseNe))) ∧
    isSideEffectFreeUnboundIdentifierRef ⟨idLoc, .EIdentifier ref mustKeep canBeRemoved⟩
        ⟨loc, .EBinary op (stringLiteral sLoc text)
          (typeofIdentifier tLoc tIdLoc ref mustKeep2 canBeRemoved2)⟩ isYesBranch isUnbound =
      ((decide (text = strUndefined) == isYesBranch) ==
        (decide (op = BinOpStrictNe) || decide (op = BinOpLooseNe))) := by
  by_cases htext : text = strUndefined <;> cases isYesBranch <;>
    rcases hop with rfl | rfl | rfl | rfl <;>
    simp [isSideEffectFreeUnboundIdentifierRef, typeofIdentifier, stringLiteral, Expr.data,
      E.isEString, hunbound, UTF16EqualsString, htext]

/-- The test `typeof x OP "text"` is itself removable, in both operand orders. -/
theorem typeof_comparison_removable (loc tLoc tIdLoc sLoc : Loc) (ref : Ref)
    (mustKeep2 canBeRemoved2 : Bool) (text : List Nat) (op : OpCode) (isUnbound : Ref → Bool)
    (hop : op = BinOpStrictEq ∨ op = BinOpStrictNe ∨ op = BinOpLooseEq ∨ op = BinOpLooseNe) :
    ExprCanBeRemovedIfUnused ⟨loc, .EBinary op
        (typeofIdentifier tLoc tIdLoc ref mustKeep2 canBeRemoved2) (stringLiteral sLoc text)⟩
        isUnbound = some true ∧
    ExprCanBeRemovedIfUnused ⟨loc, .EBinary op (stringLiteral sLoc text)
        (typeofIdentifier tLoc tIdLoc ref mustKeep2 canBeRemoved2)⟩ isUnbound = some true := by
  rcases hop with rfl | rfl | rfl | rfl <;> exact ⟨rfl, rfl⟩

/-! ## Identifiers, logical operators and guarded references -/

/-- C2: an identifier expression is removable exactly when it is not flagged
`MustKeepDueToWithStmt` and it is flagged `CanBeRemovedIfUnused` or `isUnbound`
answers false for its reference; an identifier flagged `MustKeepDueToWithStmt`
is never removable, whatever its other flag and whatever the oracle. -/
theorem identifier_removable_iff (loc : Loc) (ref : Ref) (mustKeep canBeRemoved : Bool)
    (isUnbound : Ref → Bool) :
    ExprCanBeRemovedIfUnused ⟨loc, .EIdentifier ref mustKeep canBeRemoved⟩ isUnbound =
        some (!mustKeep && (canBeRemoved || !isUnbound ref)) ∧
    (ExprCanBeRemovedIfUnused ⟨loc, .EIdentifier ref mustKeep canBeRemoved⟩ isUnbound = some true ↔
        mustKeep = false ∧ (canBeRemoved = true ∨ isUnbound ref = false)) ∧
    (∀ (flag : Bool) (oracle : Ref → Bool),
        ExprCanBeRemovedIfUnused ⟨loc, .EIdentifier ref true flag⟩ oracle = some false) := by
  refine ⟨ExprCanBeRemovedIfUnused_EIdentifier _ _ _ _ _, ?_, ?_⟩
  · rw [ExprCanBeRemovedIfUnused_EIdentifier]
    cases mustKeep <;> cases canBeRemoved <;> cases isUnbound ref <;> simp
  · intro flag oracle
    rw [ExprCanBeRemovedIfUnused_EIdentifier]
    rfl

/-- C3: `l && r` is removable iff `l` is removable and `r` is either a guarded
reference (yes branch) or removable; `l || r` is the same with the no branch.
Stated both with Go's short-circuit evaluation and, when the operands return
verdicts `a` and `b`, as the boolean `a && (guard || b)`; a non-removable left
operand makes the whole expression non-removable, and so does a non-removable
right operand that is not a guarded reference. -/
theorem logical_and_or_removable (loc : Loc) (l r : Expr) (isUnbound : Ref → Bool) :
    ExprCanBeRemovedIfUnused ⟨loc, .EBinary BinOpLogicalAnd l r⟩ isUnbound =
        andAlso (ExprCanBeRemovedIfUnused l isUnbound)
          (orElse (some (isSideEffectFreeUnboundIdentifierRef r l true isUnbound))
            (ExprCanBeRemovedIfUnused r isUnbound)) ∧
    ExprCanBeRemovedIfUnused ⟨loc, .EBinary BinOpLogicalOr l r⟩ isUnbound =
        andAlso (ExprCanBeRemovedIfUnused l isUnbound)
          (orElse (some (isSideEffectFreeUnboundIdentifierRef r l false isUnbound))
            (ExprCanBeRemovedIfUnused r isUnbound)) ∧
    (∀ a b : Bool, ExprCanBeRemovedIfUnused l isUnbound = some a →
        ExprCanBeRemovedIfUnused r isUnbound = some b →
        ExprCanBeRemovedIfUnused ⟨loc, .EBinary BinOpLogicalAnd l r⟩ isUnbound =
            some (a && (isSideEffectFreeUnboundIdentifierRef r l true isUnbound || b)) ∧
        ExprCanBeRemovedIfUnused ⟨loc, .EBinary BinOpLogicalOr l r⟩ isUnbound =
            some (a && (isSideEffectFreeUnboundIdentifierRef r l false isUnbound || b))) ∧
    (ExprCanBeRemovedIfUnused l isUnbound = some false →
        ExprCanBeRemovedIfUnused ⟨loc, .EBinary BinOpLogicalAnd l r⟩ isUnbound = some false ∧
        ExprCanBeRemovedIfUnused ⟨loc, .EBinary BinOpLogicalOr l r⟩ isUnbound = some false) ∧
    (ExprCanBeRemovedIfUnused r isUnbound = some false →
        (isSideEffectFreeUnboundIdentifierRef r l true isUnbound = false →
          ExprCanBeRemovedIfUnused ⟨loc, .EBinary BinOpLogicalAnd l r⟩ isUnbound ≠ some true) ∧
        (isSideEffectFreeUnboundIdentifierRef r l false isUnbound = false →
          ExprCanBeRemovedIfUnused ⟨loc, .EBinary BinOpLogicalOr l r⟩ isUnbound ≠ some true)) := by
  refine ⟨rfl, rfl, ?_, ?_, ?_⟩
  · intro a b ha hb
    rw [ExprCanBeRemovedIfUnused_LogicalAnd, ExprCanBeRemovedIfUnused_LogicalOr, ha, hb,
      orElse_some, orElse_some, andAlso_some, andAlso_some]
    exact ⟨rfl, rfl⟩
  · intro ha
    rw [ExprCanBeRemovedIfUnused_LogicalAnd, ExprCanBeRemovedIfUnused_LogicalOr, ha]
    exact ⟨rfl, rfl⟩
  · intro hb
    constructor
    · intro hg
      rw [ExprCanBeRemovedIfUnused_LogicalAnd, hb, hg]
      intro h
      exact absurd ((andAlso_eq_some_true _ _).1 h).2 (by simp [orElse])
    · intro hg
      rw [ExprCanBeRemovedIfUnused_LogicalOr, hb, hg]
      intro h
      exact absurd ((andAlso_eq_some_true _ _).1 h).2 (by simp [orElse])

/-- Witness for C3 at `typeof x !== "undefined" && x()`: the left operand is
removable, the call is not, and the whole expression is not removable. -/
theorem logical_and_or_removable_witness :
    ExprCanBeRemovedIfUnused
        ⟨loc0, .EBinary BinOpLogicalAnd guardNotUndefined impureCall⟩ allUnbound = some false ∧
    ExprCanBeRemovedIfUnused
        ⟨loc0, .EBinary BinOpLogicalOr guardNotUndefined impureCall⟩ allUnbound = some false :=
  (logical_and_or_removable loc0 guardNotUndefined impureCall allUnbound).2.2.1
    true false rfl rfl

/-- C4: guard narrowing respects branch polarity. For an unbound identifier `x`
not flagged `CanBeRemovedIfUnused`, `T = typeof x` on the same reference, a
removable `n` and an equality operator `OP` comparing `T` with `"undefined"` in
either operand order: `T OP "undefined" ? x : n` is removable iff `OP` is `!==`
or `!=`, and `T OP "undefined" ? n : x` is removable iff `OP` is `===` or `==`. -/
theorem guard_narrowing_polarity (loc testLoc idLoc tLoc tIdLoc sLoc : Loc) (ref : Ref)
    (mustKeep mustKeep2 canBeRemoved2 : Bool) (n : Expr) (op : OpCode) (isUnbound : Ref → Bool)
    (hunbound : isUnbound ref = true)
    (hn : ExprCanBeRemovedIfUnused n isUnbound = some true)
    (hop : op = BinOpStrictEq ∨ op = BinOpStrictNe ∨ op = BinOpLooseEq ∨ op = BinOpLooseNe) :
    ExprCanBeRemovedIfUnused ⟨loc, .EIf
        ⟨testLoc, .EBinary op (typeofIdentifier tLoc tIdLoc ref mustKeep2 canBeRemoved2)
          (stringLiteral sLoc strUndefined)⟩
        ⟨idLoc, .EIdentifier ref mustKeep false⟩ n⟩ isUnbound =
      some (decide (op = BinOpStrictNe ∨ op = BinOpLooseNe)) ∧
    ExprCanBeRemovedIfUnused ⟨loc, .EIf
        ⟨testLoc, .EBinary op (stringLiteral sLoc strUndefined)
          (typeofIdentifier tLoc tIdLoc ref mustKeep2 canBeRemoved2)⟩
        ⟨idLoc, .EIdentifier ref mustKeep false⟩ n⟩ isUnbound =
      some (decide (op = BinOpStrictNe ∨ op = BinOpLooseNe)) ∧
    ExprCanBeRemovedIfUnused ⟨loc, .EIf
        ⟨testLoc, .EBinary op (typeofIdentifier tLoc tIdLoc ref mustKeep2 canBeRemoved2)
          (stringLiteral sLoc strUndefined)⟩
        n ⟨idLoc, .EIdentifier ref mustKeep false⟩⟩ isUnbound =
      some (decide (op = BinOpStrictEq ∨ op = BinOpLooseEq)) ∧
    ExprCanBeRemovedIfUnused ⟨loc, .EIf
        ⟨testLoc, .EBinary op (stringLiteral sLoc strUndefined)
          (typeofIdentifier tLoc tIdLoc ref mustKeep2 canBeRemoved2)⟩
        n ⟨idLoc, .EIdentifier ref mustKeep false⟩⟩ isUnbound =
      some (decide (op = BinOpStrictEq ∨ op = BinOpLooseEq)) := by
  have hx : ExprCanBeRemovedIfUnused ⟨idLoc, .EIdentifier ref mustKeep false⟩ isUnbound =
      some false := by
    rw [ExprCanBeRemovedIfUnused_EIdentifier, hunbound]
    cases mustKeep <;> rfl
  have htest := typeof_comparison_removable testLoc tLoc tIdLoc sLoc ref mustKeep2
    canBeRemoved2 strUndefined op isUnbound hop
  have hyes := guard_typeof_equality idLoc testLoc tLoc tIdLoc sLoc ref mustKeep false
    mustKeep2 canBeRemoved2 strUndefined op true isUnbound hunbound hop
  have hno := guard_typeof_equality idLoc testLoc tLoc tIdLoc sLoc ref mustKeep false
    mustKeep2 canBeRemoved2 strUndefined op false isUnbound hunbound hop
  simp only [ExprCanBeRemovedIfUnused_EIf, htest.1, htest.2, hyes.1, hyes.2, hno.1, hno.2, hx,
    hn, andAlso_true_left]
  rcases hop with rfl | rfl | rfl | rfl <;>
    cases isSideEffectFreeUnboundIdentifierRef n _ false isUnbound <;>
    cases isSideEffectFreeUnboundIdentifierRef n _ true isUnbound <;>
    cases isSideEffectFreeUnboundIdentifierRef n _ false isUnbound <;>
    cases isSideEffectFreeUnboundIdentifierRef n _ true isUnbound <;>
    exact ⟨rfl, rfl, rfl, rfl⟩

/-- Witness for C4 at `typeof x !== "undefined" ? x : null` with `x` unbound. -/
theorem guard_narrowing_polarity_witness :
    ExprCanBeRemovedIfUnused ⟨loc0, .EIf
        ⟨loc0, .EBinary BinOpStrictNe typeofX undefinedLiteral⟩ (identX false) nullLiteral⟩
        allUnbound = some true ∧
    ExprCanBeRemovedIfUnused ⟨loc0, .EIf
        ⟨loc0, .EBinary BinOpStrictNe typeofX undefinedLiteral⟩ nullLiteral (identX false)⟩
        allUnbound = some false :=
  have h := guard_narrowing_polarity loc0 loc0 loc0 loc0 loc0 loc0 refX false false false
    nullLiteral BinOpStrictNe allUnbound rfl rfl (Or.inr (Or.inl rfl))
  ⟨h.1, h.2.2.1⟩

/-- C5 (evaluation at the failing input): inside a `with` scope, where `x` is
flagged `MustKeepDueToWithStmt` and unbound, the bare reference `x` is not
removable, yet `typeof x !== "undefined" && x`, `typeof x === "undefined" || x`
and `typeof x !== "undefined" ? x : null` are all classified removable: the
guard helper never reads the flag. -/
theorem mustKeepDueToWithStmt_ignored_under_guard :
    ExprCanBeRemovedIfUnused (identX true) allUnbound = some false ∧
    ExprCanBeRemovedIfUnused
        ⟨loc0, .EBinary BinOpLogicalAnd guardNotUndefined (identX true)⟩ allUnbound = some true ∧
    ExprCanBeRemovedIfUnused
        ⟨loc0, .EBinary BinOpLogicalOr guardIsUndefined (identX true)⟩ allUnbound = some true ∧
    ExprCanBeRemovedIfUnused
        ⟨loc0, .EIf guardNotUndefined (identX true) nullLiteral⟩ allUnbound = some true := by
  decide

/-! ## Calls, comparisons and the fail-closed default -/

theorem CanChangeStrictToLoose_eq_true (a b : Expr) :
    CanChangeStrictToLoose a b = true ↔
      KnownPrimitiveType a = KnownPrimitiveType b ∧
        KnownPrimitiveType a ≠ PrimitiveUnknown ∧ KnownPrimitiveType a ≠ PrimitiveMixed := by
  simp [CanChangeStrictToLoose, and_assoc]

/-- C6: a call is removable exactly when it is marked `CanBeUnwrappedIfUnused`
or is an `InternalPublicFieldCall`, and every argument is removable; a `new`
expression exactly when it is marked `CanBeUnwrappedIfUnused` and every argument
is removable. Replacing the target (and the location) by any other leaves the
verdict unchanged. -/
theorem call_and_new_removable_iff (loc : Loc) (target : Expr) (args : List Expr)
    (optionalChain : OptionalChain) (canBeUnwrapped : Bool) (kind : CallKind)
    (isUnbound : Ref → Bool) :
    (ExprCanBeRemovedIfUnused ⟨loc, .ECall target args optionalChain canBeUnwrapped kind⟩
        isUnbound = some true ↔
      (canBeUnwrapped = true ∨ kind = CallKind.InternalPublicFieldCall) ∧
        ∀ arg ∈ args, ExprCanBeRemovedIfUnused arg isUnbound = some true) ∧
    (ExprCanBeRemovedIfUnused ⟨loc, .ENew target args canBeUnwrapped⟩ isUnbound = some true ↔
      canBeUnwrapped = true ∧
        ∀ arg ∈ args, ExprCanBeRemovedIfUnused arg isUnbound = some true) ∧
    (∀ (otherLoc : Loc) (otherTarget : Expr),
      ExprCanBeRemovedIfUnused
          ⟨otherLoc, .ECall otherTarget args optionalChain canBeUnwrapped kind⟩ isUnbound =
        ExprCanBeRemovedIfUnused ⟨loc, .ECall target args optionalChain canBeUnwrapped kind⟩
          isUnbound) ∧
    (∀ (otherLoc : Loc) (otherTarget : Expr),
      ExprCanBeRemovedIfUnused ⟨otherLoc, .ENew otherTarget args canBeUnwrapped⟩ isUnbound =
        ExprCanBeRemovedIfUnused ⟨loc, .ENew target args canBeUnwrapped⟩ isUnbound) := by
  refine ⟨?_, ?_, fun _ _ => rfl, fun _ _ => rfl⟩
  · show (if (canBeUnwrapped || decide (kind = CallKind.InternalPublicFieldCall)) = true
        then exprsCanBeRemovedIfUnused args isUnbound else some false) = some true ↔ _
    rw [← exprsCanBeRemovedIfUnused_eq_true]
    by_cases h : (canBeUnwrapped || decide (kind = CallKind.InternalPublicFieldCall)) = true
    · rw [if_pos h]
      simp only [Bool.or_eq_true, decide_eq_true_eq] at h
      exact ⟨fun h2 => ⟨h, h2⟩, fun h2 => h2.2⟩
    · rw [if_neg h]
      simp only [Bool.or_eq_true, decide_eq_true_eq] at h
      exact ⟨fun h2 => (by cases h2), fun h2 => absurd h2.1 h⟩
  · show (if canBeUnwrapped = true
        then exprsCanBeRemovedIfUnused args isUnbound else some false) = some true ↔ _
    rw [← exprsCanBeRemovedIfUnused_eq_true]
    by_cases h : canBeUnwrapped = true
    · rw [if_pos h]
      exact ⟨fun h2 => ⟨h, h2⟩, fun h2 => h2.2⟩
    · rw [if_neg h]
      exact ⟨fun h2 => (by cases h2), fun h2 => absurd h2.1 h⟩

/-- C7: `l == r` and `l != r` are removable exactly when both operands are
removable and have the same known primitive type, neither Unknown nor Mixed;
`l OP r` for a relational `OP` exactly when both operands are removable and
share one of the types String, Number, BigInt. -/
theorem comparison_removable_iff (loc : Loc) (l r : Expr) (isUnbound : Ref → Bool)
    (eqOp : OpCode) (heqOp : eqOp = BinOpLooseEq ∨ eqOp = BinOpLooseNe)
    (relOp : OpCode)
    (hrelOp : relOp = BinOpLt ∨ relOp = BinOpGt ∨ relOp = BinOpLe ∨ relOp = BinOpGe) :
    (ExprCanBeRemovedIfUnused ⟨loc, .EBinary eqOp l r⟩ isUnbound = some true ↔
      (ExprCanBeRemovedIfUnused l isUnbound = some true ∧
        ExprCanBeRemovedIfUnused r isUnbound = some true) ∧
      KnownPrimitiveType l = KnownPrimitiveType r ∧
      KnownPrimitiveType l ≠ PrimitiveUnknown ∧ KnownPrimitiveType l ≠ PrimitiveMixed) ∧
    (ExprCanBeRemovedIfUnused ⟨loc, .EBinary relOp l r⟩ isUnbound = some true ↔
      (ExprCanBeRemovedIfUnused l isUnbound = some true ∧
        ExprCanBeRemovedIfUnused r isUnbound = some true) ∧
      KnownPrimitiveType l = KnownPrimitiveType r ∧
      (KnownPrimitiveType l = PrimitiveString ∨ KnownPrimitiveType l = PrimitiveNumber ∨
        KnownPrimitiveType l = PrimitiveBigInt)) := by
  constructor
  · have heq : ExprCanBeRemovedIfUnused ⟨loc, .EBinary eqOp l r⟩ isUnbound =
        andAlso (some (CanChangeStrictToLoose l r))
          (andAlso (ExprCanBeRemovedIfUnused l isUnbound)
            (ExprCanBeRemovedIfUnused r isUnbound)) := by
      rcases heqOp with rfl | rfl <;> rfl
    rw [heq, andAlso_eq_some_true, andAlso_eq_some_true, Option.some_inj,
      CanChangeStrictToLoose_eq_true]
    tauto
  · have hrel : ExprCanBeRemovedIfUnused ⟨loc, .EBinary relOp l r⟩ isUnbound =
        if KnownPrimitiveType l = PrimitiveString ∨ KnownPrimitiveType l = PrimitiveNumber ∨
            KnownPrimitiveType l = PrimitiveBigInt then
          andAlso (some (decide (KnownPrimitiveType r = KnownPrimitiveType l)))
            (andAlso (ExprCanBeRemovedIfUnused l isUnbound)
              (ExprCanBeRemovedIfUnused r isUnbound))
        else some false := by
      rcases hrelOp with rfl | rfl | rfl | rfl <;> rfl
    rw [hrel]
    by_cases hk : KnownPrimitiveType l = PrimitiveString ∨
        KnownPrimitiveType l = PrimitiveNumber ∨ KnownPrimitiveType l = PrimitiveBigInt
    · rw [if_pos hk, andAlso_eq_some_true, andAlso_eq_some_true, Option.some_inj,
        decide_eq_true_eq]
      exact ⟨fun h => ⟨h.2, h.1.symm, hk⟩, fun h => ⟨h.2.1.symm, h.1⟩⟩
    · rw [if_neg hk]
      exact ⟨fun h => (by cases h), fun h => absurd h.2.2 hk⟩

/-- Witness for C7 at `typeof x == "undefined"` and `typeof x < "undefined"`. -/
theorem comparison_removable_iff_witness :
    ExprCanBeRemovedIfUnused ⟨loc0, .EBinary BinOpLooseEq typeofX undefinedLiteral⟩ allUnbound =
        some true ∧
    ExprCanBeRemovedIfUnused ⟨loc0, .EBinary BinOpLt typeofX undefinedLiteral⟩ allUnbound =
        some true :=
  have h := comparison_removable_iff loc0 typeofX undefinedLiteral allUnbound
    BinOpLooseEq (Or.inl rfl) BinOpLt (Or.inl rfl)
  ⟨h.1.2 ⟨⟨rfl, rfl⟩, rfl, by decide, by decide⟩, h.2.2 ⟨⟨rfl, rfl⟩, rfl, Or.inl rfl⟩⟩

/-- C8: the classifier fails closed. Every index access, spread and tagged
template, every unary `+ - ~ delete ++ --` and every arithmetic, bitwise, shift,
`in`, `instanceof` or assignment expression is not removable, for every choice
of operands, flags and oracle; a `.` property access is removable exactly when
its `CanBeRemovedIfUnused` flag is set. -/
theorem fails_closed (loc : Loc) (a b : Expr) (name : String) (optionalChain : OptionalChain)
    (flag otherFlag : Bool) (tag : Expr) (headCooked : List Nat) (parts : List TemplatePart)
    (isUnbound : Ref → Bool)
    (unOp : OpCode)
    (hunOp : unOp ∈ [UnOpPos, UnOpNeg, UnOpCpl, UnOpDelete,
      UnOpPreDec, UnOpPreInc, UnOpPostDec, UnOpPostInc])
    (binOp : OpCode)
    (hbinOp : binOp ∈ [BinOpAdd, BinOpSub, BinOpMul, BinOpDiv, BinOpRem, BinOpPow,
      BinOpBitwiseOr, BinOpBitwiseAnd, BinOpBitwiseXor, BinOpShl, BinOpShr, BinOpUShr,
      BinOpIn, BinOpInstanceof,
      BinOpAssign, BinOpAddAssign, BinOpSubAssign, BinOpMulAssign, BinOpDivAssign,
      BinOpRemAssign, BinOpPowAssign, BinOpShlAssign, BinOpShrAssign, BinOpUShrAssign,
      BinOpBitwiseOrAssign, BinOpBitwiseAndAssign, BinOpBitwiseXorAssign,
      BinOpNullishCoalescingAssign, BinOpLogicalOrAssign, BinOpLogicalAndAssign])
    (htag : tag.data.isNil = false) :
    ExprCanBeRemovedIfUnused ⟨loc, .EIndex a b optionalChain flag otherFlag⟩ isUnbound =
        some false ∧
    ExprCanBeRemovedIfUnused ⟨loc, .ESpread a⟩ isUnbound = some false ∧
    ExprCanBeRemovedIfUnused ⟨loc, .ETemplate tag headCooked parts⟩ isUnbound = some false ∧
    ExprCanBeRemovedIfUnused ⟨loc, .EUnary unOp a flag⟩ isUnbound = some false ∧
    ExprCanBeRemovedIfUnused ⟨loc, .EBinary binOp a b⟩ isUnbound = some false ∧
    ExprCanBeRemovedIfUnused ⟨loc, .EDot a name optionalChain flag otherFlag⟩ isUnbound =
        some flag := by
  refine ⟨rfl, rfl, ?_, ?_, ?_, rfl⟩
  · show (if tag.data.isNil = true then templatePartsCanBeRemovedIfUnused parts isUnbound
        else some false) = some false
    rw [htag]
    rfl
  · simp only [List.mem_cons, List.mem_singleton, List.not_mem_nil, or_false] at hunOp
    rcases hunOp with rfl | rfl | rfl | rfl | rfl | rfl | rfl | rfl <;> rfl
  · simp only [List.mem_cons, List.mem_singleton, List.not_mem_nil, or_false] at hbinOp
    rcases hbinOp with rfl | rfl | rfl | rfl | rfl | rfl | rfl | rfl | rfl | rfl | rfl | rfl |
      rfl | rfl | rfl | rfl | rfl | rfl | rfl | rfl | rfl | rfl | rfl | rfl | rfl | rfl | rfl |
      rfl | rfl | rfl <;> rfl

/-- Witness for C8 at `-x`, `x + x` and a template tagged with `x`. -/
theorem fails_closed_witness :
    ExprCanBeRemovedIfUnused ⟨loc0, .EUnary UnOpNeg oneLiteral false⟩ allBound = some false ∧
    ExprCanBeRemovedIfUnused ⟨loc0, .EBinary BinOpAdd oneLiteral oneLiteral⟩ allBound =
        some false ∧
    ExprCanBeRemovedIfUnused ⟨loc0, .ETemplate (identX false) [] []⟩ allBound = some false :=
  have h := fails_closed loc0 oneLiteral oneLiteral "" OptionalChain.OptionalChainNone true true
    (identX false) [] [] allBound UnOpNeg (by decide) BinOpAdd (by decide) rfl
  ⟨h.2.2.2.1, h.2.2.2.2.1, h.2.2.1⟩

/-! ## Statement lists -/

theorem andAlso_true_right (a b : Option Bool) :
    andAlso (andAlso a (some true)) b = andAlso a b := by
  rcases a with _ | a
  · rfl
  · cases a <;> rfl

/-- The loop of `StmtsCanBeRemovedIfUnused` handles the first statement, then
the rest. -/
theorem StmtsCanBeRemovedIfUnused_cons (stmt : Stmt) (rest : List Stmt)
    (flags : StmtsCanBeRemovedIfUnusedFlags) (isUnbound : Ref → Bool) :
    StmtsCanBeRemovedIfUnused (stmt :: rest) flags isUnbound =
      andAlso (StmtsCanBeRemovedIfUnused [stmt] flags isUnbound)
        (StmtsCanBeRemovedIfUnused rest flags isUnbound) := by
  obtain ⟨loc, s⟩ := stmt
  cases s with
  | SExpr value doesNotAffectTreeShaking =>
    cases doesNotAffectTreeShaking
    · exact (andAlso_true_right _ _).symm
    · rfl
  | SExportClause =>
    show (if (flags &&& KeepExportClauses) ≠ 0 then some false
        else StmtsCanBeRemovedIfUnused rest flags isUnbound) =
      andAlso (if (flags &&& KeepExportClauses) ≠ 0 then some false else some true)
        (StmtsCanBeRemovedIfUnused rest flags isUnbound)
    by_cases h : (flags &&& KeepExportClauses) ≠ 0
    · rw [if_pos h, if_pos h]; rfl
    · rw [if_neg h, if_neg h]; rfl
  | STry block catch_ finally_ =>
    cases finally_ <;> exact (andAlso_true_right _ _).symm
  | SExportDefault defaultName value =>
    obtain ⟨loc2, s2⟩ := value
    cases s2 <;> first
      | rfl
      | exact (andAlso_true_right _ _).symm
  | _ => first
      | rfl
      | exact (andAlso_true_right _ _).symm

/-- The verdict on a concatenation, under Go's short-circuit evaluation. -/
theorem StmtsCanBeRemovedIfUnused_append (xs ys : List Stmt)
    (flags : StmtsCanBeRemovedIfUnusedFlags) (isUnbound : Ref → Bool) :
    StmtsCanBeRemovedIfUnused (xs ++ ys) flags isUnbound =
      andAlso (StmtsCanBeRemovedIfUnused xs flags isUnbound)
        (StmtsCanBeRemovedIfUnused ys flags isUnbound) := by
  induction xs with
  | nil => rfl
  | cons x xs ih =>
    rw [List.cons_append, StmtsCanBeRemovedIfUnused_cons x (xs ++ ys), ih,
      StmtsCanBeRemovedIfUnused_cons x xs, andAlso_assoc]

/-- A list is removable exactly when each of its statements is. -/
theorem StmtsCanBeRemovedIfUnused_eq_true (xs : List Stmt)
    (flags : StmtsCanBeRemovedIfUnusedFlags) (isUnbound : Ref → Bool) :
    StmtsCanBeRemovedIfUnused xs flags isUnbound = some true ↔
      ∀ s ∈ xs, StmtsCanBeRemovedIfUnused [s] flags isUnbound = some true := by
  induction xs with
  | nil => exact ⟨fun _ _ h => absurd h (List.not_mem_nil _), fun _ => rfl⟩
  | cons x xs ih =>
    rw [StmtsCanBeRemovedIfUnused_cons, andAlso_eq_some_true, ih]
    simp only [List.mem_cons, forall_eq_or_imp]

/-- A statement kind without a case of its own is answered `false`. -/
theorem StmtsCanBeRemovedIfUnused_default (stmt : Stmt)
    (flags : StmtsCanBeRemovedIfUnusedFlags) (isUnbound : Ref → Bool)
    (h : stmt.data.hasCase = false) :
    StmtsCanBeRemovedIfUnused [stmt] flags isUnbound = some false := by
  obtain ⟨loc, s⟩ := stmt
  cases s <;> first
    | rfl
    | exact absurd h (by simp [Stmt.data, S.hasCase])

/-- C9: a statement sequence is removable iff every statement in it is. For
statement lists whose reachable export defaults all wrap an expression, function
or class statement, `StmtsCanBeRemovedIfUnused` returns a verdict on `xs`, on
`ys` and on `xs ++ ys`, the last being the conjunction of the first two; the
empty list is removable; and `xs` is removable exactly when each of its
statements is removable on its own. -/
theorem stmts_removable_iff_all (xs ys : List Stmt) (flags : StmtsCanBeRemovedIfUnusedFlags)
    (isUnbound : Ref → Bool)
    (hxs : stmtsWellFormed xs = true) (hys : stmtsWellFormed ys = true) :
    (∃ a b : Bool, StmtsCanBeRemovedIfUnused xs flags isUnbound = some a ∧
      StmtsCanBeRemovedIfUnused ys flags isUnbound = some b ∧
      StmtsCanBeRemovedIfUnused (xs ++ ys) flags isUnbound = some (a && b)) ∧
    StmtsCanBeRemovedIfUnused [] flags isUnbound = some true ∧
    (StmtsCanBeRemovedIfUnused xs flags isUnbound = some true ↔
      ∀ s ∈ xs, StmtsCanBeRemovedIfUnused [s] flags isUnbound = some true) := by
  obtain ⟨a, ha⟩ := StmtsCanBeRemovedIfUnused_returns isUnbound xs flags hxs
  obtain ⟨b, hb⟩ := StmtsCanBeRemovedIfUnused_returns isUnbound ys flags hys
  refine ⟨⟨a, b, ha, hb, ?_⟩, rfl, StmtsCanBeRemovedIfUnused_eq_true xs flags isUnbound⟩
  rw [StmtsCanBeRemovedIfUnused_append, ha, hb, andAlso_some]

/-- Witness for C9 at `try { 1 } finally { }; export default 1` followed by
`x();`. -/
theorem stmts_removable_iff_all_witness :
    StmtsCanBeRemovedIfUnused [tryStmt, exportDefaultStmt] 0 allUnbound = some true ∧
    StmtsCanBeRemovedIfUnused [impureCallStmt] 0 allUnbound = some false ∧
    StmtsCanBeRemovedIfUnused ([tryStmt, exportDefaultStmt] ++ [impureCallStmt]) 0 allUnbound =
        some false := by
  obtain ⟨⟨a, b, ha, hb, hab⟩, _, _⟩ := stmts_removable_iff_all
    [tryStmt, exportDefaultStmt] [impureCallStmt] 0 allUnbound rfl rfl
  have ha2 : StmtsCanBeRemovedIfUnused [tryStmt, exportDefaultStmt] 0 allUnbound = some true :=
    rfl
  have hb2 : StmtsCanBeRemovedIfUnused [impureCallStmt] 0 allUnbound = some false := rfl
  rw [ha2] at ha
  rw [hb2] at hb
  cases ha
  cases hb
  exact ⟨ha2, hb2, hab⟩

/-- C10 (counterexample): an `export ... from` statement is removable, and a
list that holds a `return` after a malformed export default panics instead of
answering false. -/
theorem export_from_is_removable :
    StmtsCanBeRemovedIfUnused [exportFromStmt] 0 allUnbound = some true ∧
    StmtsCanBeRemovedIfUnused [malformedExportDefault, returnStmt] 0 allUnbound = none := by
  decide

/-- C10 (amended): a statement list that contains a statement whose kind has no
case of its own in the switch (any kind other than function, empty, import,
class, expression, local, try, export-from, export clause and export default) is
never classified removable, for all flags; it is answered `false` whenever its
reachable export defaults are well formed. -/
theorem other_statement_kinds_not_removable (xs : List Stmt)
    (flags : StmtsCanBeRemovedIfUnusedFlags) (isUnbound : Ref → Bool) (stmt : Stmt)
    (hmem : stmt ∈ xs) (hkind : stmt.data.hasCase = false) :
    StmtsCanBeRemovedIfUnused xs flags isUnbound ≠ some true ∧
    (stmtsWellFormed xs = true → StmtsCanBeRemovedIfUnused xs flags isUnbound = some false) := by
  have hne : StmtsCanBeRemovedIfUnused xs flags isUnbound ≠ some true := by
    intro h
    have h1 := (StmtsCanBeRemovedIfUnused_eq_true xs flags isUnbound).1 h stmt hmem
    rw [StmtsCanBeRemovedIfUnused_default stmt flags isUnbound hkind] at h1
    cases h1
  refine ⟨hne, fun hwf => ?_⟩
  obtain ⟨b, hb⟩ := StmtsCanBeRemovedIfUnused_returns isUnbound xs flags hwf
  cases b
  · exact hb
  · exact absurd hb hne

/-- Witness for C10 (amended) at `export * from "..."; return`. -/
theorem other_statement_kinds_not_removable_witness :
    StmtsCanBeRemovedIfUnused [exportFromStmt, returnStmt] 1 allBound = some false :=
  (other_statement_kinds_not_removable [exportFromStmt, returnStmt] 1 allBound returnStmt
    (by simp) rfl).2 rfl

/-! ## Equations of `SimplifyUnusedExprWith`, one per node kind -/

theorem SimplifyUnusedExprWith_EInlinedEnum (again : Expr → Expr) (loc : Loc) (value : Expr)
    (original : Ref) (features : JSFeature) (isUnbound : Ref → Bool) :
    SimplifyUnusedExprWith again ⟨loc, .EInlinedEnum value original⟩ features isUnbound =
      SimplifyUnusedExprWith again value features isUnbound := rfl

theorem SimplifyUnusedExprWith_ETemplate (again : Expr → Expr) (loc : Loc) (tagOrNil : Expr)
    (headCooked : List Nat) (parts : List TemplatePart) (features : JSFeature)
    (isUnbound : Ref → Bool) :
    SimplifyUnusedExprWith again ⟨loc, .ETemplate tagOrNil headCooked parts⟩ features isUnbound =
      if tagOrNil.data.isNil then
        simplifyUnusedTemplateParts again parts Expr.empty ⟨0⟩ none features isUnbound
      else ⟨loc, .ETemplate tagOrNil headCooked parts⟩ := rfl

theorem SimplifyUnusedExprWith_EArray (again : Expr → Expr) (loc : Loc) (items : List Expr)
    (isSingleLine : Bool) (features : JSFeature) (isUnbound : Ref → Bool) :
    SimplifyUnusedExprWith again ⟨loc, .EArray items isSingleLine⟩ features isUnbound =
      if items.any (fun item => item.data.isESpread) then
        ⟨loc, .EArray (simplifyUnusedKeepNonEmpty again items features isUnbound) isSingleLine⟩
      else simplifyUnusedAndJoin again items Expr.empty features isUnbound := rfl

theorem SimplifyUnusedExprWith_EObject (again : Expr → Expr) (loc : Loc)
    (properties : List Property) (isSingleLine : Bool) (features : JSFeature)
    (isUnbound : Ref → Bool) :
    SimplifyUnusedExprWith again ⟨loc, .EObject properties isSingleLine⟩ features isUnbound =
      if properties.any (fun property => decide (property.kind = PropertyKind.PropertySpread))
      then
        ⟨loc, .EObject (simplifyUnusedObjectWithSpread again properties features isUnbound)
          isSingleLine⟩
      else simplifyUnusedPropertiesAndJoin again properties Expr.empty features isUnbound := rfl

theorem SimplifyUnusedExprWith_EIf (again : Expr → Expr) (loc : Loc) (test yes no : Expr)
    (features : JSFeature) (isUnbound : Ref → Bool) :
    SimplifyUnusedExprWith again ⟨loc, .EIf test yes no⟩ features isUnbound =
      if (SimplifyUnusedExprWith again yes features isUnbound).data.isNil &&
          (SimplifyUnusedExprWith again no features isUnbound).data.isNil then
        SimplifyUnusedExprWith again test features isUnbound
      else if (SimplifyUnusedExprWith again yes features isUnbound).data.isNil then
        JoinWithLeftAssociativeOp BinOpLogicalOr test
          (SimplifyUnusedExprWith again no features isUnbound)
      else if (SimplifyUnusedExprWith again no features isUnbound).data.isNil then
        JoinWithLeftAssociativeOp BinOpLogicalAnd test
          (SimplifyUnusedExprWith again yes features isUnbound)
      else ⟨loc, .EIf test (SimplifyUnusedExprWith again yes features isUnbound)
        (SimplifyUnusedExprWith again no features isUnbound)⟩ := rfl

theorem SimplifyUnusedExprWith_EUnary (again : Expr → Expr) (loc : Loc) (op : OpCode)
    (value : Expr) (flag : Bool) (features : JSFeature) (isUnbound : Ref → Bool) :
    SimplifyUnusedExprWith again ⟨loc, .EUnary op value flag⟩ features isUnbound =
      if op = UnOpVoid ∨ op = UnOpNot then SimplifyUnusedExprWith again value features isUnbound
      else if op = UnOpTypeof then
        if value.data.isEIdentifier && flag then Expr.empty
        else SimplifyUnusedExprWith again value features isUnbound
      else ⟨loc, .EUnary op value flag⟩ := rfl

theorem SimplifyUnusedExprWith_EBinary (again : Expr → Expr) (loc : Loc) (op : OpCode)
    (left right : Expr) (features : JSFeature) (isUnbound : Ref → Bool) :
    SimplifyUnusedExprWith again ⟨loc, .EBinary op left right⟩ features isUnbound =
      if op = BinOpStrictEq ∨ op = BinOpStrictNe ∨ op = BinOpComma then
        JoinWithComma (SimplifyUnusedExprWith again left features isUnbound)
          (SimplifyUnusedExprWith again right features isUnbound)
      else if op = BinOpLooseEq ∨ op = BinOpLooseNe then
        if IsPrimitiveWithSideEffects left.data && IsPrimitiveWithSideEffects right.data then
          JoinWithComma (SimplifyUnusedExprWith again left features isUnbound)
            (SimplifyUnusedExprWith again right features isUnbound)
        else ⟨loc, .EBinary op left right⟩
      else if op = BinOpLogicalAnd ∨ op = BinOpLogicalOr ∨ op = BinOpNullishCoalescing then
        if (SimplifyUnusedExprWith again right features isUnbound).data.isNil then
          again (if op ≠ BinOpNullishCoalescing then SimplifyBooleanExpr left else left)
        else
          logicalWithOptionalChain loc op
            (if op ≠ BinOpNullishCoalescing then SimplifyBooleanExpr left else left)
            (SimplifyUnusedExprWith again right features isUnbound) features
      else if op = BinOpAdd then
        if (simplifyUnusedStringAdditionChain ⟨loc, .EBinary op left right⟩).2 then
          (simplifyUnusedStringAdditionChain ⟨loc, .EBinary op left right⟩).1
        else (simplifyUnusedStringAdditionChain ⟨loc, .EBinary op left right⟩).1
      else ⟨loc, .EBinary op left right⟩ := rfl

theorem SimplifyUnusedExprWith_pure_ECall (again : Expr → Expr) (loc : Loc) (target : Expr)
    (args : List Expr) (optionalChain : OptionalChain) (kind : CallKind) (features : JSFeature)
    (isUnbound : Ref → Bool) :
    SimplifyUnusedExprWith again ⟨loc, .ECall target args optionalChain true kind⟩ features
        isUnbound =
      simplifyUnusedArgsAndJoin again args Expr.empty features isUnbound := rfl

theorem SimplifyUnusedExprWith_impure_ECall (again again2 : Expr → Expr) (loc : Loc)
    (target : Expr) (args : List Expr) (optionalChain : OptionalChain) (kind : CallKind)
    (features : JSFeature) (isUnbound : Ref → Bool) :
    SimplifyUnusedExprWith again ⟨loc, .ECall target args optionalChain false kind⟩ features
        isUnbound =
      SimplifyUnusedExprWith again2 ⟨loc, .ECall target args optionalChain false kind⟩ features
        isUnbound := by
  obtain ⟨targetLoc, target⟩ := target
  cases target <;> rfl

theorem SimplifyUnusedExprWith_ENew (again : Expr → Expr) (loc : Loc) (target : Expr)
    (args : List Expr) (canBeUnwrapped : Bool) (features : JSFeature)
    (isUnbound : Ref → Bool) :
    SimplifyUnusedExprWith again ⟨loc, .ENew target args canBeUnwrapped⟩ features isUnbound =
      if canBeUnwrapped then simplifyUnusedArgsAndJoin again args Expr.empty features isUnbound
      else ⟨loc, .ENew target args canBeUnwrapped⟩ := rfl

theorem simplifyUnusedTemplateParts_cons (again : Expr → Expr) (value : Expr)
    (tailCooked : List Nat) (rest : List TemplatePart) (comma : Expr) (templateLoc : Loc)
    (template : Option (List TemplatePart)) (features : JSFeature) (isUnbound : Ref → Bool) :
    simplifyUnusedTemplateParts again (⟨value, tailCooked⟩ :: rest) comma templateLoc template
        features isUnbound =
      if KnownPrimitiveType value ≠ PrimitiveUnknown then
        simplifyUnusedTemplateParts again rest
          (JoinWithComma
            (match template with
             | some collected => JoinWithComma comma (pendingTemplate templateLoc collected)
             | none => comma)
            (SimplifyUnusedExprWith again value features isUnbound))
          templateLoc none features isUnbound
      else
        match template with
        | none =>
          simplifyUnusedTemplateParts again rest comma value.loc (some [⟨value, []⟩])
            features isUnbound
        | some collected =>
          simplifyUnusedTemplateParts again rest comma templateLoc
            (some (collected ++ [⟨value, []⟩])) features isUnbound := rfl

theorem simplifyUnusedKeepNonEmpty_cons (again : Expr → Expr) (item : Expr) (rest : List Expr)
    (features : JSFeature) (isUnbound : Ref → Bool) :
    simplifyUnusedKeepNonEmpty again (item :: rest) features isUnbound =
      if (SimplifyUnusedExprWith again item features isUnbound).data.isNil then
        simplifyUnusedKeepNonEmpty again rest features isUnbound
      else SimplifyUnusedExprWith again item features isUnbound ::
        simplifyUnusedKeepNonEmpty again rest features isUnbound := rfl

theorem simplifyUnusedAndJoin_cons (again : Expr → Expr) (item : Expr) (rest : List Expr)
    (result : Expr) (features : JSFeature) (isUnbound : Ref → Bool) :
    simplifyUnusedAndJoin again (item :: rest) result features isUnbound =
      simplifyUnusedAndJoin again rest
        (JoinWithComma result (SimplifyUnusedExprWith again item features isUnbound))
        features isUnbound := rfl

theorem simplifyUnusedObjectWithSpread_cons (again : Expr → Expr) (kind : PropertyKind)
    (flags : PropertyFlags) (key valueOrNil initializerOrNil : Expr)
    (classStaticBlock : List Stmt) (rest : List Property) (features : JSFeature)
    (isUnbound : Ref → Bool) :
    simplifyUnusedObjectWithSpread again
        (⟨kind, flags, key, valueOrNil, initializerOrNil, classStaticBlock⟩ :: rest)
        features isUnbound =
      if kind ≠ PropertyKind.PropertySpread then
        if !(SimplifyUnusedExprWith again valueOrNil features isUnbound).data.isNil then
          ⟨kind, flags, key, SimplifyUnusedExprWith again valueOrNil features isUnbound,
              initializerOrNil, classStaticBlock⟩ ::
            simplifyUnusedObjectWithSpread again rest features isUnbound
        else if !flags.isComputed then
          simplifyUnusedObjectWithSpread again rest features isUnbound
        else
          ⟨kind, flags, key, ⟨valueOrNil.loc, .ENumber ⟨false, 0, 0⟩⟩, initializerOrNil,
              classStaticBlock⟩ ::
            simplifyUnusedObjectWithSpread again rest features isUnbound
      else
        ⟨kind, flags, key, valueOrNil, initializerOrNil, classStaticBlock⟩ ::
          simplifyUnusedObjectWithSpread again rest features isUnbound := rfl

theorem simplifyUnusedPropertiesAndJoin_cons (again : Expr → Expr) (kind : PropertyKind)
    (flags : PropertyFlags) (key valueOrNil initializerOrNil : Expr)
    (classStaticBlock : List Stmt) (rest : List Property) (result : Expr)
    (features : JSFeature) (isUnbound : Ref → Bool) :
    simplifyUnusedPropertiesAndJoin again
        (⟨kind, flags, key, valueOrNil, initializerOrNil, classStaticBlock⟩ :: rest)
        result features isUnbound =
      simplifyUnusedPropertiesAndJoin again rest
        (JoinWithComma
          (if flags.isComputed then
            JoinWithComma result ⟨key.loc, .EBinary BinOpAdd key ⟨key.loc, .EString []⟩⟩
           else result)
          (SimplifyUnusedExprWith again valueOrNil features isUnbound))
        features isUnbound := rfl

theorem simplifyUnusedArgsAndJoin_cons (again : Expr → Expr) (arg : Expr) (rest : List Expr)
    (result : Expr) (features : JSFeature) (isUnbound : Ref → Bool) :
    simplifyUnusedArgsAndJoin again (arg :: rest) result features isUnbound =
      simplifyUnusedArgsAndJoin again rest
        (JoinWithComma result
          (if arg.data.isESpread then
            ⟨arg.loc, .EArray
              (if (SimplifyUnusedExprWith again arg features isUnbound).data.isNil then []
               else [SimplifyUnusedExprWith again arg features isUnbound]) true⟩
           else SimplifyUnusedExprWith again arg features isUnbound))
        features isUnbound := rfl

/-! ## Sizes: the boolean simplifier never grows an expression -/

theorem Expr.size_pos (e : Expr) : 1 ≤ e.size := by
  obtain ⟨loc, d⟩ := e
  cases d <;> first
    | exact Nat.le_refl 1
    | exact Nat.succ_le_succ (Nat.zero_le _)

theorem Expr.size_EUnary (loc : Loc) (op : OpCode) (value : Expr) (flag : Bool) :
    Expr.size ⟨loc, .EUnary op value flag⟩ = value.size + 1 := rfl

theorem Expr.size_EBinary (loc : Loc) (op : OpCode) (left right : Expr) :
    Expr.size ⟨loc, .EBinary op left right⟩ = left.size + right.size + 1 := rfl

theorem Expr.size_EIf (loc : Loc) (test yes no : Expr) :
    Expr.size ⟨loc, .EIf test yes no⟩ = test.size + yes.size + no.size + 1 := rfl

theorem MaybeSimplifyNot_size : (e : Expr) → (r : Expr) → MaybeSimplifyNot e = some r →
    r.size ≤ e.size + 1
  | ⟨loc, .EInlinedEnum value original⟩, r, h => by
    have ih := MaybeSimplifyNot_size value r h
    have hs : Expr.size ⟨loc, .EInlinedEnum value original⟩ = value.size + 1 := rfl
    omega
  | ⟨_, .EUnary op value _⟩, r, h => by
    have h' : (if op = UnOpNot ∧ KnownPrimitiveType value = PrimitiveBoolean then some value
      else none) = some r := h
    by_cases hc : op = UnOpNot ∧ KnownPrimitiveType value = PrimitiveBoolean
    · rw [if_pos hc] at h'
      cases h'
      rw [Expr.size_EUnary]
      omega
    · rw [if_neg hc] at h'
      cases h'
  | ⟨loc, .EBinary op left right⟩, r, h => by
    have h' : (if op = BinOpLooseEq then some (⟨loc, .EBinary BinOpLooseNe left right⟩ : Expr)
      else if op = BinOpLooseNe then some ⟨loc, .EBinary BinOpLooseEq left right⟩
      else if op = BinOpStrictEq then some ⟨loc, .EBinary BinOpStrictNe left right⟩
      else if op = BinOpStrictNe then some ⟨loc, .EBinary BinOpStrictEq left right⟩
      else if op = BinOpComma then
        some ⟨loc, .EBinary op left
          (match MaybeSimplifyNot right with
           | some result => result
           | none => ⟨right.loc, .EUnary UnOpNot right false⟩)⟩
      else none) = some r := h
    have hright : Expr.size (match MaybeSimplifyNot right with
           | some result => result
           | none => ⟨right.loc, .EUnary UnOpNot right false⟩) ≤ right.size + 1 := by
      cases hm : MaybeSimplifyNot right with
      | none => exact Nat.le_refl _
      | some result => exact MaybeSimplifyNot_size right result hm
    split at h'
    · cases h'; simp only [Expr.size_EBinary]; omega
    · split at h'
      · cases h'; simp only [Expr.size_EBinary]; omega
      · split at h'
        · cases h'; simp only [Expr.size_EBinary]; omega
        · split at h'
          · cases h'; simp only [Expr.size_EBinary]; omega
          · split at h'
            · cases h'; simp only [Expr.size_EBinary]; omega
            · cases h'
  | ⟨_, .ENull⟩, r, h | ⟨_, .EUndefined⟩, r, h | ⟨_, .EBoolean _⟩, r, h
  | ⟨_, .ENumber _⟩, r, h | ⟨_, .EBigInt _⟩, r, h | ⟨_, .EString _⟩, r, h
  | ⟨_, .EFunction _⟩, r, h | ⟨_, .EArrow _ _ _ _⟩, r, h | ⟨_, .ERegExp _⟩, r, h => by
    cases h
    exact Nat.le_succ 1
  | ⟨_, .nil⟩, _, h | ⟨_, .EMissing⟩, _, h | ⟨_, .EThis⟩, _, h | ⟨_, .EImportMeta⟩, _, h
  | ⟨_, .EIdentifier _ _ _⟩, _, h | ⟨_, .EImportIdentifier _⟩, _, h
  | ⟨_, .EDot _ _ _ _ _⟩, _, h | ⟨_, .EIndex _ _ _ _ _⟩, _, h | ⟨_, .ECall _ _ _ _ _⟩, _, h
  | ⟨_, .ENew _ _ _⟩, _, h | ⟨_, .EIf _ _ _⟩, _, h | ⟨_, .ETemplate _ _ _⟩, _, h
  | ⟨_, .EArray _ _⟩, _, h | ⟨_, .EObject _ _⟩, _, h | ⟨_, .EClass _⟩, _, h
  | ⟨_, .ESpread _⟩, _, h => by cases h

theorem Not_size (e : Expr) : (Not e).size ≤ e.size + 1 := by
  unfold Not
  cases hm : MaybeSimplifyNot e with
  | none => exact Nat.le_refl _
  | some result => exact MaybeSimplifyNot_size e result hm

theorem joinAtCommaTail_size (f : Expr → Expr) (k : Nat)
    (hf : ∀ a0 : Expr, (f a0).size = a0.size + k) :
    (a : Expr) → (joinAtCommaTail f a).size = a.size + k
  | ⟨loc, .EBinary op left right⟩ => by
    have ih := joinAtCommaTail_size f k hf right
    have h : joinAtCommaTail f ⟨loc, .EBinary op left right⟩ =
        if op = BinOpComma then ⟨loc, .EBinary op left (joinAtCommaTail f right)⟩
        else f ⟨loc, .EBinary op left right⟩ := rfl
    rw [h]
    split
    · simp only [Expr.size_EBinary, ih]; omega
    · exact hf _
  | ⟨_, .nil⟩ | ⟨_, .ENull⟩ | ⟨_, .EUndefined⟩ | ⟨_, .EMissing⟩ | ⟨_, .EThis⟩
  | ⟨_, .EImportMeta⟩ | ⟨_, .EBoolean _⟩ | ⟨_, .ENumber _⟩ | ⟨_, .EBigInt _⟩
  | ⟨_, .EString _⟩ | ⟨_, .ERegExp _⟩ | ⟨_, .EIdentifier _ _ _⟩ | ⟨_, .EImportIdentifier _⟩
  | ⟨_, .EInlinedEnum _ _⟩ | ⟨_, .EDot _ _ _ _ _⟩ | ⟨_, .EIndex _ _ _ _ _⟩
  | ⟨_, .ECall _ _ _ _ _⟩ | ⟨_, .ENew _ _ _⟩ | ⟨_, .EUnary _ _ _⟩ | ⟨_, .EIf _ _ _⟩
  | ⟨_, .ETemplate _ _ _⟩ | ⟨_, .EArray _ _⟩ | ⟨_, .EObject _ _⟩ | ⟨_, .EFunction _⟩
  | ⟨_, .EArrow _ _ _ _⟩ | ⟨_, .EClass _⟩ | ⟨_, .ESpread _⟩ => hf _

theorem JoinWithLeftAssociativeOp_EBinary (op : OpCode) (a : Expr) (bLoc : Loc) (bOp : OpCode)
    (bLeft bRight : Expr) :
    JoinWithLeftAssociativeOp op a ⟨bLoc, .EBinary bOp bLeft bRight⟩ =
      joinAtCommaTail (fun a0 =>
        if bOp = op then
          JoinWithLeftAssociativeOp op (JoinWithLeftAssociativeOp op a0 bLeft) bRight
        else ⟨a0.loc, .EBinary op a0 ⟨bLoc, .EBinary bOp bLeft bRight⟩⟩) a := rfl

theorem Expr.size_mk_EBinary (op : OpCode) (a b : Expr) :
    Expr.size ⟨a.loc, .EBinary op a b⟩ = a.size + (b.size + 1) := by
  rw [Expr.size_EBinary]; omega

theorem JoinWithLeftAssociativeOp_size (op : OpCode) :
    (b : Expr) → (a : Expr) → (JoinWithLeftAssociativeOp op a b).size = a.size + (b.size + 1)
  | ⟨bLoc, .EBinary bOp bLeft bRight⟩, a => by
    rw [JoinWithLeftAssociativeOp_EBinary]
    apply joinAtCommaTail_size
    intro a0
    split
    · rw [JoinWithLeftAssociativeOp_size op bRight, JoinWithLeftAssociativeOp_size op bLeft,
        Expr.size_EBinary]
      omega
    · exact Expr.size_mk_EBinary _ _ _
  | ⟨_, .nil⟩, a | ⟨_, .ENull⟩, a | ⟨_, .EUndefined⟩, a | ⟨_, .EMissing⟩, a | ⟨_, .EThis⟩, a
  | ⟨_, .EImportMeta⟩, a | ⟨_, .EBoolean _⟩, a | ⟨_, .ENumber _⟩, a | ⟨_, .EBigInt _⟩, a
  | ⟨_, .EString _⟩, a | ⟨_, .ERegExp _⟩, a | ⟨_, .EIdentifier _ _ _⟩, a
  | ⟨_, .EImportIdentifier _⟩, a
  | ⟨_, .EInlinedEnum _ _⟩, a | ⟨_, .EDot _ _ _ _ _⟩, a | ⟨_, .EIndex _ _ _ _ _⟩, a
  | ⟨_, .ECall _ _ _ _ _⟩, a | ⟨_, .ENew _ _ _⟩, a | ⟨_, .EUnary _ _ _⟩, a | ⟨_, .EIf _ _ _⟩, a
  | ⟨_, .ETemplate _ _ _⟩, a | ⟨_, .EArray _ _⟩, a | ⟨_, .EObject _ _⟩, a | ⟨_, .EFunction _⟩, a
  | ⟨_, .EArrow _ _ _ _⟩, a | ⟨_, .EClass _⟩, a | ⟨_, .ESpread _⟩, a =>
    joinAtCommaTail_size _ _ (fun a0 => Expr.size_mk_EBinary op a0 _) a

/-! ## Equations of `SimplifyBooleanExpr` -/

theorem SimplifyBooleanExpr_EBinary (loc : Loc) (op : OpCode) (left right : Expr) :
    SimplifyBooleanExpr ⟨loc, .EBinary op left right⟩ =
      if op = BinOpStrictEq ∨ op = BinOpStrictNe ∨ op = BinOpLooseEq ∨ op = BinOpLooseNe then
        if (match extractNumericValue right.data with
            | some value => value.isZero && isInt32OrUint32 left.data
            | none => false) = true then
          if op = BinOpStrictNe ∨ op = BinOpLooseNe then left else Not left
        else ⟨loc, .EBinary op left right⟩
      else if op = BinOpLogicalAnd then
        if (ToBooleanWithSideEffects (SimplifyBooleanExpr right).data).2.2 = true ∧
            (ToBooleanWithSideEffects (SimplifyBooleanExpr right).data).1 = true ∧
            (ToBooleanWithSideEffects (SimplifyBooleanExpr right).data).2.1 = NoSideEffects then
          SimplifyBooleanExpr left
        else ⟨loc, .EBinary op (SimplifyBooleanExpr left) (SimplifyBooleanExpr right)⟩
      else if op = BinOpLogicalOr then
        if (ToBooleanWithSideEffects (SimplifyBooleanExpr right).data).2.2 = true ∧
            (ToBooleanWithSideEffects (SimplifyBooleanExpr right).data).1 = false ∧
            (ToBooleanWithSideEffects (SimplifyBooleanExpr right).data).2.1 = NoSideEffects then
          SimplifyBooleanExpr left
        else ⟨loc, .EBinary op (SimplifyBooleanExpr left) (SimplifyBooleanExpr right)⟩
      else ⟨loc, .EBinary op left right⟩ := rfl

theorem SimplifyBooleanExpr_EIf (loc : Loc) (test yes no : Expr) :
    SimplifyBooleanExpr ⟨loc, .EIf test yes no⟩ =
      if (ToBooleanWithSideEffects (SimplifyBooleanExpr yes).data).2.2 = true ∧
          (ToBooleanWithSideEffects (SimplifyBooleanExpr yes).data).2.1 = NoSideEffects then
        if (ToBooleanWithSideEffects (SimplifyBooleanExpr yes).data).1 then
          JoinWithLeftAssociativeOp BinOpLogicalOr test (SimplifyBooleanExpr no)
        else JoinWithLeftAssociativeOp BinOpLogicalAnd (Not test) (SimplifyBooleanExpr no)
      else if (ToBooleanWithSideEffects (SimplifyBooleanExpr no).data).2.2 = true ∧
          (ToBooleanWithSideEffects (SimplifyBooleanExpr no).data).2.1 = NoSideEffects then
        if (ToBooleanWithSideEffects (SimplifyBooleanExpr no).data).1 then
          JoinWithLeftAssociativeOp BinOpLogicalOr (Not test) (SimplifyBooleanExpr yes)
        else JoinWithLeftAssociativeOp BinOpLogicalAnd test (SimplifyBooleanExpr yes)
      else ⟨loc, .EIf test (SimplifyBooleanExpr yes) (SimplifyBooleanExpr no)⟩ := rfl

theorem SimplifyBooleanExpr_not_not (loc loc2 : Loc) (value2 : Expr) (flag flag2 : Bool) :
    SimplifyBooleanExpr ⟨loc, .EUnary UnOpNot ⟨loc2, .EUnary UnOpNot value2 flag2⟩ flag⟩ =
      SimplifyBooleanExpr value2 := rfl

/-- The `EUnary` case: the result is the simplified operand under a double
negation, the node itself with a simplified operand under one negation, and
the node itself for any other operator. -/
theorem SimplifyBooleanExpr_EUnary (loc : Loc) (op : OpCode) (value : Expr) (flag : Bool) :
    (∃ (loc2 : Loc) (value2 : Expr) (flag2 : Bool), op = UnOpNot ∧
      value = ⟨loc2, .EUnary UnOpNot value2 flag2⟩ ∧
      SimplifyBooleanExpr ⟨loc, .EUnary op value flag⟩ = SimplifyBooleanExpr value2) ∨
    (op = UnOpNot ∧ SimplifyBooleanExpr ⟨loc, .EUnary op value flag⟩ =
      ⟨loc, .EUnary op (SimplifyBooleanExpr value) flag⟩) ∨
    (op ≠ UnOpNot ∧ SimplifyBooleanExpr ⟨loc, .EUnary op value flag⟩ =
      ⟨loc, .EUnary op value flag⟩) := by
  by_cases hop : op = UnOpNot
  · subst hop
    obtain ⟨loc2, d⟩ := value
    cases d with
    | EUnary op2 value2 flag2 =>
      by_cases hop2 : op2 = UnOpNot
      · subst hop2
        exact Or.inl ⟨loc2, value2, flag2, rfl, rfl, rfl⟩
      · refine Or.inr (Or.inl ⟨rfl, ?_⟩)
        show (if UnOpNot = UnOpNot then
            (if op2 = UnOpNot then SimplifyBooleanExpr value2
             else (⟨loc, .EUnary UnOpNot
               (SimplifyBooleanExpr ⟨loc2, .EUnary op2 value2 flag2⟩) flag⟩ : Expr))
          else _) = _
        rw [if_pos rfl, if_neg hop2]
    | _ => exact Or.inr (Or.inl ⟨rfl, rfl⟩)
  · refine Or.inr (Or.inr ⟨hop, ?_⟩)
    obtain ⟨loc2, d⟩ := value
    cases d <;>
      (show (if op = UnOpNot then _ else (⟨loc, .EUnary op _ flag⟩ : Expr)) = _
       rw [if_neg hop])

theorem SimplifyBooleanExpr_size : (e : Expr) → (SimplifyBooleanExpr e).size ≤ e.size
  | ⟨loc, .EUnary op value flag⟩ => by
    rcases SimplifyBooleanExpr_EUnary loc op value flag with
      ⟨loc2, value2, flag2, _, hv, h⟩ | ⟨_, h⟩ | ⟨_, h⟩
    · rw [h]
      have hle : (SimplifyBooleanExpr value2).size ≤ value2.size := by
        subst hv
        exact SimplifyBooleanExpr_size value2
      rw [Expr.size_EUnary, hv, Expr.size_EUnary]
      omega
    · rw [h, Expr.size_EUnary, Expr.size_EUnary]
      have := SimplifyBooleanExpr_size value
      omega
    · rw [h]
  | ⟨loc, .EBinary op left right⟩ => by
    have ihl := SimplifyBooleanExpr_size left
    have ihr := SimplifyBooleanExpr_size right
    have hr := Expr.size_pos right
    have hn := Not_size left
    rw [SimplifyBooleanExpr_EBinary]
    repeat' split
    all_goals first
      | omega
      | (simp only [Expr.size_EBinary]; omega)
  | ⟨loc, .EIf test yes no⟩ => by
    have ihy := SimplifyBooleanExpr_size yes
    have ihn := SimplifyBooleanExpr_size no
    have hy := Expr.size_pos (SimplifyBooleanExpr yes)
    have hn := Expr.size_pos (SimplifyBooleanExpr no)
    have hnot := Not_size test
    rw [SimplifyBooleanExpr_EIf]
    repeat' split
    all_goals first
      | omega
      | (simp only [Expr.size_EIf, JoinWithLeftAssociativeOp_size]; omega)
  | ⟨_, .nil⟩ | ⟨_, .ENull⟩ | ⟨_, .EUndefined⟩ | ⟨_, .EMissing⟩ | ⟨_, .EThis⟩
  | ⟨_, .EImportMeta⟩ | ⟨_, .EBoolean _⟩ | ⟨_, .ENumber _⟩ | ⟨_, .EBigInt _⟩
  | ⟨_, .EString _⟩ | ⟨_, .ERegExp _⟩ | ⟨_, .EIdentifier _ _ _⟩ | ⟨_, .EImportIdentifier _⟩
  | ⟨_, .EInlinedEnum _ _⟩ | ⟨_, .EDot _ _ _ _ _⟩ | ⟨_, .EIndex _ _ _ _ _⟩
  | ⟨_, .ECall _ _ _ _ _⟩ | ⟨_, .ENew _ _ _⟩
  | ⟨_, .ETemplate _ _ _⟩ | ⟨_, .EArray _ _⟩ | ⟨_, .EObject _ _⟩ | ⟨_, .EFunction _⟩
  | ⟨_, .EArrow _ _ _ _⟩ | ⟨_, .EClass _⟩ | ⟨_, .ESpread _⟩ => Nat.le_refl _

/-! ## The bound on nested calls is always enough -/

theorem Expr.size_EInlinedEnum (loc : Loc) (value : Expr) (original : Ref) :
    Expr.size ⟨loc, .EInlinedEnum value original⟩ = value.size + 1 := rfl

theorem Expr.size_EArray (loc : Loc) (items : List Expr) (isSingleLine : Bool) :
    Expr.size ⟨loc, .EArray items isSingleLine⟩ = Expr.sizeList items + 1 := rfl

theorem Expr.size_EObject (loc : Loc) (properties : List Property) (isSingleLine : Bool) :
    Expr.size ⟨loc, .EObject properties isSingleLine⟩ = Expr.sizeProperties properties + 1 := rfl

theorem Expr.size_ECall (loc : Loc) (target : Expr) (args : List Expr)
    (optionalChain : OptionalChain) (canBeUnwrapped : Bool) (kind : CallKind) :
    Expr.size ⟨loc, .ECall target args optionalChain canBeUnwrapped kind⟩ =
      Expr.sizeList args + 1 := rfl

theorem Expr.size_ENew (loc : Loc) (target : Expr) (args : List Expr) (canBeUnwrapped : Bool) :
    Expr.size ⟨loc, .ENew target args canBeUnwrapped⟩ = Expr.sizeList args + 1 := rfl

theorem Expr.size_ETemplate (loc : Loc) (tagOrNil : Expr) (headCooked : List Nat)
    (parts : List TemplatePart) :
    Expr.size ⟨loc, .ETemplate tagOrNil headCooked parts⟩ = Expr.sizeParts parts + 1 := rfl

theorem Expr.sizeList_cons (item : Expr) (rest : List Expr) :
    Expr.sizeList (item :: rest) = item.size + Expr.sizeList rest := rfl

theorem Expr.sizeParts_cons (value : Expr) (tailCooked : List Nat) (rest : List TemplatePart) :
    Expr.sizeParts (⟨value, tailCooked⟩ :: rest) = value.size + Expr.sizeParts rest := rfl

theorem Expr.sizeProperties_cons (kind : PropertyKind) (flags : PropertyFlags)
    (key valueOrNil initializerOrNil : Expr) (classStaticBlock : List Stmt)
    (rest : List Property) :
    Expr.sizeProperties
        (⟨kind, flags, key, valueOrNil, initializerOrNil, classStaticBlock⟩ :: rest) =
      valueOrNil.size + Expr.sizeProperties rest := rfl

set_option maxHeartbeats 1000000 in
mutual

/-- The body of the reducer only applies `again` to expressions smaller than
its argument. -/
theorem SimplifyUnusedExprWith_congr (again again2 : Expr → Expr) (features : JSFeature)
    (isUnbound : Ref → Bool) :
    (e : Expr) → (∀ x : Expr, x.size < e.size → again x = again2 x) →
      SimplifyUnusedExprWith again e features isUnbound =
        SimplifyUnusedExprWith again2 e features isUnbound
  | ⟨loc, .EInlinedEnum value original⟩, h => by
    simp only [SimplifyUnusedExprWith_EInlinedEnum]
    exact SimplifyUnusedExprWith_congr again again2 features isUnbound value
      (fun x hx => h x (by rw [Expr.size_EInlinedEnum]; omega))
  | ⟨loc, .ETemplate tagOrNil headCooked parts⟩, h => by
    simp only [SimplifyUnusedExprWith_ETemplate]
    rw [simplifyUnusedTemplateParts_congr again again2 features isUnbound parts
      (fun x hx => h x (by rw [Expr.size_ETemplate]; omega))]
  | ⟨loc, .EArray items isSingleLine⟩, h => by
    simp only [SimplifyUnusedExprWith_EArray]
    rw [simplifyUnusedKeepNonEmpty_congr again again2 features isUnbound items
        (fun x hx => h x (by rw [Expr.size_EArray]; omega)),
      simplifyUnusedAndJoin_congr again again2 features isUnbound items
        (fun x hx => h x (by rw [Expr.size_EArray]; omega))]
  | ⟨loc, .EObject properties isSingleLine⟩, h => by
    simp only [SimplifyUnusedExprWith_EObject]
    rw [simplifyUnusedObjectWithSpread_congr again again2 features isUnbound properties
        (fun x hx => h x (by rw [Expr.size_EObject]; omega)),
      simplifyUnusedPropertiesAndJoin_congr again again2 features isUnbound properties
        (fun x hx => h x (by rw [Expr.size_EObject]; omega))]
  | ⟨loc, .EIf test yes no⟩, h => by
    simp only [SimplifyUnusedExprWith_EIf]
    rw [SimplifyUnusedExprWith_congr again again2 features isUnbound test
        (fun x hx => h x (by rw [Expr.size_EIf]; omega)),
      SimplifyUnusedExprWith_congr again again2 features isUnbound yes
        (fun x hx => h x (by rw [Expr.size_EIf]; omega)),
      SimplifyUnusedExprWith_congr again again2 features isUnbound no
        (fun x hx => h x (by rw [Expr.size_EIf]; omega))]
  | ⟨loc, .EUnary op value flag⟩, h => by
    simp only [SimplifyUnusedExprWith_EUnary]
    rw [SimplifyUnusedExprWith_congr again again2 features isUnbound value
        (fun x hx => h x (by rw [Expr.size_EUnary]; omega))]
  | ⟨loc, .EBinary op left right⟩, h => by
    simp only [SimplifyUnusedExprWith_EBinary]
    have hleft : again (if op ≠ BinOpNullishCoalescing then SimplifyBooleanExpr left else left) =
        again2 (if op ≠ BinOpNullishCoalescing then SimplifyBooleanExpr left else left) := by
      apply h
      rw [Expr.size_EBinary]
      have := SimplifyBooleanExpr_size left
      have := Expr.size_pos right
      split <;> omega
    rw [SimplifyUnusedExprWith_congr again again2 features isUnbound left
        (fun x hx => h x (by rw [Expr.size_EBinary]; omega)),
      SimplifyUnusedExprWith_congr again again2 features isUnbound right
        (fun x hx => h x (by rw [Expr.size_EBinary]; omega)), hleft]
  | ⟨loc, .ECall target args optionalChain canBeUnwrapped kind⟩, h => by
    cases canBeUnwrapped
    · exact SimplifyUnusedExprWith_impure_ECall again again2 loc target args optionalChain kind
        features isUnbound
    · simp only [SimplifyUnusedExprWith_pure_ECall]
      exact simplifyUnusedArgsAndJoin_congr again again2 features isUnbound args
        (fun x hx => h x (by rw [Expr.size_ECall]; omega)) _
  | ⟨loc, .ENew target args canBeUnwrapped⟩, h => by
    simp only [SimplifyUnusedExprWith_ENew]
    rw [simplifyUnusedArgsAndJoin_congr again again2 features isUnbound args
        (fun x hx => h x (by rw [Expr.size_ENew]; omega))]
  | ⟨_, .nil⟩, _ | ⟨_, .ENull⟩, _ | ⟨_, .EUndefined⟩, _ | ⟨_, .EMissing⟩, _ | ⟨_, .EThis⟩, _
  | ⟨_, .EImportMeta⟩, _ | ⟨_, .EBoolean _⟩, _ | ⟨_, .ENumber _⟩, _ | ⟨_, .EBigInt _⟩, _
  | ⟨_, .EString _⟩, _ | ⟨_, .ERegExp _⟩, _ | ⟨_, .EIdentifier _ _ _⟩, _
  | ⟨_, .EImportIdentifier _⟩, _ | ⟨_, .EDot _ _ _ _ _⟩, _ | ⟨_, .EIndex _ _ _ _ _⟩, _
  | ⟨_, .EFunction _⟩, _ | ⟨_, .EArrow _ _ _ _⟩, _ | ⟨_, .EClass _⟩, _ | ⟨_, .ESpread _⟩, _ =>
    rfl

theorem simplifyUnusedTemplateParts_congr (again again2 : Expr → Expr) (features : JSFeature)
    (isUnbound : Ref → Bool) :
    (parts : List TemplatePart) →
      (∀ x : Expr, x.size < Expr.sizeParts parts + 1 → again x = again2 x) →
      ∀ (comma : Expr) (templateLoc : Loc) (template : Option (List TemplatePart)),
        simplifyUnusedTemplateParts again parts comma templateLoc template features isUnbound =
          simplifyUnusedTemplateParts again2 parts comma templateLoc template features isUnbound
  | [], _ => fun _ _ _ => rfl
  | ⟨value, tailCooked⟩ :: rest, h => by
    intro comma templateLoc template
    have ihRest := simplifyUnusedTemplateParts_congr again again2 features isUnbound rest
      (fun x hx => h x (by rw [Expr.sizeParts_cons]; omega))
    have ihValue := SimplifyUnusedExprWith_congr again again2 features isUnbound value
      (fun x hx => h x (by rw [Expr.sizeParts_cons]; omega))
    simp only [simplifyUnusedTemplateParts_cons, ihValue]
    split
    · exact ihRest _ _ _
    · cases template
      · exact ihRest _ _ _
      · exact ihRest _ _ _

theorem simplifyUnusedKeepNonEmpty_congr (again again2 : Expr → Expr) (features : JSFeature)
    (isUnbound : Ref → Bool) :
    (items : List Expr) →
      (∀ x : Expr, x.size < Expr.sizeList items + 1 → again x = again2 x) →
      simplifyUnusedKeepNonEmpty again items features isUnbound =
        simplifyUnusedKeepNonEmpty again2 items features isUnbound
  | [], _ => rfl
  | item :: rest, h => by
    have ihRest := simplifyUnusedKeepNonEmpty_congr again again2 features isUnbound rest
      (fun x hx => h x (by rw [Expr.sizeList_cons]; omega))
    have ihItem := SimplifyUnusedExprWith_congr again again2 features isUnbound item
      (fun x hx => h x (by rw [Expr.sizeList_cons]; omega))
    simp only [simplifyUnusedKeepNonEmpty_cons, ihItem, ihRest]

theorem simplifyUnusedAndJoin_congr (again again2 : Expr → Expr) (features : JSFeature)
    (isUnbound : Ref → Bool) :
    (items : List Expr) →
      (∀ x : Expr, x.size < Expr.sizeList items + 1 → again x = again2 x) →
      ∀ result : Expr,
        simplifyUnusedAndJoin again items result features isUnbound =
          simplifyUnusedAndJoin again2 items result features isUnbound
  | [], _ => fun _ => rfl
  | item :: rest, h => by
    intro result
    have ihRest := simplifyUnusedAndJoin_congr again again2 features isUnbound rest
      (fun x hx => h x (by rw [Expr.sizeList_cons]; omega))
    have ihItem := SimplifyUnusedExprWith_congr again again2 features isUnbound item
      (fun x hx => h x (by rw [Expr.sizeList_cons]; omega))
    simp only [simplifyUnusedAndJoin_cons, ihItem]
    exact ihRest _

theorem simplifyUnusedObjectWithSpread_congr (again again2 : Expr → Expr)
    (features : JSFeature) (isUnbound : Ref → Bool) :
    (properties : List Property) →
      (∀ x : Expr, x.size < Expr.sizeProperties properties + 1 → again x = again2 x) →
      simplifyUnusedObjectWithSpread again properties features isUnbound =
        simplifyUnusedObjectWithSpread again2 properties features isUnbound
  | [], _ => rfl
  | ⟨kind, flags, key, valueOrNil, initializerOrNil, classStaticBlock⟩ :: rest, h => by
    have ihRest := simplifyUnusedObjectWithSpread_congr again again2 features isUnbound rest
      (fun x hx => h x (by rw [Expr.sizeProperties_cons]; omega))
    have ihValue := SimplifyUnusedExprWith_congr again again2 features isUnbound valueOrNil
      (fun x hx => h x (by rw [Expr.sizeProperties_cons]; omega))
    simp only [simplifyUnusedObjectWithSpread_cons, ihValue, ihRest]

theorem simplifyUnusedPropertiesAndJoin_congr (again again2 : Expr → Expr)
    (features : JSFeature) (isUnbound : Ref → Bool) :
    (properties : List Property) →
      (∀ x : Expr, x.size < Expr.sizeProperties properties + 1 → again x = again2 x) →
      ∀ result : Expr,
        simplifyUnusedPropertiesAndJoin again properties result features isUnbound =
          simplifyUnusedPropertiesAndJoin again2 properties result features isUnbound
  | [], _ => fun _ => rfl
  | ⟨kind, flags, key, valueOrNil, initializerOrNil, classStaticBlock⟩ :: rest, h => by
    intro result
    have ihRest := simplifyUnusedPropertiesAndJoin_congr again again2 features isUnbound rest
      (fun x hx => h x (by rw [Expr.sizeProperties_cons]; omega))
    have ihValue := SimplifyUnusedExprWith_congr again again2 features isUnbound valueOrNil
      (fun x hx => h x (by rw [Expr.sizeProperties_cons]; omega))
    simp only [simplifyUnusedPropertiesAndJoin_cons, ihValue]
    exact ihRest _

theorem simplifyUnusedArgsAndJoin_congr (again again2 : Expr → Expr) (features : JSFeature)
    (isUnbound : Ref → Bool) :
    (args : List Expr) →
      (∀ x : Expr, x.size < Expr.sizeList args + 1 → again x = again2 x) →
      ∀ result : Expr,
        simplifyUnusedArgsAndJoin again args result features isUnbound =
          simplifyUnusedArgsAndJoin again2 args result features isUnbound
  | [], _ => fun _ => rfl
  | arg :: rest, h => by
    intro result
    have ihRest := simplifyUnusedArgsAndJoin_congr again again2 features isUnbound rest
      (fun x hx => h x (by rw [Expr.sizeList_cons]; omega))
    have ihArg := SimplifyUnusedExprWith_congr again again2 features isUnbound arg
      (fun x hx => h x (by rw [Expr.sizeList_cons]; omega))
    simp only [simplifyUnusedArgsAndJoin_cons, ihArg]
    exact ihRest _

end

/-- With enough fuel the result does not depend on the fuel. -/
theorem SimplifyUnusedExprFuel_stable (features : JSFeature) (isUnbound : Ref → Bool) :
    ∀ (n m : Nat) (e : Expr), e.size ≤ n → e.size ≤ m →
      SimplifyUnusedExprFuel n e features isUnbound =
        SimplifyUnusedExprFuel m e features isUnbound := by
  intro n
  induction n with
  | zero =>
    intro m e hn _
    have := Expr.size_pos e
    omega
  | succ n ih =>
    intro m e hn hm
    cases m with
    | zero =>
      have := Expr.size_pos e
      omega
    | succ m =>
      show SimplifyUnusedExprWith _ e features isUnbound =
        SimplifyUnusedExprWith _ e features isUnbound
      apply SimplifyUnusedExprWith_congr
      intro x hx
      exact ih m x (by omega) (by omega)

/-- The recursion equation of the Go function: `SimplifyUnusedExpr` is its own
body, with itself for the call on the rewritten left operand. -/
theorem SimplifyUnusedExpr_unfold (e : Expr) (features : JSFeature) (isUnbound : Ref → Bool) :
    SimplifyUnusedExpr e features isUnbound =
      SimplifyUnusedExprWith (fun x => SimplifyUnusedExpr x features isUnbound) e features
        isUnbound := by
  have hpos := Expr.size_pos e
  obtain ⟨k, hk⟩ : ∃ k, e.size = k + 1 := ⟨e.size - 1, by omega⟩
  show SimplifyUnusedExprFuel e.size e features isUnbound = _
  rw [hk]
  show SimplifyUnusedExprWith _ e features isUnbound = _
  apply SimplifyUnusedExprWith_congr
  intro x hx
  exact SimplifyUnusedExprFuel_stable features isUnbound k x.size x (by omega) (Nat.le_refl _)

/-! ## Classes -/

theorem classPropertiesCanBeRemovedIfUnused_cons (kind : PropertyKind) (flags : PropertyFlags)
    (key valueOrNil initializerOrNil : Expr) (classStaticBlock : List Stmt)
    (rest : List Property) (isUnbound : Ref → Bool) :
    classPropertiesCanBeRemovedIfUnused
        (⟨kind, flags, key, valueOrNil, initializerOrNil, classStaticBlock⟩ :: rest) isUnbound =
      if kind = PropertyKind.PropertyClassStaticBlock then
        andAlso (StmtsCanBeRemovedIfUnused classStaticBlock 0 isUnbound)
          (classPropertiesCanBeRemovedIfUnused rest isUnbound)
      else if flags.isComputed && !IsPrimitiveLiteral key.data then some false
      else if flags.isStatic then
        andAlso
          (if valueOrNil.data.isNil then some true
           else ExprCanBeRemovedIfUnused valueOrNil isUnbound)
          (andAlso
            (if initializerOrNil.data.isNil then some true
             else ExprCanBeRemovedIfUnused initializerOrNil isUnbound)
            (classPropertiesCanBeRemovedIfUnused rest isUnbound))
      else classPropertiesCanBeRemovedIfUnused rest isUnbound := rfl

theorem classCanBeRemovedIfUnused_mk (extendsOrNil : Expr) (properties : List Property)
    (isUnbound : Ref → Bool) :
    classCanBeRemovedIfUnused ⟨extendsOrNil, properties⟩ isUnbound =
      andAlso
        (if extendsOrNil.data.isNil then some true
         else ExprCanBeRemovedIfUnused extendsOrNil isUnbound)
        (classPropertiesCanBeRemovedIfUnused properties isUnbound) := rfl

theorem andAlso_assoc_true (a b c : Option Bool) :
    andAlso a (andAlso b c) = andAlso (andAlso a (andAlso b (some true))) c := by
  rcases a with _ | a
  · rfl
  · cases a
    · rfl
    · rcases b with _ | b
      · rfl
      · cases b <;> rfl

/-- The loop over the class members handles the first member, then the rest. -/
theorem classPropertiesCanBeRemovedIfUnused_head (property : Property) (rest : List Property)
    (isUnbound : Ref → Bool) :
    classPropertiesCanBeRemovedIfUnused (property :: rest) isUnbound =
      andAlso (classPropertiesCanBeRemovedIfUnused [property] isUnbound)
        (classPropertiesCanBeRemovedIfUnused rest isUnbound) := by
  obtain ⟨kind, flags, key, valueOrNil, initializerOrNil, classStaticBlock⟩ := property
  simp only [classPropertiesCanBeRemovedIfUnused_cons]
  have hnil : classPropertiesCanBeRemovedIfUnused [] isUnbound = some true := rfl
  rw [hnil]
  split
  · exact (andAlso_true_right _ _).symm
  · split
    · rfl
    · split
      · exact andAlso_assoc_true _ _ _
      · rfl

theorem classPropertiesCanBeRemovedIfUnused_append (xs ys : List Property)
    (isUnbound : Ref → Bool) :
    classPropertiesCanBeRemovedIfUnused (xs ++ ys) isUnbound =
      andAlso (classPropertiesCanBeRemovedIfUnused xs isUnbound)
        (classPropertiesCanBeRemovedIfUnused ys isUnbound) := by
  induction xs with
  | nil => rfl
  | cons x xs ih =>
    rw [List.cons_append, classPropertiesCanBeRemovedIfUnused_head x (xs ++ ys), ih,
      classPropertiesCanBeRemovedIfUnused_head x xs, andAlso_assoc]

theorem classPropertiesCanBeRemovedIfUnused_eq_true (properties : List Property)
    (isUnbound : Ref → Bool) :
    classPropertiesCanBeRemovedIfUnused properties isUnbound = some true ↔
      ∀ property ∈ properties,
        classPropertiesCanBeRemovedIfUnused [property] isUnbound = some true := by
  induction properties with
  | nil => exact ⟨fun _ _ h => absurd h (List.not_mem_nil _), fun _ => rfl⟩
  | cons x xs ih =>
    rw [classPropertiesCanBeRemovedIfUnused_head, andAlso_eq_some_true, ih]
    simp only [List.mem_cons, forall_eq_or_imp]

/-- What the class loop asks of one member. -/
theorem classProperty_eq_true (kind : PropertyKind) (flags : PropertyFlags)
    (key valueOrNil initializerOrNil : Expr) (classStaticBlock : List Stmt)
    (isUnbound : Ref → Bool) :
    classPropertiesCanBeRemovedIfUnused
        [⟨kind, flags, key, valueOrNil, initializerOrNil, classStaticBlock⟩] isUnbound =
        some true ↔
      (kind = PropertyKind.PropertyClassStaticBlock →
        StmtsCanBeRemovedIfUnused classStaticBlock 0 isUnbound = some true) ∧
      (kind ≠ PropertyKind.PropertyClassStaticBlock →
        (flags.isComputed = true → IsPrimitiveLiteral key.data = true) ∧
        (flags.isStatic = true →
          (valueOrNil.data.isNil = false →
            ExprCanBeRemovedIfUnused valueOrNil isUnbound = some true) ∧
          (initializerOrNil.data.isNil = false →
            ExprCanBeRemovedIfUnused initializerOrNil isUnbound = some true))) := by
  rw [classPropertiesCanBeRemovedIfUnused_cons]
  have hnil : classPropertiesCanBeRemovedIfUnused [] isUnbound = some true := rfl
  rw [hnil]
  by_cases hk : kind = PropertyKind.PropertyClassStaticBlock
  · rw [if_pos hk, andAlso_eq_some_true]
    simp [hk]
  · rw [if_neg hk]
    by_cases hc : (flags.isComputed && !IsPrimitiveLiteral key.data) = true
    · rw [if_pos hc]
      simp only [Bool.and_eq_true, Bool.not_eq_true'] at hc
      simp [hk, hc.1, hc.2]
    · rw [if_neg hc]
      have hc' : flags.isComputed = true → IsPrimitiveLiteral key.data = true := by
        intro h1
        cases h2 : IsPrimitiveLiteral key.data
        · exact absurd (by simp [h1, h2]) hc
        · rfl
      by_cases hs : flags.isStatic = true
      · rw [if_pos hs, andAlso_eq_some_true, andAlso_eq_some_true]
        cases hv : valueOrNil.data.isNil <;> cases hi : initializerOrNil.data.isNil <;>
          simp [hk, hs] <;> tauto
      · rw [if_neg hs]
        simp [hk, hs]
        exact hc'

/-- C11: a class is removable exactly when its extends expression, if present,
is removable; every static block's statement list is removable; no member other
than a static block has a computed key that is not a primitive literal; and the
value and the initializer, when present, of every member flagged static are
removable. Static blocks carry neither value nor initializer (`hblocks`). The
value and initializer of a member that is not flagged static never influence
the verdict. -/
theorem class_removable_iff (extendsOrNil : Expr) (properties : List Property)
    (isUnbound : Ref → Bool)
    (hblocks : ∀ kind flags key valueOrNil initializerOrNil classStaticBlock,
      (⟨kind, flags, key, valueOrNil, initializerOrNil, classStaticBlock⟩ : Property) ∈
        properties →
      kind = PropertyKind.PropertyClassStaticBlock →
      valueOrNil.data.isNil = true ∧ initializerOrNil.data.isNil = true) :
    (classCanBeRemovedIfUnused ⟨extendsOrNil, properties⟩ isUnbound = some true ↔
      (extendsOrNil.data.isNil = false →
        ExprCanBeRemovedIfUnused extendsOrNil isUnbound = some true) ∧
      ∀ kind flags key valueOrNil initializerOrNil classStaticBlock,
        (⟨kind, flags, key, valueOrNil, initializerOrNil, classStaticBlock⟩ : Property) ∈
          properties →
        (kind = PropertyKind.PropertyClassStaticBlock →
          StmtsCanBeRemovedIfUnused classStaticBlock 0 isUnbound = some true) ∧
        (kind ≠ PropertyKind.PropertyClassStaticBlock → flags.isComputed = true →
          IsPrimitiveLiteral key.data = true) ∧
        (flags.isStatic = true →
          (valueOrNil.data.isNil = false →
            ExprCanBeRemovedIfUnused valueOrNil isUnbound = some true) ∧
          (initializerOrNil.data.isNil = false →
            ExprCanBeRemovedIfUnused initializerOrNil isUnbound = some true))) ∧
    (∀ (before after : List Property) kind flags key block (value initializer
        otherValue otherInitializer : Expr), flags.isStatic = false →
      classCanBeRemovedIfUnused
          ⟨extendsOrNil, before ++ ⟨kind, flags, key, value, initializer, block⟩ :: after⟩
          isUnbound =
        classCanBeRemovedIfUnused
          ⟨extendsOrNil,
            before ++ ⟨kind, flags, key, otherValue, otherInitializer, block⟩ :: after⟩
          isUnbound) := by
  constructor
  · rw [classCanBeRemovedIfUnused_mk, andAlso_eq_some_true,
      classPropertiesCanBeRemovedIfUnused_eq_true]
    have hext : (if extendsOrNil.data.isNil = true then some true
        else ExprCanBeRemovedIfUnused extendsOrNil isUnbound) = some true ↔
        (extendsOrNil.data.isNil = false →
          ExprCanBeRemovedIfUnused extendsOrNil isUnbound = some true) := by
      cases extendsOrNil.data.isNil <;> simp
    rw [hext]
    constructor
    · rintro ⟨h1, h2⟩
      refine ⟨h1, ?_⟩
      intro kind flags key valueOrNil initializerOrNil classStaticBlock hmem
      have h3 := (classProperty_eq_true kind flags key valueOrNil initializerOrNil
        classStaticBlock isUnbound).1 (h2 _ hmem)
      refine ⟨h3.1, fun hk => (h3.2 hk).1, fun hs => ?_⟩
      by_cases hk : kind = PropertyKind.PropertyClassStaticBlock
      · have hb := hblocks kind flags key valueOrNil initializerOrNil classStaticBlock hmem hk
        rw [hb.1, hb.2]
        exact ⟨fun h => (by cases h), fun h => (by cases h)⟩
      · exact (h3.2 hk).2 hs
    · rintro ⟨h1, h2⟩
      refine ⟨h1, ?_⟩
      rintro ⟨kind, flags, key, valueOrNil, initializerOrNil, classStaticBlock⟩ hmem
      have h3 := h2 kind flags key valueOrNil initializerOrNil classStaticBlock hmem
      exact (classProperty_eq_true kind flags key valueOrNil initializerOrNil
        classStaticBlock isUnbound).2 ⟨h3.1, fun hk => ⟨h3.2.1 hk, h3.2.2⟩⟩
  · intro before after kind flags key block value initializer otherValue otherInitializer hs
    simp only [classCanBeRemovedIfUnused_mk, classPropertiesCanBeRemovedIfUnused_append,
      classPropertiesCanBeRemovedIfUnused_cons, hs]
    rfl

/-- Witness for C11 at `class { p = x() }`: the instance member does not count. -/
theorem class_removable_iff_witness :
    classCanBeRemovedIfUnused ⟨⟨loc0, .nil⟩, [instanceProperty impureCall]⟩ allUnbound =
      some true := by
  have hblocks : ∀ kind flags key valueOrNil initializerOrNil classStaticBlock,
      (⟨kind, flags, key, valueOrNil, initializerOrNil, classStaticBlock⟩ : Property) ∈
        [instanceProperty impureCall] →
      kind = PropertyKind.PropertyClassStaticBlock →
      valueOrNil.data.isNil = true ∧ initializerOrNil.data.isNil = true := by
    intro kind flags key valueOrNil initializerOrNil classStaticBlock hmem hk
    simp only [List.mem_singleton, instanceProperty, Property.mk.injEq] at hmem
    rw [hk] at hmem
    exact absurd hmem.1 (by decide)
  refine (class_removable_iff ⟨loc0, .nil⟩ [instanceProperty impureCall] allUnbound
    hblocks).1.2 ⟨fun h => (by cases h), ?_⟩
  intro kind flags key valueOrNil initializerOrNil classStaticBlock hmem
  simp only [List.mem_singleton, instanceProperty, Property.mk.injEq] at hmem
  obtain ⟨rfl, rfl, rfl, rfl, rfl, rfl⟩ := hmem
  exact ⟨fun h => (by cases h), fun _ h => (by cases h), fun h => (by cases h)⟩

/-! ## Equations of `SimplifyUnusedExpr` -/

theorem SimplifyUnusedExpr_self (x : Expr) (features : JSFeature) (isUnbound : Ref → Bool) :
    SimplifyUnusedExprWith (fun y => SimplifyUnusedExpr y features isUnbound) x features
        isUnbound = SimplifyUnusedExpr x features isUnbound :=
  (SimplifyUnusedExpr_unfold x features isUnbound).symm

theorem SimplifyUnusedExpr_EIf (loc : Loc) (test yes no : Expr) (features : JSFeature)
    (isUnbound : Ref → Bool) :
    SimplifyUnusedExpr ⟨loc, .EIf test yes no⟩ features isUnbound =
      if (SimplifyUnusedExpr yes features isUnbound).data.isNil &&
          (SimplifyUnusedExpr no features isUnbound).data.isNil then
        SimplifyUnusedExpr test features isUnbound
      else if (SimplifyUnusedExpr yes features isUnbound).data.isNil then
        JoinWithLeftAssociativeOp BinOpLogicalOr test (SimplifyUnusedExpr no features isUnbound)
      else if (SimplifyUnusedExpr no features isUnbound).data.isNil then
        JoinWithLeftAssociativeOp BinOpLogicalAnd test
          (SimplifyUnusedExpr yes features isUnbound)
      else ⟨loc, .EIf test (SimplifyUnusedExpr yes features isUnbound)
        (SimplifyUnusedExpr no features isUnbound)⟩ := by
  rw [SimplifyUnusedExpr_unfold, SimplifyUnusedExprWith_EIf]
  simp only [SimplifyUnusedExpr_self]

theorem SimplifyUnusedExpr_EBinary (loc : Loc) (op : OpCode) (left right : Expr)
    (features : JSFeature) (isUnbound : Ref → Bool) :
    SimplifyUnusedExpr ⟨loc, .EBinary op left right⟩ features isUnbound =
      if op = BinOpStrictEq ∨ op = BinOpStrictNe ∨ op = BinOpComma then
        JoinWithComma (SimplifyUnusedExpr left features isUnbound)
          (SimplifyUnusedExpr right features isUnbound)
      else if op = BinOpLooseEq ∨ op = BinOpLooseNe then
        if IsPrimitiveWithSideEffects left.data && IsPrimitiveWithSideEffects right.data then
          JoinWithComma (SimplifyUnusedExpr left features isUnbound)
            (SimplifyUnusedExpr right features isUnbound)
        else ⟨loc, .EBinary op left right⟩
      else if op = BinOpLogicalAnd ∨ op = BinOpLogicalOr ∨ op = BinOpNullishCoalescing then
        if (SimplifyUnusedExpr right features isUnbound).data.isNil then
          SimplifyUnusedExpr (logicalLeft op left) features isUnbound
        else
          logicalWithOptionalChain loc op (logicalLeft op left)
            (SimplifyUnusedExpr right features isUnbound) features
      else if op = BinOpAdd then
        (simplifyUnusedStringAdditionChain ⟨loc, .EBinary op left right⟩).1
      else ⟨loc, .EBinary op left right⟩ := by
  rw [SimplifyUnusedExpr_unfold, SimplifyUnusedExprWith_EBinary]
  simp only [SimplifyUnusedExpr_self, ite_self, logicalLeft]

theorem SimplifyUnusedExpr_EUnary (loc : Loc) (op : OpCode) (value : Expr) (flag : Bool)
    (features : JSFeature) (isUnbound : Ref → Bool) :
    SimplifyUnusedExpr ⟨loc, .EUnary op value flag⟩ features isUnbound =
      if op = UnOpVoid ∨ op = UnOpNot then SimplifyUnusedExpr value features isUnbound
      else if op = UnOpTypeof then
        if value.data.isEIdentifier && flag then Expr.empty
        else SimplifyUnusedExpr value features isUnbound
      else ⟨loc, .EUnary op value flag⟩ := by
  rw [SimplifyUnusedExpr_unfold, SimplifyUnusedExprWith_EUnary]
  simp only [SimplifyUnusedExpr_self]

theorem SimplifyUnusedExpr_EInlinedEnum (loc : Loc) (value : Expr) (original : Ref)
    (features : JSFeature) (isUnbound : Ref → Bool) :
    SimplifyUnusedExpr ⟨loc, .EInlinedEnum value original⟩ features isUnbound =
      SimplifyUnusedExpr value features isUnbound := by
  rw [SimplifyUnusedExpr_unfold, SimplifyUnusedExprWith_EInlinedEnum, SimplifyUnusedExpr_self]

/-- The rewrite is not attempted unless the left operand is one of the null
comparisons and the target has optional chaining. -/
theorem logicalWithOptionalChain_keeps (loc : Loc) (op : OpCode) (left right : Expr)
    (features : JSFeature)
    (h : features.hasOptionalChain = true ∨ isNullComparisonFor op left = false) :
    logicalWithOptionalChain loc op left right features = ⟨loc, .EBinary op left right⟩ := by
  unfold logicalWithOptionalChain
  rcases h with h | h
  · simp [h]
  · obtain ⟨leftLoc, d⟩ := left
    cases d with
    | EBinary binaryOp binaryLeft binaryRight =>
      simp only [isNullComparisonFor, Bool.and_eq_false_imp, Bool.or_eq_true, decide_eq_true_eq,
        Bool.or_eq_false_iff] at h
      split
      · simp only
        split
        · rename_i hc
          have h2 := h hc
          simp [h2.1, h2.2, Expr.empty]
        · rfl
      · rfl
    | _ => simp

/-- C12: for a ternary `c ? y : n` with `y'` and `n'` the reductions of the
branches: the reduced test when both are empty; `c || n'` joined
left-associatively when only `y'` is empty; `c && y'` when only `n'` is empty;
and `c ? y' : n'` otherwise. In particular `cond ? 1 : 2` reduces to `cond`. -/
theorem ternary_reduction (loc : Loc) (c y n : Expr) (features : JSFeature)
    (isUnbound : Ref → Bool) :
    SimplifyUnusedExpr ⟨loc, .EIf c y n⟩ features isUnbound =
      (if (SimplifyUnusedExpr y features isUnbound).data.isNil = true ∧
          (SimplifyUnusedExpr n features isUnbound).data.isNil = true then
        SimplifyUnusedExpr c features isUnbound
      else if (SimplifyUnusedExpr y features isUnbound).data.isNil = true then
        JoinWithLeftAssociativeOp BinOpLogicalOr c (SimplifyUnusedExpr n features isUnbound)
      else if (SimplifyUnusedExpr n features isUnbound).data.isNil = true then
        JoinWithLeftAssociativeOp BinOpLogicalAnd c (SimplifyUnusedExpr y features isUnbound)
      else ⟨loc, .EIf c (SimplifyUnusedExpr y features isUnbound)
        (SimplifyUnusedExpr n features isUnbound)⟩) ∧
    SimplifyUnusedExpr ⟨loc, .EIf (identX false) oneLiteral twoLiteral⟩ features allUnbound =
      identX false := by
  constructor
  · rw [SimplifyUnusedExpr_EIf]
    simp only [Bool.and_eq_true]
  · rfl

/-- C13: for `l OP r` with `OP` one of `&&`, `||`, `??`, let `l'` be `l` in
boolean context (`l` itself for `??`) and `r'` the reduction of `r`. If `r'` is
empty the result is the reduction of `l'`. If `r'` is not empty and `l'` is not
one of the null comparisons of the optional-chain rewrite (or the target has no
optional chaining), the result is `l' OP r'`. -/
theorem logical_reduction (loc : Loc) (op : OpCode) (l r : Expr) (features : JSFeature)
    (isUnbound : Ref → Bool)
    (hop : op = BinOpLogicalAnd ∨ op = BinOpLogicalOr ∨ op = BinOpNullishCoalescing) :
    ((SimplifyUnusedExpr r features isUnbound).data.isNil = true →
      SimplifyUnusedExpr ⟨loc, .EBinary op l r⟩ features isUnbound =
        SimplifyUnusedExpr (logicalLeft op l) features isUnbound) ∧
    ((SimplifyUnusedExpr r features isUnbound).data.isNil = false →
      features.hasOptionalChain = true ∨ isNullComparisonFor op (logicalLeft op l) = false →
      SimplifyUnusedExpr ⟨loc, .EBinary op l r⟩ features isUnbound =
        ⟨loc, .EBinary op (logicalLeft op l) (SimplifyUnusedExpr r features isUnbound)⟩) := by
  have h1 : ¬ (op = BinOpStrictEq ∨ op = BinOpStrictNe ∨ op = BinOpComma) := by
    rcases hop with rfl | rfl | rfl <;> decide
  have h2 : ¬ (op = BinOpLooseEq ∨ op = BinOpLooseNe) := by
    rcases hop with rfl | rfl | rfl <;> decide
  rw [SimplifyUnusedExpr_EBinary, if_neg h1, if_neg h2, if_pos hop]
  constructor
  · intro hnil
    rw [if_pos hnil]
  · intro hnil hkeep
    rw [hnil]
    simp only [Bool.false_eq_true, if_false]
    exact logicalWithOptionalChain_keeps loc op _ _ features hkeep

/-- Witness for C13 at `a && x()` with `a` bound and `x()` not marked pure: the
expression is returned unchanged. -/
theorem logical_reduction_witness :
    SimplifyUnusedExpr ⟨loc0, .EBinary BinOpLogicalAnd identA impureCall⟩ chainSupported
        allBound =
      ⟨loc0, .EBinary BinOpLogicalAnd identA impureCall⟩ :=
  (logical_reduction loc0 BinOpLogicalAnd identA impureCall chainSupported allBound
    (Or.inl rfl)).2 rfl (Or.inr rfl)

/-- The reduction of a call that is not marked pure. -/
theorem SimplifyUnusedExpr_impure_ECall (loc : Loc) (target : Expr) (args : List Expr)
    (optionalChain : OptionalChain) (kind : CallKind) (features : JSFeature)
    (isUnbound : Ref → Bool) :
    SimplifyUnusedExpr ⟨loc, .ECall target args optionalChain false kind⟩ features isUnbound =
      shortenIIFE loc target args optionalChain kind := by
  rw [SimplifyUnusedExpr_unfold]
  obtain ⟨targetLoc, d⟩ := target
  cases args with
  | cons arg rest => cases d <;> rfl
  | nil =>
    cases d with
    | EFunction fn =>
      obtain ⟨fnArgs, fnBody, isAsync, isGenerator⟩ := fn
      cases fnArgs <;> cases fnBody <;> rfl
    | EArrow arrowArgs arrowBody isAsync preferExpr =>
      cases arrowArgs with
      | cons a as => cases arrowBody <;> rfl
      | nil =>
        cases arrowBody with
        | nil => rfl
        | cons s ss =>
          obtain ⟨stmtLoc, sd⟩ := s
          cases ss with
          | cons s2 ss2 => cases sd <;> cases isAsync <;> rfl
          | nil => cases sd <;> cases isAsync <;> rfl
    | _ => rfl

/-- C16: the reduction of a call that is not marked pure is `shortenIIFE`: an
immediately-invoked zero-parameter function or arrow with an empty body
disappears; a non-async zero-parameter arrow whose body is one expression
statement or one `return e` gives `e` itself; an async one whose body is one
expression statement is kept, with the statement turned into `return e` and
`PreferExpr` set; every other call (any parameter, any argument, more
statements) comes back unchanged. In particular `(() => { foo() })()` becomes
`foo()`. -/
theorem iife_reduction (loc : Loc) (target : Expr) (args : List Expr)
    (optionalChain : OptionalChain) (kind : CallKind) (features : JSFeature)
    (isUnbound : Ref → Bool) :
    SimplifyUnusedExpr ⟨loc, .ECall target args optionalChain false kind⟩ features isUnbound =
        shortenIIFE loc target args optionalChain kind ∧
    SimplifyUnusedExpr iifeOfFoo features isUnbound = fooCall :=
  ⟨SimplifyUnusedExpr_impure_ECall loc target args optionalChain kind features isUnbound, rfl⟩

/-! ## Logical operators in boolean context -/

/-- C20 (counterexample): the right operand of `a || true` is known, free of
side effects and truthy, and that of `a && false` is known, free of side
effects and falsy, yet `SimplifyBooleanExpr` returns both expressions as they
are instead of `a` alone. -/
theorem absorbing_right_operand_is_kept :
    ToBooleanWithSideEffects (SimplifyBooleanExpr trueLiteral).data = (true, NoSideEffects, true) ∧
    SimplifyBooleanExpr aOrTrue = aOrTrue ∧
    SimplifyBooleanExpr aOrTrue ≠ SimplifyBooleanExpr identA ∧
    ToBooleanWithSideEffects (SimplifyBooleanExpr falseLiteral).data =
      (false, NoSideEffects, true) ∧
    SimplifyBooleanExpr aAndFalse = aAndFalse ∧
    SimplifyBooleanExpr aAndFalse ≠ SimplifyBooleanExpr identA := by
  refine ⟨rfl, rfl, ?_, rfl, rfl, ?_⟩
  · intro h
    have h2 : aOrTrue = identA := h
    cases h2
  · intro h
    have h2 : aAndFalse = identA := h
    cases h2

/-- C20 (amended): with `l'` and `r'` the boolean-simplified operands, `l && r`
collapses to `l'` alone exactly when the boolean value of `r'` is known, free of
side effects and truthy, and `l || r` collapses to `l'` alone exactly when it is
known, free of side effects and falsy (the right operand is the neutral value
of the operator); in every other case the result is `l' && r'`, respectively
`l' || r'`. So `a && true` and `a || false` both become `a`. -/
theorem neutral_right_operand_collapses (loc : Loc) (l r : Expr) :
    SimplifyBooleanExpr ⟨loc, .EBinary BinOpLogicalAnd l r⟩ =
      (if ToBooleanWithSideEffects (SimplifyBooleanExpr r).data = (true, NoSideEffects, true) then
        SimplifyBooleanExpr l
      else ⟨loc, .EBinary BinOpLogicalAnd (SimplifyBooleanExpr l) (SimplifyBooleanExpr r)⟩) ∧
    SimplifyBooleanExpr ⟨loc, .EBinary BinOpLogicalOr l r⟩ =
      (if ToBooleanWithSideEffects (SimplifyBooleanExpr r).data = (false, NoSideEffects, true) then
        SimplifyBooleanExpr l
      else ⟨loc, .EBinary BinOpLogicalOr (SimplifyBooleanExpr l) (SimplifyBooleanExpr r)⟩) ∧
    SimplifyBooleanExpr ⟨loc0, .EBinary BinOpLogicalAnd identA trueLiteral⟩ = identA ∧
    SimplifyBooleanExpr ⟨loc0, .EBinary BinOpLogicalOr identA falseLiteral⟩ = identA := by
  refine ⟨?_, ?_, rfl, rfl⟩
  · rw [SimplifyBooleanExpr_EBinary, if_neg (by decide), if_pos rfl]
    rcases ToBooleanWithSideEffects (SimplifyBooleanExpr r).data with ⟨b, s, k⟩
    cases b <;> cases s <;> cases k <;> simp
  · rw [SimplifyBooleanExpr_EBinary, if_neg (by decide), if_neg (by decide), if_pos rfl]
    rcases ToBooleanWithSideEffects (SimplifyBooleanExpr r).data with ⟨b, s, k⟩
    cases b <;> cases s <;> cases k <;> simp

/-! ## Chains of string additions -/

theorem simplifyUnusedStringAdditionChain_EBinary (loc : Loc) (op : OpCode) (left right : Expr) :
    simplifyUnusedStringAdditionChain ⟨loc, .EBinary op left right⟩ =
      if op = BinOpAdd then
        if right.data.isEString then
          if (simplifyUnusedStringAdditionChain left).2 then
            ((simplifyUnusedStringAdditionChain left).1, true)
          else
            (⟨loc, .EBinary op (simplifyUnusedStringAdditionChain left).1
              ⟨right.loc, .EString []⟩⟩, true)
        else (⟨loc, .EBinary op (simplifyUnusedStringAdditionChain left).1 right⟩,
          (simplifyUnusedStringAdditionChain left).2)
      else (⟨loc, .EBinary op left right⟩, false) := rfl

theorem spineOperands_add (loc : Loc) (left right : Expr) :
    spineOperands ⟨loc, .EBinary BinOpAdd left right⟩ = spineOperands left ++ [right] := rfl

theorem spineOperands_not_add (loc : Loc) (op : OpCode) (left right : Expr)
    (hop : op ≠ BinOpAdd) :
    spineOperands ⟨loc, .EBinary op left right⟩ = [⟨loc, .EBinary op left right⟩] := by
  show (if op = BinOpAdd then _ else _) = _
  rw [if_neg hop]

/-- What `simplifyUnusedStringAdditionChain` does to the spine of a chain: the
string literals left on it are empty, the other operands are the same in the
same order, the flag tells whether the spine has a string literal, and without
one the chain comes back as it was. -/
theorem simplifyUnusedStringAdditionChain_spine (n : Nat) : ∀ e : Expr, e.size ≤ n →
    (∀ x ∈ spineOperands (simplifyUnusedStringAdditionChain e).1,
      x.data.isEString = true → x.data = .EString []) ∧
    otherOperands (simplifyUnusedStringAdditionChain e).1 = otherOperands e ∧
    ((simplifyUnusedStringAdditionChain e).2 = true ↔
      ∃ x ∈ spineOperands e, x.data.isEString = true) ∧
    ((simplifyUnusedStringAdditionChain e).2 = false →
      (simplifyUnusedStringAdditionChain e).1 = e) := by
  induction n with
  | zero =>
    intro e he
    have := Expr.size_pos e
    omega
  | succ n ih =>
    intro e he
    obtain ⟨loc, d⟩ := e
    cases d with
    | EString s =>
      refine ⟨?_, rfl, ?_, ?_⟩
      · intro x hx _
        have hx2 : x ∈ [(⟨loc, .EString []⟩ : Expr)] := hx
        rw [List.mem_singleton] at hx2
        rw [hx2]; rfl
      · constructor
        · intro _
          exact ⟨⟨loc, .EString s⟩, List.mem_singleton.2 rfl, rfl⟩
        · intro _; rfl
      · intro h; cases h
    | EBinary op left right =>
      rw [Expr.size_EBinary] at he
      obtain ⟨ih1, ih2, ih3, ih4⟩ := ih left (by omega)
      rw [simplifyUnusedStringAdditionChain_EBinary]
      by_cases hop : op = BinOpAdd
      · subst hop
        rw [if_pos rfl]
        obtain ⟨rloc, rd⟩ := right
        by_cases hr : rd.isEString = true
        · have hr2 : (Expr.mk rloc rd).data.isEString = true := hr
          rw [if_pos hr2]
          cases hflag : (simplifyUnusedStringAdditionChain left).2
          · rw [if_neg (by simp)]
            have hleft := ih4 hflag
            refine ⟨?_, ?_, ?_, ?_⟩
            · intro x hx hxs
              rw [spineOperands_add, List.mem_append, List.mem_singleton] at hx
              rcases hx with hx | hx
              · exact ih1 x hx hxs
              · rw [hx]; rfl
            · simp only [otherOperands, spineOperands_add, List.filter_append] at ih2 ⊢
              rw [ih2]
              simp [Expr.data, hr, show (E.EString []).isEString = true from rfl]
            · simp only [spineOperands_add, List.mem_append, List.mem_singleton, true_iff]
              exact ⟨⟨rloc, rd⟩, Or.inr rfl, hr⟩
            · intro h; cases h
          · rw [if_pos rfl]
            refine ⟨ih1, ?_, ?_, ?_⟩
            · simp only [otherOperands, spineOperands_add, List.filter_append] at ih2 ⊢
              rw [ih2]
              simp [Expr.data, hr]
            · simp only [spineOperands_add, List.mem_append, List.mem_singleton, true_iff]
              exact ⟨⟨rloc, rd⟩, Or.inr rfl, hr⟩
            · intro h; cases h
        · have hr2 : ¬ ((Expr.mk rloc rd).data.isEString = true) := hr
          rw [if_neg hr2]
          refine ⟨?_, ?_, ?_, ?_⟩
          · intro x hx hxs
            rw [spineOperands_add, List.mem_append, List.mem_singleton] at hx
            rcases hx with hx | hx
            · exact ih1 x hx hxs
            · rw [hx] at hxs; exact absurd hxs hr
          · simp only [otherOperands, spineOperands_add, List.filter_append] at ih2 ⊢
            rw [ih2]
          · show (simplifyUnusedStringAdditionChain left).2 = true ↔ _
            rw [ih3]
            simp only [spineOperands_add, List.mem_append, List.mem_singleton]
            constructor
            · rintro ⟨x, hx, hxs⟩
              exact ⟨x, Or.inl hx, hxs⟩
            · rintro ⟨x, hx | hx, hxs⟩
              · exact ⟨x, hx, hxs⟩
              · rw [hx] at hxs; exact absurd hxs hr
          · intro h
            have h2 : (simplifyUnusedStringAdditionChain left).2 = false := h
            show (⟨loc, .EBinary BinOpAdd (simplifyUnusedStringAdditionChain left).1 ⟨rloc, rd⟩⟩ :
              Expr) = _
            rw [ih4 h2]
      · rw [if_neg hop]
        refine ⟨?_, rfl, ?_, fun _ => rfl⟩
        · intro x hx hxs
          rw [spineOperands_not_add loc op left right hop, List.mem_singleton] at hx
          rw [hx] at hxs; cases hxs
        · rw [spineOperands_not_add loc op left right hop]
          simp [Expr.data, E.isEString]
    | _ =>
      refine ⟨?_, rfl, ?_, fun _ => rfl⟩
      · intro x hx hxs
        first
          | (have hx2 : x ∈ [(Expr.mk loc _ : Expr)] := hx
             rw [List.mem_singleton] at hx2
             rw [hx2] at hxs; cases hxs)
      · constructor
        · intro h; cases h
        · rintro ⟨x, hx, hxs⟩
          exfalso
          first
            | (have hx2 : x ∈ [(Expr.mk loc _ : Expr)] := hx
               rw [List.mem_singleton] at hx2
               rw [hx2] at hxs; cases hxs)

/-- C18: for a `+` expression `e`, every string literal on the left spine of
`SimplifyUnusedExpr(e)` (its leftmost leaf, or the right operand of a `+` on the
spine) is the empty string, and the operands on the spine that are not string
literals are those of `e`, in the same order. `'x' + y` becomes `'' + y`,
`x + 'y'` becomes `x + ''`, and `('x' + y) + 'z'` becomes `'' + y`. A chain
without a string literal on its spine is returned unchanged. -/
theorem string_addition_chain (loc : Loc) (left right : Expr) (features : JSFeature)
    (isUnbound : Ref → Bool) :
    (∀ x ∈ spineOperands
        (SimplifyUnusedExpr ⟨loc, .EBinary BinOpAdd left right⟩ features isUnbound),
      x.data.isEString = true → x.data = .EString []) ∧
    otherOperands (SimplifyUnusedExpr ⟨loc, .EBinary BinOpAdd left right⟩ features isUnbound) =
      otherOperands ⟨loc, .EBinary BinOpAdd left right⟩ ∧
    ((∀ x ∈ spineOperands ⟨loc, .EBinary BinOpAdd left right⟩, x.data.isEString = false) →
      SimplifyUnusedExpr ⟨loc, .EBinary BinOpAdd left right⟩ features isUnbound =
        ⟨loc, .EBinary BinOpAdd left right⟩) ∧
    SimplifyUnusedExpr (plus xLiteral identA) features isUnbound = plus emptyLiteral identA ∧
    SimplifyUnusedExpr (plus identA xLiteral) features isUnbound = plus identA emptyLiteral ∧
    SimplifyUnusedExpr (plus (plus xLiteral identA) zLiteral) features isUnbound =
      plus emptyLiteral identA := by
  have hS : SimplifyUnusedExpr ⟨loc, .EBinary BinOpAdd left right⟩ features isUnbound =
      (simplifyUnusedStringAdditionChain ⟨loc, .EBinary BinOpAdd left right⟩).1 := by
    rw [SimplifyUnusedExpr_EBinary, if_neg (by decide), if_neg (by decide), if_neg (by decide),
      if_pos rfl]
  obtain ⟨h1, h2, h3, h4⟩ := simplifyUnusedStringAdditionChain_spine _
    ⟨loc, .EBinary BinOpAdd left right⟩ (Nat.le_refl _)
  refine ⟨?_, ?_, ?_, ?_, ?_, ?_⟩
  · rw [hS]; exact h1
  · rw [hS]; exact h2
  · intro hnone
    rw [hS]
    apply h4
    cases hflag : (simplifyUnusedStringAdditionChain ⟨loc, .EBinary BinOpAdd left right⟩).2
    · rfl
    · obtain ⟨x, hx, hxs⟩ := h3.1 hflag
      rw [hnone x hx] at hxs
      cases hxs
  · rw [SimplifyUnusedExpr_unfold]; rfl
  · rw [SimplifyUnusedExpr_unfold]; rfl
  · rw [SimplifyUnusedExpr_unfold]; rfl

/-! ## The optional-chain rewrite -/

theorem TryToInsertOptionalChain_EDot (test target : Expr) (loc : Loc) (name : String)
    (optionalChain : OptionalChain) (remove unwrap : Bool) :
    TryToInsertOptionalChain test ⟨loc, .EDot target name optionalChain remove unwrap⟩ =
      if ValuesLookTheSame test.data target.data then
        (true, ⟨loc, .EDot target name OptionalChain.OptionalChainStart remove unwrap⟩)
      else if (TryToInsertOptionalChain test target).1 then
        (true, ⟨loc, .EDot (TryToInsertOptionalChain test target).2 name
          (continueChain optionalChain) remove unwrap⟩)
      else
        (false, ⟨loc, .EDot (TryToInsertOptionalChain test target).2 name optionalChain remove
          unwrap⟩) := rfl

theorem TryToInsertOptionalChain_EIndex (test target index : Expr) (loc : Loc)
    (optionalChain : OptionalChain) (remove unwrap : Bool) :
    TryToInsertOptionalChain test ⟨loc, .EIndex target index optionalChain remove unwrap⟩ =
      if ValuesLookTheSame test.data target.data then
        (true, ⟨loc, .EIndex target index OptionalChain.OptionalChainStart remove unwrap⟩)
      else if (TryToInsertOptionalChain test target).1 then
        (true, ⟨loc, .EIndex (TryToInsertOptionalChain test target).2 index
          (continueChain optionalChain) remove unwrap⟩)
      else
        (false, ⟨loc, .EIndex (TryToInsertOptionalChain test target).2 index optionalChain remove
          unwrap⟩) := rfl

theorem TryToInsertOptionalChain_ECall (test target : Expr) (args : List Expr) (loc : Loc)
    (optionalChain : OptionalChain) (unwrap : Bool) (kind : CallKind) :
    TryToInsertOptionalChain test ⟨loc, .ECall target args optionalChain unwrap kind⟩ =
      if ValuesLookTheSame test.data target.data then
        (true, ⟨loc, .ECall target args OptionalChain.OptionalChainStart unwrap kind⟩)
      else if (TryToInsertOptionalChain test target).1 then
        (true, ⟨loc, .ECall (TryToInsertOptionalChain test target).2 args
          (continueChain optionalChain) unwrap kind⟩)
      else
        (false, ⟨loc, .ECall (TryToInsertOptionalChain test target).2 args optionalChain unwrap
          kind⟩) := rfl

/-- Go function `TryToInsertOptionalChain` reports whether the target chain has
a node on `test`, marks the chain when it has one, and leaves the expression
alone when it has none. -/
theorem TryToInsertOptionalChain_eq (test : Expr) (n : Nat) : ∀ e : Expr, chainDepth e ≤ n →
    TryToInsertOptionalChain test e =
      (hasGuardedTarget test e, if hasGuardedTarget test e then markOptionalChain test e else e) := by
  induction n with
  | zero =>
    intro e he
    obtain ⟨loc, d⟩ := e
    cases d with
    | EDot target name optionalChain remove unwrap =>
      have h : chainDepth ⟨loc, .EDot target name optionalChain remove unwrap⟩ =
        chainDepth target + 1 := rfl
      omega
    | EIndex target index optionalChain remove unwrap =>
      have h : chainDepth ⟨loc, .EIndex target index optionalChain remove unwrap⟩ =
        chainDepth target + 1 := rfl
      omega
    | ECall target args optionalChain unwrap kind =>
      have h : chainDepth ⟨loc, .ECall target args optionalChain unwrap kind⟩ =
        chainDepth target + 1 := rfl
      omega
    | _ => rfl
  | succ n ih =>
    intro e he
    obtain ⟨loc, d⟩ := e
    cases d with
    | EDot target name optionalChain remove unwrap =>
      have hs : chainDepth target ≤ n := by
        have h : chainDepth ⟨loc, .EDot target name optionalChain remove unwrap⟩ =
          chainDepth target + 1 := rfl
        omega
      rw [TryToInsertOptionalChain_EDot, ih target hs]
      show _ = ((ValuesLookTheSame test.data target.data || hasGuardedTarget test target),
        if (ValuesLookTheSame test.data target.data || hasGuardedTarget test target) = true then
          (if ValuesLookTheSame test.data target.data then _ else _) else _)
      cases ValuesLookTheSame test.data target.data <;>
        cases hasGuardedTarget test target <;> simp
    | EIndex target index optionalChain remove unwrap =>
      have hs : chainDepth target ≤ n := by
        have h : chainDepth ⟨loc, .EIndex target index optionalChain remove unwrap⟩ =
          chainDepth target + 1 := rfl
        omega
      rw [TryToInsertOptionalChain_EIndex, ih target hs]
      show _ = ((ValuesLookTheSame test.data target.data || hasGuardedTarget test target),
        if (ValuesLookTheSame test.data target.data || hasGuardedTarget test target) = true then
          (if ValuesLookTheSame test.data target.data then _ else _) else _)
      cases ValuesLookTheSame test.data target.data <;>
        cases hasGuardedTarget test target <;> simp
    | ECall target args optionalChain unwrap kind =>
      have hs : chainDepth target ≤ n := by
        have h : chainDepth ⟨loc, .ECall target args optionalChain unwrap kind⟩ =
          chainDepth target + 1 := rfl
        omega
      rw [TryToInsertOptionalChain_ECall, ih target hs]
      show _ = ((ValuesLookTheSame test.data target.data || hasGuardedTarget test target),
        if (ValuesLookTheSame test.data target.data || hasGuardedTarget test target) = true then
          (if ValuesLookTheSame test.data target.data then _ else _) else _)
      cases ValuesLookTheSame test.data target.data <;>
        cases hasGuardedTarget test target <;> simp
    | _ => rfl

theorem TryToInsertOptionalChain_spec (test e : Expr) :
    TryToInsertOptionalChain test e =
      (hasGuardedTarget test e, if hasGuardedTarget test e then markOptionalChain test e else e) :=
  TryToInsertOptionalChain_eq test (chainDepth e) e (Nat.le_refl _)

/-- A loose comparison with `null` on the right is left alone in boolean
context. -/
theorem SimplifyBooleanExpr_null_right (loc nullLoc : Loc) (op : OpCode) (t : Expr)
    (hop : op = BinOpLooseNe ∨ op = BinOpLooseEq) :
    SimplifyBooleanExpr (compare loc op t ⟨nullLoc, .ENull⟩) =
      compare loc op t ⟨nullLoc, .ENull⟩ := by
  show SimplifyBooleanExpr ⟨loc, .EBinary op t ⟨nullLoc, .ENull⟩⟩ = _
  rw [SimplifyBooleanExpr_EBinary]
  have h : extractNumericValue (Expr.mk nullLoc .ENull).data = none := rfl
  rw [h, if_pos (by rcases hop with rfl | rfl <;> decide), if_neg (by simp)]
  rfl

/-- A loose comparison with `null` on the left is left alone in boolean
context. -/
theorem SimplifyBooleanExpr_null_left (loc nullLoc : Loc) (op : OpCode) (t : Expr)
    (hop : op = BinOpLooseNe ∨ op = BinOpLooseEq) :
    SimplifyBooleanExpr (compare loc op ⟨nullLoc, .ENull⟩ t) =
      compare loc op ⟨nullLoc, .ENull⟩ t := by
  show SimplifyBooleanExpr ⟨loc, .EBinary op ⟨nullLoc, .ENull⟩ t⟩ = _
  rw [SimplifyBooleanExpr_EBinary]
  have h : isInt32OrUint32 (Expr.mk nullLoc .ENull).data = false := rfl
  rw [h, if_pos (by rcases hop with rfl | rfl <;> decide), if_neg]
  · rfl
  · cases extractNumericValue t.data <;> simp

/-- The end of the logical-operator case when the left operand compares `t`
with `null` (on the right) under the matching operator: the rewrite happens
exactly when the target has optional chaining, `t` is an identifier that is not
flagged `MustKeepDueToWithStmt`, and the target chain of `right` has a node on
`t`. -/
theorem logicalWithOptionalChain_null_right (loc cmpLoc nullLoc : Loc) (op cmpOp : OpCode)
    (t right : Expr) (features : JSFeature)
    (hop : (cmpOp = BinOpLooseNe ∧ op = BinOpLogicalAnd) ∨
      (cmpOp = BinOpLooseEq ∧ op = BinOpLogicalOr)) :
    logicalWithOptionalChain loc op (compare cmpLoc cmpOp t ⟨nullLoc, .ENull⟩) right features =
      if features.hasOptionalChain = false ∧ t.data.isUnflaggedIdentifier = true ∧
          hasGuardedTarget t right = true then
        markOptionalChain t right
      else ⟨loc, .EBinary op (compare cmpLoc cmpOp t ⟨nullLoc, .ENull⟩) right⟩ := by
  obtain ⟨hc⟩ := features
  obtain ⟨tLoc, td⟩ := t
  cases hc with
  | true => rw [if_neg (by simp)]; rfl
  | false =>
    have key : ∀ ref mustKeep canBeRemoved,
        logicalWithOptionalChain loc op
          (compare cmpLoc cmpOp ⟨tLoc, .EIdentifier ref mustKeep canBeRemoved⟩ ⟨nullLoc, .ENull⟩)
          right ⟨false⟩ =
        if mustKeep = false then
          if (TryToInsertOptionalChain ⟨tLoc, .EIdentifier ref mustKeep canBeRemoved⟩ right).1 then
            (TryToInsertOptionalChain ⟨tLoc, .EIdentifier ref mustKeep canBeRemoved⟩ right).2
          else ⟨loc, .EBinary op
            (compare cmpLoc cmpOp ⟨tLoc, .EIdentifier ref mustKeep canBeRemoved⟩ ⟨nullLoc, .ENull⟩)
            (TryToInsertOptionalChain ⟨tLoc, .EIdentifier ref mustKeep canBeRemoved⟩ right).2⟩
        else ⟨loc, .EBinary op
          (compare cmpLoc cmpOp ⟨tLoc, .EIdentifier ref mustKeep canBeRemoved⟩ ⟨nullLoc, .ENull⟩)
          right⟩ := by
      intro ref mustKeep canBeRemoved
      rcases hop with ⟨rfl, rfl⟩ | ⟨rfl, rfl⟩ <;> cases mustKeep <;> rfl
    cases td with
    | EIdentifier ref mustKeep canBeRemoved =>
      rw [key, TryToInsertOptionalChain_spec]
      cases mustKeep <;>
        cases hasGuardedTarget ⟨tLoc, .EIdentifier ref _ canBeRemoved⟩ right <;>
        simp [Expr.data, E.isUnflaggedIdentifier]
    | _ =>
      rw [if_neg (by simp [Expr.data, E.isUnflaggedIdentifier])]
      rcases hop with ⟨rfl, rfl⟩ | ⟨rfl, rfl⟩ <;> rfl

/-- The same with `null` on the left of the comparison. -/
theorem logicalWithOptionalChain_null_left (loc cmpLoc nullLoc : Loc) (op cmpOp : OpCode)
    (t right : Expr) (features : JSFeature)
    (hop : (cmpOp = BinOpLooseNe ∧ op = BinOpLogicalAnd) ∨
      (cmpOp = BinOpLooseEq ∧ op = BinOpLogicalOr)) :
    logicalWithOptionalChain loc op (compare cmpLoc cmpOp ⟨nullLoc, .ENull⟩ t) right features =
      if features.hasOptionalChain = false ∧ t.data.isUnflaggedIdentifier = true ∧
          hasGuardedTarget t right = true then
        markOptionalChain t right
      else ⟨loc, .EBinary op (compare cmpLoc cmpOp ⟨nullLoc, .ENull⟩ t) right⟩ := by
  obtain ⟨hc⟩ := features
  obtain ⟨tLoc, td⟩ := t
  cases hc with
  | true => rw [if_neg (by simp)]; rfl
  | false =>
    have key : ∀ ref mustKeep canBeRemoved,
        logicalWithOptionalChain loc op
          (compare cmpLoc cmpOp ⟨nullLoc, .ENull⟩ ⟨tLoc, .EIdentifier ref mustKeep canBeRemoved⟩)
          right ⟨false⟩ =
        if mustKeep = false then
          if (TryToInsertOptionalChain ⟨tLoc, .EIdentifier ref mustKeep canBeRemoved⟩ right).1 then
            (TryToInsertOptionalChain ⟨tLoc, .EIdentifier ref mustKeep canBeRemoved⟩ right).2
          else ⟨loc, .EBinary op
            (compare cmpLoc cmpOp ⟨nullLoc, .ENull⟩ ⟨tLoc, .EIdentifier ref mustKeep canBeRemoved⟩)
            (TryToInsertOptionalChain ⟨tLoc, .EIdentifier ref mustKeep canBeRemoved⟩ right).2⟩
        else ⟨loc, .EBinary op
          (compare cmpLoc cmpOp ⟨nullLoc, .ENull⟩ ⟨tLoc, .EIdentifier ref mustKeep canBeRemoved⟩)
          right⟩ := by
      intro ref mustKeep canBeRemoved
      rcases hop with ⟨rfl, rfl⟩ | ⟨rfl, rfl⟩ <;> cases mustKeep <;> rfl
    cases td with
    | EIdentifier ref mustKeep canBeRemoved =>
      rw [key, TryToInsertOptionalChain_spec]
      cases mustKeep <;>
        cases hasGuardedTarget ⟨tLoc, .EIdentifier ref _ canBeRemoved⟩ right <;>
        simp [Expr.data, E.isUnflaggedIdentifier]
    | _ =>
      rw [if_neg (by simp [Expr.data, E.isUnflaggedIdentifier])]
      rcases hop with ⟨rfl, rfl⟩ | ⟨rfl, rfl⟩ <;> rfl

/-- The reduction of `t != null && e` and of `t == null || e` when the
reduction of `e` is not empty. -/
theorem SimplifyUnusedExpr_null_right (loc cmpLoc nullLoc : Loc) (op cmpOp : OpCode)
    (t e : Expr) (features : JSFeature) (isUnbound : Ref → Bool)
    (hop : (cmpOp = BinOpLooseNe ∧ op = BinOpLogicalAnd) ∨
      (cmpOp = BinOpLooseEq ∧ op = BinOpLogicalOr))
    (he : (SimplifyUnusedExpr e features isUnbound).data.isNil = false) :
    SimplifyUnusedExpr ⟨loc, .EBinary op (compare cmpLoc cmpOp t ⟨nullLoc, .ENull⟩) e⟩ features
        isUnbound =
      if features.hasOptionalChain = false ∧ t.data.isUnflaggedIdentifier = true ∧
          hasGuardedTarget t (SimplifyUnusedExpr e features isUnbound) = true then
        markOptionalChain t (SimplifyUnusedExpr e features isUnbound)
      else ⟨loc, .EBinary op (compare cmpLoc cmpOp t ⟨nullLoc, .ENull⟩)
        (SimplifyUnusedExpr e features isUnbound)⟩ := by
  have h1 : ¬ (op = BinOpStrictEq ∨ op = BinOpStrictNe ∨ op = BinOpComma) := by
    rcases hop with ⟨_, rfl⟩ | ⟨_, rfl⟩ <;> decide
  have h2 : ¬ (op = BinOpLooseEq ∨ op = BinOpLooseNe) := by
    rcases hop with ⟨_, rfl⟩ | ⟨_, rfl⟩ <;> decide
  have h3 : op = BinOpLogicalAnd ∨ op = BinOpLogicalOr ∨ op = BinOpNullishCoalescing := by
    rcases hop with ⟨_, rfl⟩ | ⟨_, rfl⟩ <;> decide
  have h4 : op ≠ BinOpNullishCoalescing := by
    rcases hop with ⟨_, rfl⟩ | ⟨_, rfl⟩ <;> decide
  have h5 : cmpOp = BinOpLooseNe ∨ cmpOp = BinOpLooseEq := by
    rcases hop with ⟨rfl, _⟩ | ⟨rfl, _⟩ <;> decide
  rw [SimplifyUnusedExpr_EBinary, if_neg h1, if_neg h2, if_pos h3, he, if_neg (by simp),
    logicalLeft, if_pos h4, SimplifyBooleanExpr_null_right _ _ _ _ h5,
    logicalWithOptionalChain_null_right _ _ _ _ _ _ _ _ hop]

/-- The reduction of `null != t && e` and of `null == t || e` when the
reduction of `e` is not empty. -/
theorem SimplifyUnusedExpr_null_left (loc cmpLoc nullLoc : Loc) (op cmpOp : OpCode)
    (t e : Expr) (features : JSFeature) (isUnbound : Ref → Bool)
    (hop : (cmpOp = BinOpLooseNe ∧ op = BinOpLogicalAnd) ∨
      (cmpOp = BinOpLooseEq ∧ op = BinOpLogicalOr))
    (he : (SimplifyUnusedExpr e features isUnbound).data.isNil = false) :
    SimplifyUnusedExpr ⟨loc, .EBinary op (compare cmpLoc cmpOp ⟨nullLoc, .ENull⟩ t) e⟩ features
        isUnbound =
      if features.hasOptionalChain = false ∧ t.data.isUnflaggedIdentifier = true ∧
          hasGuardedTarget t (SimplifyUnusedExpr e features isUnbound) = true then
        markOptionalChain t (SimplifyUnusedExpr e features isUnbound)
      else ⟨loc, .EBinary op (compare cmpLoc cmpOp ⟨nullLoc, .ENull⟩ t)
        (SimplifyUnusedExpr e features isUnbound)⟩ := by
  have h1 : ¬ (op = BinOpStrictEq ∨ op = BinOpStrictNe ∨ op = BinOpComma) := by
    rcases hop with ⟨_, rfl⟩ | ⟨_, rfl⟩ <;> decide
  have h2 : ¬ (op = BinOpLooseEq ∨ op = BinOpLooseNe) := by
    rcases hop with ⟨_, rfl⟩ | ⟨_, rfl⟩ <;> decide
  have h3 : op = BinOpLogicalAnd ∨ op = BinOpLogicalOr ∨ op = BinOpNullishCoalescing := by
    rcases hop with ⟨_, rfl⟩ | ⟨_, rfl⟩ <;> decide
  have h4 : op ≠ BinOpNullishCoalescing := by
    rcases hop with ⟨_, rfl⟩ | ⟨_, rfl⟩ <;> decide
  have h5 : cmpOp = BinOpLooseNe ∨ cmpOp = BinOpLooseEq := by
    rcases hop with ⟨rfl, _⟩ | ⟨rfl, _⟩ <;> decide
  rw [SimplifyUnusedExpr_EBinary, if_neg h1, if_neg h2, if_pos h3, he, if_neg (by simp),
    logicalLeft, if_pos h4, SimplifyBooleanExpr_null_left _ _ _ _ h5,
    logicalWithOptionalChain_null_left _ _ _ _ _ _ _ _ hop]

/-- C14 (counterexample): in `a != null && a.b?.c` the guard `a` is an
identifier that is not flagged, the right side reduces to itself, and its
target chain has the node `a.b` on `a`; the rewrite gives `a?.b?.c`, in which
the enclosing node `?.c` is still `OptionalChainStart`, not
`OptionalChainContinue`. -/
theorem enclosing_chain_start_is_kept :
    identA.data.isUnflaggedIdentifier = true ∧
    SimplifyUnusedExpr
        (aDotBDotC OptionalChain.OptionalChainNone OptionalChain.OptionalChainStart)
        chainSupported allBound =
      aDotBDotC OptionalChain.OptionalChainNone OptionalChain.OptionalChainStart ∧
    hasGuardedTarget identA
        (aDotBDotC OptionalChain.OptionalChainNone OptionalChain.OptionalChainStart) = true ∧
    SimplifyUnusedExpr
        ⟨loc0, .EBinary BinOpLogicalAnd aNotNull
          (aDotBDotC OptionalChain.OptionalChainNone OptionalChain.OptionalChainStart)⟩
        chainSupported allBound =
      aDotBDotC OptionalChain.OptionalChainStart OptionalChain.OptionalChainStart ∧
    OptionalChain.OptionalChainStart ≠ OptionalChain.OptionalChainContinue :=
  ⟨rfl, rfl, rfl, rfl, by decide⟩

/-- C14 (amended): let `a` be an identifier that is not flagged
`MustKeepDueToWithStmt` and `e` an expression whose reduction `e'` is not
empty. When the target supports optional chaining and the target chain of `e'`
has a node whose target looks the same as `a`, the four guarded forms
`a != null && e`, `null != a && e`, `a == null || e` and `null == a || e` all
reduce to `markOptionalChain a e'`: `e'` alone, that node marked
`OptionalChainStart`, the enclosing chain nodes that had no chain state marked
`OptionalChainContinue` and the others keeping theirs. When the target has no
optional chaining the four forms keep their `&&` / `||` and their comparison,
with `e'` on the right. -/
theorem optional_chain_rewrite (loc cmpLoc nullLoc aLoc : Loc) (ref : Ref) (canBeRemoved : Bool)
    (e : Expr) (features : JSFeature) (isUnbound : Ref → Bool)
    (he : (SimplifyUnusedExpr e features isUnbound).data.isNil = false) :
    (features.hasOptionalChain = false →
      hasGuardedTarget ⟨aLoc, .EIdentifier ref false canBeRemoved⟩
        (SimplifyUnusedExpr e features isUnbound) = true →
      SimplifyUnusedExpr ⟨loc, .EBinary BinOpLogicalAnd (compare cmpLoc BinOpLooseNe
          ⟨aLoc, .EIdentifier ref false canBeRemoved⟩ ⟨nullLoc, .ENull⟩) e⟩ features isUnbound =
        markOptionalChain ⟨aLoc, .EIdentifier ref false canBeRemoved⟩
          (SimplifyUnusedExpr e features isUnbound) ∧
      SimplifyUnusedExpr ⟨loc, .EBinary BinOpLogicalAnd (compare cmpLoc BinOpLooseNe
          ⟨nullLoc, .ENull⟩ ⟨aLoc, .EIdentifier ref false canBeRemoved⟩) e⟩ features isUnbound =
        markOptionalChain ⟨aLoc, .EIdentifier ref false canBeRemoved⟩
          (SimplifyUnusedExpr e features isUnbound) ∧
      SimplifyUnusedExpr ⟨loc, .EBinary BinOpLogicalOr (compare cmpLoc BinOpLooseEq
          ⟨aLoc, .EIdentifier ref false canBeRemoved⟩ ⟨nullLoc, .ENull⟩) e⟩ features isUnbound =
        markOptionalChain ⟨aLoc, .EIdentifier ref false canBeRemoved⟩
          (SimplifyUnusedExpr e features isUnbound) ∧
      SimplifyUnusedExpr ⟨loc, .EBinary BinOpLogicalOr (compare cmpLoc BinOpLooseEq
          ⟨nullLoc, .ENull⟩ ⟨aLoc, .EIdentifier ref false canBeRemoved⟩) e⟩ features isUnbound =
        markOptionalChain ⟨aLoc, .EIdentifier ref false canBeRemoved⟩
          (SimplifyUnusedExpr e features isUnbound)) ∧
    (features.hasOptionalChain = true →
      SimplifyUnusedExpr ⟨loc, .EBinary BinOpLogicalAnd (compare cmpLoc BinOpLooseNe
          ⟨aLoc, .EIdentifier ref false canBeRemoved⟩ ⟨nullLoc, .ENull⟩) e⟩ features isUnbound =
        ⟨loc, .EBinary BinOpLogicalAnd (compare cmpLoc BinOpLooseNe
          ⟨aLoc, .EIdentifier ref false canBeRemoved⟩ ⟨nullLoc, .ENull⟩)
          (SimplifyUnusedExpr e features isUnbound)⟩ ∧
      SimplifyUnusedExpr ⟨loc, .EBinary BinOpLogicalAnd (compare cmpLoc BinOpLooseNe
          ⟨nullLoc, .ENull⟩ ⟨aLoc, .EIdentifier ref false canBeRemoved⟩) e⟩ features isUnbound =
        ⟨loc, .EBinary BinOpLogicalAnd (compare cmpLoc BinOpLooseNe
          ⟨nullLoc, .ENull⟩ ⟨aLoc, .EIdentifier ref false canBeRemoved⟩)
          (SimplifyUnusedExpr e features isUnbound)⟩ ∧
      SimplifyUnusedExpr ⟨loc, .EBinary BinOpLogicalOr (compare cmpLoc BinOpLooseEq
          ⟨aLoc, .EIdentifier ref false canBeRemoved⟩ ⟨nullLoc, .ENull⟩) e⟩ features isUnbound =
        ⟨loc, .EBinary BinOpLogicalOr (compare cmpLoc BinOpLooseEq
          ⟨aLoc, .EIdentifier ref false canBeRemoved⟩ ⟨nullLoc, .ENull⟩)
          (SimplifyUnusedExpr e features isUnbound)⟩ ∧
      SimplifyUnusedExpr ⟨loc, .EBinary BinOpLogicalOr (compare cmpLoc BinOpLooseEq
          ⟨nullLoc, .ENull⟩ ⟨aLoc, .EIdentifier ref false canBeRemoved⟩) e⟩ features isUnbound =
        ⟨loc, .EBinary BinOpLogicalOr (compare cmpLoc BinOpLooseEq
          ⟨nullLoc, .ENull⟩ ⟨aLoc, .EIdentifier ref false canBeRemoved⟩)
          (SimplifyUnusedExpr e features isUnbound)⟩) := by
  constructor
  · intro hf hg
    have hc : features.hasOptionalChain = false ∧
        (Expr.mk aLoc (.EIdentifier ref false canBeRemoved)).data.isUnflaggedIdentifier = true ∧
        hasGuardedTarget ⟨aLoc, .EIdentifier ref false canBeRemoved⟩
          (SimplifyUnusedExpr e features isUnbound) = true := ⟨hf, rfl, hg⟩
    refine ⟨?_, ?_, ?_, ?_⟩
    · rw [SimplifyUnusedExpr_null_right _ _ _ _ _ _ _ _ _ (Or.inl ⟨rfl, rfl⟩) he, if_pos hc]
    · rw [SimplifyUnusedExpr_null_left _ _ _ _ _ _ _ _ _ (Or.inl ⟨rfl, rfl⟩) he, if_pos hc]
    · rw [SimplifyUnusedExpr_null_right _ _ _ _ _ _ _ _ _ (Or.inr ⟨rfl, rfl⟩) he, if_pos hc]
    · rw [SimplifyUnusedExpr_null_left _ _ _ _ _ _ _ _ _ (Or.inr ⟨rfl, rfl⟩) he, if_pos hc]
  · intro hf
    have hc : ¬ (features.hasOptionalChain = false ∧
        (Expr.mk aLoc (.EIdentifier ref false canBeRemoved)).data.isUnflaggedIdentifier = true ∧
        hasGuardedTarget ⟨aLoc, .EIdentifier ref false canBeRemoved⟩
          (SimplifyUnusedExpr e features isUnbound) = true) := by
      rw [hf]; simp
    refine ⟨?_, ?_, ?_, ?_⟩
    · rw [SimplifyUnusedExpr_null_right _ _ _ _ _ _ _ _ _ (Or.inl ⟨rfl, rfl⟩) he, if_neg hc]
    · rw [SimplifyUnusedExpr_null_left _ _ _ _ _ _ _ _ _ (Or.inl ⟨rfl, rfl⟩) he, if_neg hc]
    · rw [SimplifyUnusedExpr_null_right _ _ _ _ _ _ _ _ _ (Or.inr ⟨rfl, rfl⟩) he, if_neg hc]
    · rw [SimplifyUnusedExpr_null_left _ _ _ _ _ _ _ _ _ (Or.inr ⟨rfl, rfl⟩) he, if_neg hc]

/-- Witness for C14 (amended): with optional chaining supported,
`a != null && a.b.c()` becomes `a?.b.c()`. -/
theorem optional_chain_rewrite_witness :
    SimplifyUnusedExpr
        ⟨loc0, .EBinary BinOpLogicalAnd aNotNull
          (aDotBDotCCall OptionalChain.OptionalChainNone OptionalChain.OptionalChainNone
            OptionalChain.OptionalChainNone)⟩
        chainSupported allBound =
      aDotBDotCCall OptionalChain.OptionalChainStart OptionalChain.OptionalChainContinue
        OptionalChain.OptionalChainContinue :=
  ((optional_chain_rewrite loc0 loc0 loc0 loc0 refA false
    (aDotBDotCCall OptionalChain.OptionalChainNone OptionalChain.OptionalChainNone
      OptionalChain.OptionalChainNone) chainSupported allBound rfl).1 rfl rfl).1

/-- C15 (counterexample): with an oracle that reports `a` as unbound and
optional chaining supported, `a != null && a.b.c()` still becomes `a?.b.c()`:
the chain states inside the right side change and the null comparison is
dropped. -/
theorem unbound_guard_is_rewritten :
    allUnbound refA = true ∧
    SimplifyUnusedExpr
        ⟨loc0, .EBinary BinOpLogicalAnd aNotNull
          (aDotBDotCCall OptionalChain.OptionalChainNone OptionalChain.OptionalChainNone
            OptionalChain.OptionalChainNone)⟩
        chainSupported allUnbound =
      aDotBDotCCall OptionalChain.OptionalChainStart OptionalChain.OptionalChainContinue
        OptionalChain.OptionalChainContinue :=
  ⟨rfl, rfl⟩

/-- C15 (amended): the optional-chain rewrite is applied only when the guard is
an identifier that is not flagged `MustKeepDueToWithStmt`, bound or not. For
every guard `t` that is not such an identifier, every oracle, and every `e`
whose reduction `e'` is not empty, the four guarded forms `t != null && e`,
`null != t && e`, `t == null || e` and `null == t || e` keep their `&&` / `||`
and their null comparison, with `e'` on the right and no chain state of `e'`
changed. -/
theorem flagged_guard_is_not_rewritten (loc cmpLoc nullLoc : Loc) (t e : Expr)
    (features : JSFeature) (isUnbound : Ref → Bool)
    (ht : t.data.isUnflaggedIdentifier = false)
    (he : (SimplifyUnusedExpr e features isUnbound).data.isNil = false) :
    SimplifyUnusedExpr ⟨loc, .EBinary BinOpLogicalAnd
        (compare cmpLoc BinOpLooseNe t ⟨nullLoc, .ENull⟩) e⟩ features isUnbound =
      ⟨loc, .EBinary BinOpLogicalAnd (compare cmpLoc BinOpLooseNe t ⟨nullLoc, .ENull⟩)
        (SimplifyUnusedExpr e features isUnbound)⟩ ∧
    SimplifyUnusedExpr ⟨loc, .EBinary BinOpLogicalAnd
        (compare cmpLoc BinOpLooseNe ⟨nullLoc, .ENull⟩ t) e⟩ features isUnbound =
      ⟨loc, .EBinary BinOpLogicalAnd (compare cmpLoc BinOpLooseNe ⟨nullLoc, .ENull⟩ t)
        (SimplifyUnusedExpr e features isUnbound)⟩ ∧
    SimplifyUnusedExpr ⟨loc, .EBinary BinOpLogicalOr
        (compare cmpLoc BinOpLooseEq t ⟨nullLoc, .ENull⟩) e⟩ features isUnbound =
      ⟨loc, .EBinary BinOpLogicalOr (compare cmpLoc BinOpLooseEq t ⟨nullLoc, .ENull⟩)
        (SimplifyUnusedExpr e features isUnbound)⟩ ∧
    SimplifyUnusedExpr ⟨loc, .EBinary BinOpLogicalOr
        (compare cmpLoc BinOpLooseEq ⟨nullLoc, .ENull⟩ t) e⟩ features isUnbound =
      ⟨loc, .EBinary BinOpLogicalOr (compare cmpLoc BinOpLooseEq ⟨nullLoc, .ENull⟩ t)
        (SimplifyUnusedExpr e features isUnbound)⟩ := by
  have hc : ¬ (features.hasOptionalChain = false ∧ t.data.isUnflaggedIdentifier = true ∧
      hasGuardedTarget t (SimplifyUnusedExpr e features isUnbound) = true) := by
    rw [ht]; simp
  refine ⟨?_, ?_, ?_, ?_⟩
  · rw [SimplifyUnusedExpr_null_right _ _ _ _ _ _ _ _ _ (Or.inl ⟨rfl, rfl⟩) he, if_neg hc]
  · rw [SimplifyUnusedExpr_null_left _ _ _ _ _ _ _ _ _ (Or.inl ⟨rfl, rfl⟩) he, if_neg hc]
  · rw [SimplifyUnusedExpr_null_right _ _ _ _ _ _ _ _ _ (Or.inr ⟨rfl, rfl⟩) he, if_neg hc]
  · rw [SimplifyUnusedExpr_null_left _ _ _ _ _ _ _ _ _ (Or.inr ⟨rfl, rfl⟩) he, if_neg hc]

/-- Witness for C15 (amended): inside a `with` scope,
`a != null && a.b.c()` keeps its comparison and its chain states. -/
theorem flagged_guard_is_not_rewritten_witness :
    SimplifyUnusedExpr
        ⟨loc0, .EBinary BinOpLogicalAnd (compare loc0 BinOpLooseNe flaggedA nullLiteral)
          (aDotBDotCCall OptionalChain.OptionalChainNone OptionalChain.OptionalChainNone
            OptionalChain.OptionalChainNone)⟩
        chainSupported allBound =
      ⟨loc0, .EBinary BinOpLogicalAnd (compare loc0 BinOpLooseNe flaggedA nullLiteral)
        (aDotBDotCCall OptionalChain.OptionalChainNone OptionalChain.OptionalChainNone
          OptionalChain.OptionalChainNone)⟩ :=
  (flagged_guard_is_not_rewritten loc0 loc0 loc0 flaggedA
    (aDotBDotCCall OptionalChain.OptionalChainNone OptionalChain.OptionalChainNone
      OptionalChain.OptionalChainNone) chainSupported allBound rfl rfl).1

/-! ## Templates -/

theorem prependRun_prependRun (loc loc2 : Loc) (values values2 : List Expr)
    (pieces : List TemplatePiece) :
    prependRun loc values (prependRun loc2 values2 pieces) =
      prependRun loc (values ++ values2) pieces := by
  cases pieces with
  | nil => rfl
  | cons piece rest =>
    cases piece with
    | reduced value => rfl
    | run loc3 more =>
      show TemplatePiece.run loc (values ++ (values2 ++ more)) :: rest =
        TemplatePiece.run loc (values ++ values2 ++ more) :: rest
      rw [List.append_assoc]

theorem templatePieces_cons (reduce : Expr → Expr) (value : Expr) (tailCooked : List Nat)
    (rest : List TemplatePart) :
    templatePieces reduce (⟨value, tailCooked⟩ :: rest) =
      if KnownPrimitiveType value ≠ PrimitiveUnknown then
        .reduced (reduce value) :: templatePieces reduce rest
      else prependRun value.loc [value] (templatePieces reduce rest) := rfl

/-- The loop over the parts of an untagged template joins the pieces of the
parts still to come onto `comma`, the run collected so far being put in front
of them. -/
theorem simplifyUnusedTemplateParts_eq (features : JSFeature) (isUnbound : Ref → Bool)
    (parts : List TemplatePart) :
    (∀ (comma : Expr) (templateLoc : Loc),
      simplifyUnusedTemplateParts (fun y => SimplifyUnusedExpr y features isUnbound) parts comma
          templateLoc none features isUnbound =
        ((templatePieces (fun y => SimplifyUnusedExpr y features isUnbound) parts).map
          TemplatePiece.toExpr).foldl JoinWithComma comma) ∧
    (∀ (comma : Expr) (templateLoc : Loc) (values : List Expr),
      simplifyUnusedTemplateParts (fun y => SimplifyUnusedExpr y features isUnbound) parts comma
          templateLoc (some (values.map fun value => ⟨value, []⟩)) features isUnbound =
        ((prependRun templateLoc values
            (templatePieces (fun y => SimplifyUnusedExpr y features isUnbound) parts)).map
          TemplatePiece.toExpr).foldl JoinWithComma comma) := by
  induction parts with
  | nil => exact ⟨fun _ _ => rfl, fun _ _ _ => rfl⟩
  | cons part rest ih =>
    obtain ⟨value, tailCooked⟩ := part
    obtain ⟨ihA, ihB⟩ := ih
    constructor
    · intro comma templateLoc
      rw [simplifyUnusedTemplateParts_cons, templatePieces_cons]
      by_cases hk : KnownPrimitiveType value ≠ PrimitiveUnknown
      · rw [if_pos hk, if_pos hk, ihA, SimplifyUnusedExpr_self]
        rfl
      · rw [if_neg hk, if_neg hk]
        exact ihB comma value.loc [value]
    · intro comma templateLoc values
      rw [simplifyUnusedTemplateParts_cons, templatePieces_cons]
      by_cases hk : KnownPrimitiveType value ≠ PrimitiveUnknown
      · rw [if_pos hk, if_pos hk, ihA, SimplifyUnusedExpr_self]
        rfl
      · rw [if_neg hk, if_neg hk, prependRun_prependRun]
        have h := ihB comma templateLoc (values ++ [value])
        rw [List.map_append] at h
        exact h

theorem runValues_prependRun (loc : Loc) (values : List Expr) (pieces : List TemplatePiece) :
    (prependRun loc values pieces).flatMap TemplatePiece.runValues =
      values ++ pieces.flatMap TemplatePiece.runValues := by
  cases pieces with
  | nil => simp [prependRun, TemplatePiece.runValues]
  | cons piece rest =>
    cases piece <;> simp [prependRun, TemplatePiece.runValues]

/-- The runs of the pieces hold the values of the parts of unknown type, all of
them and in source order. -/
theorem templatePieces_runValues (reduce : Expr → Expr) (parts : List TemplatePart) :
    (templatePieces reduce parts).flatMap TemplatePiece.runValues =
      (parts.filter fun part => decide (KnownPrimitiveType part.value = PrimitiveUnknown)).map
        TemplatePart.value := by
  induction parts with
  | nil => rfl
  | cons part rest ih =>
    obtain ⟨value, tailCooked⟩ := part
    rw [templatePieces_cons]
    by_cases hk : KnownPrimitiveType value ≠ PrimitiveUnknown
    · rw [if_pos hk]
      have hk2 : KnownPrimitiveType (TemplatePart.mk value tailCooked).value ≠ PrimitiveUnknown := hk
      simp [TemplatePiece.runValues, ih, hk2]
    · rw [if_neg hk, runValues_prependRun, ih]
      have hk2 : KnownPrimitiveType (TemplatePart.mk value tailCooked).value = PrimitiveUnknown :=
        not_not.1 hk
      rw [List.filter_cons_of_pos (by simp [hk2])]
      rfl

theorem JoinWithComma_isNil (a b : Expr) (ha : a.data.isNil = true) (hb : b.data.isNil = true) :
    (JoinWithComma a b).data.isNil = true := by
  unfold JoinWithComma
  rw [if_pos ha]
  exact hb

/-- When every part has a known type and reduces to nothing, nothing is left of
the template. -/
theorem templatePieces_all_empty (reduce : Expr → Expr) (parts : List TemplatePart)
    (h : ∀ part ∈ parts, KnownPrimitiveType part.value ≠ PrimitiveUnknown ∧
      (reduce part.value).data.isNil = true) :
    ∀ comma : Expr, comma.data.isNil = true →
      (((templatePieces reduce parts).map TemplatePiece.toExpr).foldl JoinWithComma
        comma).data.isNil = true := by
  induction parts with
  | nil => intro comma hc; exact hc
  | cons part rest ih =>
    intro comma hc
    obtain ⟨value, tailCooked⟩ := part
    have hp := h ⟨value, tailCooked⟩ (List.mem_cons_self _ _)
    have hp1 : KnownPrimitiveType value ≠ PrimitiveUnknown := hp.1
    rw [templatePieces_cons, if_pos hp1]
    exact ih (fun p hp2 => h p (List.mem_cons_of_mem _ hp2)) _
      (JoinWithComma_isNil _ _ hc hp.2)

/-- C17: for an untagged template, `SimplifyUnusedExpr` returns the comma-join,
in source order, of the pieces of the template: the reduction of each part with
a known primitive type (`JoinWithComma` leaves out the empty ones), and one
untagged template for each maximal run of consecutive parts of unknown type,
holding exactly the values of the run. The runs hold all the values of unknown
type, in source order; the result is empty when every part has a known type
and reduces to nothing; a tagged template comes back unchanged. For example
the parts `x`, `1`, `x` leave the two templates of `x`, joined by a comma. -/
theorem template_reduction (loc : Loc) (tagOrNil : Expr) (headCooked : List Nat)
    (parts : List TemplatePart) (features : JSFeature) (isUnbound : Ref → Bool) :
    (tagOrNil.data.isNil = true →
      SimplifyUnusedExpr ⟨loc, .ETemplate tagOrNil headCooked parts⟩ features isUnbound =
        JoinAllWithComma
          ((templatePieces (fun y => SimplifyUnusedExpr y features isUnbound) parts).map
            TemplatePiece.toExpr)) ∧
    (templatePieces (fun y => SimplifyUnusedExpr y features isUnbound) parts).flatMap
        TemplatePiece.runValues =
      (parts.filter fun part => decide (KnownPrimitiveType part.value = PrimitiveUnknown)).map
        TemplatePart.value ∧
    (tagOrNil.data.isNil = true →
      (∀ part ∈ parts, KnownPrimitiveType part.value ≠ PrimitiveUnknown ∧
        (SimplifyUnusedExpr part.value features isUnbound).data.isNil = true) →
      (SimplifyUnusedExpr ⟨loc, .ETemplate tagOrNil headCooked parts⟩ features
        isUnbound).data.isNil = true) ∧
    (tagOrNil.data.isNil = false →
      SimplifyUnusedExpr ⟨loc, .ETemplate tagOrNil headCooked parts⟩ features isUnbound =
        ⟨loc, .ETemplate tagOrNil headCooked parts⟩) ∧
    SimplifyUnusedExpr sampleTemplate features allUnbound =
      ⟨loc0, .EBinary BinOpComma templateOfX templateOfX⟩ := by
  have hS : tagOrNil.data.isNil = true →
      SimplifyUnusedExpr ⟨loc, .ETemplate tagOrNil headCooked parts⟩ features isUnbound =
        JoinAllWithComma
          ((templatePieces (fun y => SimplifyUnusedExpr y features isUnbound) parts).map
            TemplatePiece.toExpr) := by
    intro htag
    rw [SimplifyUnusedExpr_unfold, SimplifyUnusedExprWith_ETemplate, if_pos htag,
      (simplifyUnusedTemplateParts_eq features isUnbound parts).1]
    rfl
  refine ⟨hS, templatePieces_runValues _ parts, ?_, ?_, ?_⟩
  · intro htag hall
    rw [hS htag]
    exact templatePieces_all_empty _ parts hall Expr.empty rfl
  · intro htag
    rw [SimplifyUnusedExpr_unfold, SimplifyUnusedExprWith_ETemplate, if_neg (by simp [htag])]
  · rw [SimplifyUnusedExpr_unfold]; rfl

/-! ## Idempotence -/

theorem SimplifyUnusedExpr_empty (features : JSFeature) (isUnbound : Ref → Bool) :
    SimplifyUnusedExpr Expr.empty features isUnbound = Expr.empty := rfl

theorem SimplifyUnusedExpr_EIdentifier (loc : Loc) (ref : Ref) (mustKeep canBeRemoved : Bool)
    (features : JSFeature) (isUnbound : Ref → Bool) :
    SimplifyUnusedExpr ⟨loc, .EIdentifier ref mustKeep canBeRemoved⟩ features isUnbound =
      if mustKeep then ⟨loc, .EIdentifier ref mustKeep canBeRemoved⟩
      else if canBeRemoved || !isUnbound ref then Expr.empty
      else ⟨loc, .EIdentifier ref mustKeep canBeRemoved⟩ := rfl

theorem SimplifyUnusedExpr_EDot (loc : Loc) (target : Expr) (name : String)
    (optionalChain : OptionalChain) (canBeRemoved unwrap : Bool)
    (features : JSFeature) (isUnbound : Ref → Bool) :
    SimplifyUnusedExpr ⟨loc, .EDot target name optionalChain canBeRemoved unwrap⟩ features
        isUnbound =
      if canBeRemoved then Expr.empty
      else ⟨loc, .EDot target name optionalChain canBeRemoved unwrap⟩ := rfl

theorem SimplifyUnusedExpr_EArray (loc : Loc) (items : List Expr) (isSingleLine : Bool)
    (features : JSFeature) (isUnbound : Ref → Bool) :
    SimplifyUnusedExpr ⟨loc, .EArray items isSingleLine⟩ features isUnbound =
      if items.any (fun item => item.data.isESpread) then
        ⟨loc, .EArray
          (simplifyUnusedKeepNonEmpty (fun y => SimplifyUnusedExpr y features isUnbound) items
            features isUnbound) isSingleLine⟩
      else
        simplifyUnusedAndJoin (fun y => SimplifyUnusedExpr y features isUnbound) items Expr.empty
          features isUnbound := by
  rw [SimplifyUnusedExpr_unfold, SimplifyUnusedExprWith_EArray]

theorem SimplifyUnusedExpr_EObject (loc : Loc) (properties : List Property)
    (isSingleLine : Bool) (features : JSFeature) (isUnbound : Ref → Bool) :
    SimplifyUnusedExpr ⟨loc, .EObject properties isSingleLine⟩ features isUnbound =
      if properties.any (fun property => decide (property.kind = PropertyKind.PropertySpread))
      then
        ⟨loc, .EObject
          (simplifyUnusedObjectWithSpread (fun y => SimplifyUnusedExpr y features isUnbound)
            properties features isUnbound) isSingleLine⟩
      else
        simplifyUnusedPropertiesAndJoin (fun y => SimplifyUnusedExpr y features isUnbound)
          properties Expr.empty features isUnbound := by
  rw [SimplifyUnusedExpr_unfold, SimplifyUnusedExprWith_EObject]

theorem SimplifyUnusedExpr_ETemplate (loc : Loc) (tagOrNil : Expr) (headCooked : List Nat)
    (parts : List TemplatePart) (features : JSFeature) (isUnbound : Ref → Bool) :
    SimplifyUnusedExpr ⟨loc, .ETemplate tagOrNil headCooked parts⟩ features isUnbound =
      if tagOrNil.data.isNil then
        JoinAllWithComma
          ((templatePieces (fun y => SimplifyUnusedExpr y features isUnbound) parts).map
            TemplatePiece.toExpr)
      else ⟨loc, .ETemplate tagOrNil headCooked parts⟩ := by
  rw [SimplifyUnusedExpr_unfold, SimplifyUnusedExprWith_ETemplate,
    (simplifyUnusedTemplateParts_eq features isUnbound parts).1]
  rfl

theorem SimplifyUnusedExpr_pure_ECall (loc : Loc) (target : Expr) (args : List Expr)
    (optionalChain : OptionalChain) (kind : CallKind) (features : JSFeature)
    (isUnbound : Ref → Bool) :
    SimplifyUnusedExpr ⟨loc, .ECall target args optionalChain true kind⟩ features isUnbound =
      simplifyUnusedArgsAndJoin (fun y => SimplifyUnusedExpr y features isUnbound) args
        Expr.empty features isUnbound := by
  rw [SimplifyUnusedExpr_unfold, SimplifyUnusedExprWith_pure_ECall]

theorem SimplifyUnusedExpr_ENew (loc : Loc) (target : Expr) (args : List Expr)
    (canBeUnwrapped : Bool) (features : JSFeature) (isUnbound : Ref → Bool) :
    SimplifyUnusedExpr ⟨loc, .ENew target args canBeUnwrapped⟩ features isUnbound =
      if canBeUnwrapped then
        simplifyUnusedArgsAndJoin (fun y => SimplifyUnusedExpr y features isUnbound) args
          Expr.empty features isUnbound
      else ⟨loc, .ENew target args canBeUnwrapped⟩ := by
  rw [SimplifyUnusedExpr_unfold, SimplifyUnusedExprWith_ENew]

/-- The join of two fixed points of the reducer is a fixed point. -/
theorem JoinWithComma_fixed (features : JSFeature) (isUnbound : Ref → Bool) (a b : Expr)
    (ha : SimplifyUnusedExpr a features isUnbound = a)
    (hb : SimplifyUnusedExpr b features isUnbound = b) :
    SimplifyUnusedExpr (JoinWithComma a b) features isUnbound = JoinWithComma a b := by
  unfold JoinWithComma
  by_cases ha0 : a.data.isNil = true
  · rw [if_pos ha0]; exact hb
  · rw [if_neg ha0]
    by_cases hb0 : b.data.isNil = true
    · rw [if_pos hb0]; exact ha
    · rw [if_neg hb0, SimplifyUnusedExpr_EBinary, if_pos (Or.inr (Or.inr rfl)), ha, hb]
      unfold JoinWithComma
      rw [if_neg ha0, if_neg hb0]

theorem foldl_JoinWithComma_fixed (features : JSFeature) (isUnbound : Ref → Bool)
    (values : List Expr) (h : ∀ value ∈ values, SimplifyUnusedExpr value features isUnbound = value) :
    ∀ result : Expr, SimplifyUnusedExpr result features isUnbound = result →
      SimplifyUnusedExpr (values.foldl JoinWithComma result) features isUnbound =
        values.foldl JoinWithComma result := by
  induction values with
  | nil => intro result hr; exact hr
  | cons value rest ih =>
    intro result hr
    exact ih (fun v hv => h v (List.mem_cons_of_mem _ hv)) _
      (JoinWithComma_fixed features isUnbound result value hr (h value (List.mem_cons_self _ _)))

theorem simplifyUnusedAndJoin_fixed (features : JSFeature) (isUnbound : Ref → Bool)
    (items : List Expr)
    (h : ∀ item ∈ items,
      SimplifyUnusedExpr (SimplifyUnusedExpr item features isUnbound) features isUnbound =
        SimplifyUnusedExpr item features isUnbound) :
    ∀ result : Expr, SimplifyUnusedExpr result features isUnbound = result →
      SimplifyUnusedExpr
          (simplifyUnusedAndJoin (fun y => SimplifyUnusedExpr y features isUnbound) items result
            features isUnbound) features isUnbound =
        simplifyUnusedAndJoin (fun y => SimplifyUnusedExpr y features isUnbound) items result
          features isUnbound := by
  induction items with
  | nil => intro result hr; exact hr
  | cons item rest ih =>
    intro result hr
    rw [simplifyUnusedAndJoin_cons, SimplifyUnusedExpr_self]
    exact ih (fun v hv => h v (List.mem_cons_of_mem _ hv)) _
      (JoinWithComma_fixed features isUnbound result _ hr (h item (List.mem_cons_self _ _)))

theorem SimplifyUnusedExpr_ESpread (e : Expr) (features : JSFeature) (isUnbound : Ref → Bool)
    (h : e.data.isESpread = true) :
    SimplifyUnusedExpr e features isUnbound = e ∧ e.data.isNil = false ∧
    SimplifyUnusedExpr ⟨e.loc, .EArray [e] true⟩ features isUnbound =
      ⟨e.loc, .EArray [e] true⟩ := by
  obtain ⟨loc, d⟩ := e
  cases d with
  | ESpread value => exact ⟨rfl, rfl, rfl⟩
  | _ => cases h

theorem simplifyUnusedKeepNonEmpty_fixed (features : JSFeature) (isUnbound : Ref → Bool)
    (items : List Expr)
    (h : ∀ item ∈ items,
      SimplifyUnusedExpr (SimplifyUnusedExpr item features isUnbound) features isUnbound =
        SimplifyUnusedExpr item features isUnbound) :
    simplifyUnusedKeepNonEmpty (fun y => SimplifyUnusedExpr y features isUnbound)
        (simplifyUnusedKeepNonEmpty (fun y => SimplifyUnusedExpr y features isUnbound) items
          features isUnbound) features isUnbound =
      simplifyUnusedKeepNonEmpty (fun y => SimplifyUnusedExpr y features isUnbound) items
        features isUnbound := by
  induction items with
  | nil => rfl
  | cons item rest ih =>
    have ih2 := ih (fun v hv => h v (List.mem_cons_of_mem _ hv))
    rw [simplifyUnusedKeepNonEmpty_cons, SimplifyUnusedExpr_self]
    by_cases hn : (SimplifyUnusedExpr item features isUnbound).data.isNil = true
    · rw [if_pos hn]; exact ih2
    · rw [if_neg hn, simplifyUnusedKeepNonEmpty_cons, SimplifyUnusedExpr_self,
        h item (List.mem_cons_self _ _), if_neg hn, ih2]

theorem simplifyUnusedKeepNonEmpty_any (features : JSFeature) (isUnbound : Ref → Bool)
    (items : List Expr) (h : items.any (fun item => item.data.isESpread) = true) :
    (simplifyUnusedKeepNonEmpty (fun y => SimplifyUnusedExpr y features isUnbound) items
      features isUnbound).any (fun item => item.data.isESpread) = true := by
  induction items with
  | nil => cases h
  | cons item rest ih =>
    rw [simplifyUnusedKeepNonEmpty_cons, SimplifyUnusedExpr_self]
    rw [List.any_cons, Bool.or_eq_true] at h
    by_cases hs : item.data.isESpread = true
    · obtain ⟨h1, h2, _⟩ := SimplifyUnusedExpr_ESpread item features isUnbound hs
      rw [h1, h2, if_neg (by simp), List.any_cons, hs]
      rfl
    · have hr := ih (h.resolve_left hs)
      by_cases hn : (SimplifyUnusedExpr item features isUnbound).data.isNil = true
      · rw [if_pos hn]; exact hr
      · rw [if_neg hn, List.any_cons, hr, Bool.or_true]

theorem simplifyUnusedObjectWithSpread_fixed (features : JSFeature) (isUnbound : Ref → Bool)
    (properties : List Property)
    (h : ∀ property ∈ properties, property.flags.isComputed = false ∧
      SimplifyUnusedExpr (SimplifyUnusedExpr property.valueOrNil features isUnbound) features
          isUnbound =
        SimplifyUnusedExpr property.valueOrNil features isUnbound) :
    simplifyUnusedObjectWithSpread (fun y => SimplifyUnusedExpr y features isUnbound)
        (simplifyUnusedObjectWithSpread (fun y => SimplifyUnusedExpr y features isUnbound)
          properties features isUnbound) features isUnbound =
      simplifyUnusedObjectWithSpread (fun y => SimplifyUnusedExpr y features isUnbound)
        properties features isUnbound := by
  induction properties with
  | nil => rfl
  | cons property rest ih =>
    have ih2 := ih (fun v hv => h v (List.mem_cons_of_mem _ hv))
    obtain ⟨kind, flags, key, valueOrNil, initializerOrNil, classStaticBlock⟩ := property
    obtain ⟨hc, hv⟩ := h _ (List.mem_cons_self _ _)
    have hc2 : flags.isComputed = false := hc
    have hv2 : SimplifyUnusedExpr (SimplifyUnusedExpr valueOrNil features isUnbound) features
        isUnbound = SimplifyUnusedExpr valueOrNil features isUnbound := hv
    rw [simplifyUnusedObjectWithSpread_cons, SimplifyUnusedExpr_self]
    by_cases hk : kind ≠ PropertyKind.PropertySpread
    · rw [if_pos hk]
      cases hn : (SimplifyUnusedExpr valueOrNil features isUnbound).data.isNil
      · rw [if_pos (show (!false) = true from rfl), simplifyUnusedObjectWithSpread_cons,
          SimplifyUnusedExpr_self, if_pos hk, hv2, hn, if_pos (show (!false) = true from rfl),
          ih2]
      · rw [if_neg (show ¬ ((!true) = true) by simp), hc2,
          if_pos (show (!false) = true from rfl)]
        exact ih2
    · rw [if_neg hk, simplifyUnusedObjectWithSpread_cons, if_neg hk, ih2]

theorem simplifyUnusedObjectWithSpread_any (features : JSFeature) (isUnbound : Ref → Bool)
    (properties : List Property)
    (h : properties.any
      (fun property => decide (property.kind = PropertyKind.PropertySpread)) = true) :
    (simplifyUnusedObjectWithSpread (fun y => SimplifyUnusedExpr y features isUnbound)
      properties features isUnbound).any
      (fun property => decide (property.kind = PropertyKind.PropertySpread)) = true := by
  induction properties with
  | nil => cases h
  | cons property rest ih =>
    obtain ⟨kind, flags, key, valueOrNil, initializerOrNil, classStaticBlock⟩ := property
    rw [simplifyUnusedObjectWithSpread_cons]
    rw [List.any_cons, Bool.or_eq_true] at h
    by_cases hk : kind ≠ PropertyKind.PropertySpread
    · have hr := ih (h.resolve_left (by simpa [Property.kind] using hk))
      rw [if_pos hk]
      split
      · rw [List.any_cons, hr, Bool.or_true]
      · split
        · exact hr
        · rw [List.any_cons, hr, Bool.or_true]
    · rw [if_neg hk, List.any_cons]
      have hk2 : kind = PropertyKind.PropertySpread := not_not.1 hk
      simp [Property.kind, hk2]

theorem simplifyUnusedPropertiesAndJoin_fixed (features : JSFeature) (isUnbound : Ref → Bool)
    (properties : List Property)
    (h : ∀ property ∈ properties, property.flags.isComputed = false ∧
      SimplifyUnusedExpr (SimplifyUnusedExpr property.valueOrNil features isUnbound) features
          isUnbound =
        SimplifyUnusedExpr property.valueOrNil features isUnbound) :
    ∀ result : Expr, SimplifyUnusedExpr result features isUnbound = result →
      SimplifyUnusedExpr
          (simplifyUnusedPropertiesAndJoin (fun y => SimplifyUnusedExpr y features isUnbound)
            properties result features isUnbound) features isUnbound =
        simplifyUnusedPropertiesAndJoin (fun y => SimplifyUnusedExpr y features isUnbound)
          properties result features isUnbound := by
  induction properties with
  | nil => intro result hr; exact hr
  | cons property rest ih =>
    intro result hr
    obtain ⟨kind, flags, key, valueOrNil, initializerOrNil, classStaticBlock⟩ := property
    obtain ⟨hc, hv⟩ := h _ (List.mem_cons_self _ _)
    have hc2 : flags.isComputed = false := hc
    rw [simplifyUnusedPropertiesAndJoin_cons, SimplifyUnusedExpr_self, hc2, if_neg (by simp)]
    exact ih (fun v hv => h v (List.mem_cons_of_mem _ hv)) _
      (JoinWithComma_fixed features isUnbound result _ hr hv)

theorem simplifyUnusedArgsAndJoin_fixed (features : JSFeature) (isUnbound : Ref → Bool)
    (args : List Expr)
    (h : ∀ arg ∈ args,
      SimplifyUnusedExpr (SimplifyUnusedExpr arg features isUnbound) features isUnbound =
        SimplifyUnusedExpr arg features isUnbound) :
    ∀ result : Expr, SimplifyUnusedExpr result features isUnbound = result →
      SimplifyUnusedExpr
          (simplifyUnusedArgsAndJoin (fun y => SimplifyUnusedExpr y features isUnbound) args
            result features isUnbound) features isUnbound =
        simplifyUnusedArgsAndJoin (fun y => SimplifyUnusedExpr y features isUnbound) args result
          features isUnbound := by
  induction args with
  | nil => intro result hr; exact hr
  | cons arg rest ih =>
    intro result hr
    rw [simplifyUnusedArgsAndJoin_cons, SimplifyUnusedExpr_self]
    apply ih (fun v hv => h v (List.mem_cons_of_mem _ hv))
    apply JoinWithComma_fixed features isUnbound result _ hr
    by_cases hs : arg.data.isESpread = true
    · obtain ⟨h1, h2, h3⟩ := SimplifyUnusedExpr_ESpread arg features isUnbound hs
      rw [if_pos hs, h1, h2, if_neg (by simp)]
      exact h3
    · rw [if_neg hs]
      exact h arg (List.mem_cons_self _ _)

/-- Every run among the pieces of a template is not empty, holds values of
unknown type only, and is located at its first value. -/
theorem templatePieces_run (reduce : Expr → Expr) (parts : List TemplatePart) :
    ∀ loc values, TemplatePiece.run loc values ∈ templatePieces reduce parts →
      ∃ first rest, values = first :: rest ∧ loc = first.loc ∧
        ∀ value ∈ values, KnownPrimitiveType value = PrimitiveUnknown := by
  induction parts with
  | nil => intro loc values h; cases h
  | cons part rest ih =>
    intro loc values h
    obtain ⟨value, tailCooked⟩ := part
    rw [templatePieces_cons] at h
    by_cases hk : KnownPrimitiveType value ≠ PrimitiveUnknown
    · rw [if_pos hk] at h
      rcases List.mem_cons.1 h with h | h
      · cases h
      · exact ih loc values h
    · rw [if_neg hk] at h
      have hk2 : KnownPrimitiveType value = PrimitiveUnknown := not_not.1 hk
      cases hp : templatePieces reduce rest with
      | nil =>
        rw [hp] at h
        rcases List.mem_cons.1 h with h | h
        · cases h
          exact ⟨value, [], rfl, rfl, fun w hw => by rw [List.mem_singleton.1 hw]; exact hk2⟩
        · cases h
      | cons piece more =>
        rw [hp] at h ih
        cases piece with
        | reduced r =>
          rcases List.mem_cons.1 h with h | h
          · cases h
            exact ⟨value, [], rfl, rfl, fun w hw => by rw [List.mem_singleton.1 hw]; exact hk2⟩
          · exact ih loc values h
        | run loc2 values2 =>
          rcases List.mem_cons.1 h with h | h
          · cases h
            obtain ⟨first, rest2, hv, _, hall⟩ := ih loc2 values2 (List.mem_cons_self _ _)
            refine ⟨value, values2, rfl, rfl, ?_⟩
            intro w hw
            rcases List.mem_cons.1 hw with hw | hw
            · rw [hw]; exact hk2
            · exact hall w hw
          · exact ih loc values (List.mem_cons_of_mem _ h)

/-- The pieces of a template whose parts all have unknown type are one run. -/
theorem templatePieces_unknown (reduce : Expr → Expr) (first : Expr) (rest : List Expr) :
    (∀ value ∈ first :: rest, KnownPrimitiveType value = PrimitiveUnknown) →
    templatePieces reduce ((first :: rest).map fun value => ⟨value, []⟩) =
      [TemplatePiece.run first.loc (first :: rest)] := by
  induction rest generalizing first with
  | nil =>
    intro h
    have hk : ¬ KnownPrimitiveType first ≠ PrimitiveUnknown :=
      not_not.2 (h first (List.mem_cons_self _ _))
    show templatePieces reduce [⟨first, []⟩] = _
    rw [templatePieces_cons, if_neg hk]
    rfl
  | cons second rest ih =>
    intro h
    have hk : ¬ KnownPrimitiveType first ≠ PrimitiveUnknown :=
      not_not.2 (h first (List.mem_cons_self _ _))
    have ih2 := ih second (fun v hv => h v (List.mem_cons_of_mem _ hv))
    show templatePieces reduce (⟨first, []⟩ :: (second :: rest).map fun value => ⟨value, []⟩) = _
    rw [templatePieces_cons, if_neg hk, ih2]
    rfl

theorem JoinWithComma_empty_left (b : Expr) : JoinWithComma Expr.empty b = b := rfl

/-- The template that stands for a run is a fixed point of the reducer. -/
theorem templateRun_fixed (features : JSFeature) (isUnbound : Ref → Bool) (first : Expr)
    (rest : List Expr)
    (h : ∀ value ∈ first :: rest, KnownPrimitiveType value = PrimitiveUnknown) :
    SimplifyUnusedExpr (TemplatePiece.run first.loc (first :: rest)).toExpr features isUnbound =
      (TemplatePiece.run first.loc (first :: rest)).toExpr := by
  show SimplifyUnusedExpr
    ⟨first.loc, .ETemplate Expr.empty [] ((first :: rest).map fun value => ⟨value, []⟩)⟩
    features isUnbound = _
  rw [SimplifyUnusedExpr_ETemplate, if_pos (show Expr.empty.data.isNil = true from rfl),
    templatePieces_unknown _ first rest h]
  rfl

/-- The reduced parts among the pieces of a template are reductions of part
values. -/
theorem templatePieces_reduced (reduce : Expr → Expr) (parts : List TemplatePart) :
    ∀ r, TemplatePiece.reduced r ∈ templatePieces reduce parts →
      ∃ part ∈ parts, r = reduce part.value := by
  induction parts with
  | nil => intro r h; cases h
  | cons part rest ih =>
    intro r h
    obtain ⟨value, tailCooked⟩ := part
    rw [templatePieces_cons] at h
    by_cases hk : KnownPrimitiveType value ≠ PrimitiveUnknown
    · rw [if_pos hk] at h
      rcases List.mem_cons.1 h with h | h
      · cases h
        exact ⟨⟨value, tailCooked⟩, List.mem_cons_self _ _, rfl⟩
      · obtain ⟨p, hp, hr⟩ := ih r h
        exact ⟨p, List.mem_cons_of_mem _ hp, hr⟩
    · rw [if_neg hk] at h
      have hin : TemplatePiece.reduced r ∈ templatePieces reduce rest := by
        cases hp : templatePieces reduce rest with
        | nil =>
          rw [hp] at h
          rcases List.mem_cons.1 h with h | h
          · cases h
          · cases h
        | cons piece more =>
          rw [hp] at h
          cases piece with
          | reduced r2 =>
            rcases List.mem_cons.1 h with h | h
            · cases h
            · exact h
          | run loc2 values2 =>
            rcases List.mem_cons.1 h with h | h
            · cases h
            · exact List.mem_cons_of_mem _ h
      obtain ⟨p, hp, hr⟩ := ih r hin
      exact ⟨p, List.mem_cons_of_mem _ hp, hr⟩

/-- A call that is not marked pure and is not an immediately-invoked arrow
function to be replaced by its body reduces to a fixed point. -/
theorem SimplifyUnusedExpr_impure_ECall_fixed (loc : Loc) (target : Expr) (args : List Expr)
    (optionalChain : OptionalChain) (kind : CallKind) (features : JSFeature)
    (isUnbound : Ref → Bool) (h : isInlinableIIFE target args = false) :
    SimplifyUnusedExpr
        (SimplifyUnusedExpr ⟨loc, .ECall target args optionalChain false kind⟩ features isUnbound)
        features isUnbound =
      SimplifyUnusedExpr ⟨loc, .ECall target args optionalChain false kind⟩ features isUnbound := by
  have hcall : ∀ (t : Expr) (a : List Expr),
      shortenIIFE loc t a optionalChain kind = ⟨loc, .ECall t a optionalChain false kind⟩ →
      SimplifyUnusedExpr (shortenIIFE loc t a optionalChain kind) features isUnbound =
        shortenIIFE loc t a optionalChain kind := by
    intro t a ht
    rw [ht, SimplifyUnusedExpr_impure_ECall, ht]
  rw [SimplifyUnusedExpr_impure_ECall]
  obtain ⟨targetLoc, d⟩ := target
  cases args with
  | cons arg rest => cases d <;> exact hcall _ _ rfl
  | nil =>
    cases d with
    | EFunction fn =>
      obtain ⟨fnArgs, fnBody, isAsync, isGenerator⟩ := fn
      cases fnArgs <;> cases fnBody <;> rfl
    | EArrow arrowArgs arrowBody isAsync preferExpr =>
      cases arrowArgs with
      | cons a as => cases arrowBody <;> exact hcall _ _ rfl
      | nil =>
        cases arrowBody with
        | nil => rfl
        | cons s ss =>
          obtain ⟨stmtLoc, sd⟩ := s
          cases ss with
          | cons s2 ss2 => cases sd <;> cases isAsync <;> exact hcall _ _ rfl
          | nil =>
            cases sd <;> cases isAsync <;> first
              | exact hcall _ _ rfl
              | (show SimplifyUnusedExpr ⟨loc, .ECall _ [] optionalChain false kind⟩ features
                  isUnbound = _
                 rw [SimplifyUnusedExpr_impure_ECall]
                 rfl)
              | (have h2 : true = false := h
                 cases h2)
    | _ => exact hcall _ _ rfl

/-- C19 (counterexample): the immediately-invoked arrow `(() => { 1 })()`
reduces to its body `1`, which is not empty, and `1` reduces to nothing; the
ternary `!!a ? 1 : x()` reduces to `!!a || x()`, which reduces further to
`a || x()`. -/
theorem reducer_is_not_idempotent :
    SimplifyUnusedExpr iifeOfOne chainSupported allBound = oneLiteral ∧
    oneLiteral.data.isNil = false ∧
    SimplifyUnusedExpr oneLiteral chainSupported allBound = Expr.empty ∧
    SimplifyUnusedExpr (SimplifyUnusedExpr iifeOfOne chainSupported allBound) chainSupported
        allBound ≠
      SimplifyUnusedExpr iifeOfOne chainSupported allBound ∧
    SimplifyUnusedExpr sampleTernary chainSupported allUnbound =
      ⟨loc0, .EBinary BinOpLogicalOr notNotA impureCall⟩ ∧
    SimplifyUnusedExpr ⟨loc0, .EBinary BinOpLogicalOr notNotA impureCall⟩ chainSupported
        allUnbound =
      ⟨loc0, .EBinary BinOpLogicalOr identA impureCall⟩ := by
  refine ⟨rfl, rfl, rfl, ?_, rfl, rfl⟩
  intro h
  have h2 : Expr.empty = oneLiteral := h
  cases h2

/-! ## The boolean simplifier on ternaries -/

/-- C21: for a ternary `t ? y : n`, with `y'` and `n'` the boolean-simplified
branches: when the boolean value of `y'` is known without side effects, the
result is `t || n'` (joined left-associatively) if `y'` is truthy and
`Not(t) && n'` if it is falsy; otherwise, when the boolean value of `n'` is
known without side effects, the result is `Not(t) || y'` if `n'` is truthy and
`t && y'` if it is falsy; otherwise it is `t ? y' : n'`. -/
theorem boolean_ternary_reduction (loc : Loc) (t y n : Expr) :
    SimplifyBooleanExpr ⟨loc, .EIf t y n⟩ =
      (if (ToBooleanWithSideEffects (SimplifyBooleanExpr y).data).2.2 = true ∧
          (ToBooleanWithSideEffects (SimplifyBooleanExpr y).data).2.1 = NoSideEffects then
        if (ToBooleanWithSideEffects (SimplifyBooleanExpr y).data).1 = true then
          JoinWithLeftAssociativeOp BinOpLogicalOr t (SimplifyBooleanExpr n)
        else JoinWithLeftAssociativeOp BinOpLogicalAnd (Not t) (SimplifyBooleanExpr n)
      else if (ToBooleanWithSideEffects (SimplifyBooleanExpr n).data).2.2 = true ∧
          (ToBooleanWithSideEffects (SimplifyBooleanExpr n).data).2.1 = NoSideEffects then
        if (ToBooleanWithSideEffects (SimplifyBooleanExpr n).data).1 = true then
          JoinWithLeftAssociativeOp BinOpLogicalOr (Not t) (SimplifyBooleanExpr y)
        else JoinWithLeftAssociativeOp BinOpLogicalAnd t (SimplifyBooleanExpr y)
      else ⟨loc, .EIf t (SimplifyBooleanExpr y) (SimplifyBooleanExpr n)⟩) ∧
    SimplifyBooleanExpr ⟨loc0, .EIf identA trueLiteral impureCall⟩ =
      ⟨loc0, .EBinary BinOpLogicalOr identA impureCall⟩ ∧
    SimplifyBooleanExpr ⟨loc0, .EIf identA falseLiteral impureCall⟩ =
      ⟨loc0, .EBinary BinOpLogicalAnd ⟨loc0, .EUnary UnOpNot identA false⟩ impureCall⟩ ∧
    SimplifyBooleanExpr ⟨loc0, .EIf identA impureCall trueLiteral⟩ =
      ⟨loc0, .EBinary BinOpLogicalOr ⟨loc0, .EUnary UnOpNot identA false⟩ impureCall⟩ ∧
    SimplifyBooleanExpr ⟨loc0, .EIf identA impureCall falseLiteral⟩ =
      ⟨loc0, .EBinary BinOpLogicalAnd identA impureCall⟩ :=
  ⟨SimplifyBooleanExpr_EIf loc t y n, rfl, rfl, rfl, rfl⟩

/-! ## The primitive type oracle -/

theorem mergeTypes_comm (x y : PrimitiveType) : mergeTypes x y = mergeTypes y x := by
  cases x <;> cases y <;> rfl

theorem mergeTypes_self (x : PrimitiveType) : mergeTypes x x = x := by
  cases x <;> rfl

/-- C27: `MergedKnownPrimitiveTypes(a, b)` is Unknown if either type is
Unknown, else the common type if the two are equal, else Mixed. It is
commutative, merging an expression with itself gives its type, and Unknown is
absorbing on either side. The type of a ternary `c ? a : b`, of `a && b` and
of `a || b` is the merge of the two branches or operands, whatever `c` is. -/
theorem merged_known_primitive_types (loc : Loc) (a b c : Expr) :
    MergedKnownPrimitiveTypes a b =
      (if KnownPrimitiveType a = PrimitiveUnknown ∨ KnownPrimitiveType b = PrimitiveUnknown then
        PrimitiveUnknown
      else if KnownPrimitiveType a = KnownPrimitiveType b then KnownPrimitiveType a
      else PrimitiveMixed) ∧
    MergedKnownPrimitiveTypes a b = MergedKnownPrimitiveTypes b a ∧
    MergedKnownPrimitiveTypes a a = KnownPrimitiveType a ∧
    (KnownPrimitiveType a = PrimitiveUnknown →
      MergedKnownPrimitiveTypes a b = PrimitiveUnknown ∧
      MergedKnownPrimitiveTypes b a = PrimitiveUnknown) ∧
    KnownPrimitiveType ⟨loc, .EIf c a b⟩ = MergedKnownPrimitiveTypes a b ∧
    KnownPrimitiveType ⟨loc, .EBinary BinOpLogicalAnd a b⟩ = MergedKnownPrimitiveTypes a b ∧
    KnownPrimitiveType ⟨loc, .EBinary BinOpLogicalOr a b⟩ = MergedKnownPrimitiveTypes a b := by
  refine ⟨rfl, mergeTypes_comm _ _, mergeTypes_self _, ?_, rfl, rfl, rfl⟩
  intro h
  unfold MergedKnownPrimitiveTypes
  rw [h]
  constructor
  · rfl
  · cases KnownPrimitiveType b <;> rfl

/-- C28: the type oracle maps the null, undefined, boolean, number, string and
bigint literals to their kind; `void e` to Undefined; `typeof e` to String;
`!e` and `delete e` to Boolean; unary `+e` to Number; every comparison, `in`
and `instanceof` to Boolean; `l = r` and `l, r` to the type of `r`; an inlined
enum to the type of the wrapped value; an untagged template to String and a
tagged template to Unknown. -/
theorem known_primitive_type_table (loc : Loc) (e l r : Expr) (flag : Bool) :
    KnownPrimitiveType ⟨loc, .ENull⟩ = PrimitiveNull ∧
    KnownPrimitiveType ⟨loc, .EUndefined⟩ = PrimitiveUndefined ∧
    (∀ value, KnownPrimitiveType ⟨loc, .EBoolean value⟩ = PrimitiveBoolean) ∧
    (∀ value, KnownPrimitiveType ⟨loc, .ENumber value⟩ = PrimitiveNumber) ∧
    (∀ value, KnownPrimitiveType ⟨loc, .EString value⟩ = PrimitiveString) ∧
    (∀ value, KnownPrimitiveType ⟨loc, .EBigInt value⟩ = PrimitiveBigInt) ∧
    KnownPrimitiveType ⟨loc, .EUnary UnOpVoid e flag⟩ = PrimitiveUndefined ∧
    KnownPrimitiveType ⟨loc, .EUnary UnOpTypeof e flag⟩ = PrimitiveString ∧
    KnownPrimitiveType ⟨loc, .EUnary UnOpNot e flag⟩ = PrimitiveBoolean ∧
    KnownPrimitiveType ⟨loc, .EUnary UnOpDelete e flag⟩ = PrimitiveBoolean ∧
    KnownPrimitiveType ⟨loc, .EUnary UnOpPos e flag⟩ = PrimitiveNumber ∧
    (∀ op, op ∈ [BinOpStrictEq, BinOpStrictNe, BinOpLooseEq, BinOpLooseNe, BinOpLt, BinOpGt,
        BinOpLe, BinOpGe, BinOpIn, BinOpInstanceof] →
      KnownPrimitiveType ⟨loc, .EBinary op l r⟩ = PrimitiveBoolean) ∧
    KnownPrimitiveType ⟨loc, .EBinary BinOpAssign l r⟩ = KnownPrimitiveType r ∧
    KnownPrimitiveType ⟨loc, .EBinary BinOpComma l r⟩ = KnownPrimitiveType r ∧
    (∀ original, KnownPrimitiveType ⟨loc, .EInlinedEnum e original⟩ = KnownPrimitiveType e) ∧
    (∀ tagOrNil headCooked parts, tagOrNil.data.isNil = true →
      KnownPrimitiveType ⟨loc, .ETemplate tagOrNil headCooked parts⟩ = PrimitiveString) ∧
    (∀ tagOrNil headCooked parts, tagOrNil.data.isNil = false →
      KnownPrimitiveType ⟨loc, .ETemplate tagOrNil headCooked parts⟩ = PrimitiveUnknown) := by
  refine ⟨rfl, rfl, fun _ => rfl, fun _ => rfl, fun _ => rfl, fun _ => rfl, rfl, rfl, rfl, rfl,
    rfl, ?_, rfl, rfl, fun _ => rfl, ?_, ?_⟩
  · intro op hop
    simp only [List.mem_cons, List.mem_singleton, List.not_mem_nil, or_false] at hop
    rcases hop with rfl | rfl | rfl | rfl | rfl | rfl | rfl | rfl | rfl | rfl <;> rfl
  · intro tagOrNil headCooked parts h
    obtain ⟨tagLoc, d⟩ := tagOrNil
    cases d with
    | nil => rfl
    | _ => cases h
  · intro tagOrNil headCooked parts h
    obtain ⟨tagLoc, d⟩ := tagOrNil
    cases d with
    | nil => cases h
    | _ => rfl

theorem KnownPrimitiveType_NullishCoalescing (loc : Loc) (l r : Expr) :
    KnownPrimitiveType ⟨loc, .EBinary BinOpNullishCoalescing l r⟩ =
      if KnownPrimitiveType l = PrimitiveNull ∨ KnownPrimitiveType l = PrimitiveUndefined then
        KnownPrimitiveType r
      else if KnownPrimitiveType l ≠ PrimitiveUnknown then
        if KnownPrimitiveType l ≠ PrimitiveMixed then KnownPrimitiveType l
        else if KnownPrimitiveType r ≠ PrimitiveUnknown then PrimitiveMixed
        else PrimitiveUnknown
      else PrimitiveUnknown := rfl

/-- C29 (counterexample): in `1 ?? 'x'` the left operand has type Number, and
the type of the whole expression is Number, the type of the left operand, not
String, the type of the right one. -/
theorem nullish_takes_left_type :
    KnownPrimitiveType oneLiteral = PrimitiveNumber ∧
    KnownPrimitiveType xLiteral = PrimitiveString ∧
    KnownPrimitiveType oneOrElseX = PrimitiveNumber ∧
    KnownPrimitiveType oneOrElseX ≠ KnownPrimitiveType xLiteral :=
  ⟨rfl, rfl, rfl, by decide⟩

/-- C29 (amended): for `l ?? r` in which the type of `l` is Boolean, Number,
String or BigInt (known, not null or undefined, not Mixed), the type of
`l ?? r` is the type of the left operand `l`; the type of the right operand is
the result only when the type of `l` is Null or Undefined. -/
theorem nullish_coalescing_type (loc : Loc) (l r : Expr)
    (hl : KnownPrimitiveType l = PrimitiveBoolean ∨ KnownPrimitiveType l = PrimitiveNumber ∨
      KnownPrimitiveType l = PrimitiveString ∨ KnownPrimitiveType l = PrimitiveBigInt ∨
      KnownPrimitiveType l = PrimitiveNull ∨ KnownPrimitiveType l = PrimitiveUndefined) :
    KnownPrimitiveType ⟨loc, .EBinary BinOpNullishCoalescing l r⟩ =
      if KnownPrimitiveType l = PrimitiveNull ∨ KnownPrimitiveType l = PrimitiveUndefined then
        KnownPrimitiveType r
      else KnownPrimitiveType l := by
  rw [KnownPrimitiveType_NullishCoalescing]
  rcases hl with h | h | h | h | h | h <;> rw [h] <;> rfl

/-- Witness for C29 (amended) at `1 ?? 'x'`, of type Number. -/
theorem nullish_coalescing_type_witness :
    KnownPrimitiveType oneOrElseX = PrimitiveNumber :=
  nullish_coalescing_type loc0 oneLiteral xLiteral (Or.inr (Or.inl rfl))

/-! ## The two equality oracles -/

theorem E.unwrapInlinedEnum_EInlinedEnum (loc : Loc) (d : E) (original : Ref) :
    E.unwrapInlinedEnum (.EInlinedEnum ⟨loc, d⟩ original) = d.unwrapInlinedEnum := rfl

theorem enumDepth_EInlinedEnum (loc : Loc) (d : E) (original : Ref) :
    enumDepth (.EInlinedEnum ⟨loc, d⟩ original) = enumDepth d + 1 := rfl

/-- Go function `CheckEqualityIfNoSideEffects` first removes the wrappers of
`right`. -/
theorem CheckEqualityIfNoSideEffects_unwrap_right (left : E) (n : Nat) : ∀ right : E,
    enumDepth right ≤ n →
    CheckEqualityIfNoSideEffects left right = checkEqualityLeft left right.unwrapInlinedEnum := by
  induction n with
  | zero =>
    intro right h
    cases right with
    | EInlinedEnum value original =>
      obtain ⟨loc, d⟩ := value
      rw [enumDepth_EInlinedEnum] at h
      omega
    | _ => rfl
  | succ n ih =>
    intro right h
    cases right with
    | EInlinedEnum value original =>
      obtain ⟨loc, d⟩ := value
      rw [enumDepth_EInlinedEnum] at h
      rw [E.unwrapInlinedEnum_EInlinedEnum, ← ih d (by omega)]
      rfl
    | _ => rfl

/-- The `switch` of `CheckEqualityIfNoSideEffects` removes the wrappers of
`left`. -/
theorem checkEqualityLeft_unwrap_left (right : E) (n : Nat) : ∀ left : E,
    enumDepth left ≤ n →
    checkEqualityLeft left right = checkEqualityLeft left.unwrapInlinedEnum right := by
  induction n with
  | zero =>
    intro left h
    cases left with
    | EInlinedEnum value original =>
      obtain ⟨loc, d⟩ := value
      rw [enumDepth_EInlinedEnum] at h
      omega
    | _ => rfl
  | succ n ih =>
    intro left h
    cases left with
    | EInlinedEnum value original =>
      obtain ⟨loc, d⟩ := value
      rw [enumDepth_EInlinedEnum] at h
      rw [E.unwrapInlinedEnum_EInlinedEnum, ← ih d (by omega)]
      rfl
    | _ => rfl

theorem CheckEqualityIfNoSideEffects_unwrap (left right : E) :
    CheckEqualityIfNoSideEffects left right =
      checkEqualityLeft left.unwrapInlinedEnum right.unwrapInlinedEnum := by
  rw [CheckEqualityIfNoSideEffects_unwrap_right left (enumDepth right) right (Nat.le_refl _),
    checkEqualityLeft_unwrap_left _ (enumDepth left) left (Nat.le_refl _)]

/-- What is left after removing the wrappers is not a wrapper. -/
theorem E.unwrapInlinedEnum_depth (n : Nat) : ∀ e : E, enumDepth e ≤ n →
    enumDepth e.unwrapInlinedEnum = 0 := by
  induction n with
  | zero =>
    intro e h
    cases e with
    | EInlinedEnum value original =>
      obtain ⟨loc, d⟩ := value
      rw [enumDepth_EInlinedEnum] at h
      omega
    | _ => rfl
  | succ n ih =>
    intro e h
    cases e with
    | EInlinedEnum value original =>
      obtain ⟨loc, d⟩ := value
      rw [enumDepth_EInlinedEnum] at h
      rw [E.unwrapInlinedEnum_EInlinedEnum]
      exact ih d (by omega)
    | _ => rfl

/-- The `switch` of `CheckEqualityIfNoSideEffects` on two operands without
wrappers. -/
theorem checkEqualityLeft_literal (left right : E) (hl : enumDepth left = 0) :
    (checkEqualityLeft left right).2 =
      (decide (left.literalKind ≠ PrimitiveUnknown) &&
        decide (left.literalKind = right.literalKind)) ∧
    (checkEqualityLeft left right).1 =
      ((checkEqualityLeft left right).2 &&
        (decide (left.literalKind = PrimitiveNull) ||
          decide (left.literalKind = PrimitiveUndefined) ||
          left.sameLiteralValue right)) := by
  cases left with
  | EInlinedEnum value original =>
    obtain ⟨loc, d⟩ := value
    rw [enumDepth_EInlinedEnum] at hl
    omega
  | ENull => cases right <;> exact ⟨rfl, rfl⟩
  | EUndefined => cases right <;> exact ⟨rfl, rfl⟩
  | EBoolean l => cases right <;> exact ⟨rfl, rfl⟩
  | ENumber l => cases right <;> exact ⟨rfl, rfl⟩
  | EBigInt l => cases right <;> exact ⟨rfl, rfl⟩
  | EString l => cases right <;> exact ⟨rfl, rfl⟩
  | _ => exact ⟨rfl, rfl⟩

/-- C25: `CheckEqualityIfNoSideEffects(a, b)` is known exactly when, without
their inlined-enum wrappers, `a` and `b` are literals of the same kind among
null, undefined, boolean, number, bigint and string; then `equal` holds exactly
when the kind is null or undefined or the two values are equal. For every other
pair the result is `(false, false)`, so `equal` implies `known`. -/
theorem check_equality_literals (a b : E) :
    ((CheckEqualityIfNoSideEffects a b).2 = true ↔
      a.unwrapInlinedEnum.literalKind ≠ PrimitiveUnknown ∧
      a.unwrapInlinedEnum.literalKind = b.unwrapInlinedEnum.literalKind) ∧
    ((CheckEqualityIfNoSideEffects a b).2 = true →
      ((CheckEqualityIfNoSideEffects a b).1 = true ↔
        a.unwrapInlinedEnum.literalKind = PrimitiveNull ∨
        a.unwrapInlinedEnum.literalKind = PrimitiveUndefined ∨
        a.unwrapInlinedEnum.sameLiteralValue b.unwrapInlinedEnum = true)) ∧
    ((CheckEqualityIfNoSideEffects a b).2 = false →
      CheckEqualityIfNoSideEffects a b = (false, false)) ∧
    ((CheckEqualityIfNoSideEffects a b).1 = true →
      (CheckEqualityIfNoSideEffects a b).2 = true) := by
  obtain ⟨h2, h1⟩ := checkEqualityLeft_literal a.unwrapInlinedEnum b.unwrapInlinedEnum
    (E.unwrapInlinedEnum_depth _ a (Nat.le_refl _))
  rw [CheckEqualityIfNoSideEffects_unwrap]
  refine ⟨?_, ?_, ?_, ?_⟩
  · rw [h2]; simp
  · intro hk
    rw [h1, hk]; simp [or_assoc]
  · intro hk
    rw [hk] at h1
    exact Prod.ext h1 hk
  · intro he
    rw [h1] at he
    revert he
    cases (checkEqualityLeft a.unwrapInlinedEnum b.unwrapInlinedEnum).2 <;> simp

theorem valuesLookTheSameLeft_EInlinedEnum (loc : Loc) (d : E) (original : Ref) (right : E) :
    valuesLookTheSameLeft (.EInlinedEnum ⟨loc, d⟩ original) right =
      valuesLookTheSameLeft d right := rfl

/-- The `switch` of `ValuesLookTheSame` removes the wrappers of `left`. -/
theorem valuesLookTheSameLeft_unwrap_left (right : E) (n : Nat) : ∀ left : E,
    enumDepth left ≤ n →
    valuesLookTheSameLeft left right = valuesLookTheSameLeft left.unwrapInlinedEnum right := by
  induction n with
  | zero =>
    intro left h
    cases left with
    | EInlinedEnum value original =>
      obtain ⟨loc, d⟩ := value
      rw [enumDepth_EInlinedEnum] at h
      omega
    | _ => rfl
  | succ n ih =>
    intro left h
    cases left with
    | EInlinedEnum value original =>
      obtain ⟨loc, d⟩ := value
      rw [enumDepth_EInlinedEnum] at h
      rw [E.unwrapInlinedEnum_EInlinedEnum, valuesLookTheSameLeft_EInlinedEnum]
      exact ih d (by omega)
    | _ => rfl

theorem valuesLookTheSameLeft_ENumber (a b : Float64) :
    valuesLookTheSameLeft (.ENumber a) (.ENumber b) =
      if (a.isZero && b.isZero && decide (a.sign ≠ b.sign)) = true then false
      else a.eq b := rfl

theorem Float64.isNaN_of_isZero (a : Float64) (ha : a.isZero = true) : a.isNaN = false := by
  unfold Float64.isZero at ha
  simp only [Bool.and_eq_true, decide_eq_true_eq] at ha
  unfold Float64.isNaN
  simp [ha.1]

theorem Float64.eq_zeros (a b : Float64) (ha : a.isZero = true) (hb : b.isZero = true) :
    a.eq b = true := by
  unfold Float64.eq
  rw [Float64.isNaN_of_isZero a ha, Float64.isNaN_of_isZero b hb, ha, hb]
  rfl

/-- C26: for two number literals `a` and `b`, possibly under inlined-enum
wrappers: when they are the two zeros of opposite sign, `ValuesLookTheSame`
answers false although `CheckEqualityIfNoSideEffects` answers equal and known;
for every other pair `ValuesLookTheSame` is the `equal` result of
`CheckEqualityIfNoSideEffects`. -/
theorem signed_zeros_look_different (x y : E) (a b : Float64)
    (hx : x.unwrapInlinedEnum = .ENumber a) (hy : y.unwrapInlinedEnum = .ENumber b) :
    (a.isZero = true ∧ b.isZero = true ∧ a.sign ≠ b.sign →
      ValuesLookTheSame x y = false ∧ CheckEqualityIfNoSideEffects x y = (true, true)) ∧
    (¬ (a.isZero = true ∧ b.isZero = true ∧ a.sign ≠ b.sign) →
      ValuesLookTheSame x y = (CheckEqualityIfNoSideEffects x y).1) := by
  have hv : ValuesLookTheSame x y =
      if (a.isZero && b.isZero && decide (a.sign ≠ b.sign)) = true then false else a.eq b := by
    unfold ValuesLookTheSame
    rw [valuesLookTheSameLeft_unwrap_left _ (enumDepth x) x (Nat.le_refl _), hx, hy,
      valuesLookTheSameLeft_ENumber]
  have hc : CheckEqualityIfNoSideEffects x y = (a.eq b, true) := by
    rw [CheckEqualityIfNoSideEffects_unwrap, hx, hy]
    rfl
  constructor
  · rintro ⟨ha, hb, hs⟩
    rw [hv, hc, if_pos (by simp [ha, hb, hs]), Float64.eq_zeros a b ha hb]
    exact ⟨rfl, rfl⟩
  · intro hn
    rw [hv, hc, if_neg]
    simp only [Bool.and_eq_true, decide_eq_true_eq]
    intro h
    exact hn ⟨h.1.1, h.1.2, h.2⟩

/-- Witness for C26 at `-0` inside an inlined enum and `+0`. -/
theorem signed_zeros_look_different_witness :
    ValuesLookTheSame inlinedNegativeZero (.ENumber positiveZero) = false ∧
    CheckEqualityIfNoSideEffects inlinedNegativeZero (.ENumber positiveZero) = (true, true) :=
  (signed_zeros_look_different inlinedNegativeZero (.ENumber positiveZero) negativeZero
    positiveZero rfl rfl).1 ⟨rfl, rfl, by decide⟩

/-! ## Marking an optional chain -/

/-- C23: `TryToInsertOptionalChain(guard, expr)` returns true exactly when the
target chain of `expr` has a node whose target looks the same as `guard`. Then
the expression it leaves is `markOptionalChain guard expr`: the first such node
met on the way inward is `OptionalChainStart`, every chain node outside it is
`OptionalChainContinue` if it had no state and keeps its state otherwise, and
the target of the matched node is unchanged. When it returns false the
expression is unchanged. For `a` and `a.b.c()` the result is `a?.b.c()`. -/
theorem try_to_insert_optional_chain (guard e : Expr) :
    ((TryToInsertOptionalChain guard e).1 = true ↔ hasGuardedTarget guard e = true) ∧
    ((TryToInsertOptionalChain guard e).1 = true →
      (TryToInsertOptionalChain guard e).2 = markOptionalChain guard e) ∧
    ((TryToInsertOptionalChain guard e).1 = false → (TryToInsertOptionalChain guard e).2 = e) ∧
    TryToInsertOptionalChain identA
        (aDotBDotCCall OptionalChain.OptionalChainNone OptionalChain.OptionalChainNone
          OptionalChain.OptionalChainNone) =
      (true, aDotBDotCCall OptionalChain.OptionalChainStart OptionalChain.OptionalChainContinue
        OptionalChain.OptionalChainContinue) ∧
    TryToInsertOptionalChain identA
        (aDotBDotC OptionalChain.OptionalChainNone OptionalChain.OptionalChainStart) =
      (true, aDotBDotC OptionalChain.OptionalChainStart OptionalChain.OptionalChainStart) ∧
    TryToInsertOptionalChain (identX false) (aDotB OptionalChain.OptionalChainNone) =
      (false, aDotB OptionalChain.OptionalChainNone) := by
  rw [TryToInsertOptionalChain_spec]
  refine ⟨Iff.rfl, ?_, ?_, rfl, rfl, rfl⟩
  · intro h
    have h2 : hasGuardedTarget guard e = true := h
    show (if hasGuardedTarget guard e = true then _ else _) = _
    rw [if_pos h2]
  · intro h
    have h2 : hasGuardedTarget guard e = false := h
    show (if hasGuardedTarget guard e = true then _ else _) = _
    rw [if_neg (by simp [h2])]

theorem chainTransition_refl (guard e : Expr) : chainTransition guard e e = true := by
  simp [chainTransition]

theorem chainNodes_same (guard : Expr) (nodes : List Expr) :
    List.Forall₂ (fun before after => chainTransition guard before after = true) nodes nodes :=
  List.forall₂_same.2 (fun x _ => chainTransition_refl guard x)

theorem continueChain_cases (optionalChain : OptionalChain) :
    continueChain optionalChain = optionalChain ∨
    (optionalChain = OptionalChain.OptionalChainNone ∧
      continueChain optionalChain = OptionalChain.OptionalChainContinue) := by
  cases optionalChain
  · exact Or.inr ⟨rfl, rfl⟩
  · exact Or.inl rfl
  · exact Or.inl rfl

/-- Marking a chain changes the state of its nodes by allowed transitions
only. -/
theorem markOptionalChain_transitions (guard : Expr) (n : Nat) : ∀ e : Expr, chainDepth e ≤ n →
    List.Forall₂ (fun before after => chainTransition guard before after = true)
      (chainNodes e) (chainNodes (markOptionalChain guard e)) := by
  induction n with
  | zero =>
    intro e he
    obtain ⟨loc, d⟩ := e
    cases d with
    | EDot target name optionalChain remove unwrap =>
      have h : chainDepth ⟨loc, .EDot target name optionalChain remove unwrap⟩ =
        chainDepth target + 1 := rfl
      omega
    | EIndex target index optionalChain remove unwrap =>
      have h : chainDepth ⟨loc, .EIndex target index optionalChain remove unwrap⟩ =
        chainDepth target + 1 := rfl
      omega
    | ECall target args optionalChain unwrap kind =>
      have h : chainDepth ⟨loc, .ECall target args optionalChain unwrap kind⟩ =
        chainDepth target + 1 := rfl
      omega
    | _ => exact List.Forall₂.nil
  | succ n ih =>
    intro e he
    obtain ⟨loc, d⟩ := e
    cases d with
    | EDot target name optionalChain remove unwrap =>
      have hs : chainDepth target ≤ n := by
        have h : chainDepth ⟨loc, .EDot target name optionalChain remove unwrap⟩ =
          chainDepth target + 1 := rfl
        omega
      show List.Forall₂ _ (_ :: chainNodes target)
        (chainNodes (if ValuesLookTheSame guard.data target.data = true then _ else _))
      by_cases hv : ValuesLookTheSame guard.data target.data = true
      · rw [if_pos hv]
        refine List.Forall₂.cons ?_ (chainNodes_same guard _)
        simp [chainTransition, chainState, chainTarget, hv]
      · rw [if_neg hv]
        refine List.Forall₂.cons ?_ (ih target hs)
        rcases continueChain_cases optionalChain with h | ⟨h1, h2⟩
        · simp [chainTransition, chainState, h]
        · subst h1
          simp [chainTransition, chainState, continueChain]
    | EIndex target index optionalChain remove unwrap =>
      have hs : chainDepth target ≤ n := by
        have h : chainDepth ⟨loc, .EIndex target index optionalChain remove unwrap⟩ =
          chainDepth target + 1 := rfl
        omega
      show List.Forall₂ _ (_ :: chainNodes target)
        (chainNodes (if ValuesLookTheSame guard.data target.data = true then _ else _))
      by_cases hv : ValuesLookTheSame guard.data target.data = true
      · rw [if_pos hv]
        refine List.Forall₂.cons ?_ (chainNodes_same guard _)
        simp [chainTransition, chainState, chainTarget, hv]
      · rw [if_neg hv]
        refine List.Forall₂.cons ?_ (ih target hs)
        rcases continueChain_cases optionalChain with h | ⟨h1, h2⟩
        · simp [chainTransition, chainState, h]
        · subst h1
          simp [chainTransition, chainState, continueChain]
    | ECall target args optionalChain unwrap kind =>
      have hs : chainDepth target ≤ n := by
        have h : chainDepth ⟨loc, .ECall target args optionalChain unwrap kind⟩ =
          chainDepth target + 1 := rfl
        omega
      show List.Forall₂ _ (_ :: chainNodes target)
        (chainNodes (if ValuesLookTheSame guard.data target.data = true then _ else _))
      by_cases hv : ValuesLookTheSame guard.data target.data = true
      · rw [if_pos hv]
        refine List.Forall₂.cons ?_ (chainNodes_same guard _)
        simp [chainTransition, chainState, chainTarget, hv]
      · rw [if_neg hv]
        refine List.Forall₂.cons ?_ (ih target hs)
        rcases continueChain_cases optionalChain with h | ⟨h1, h2⟩
        · simp [chainTransition, chainState, h]
        · subst h1
          simp [chainTransition, chainState, continueChain]
    | _ => exact List.Forall₂.nil

/-- C24 (counterexample): with the guard `a?.b`, the node `.c` of `a?.b.c` is in
state `OptionalChainContinue` before the call; its target looks the same as the
guard, so the call returns true and leaves it in state `OptionalChainStart`. -/
theorem matched_node_restarts_chain :
    chainState (aDotBDotC OptionalChain.OptionalChainStart OptionalChain.OptionalChainContinue) =
      OptionalChain.OptionalChainContinue ∧
    TryToInsertOptionalChain (aDotB OptionalChain.OptionalChainStart)
        (aDotBDotC OptionalChain.OptionalChainStart OptionalChain.OptionalChainContinue) =
      (true, aDotBDotC OptionalChain.OptionalChainStart OptionalChain.OptionalChainStart) ∧
    chainState (TryToInsertOptionalChain (aDotB OptionalChain.OptionalChainStart)
        (aDotBDotC OptionalChain.OptionalChainStart OptionalChain.OptionalChainContinue)).2 =
      OptionalChain.OptionalChainStart ∧
    OptionalChain.OptionalChainStart ≠ OptionalChain.OptionalChainContinue :=
  ⟨rfl, rfl, rfl, by decide⟩

/-- C24 (amended): for every guard and expression, the chain nodes of the
expression before and after `TryToInsertOptionalChain` correspond one to one,
and each node either keeps its chain state, or goes from no state to
`OptionalChainContinue`, or is set to `OptionalChainStart` (whatever its state
was) because its target looks the same as the guard. So a node that is already
`OptionalChainStart` or `OptionalChainContinue` keeps its state unless it is
the matched node, which becomes `OptionalChainStart`. A call that returns
false changes nothing. -/
theorem chain_marking_transitions (guard e : Expr) :
    List.Forall₂ (fun before after => chainTransition guard before after = true)
      (chainNodes e) (chainNodes (TryToInsertOptionalChain guard e).2) ∧
    ((TryToInsertOptionalChain guard e).1 = false → (TryToInsertOptionalChain guard e).2 = e) := by
  rw [TryToInsertOptionalChain_spec]
  constructor
  · show List.Forall₂ _ _ (chainNodes (if hasGuardedTarget guard e = true then _ else _))
    by_cases h : hasGuardedTarget guard e = true
    · rw [if_pos h]
      exact markOptionalChain_transitions guard (chainDepth e) e (Nat.le_refl _)
    · rw [if_neg h]
      exact chainNodes_same guard _
  · intro h
    have h2 : hasGuardedTarget guard e = false := h
    show (if hasGuardedTarget guard e = true then _ else _) = _
    rw [if_neg (by simp [h2])]

/-! ## Double negation -/

theorem MaybeSimplifyNot_EUnary (loc : Loc) (op : OpCode) (value : Expr) (flag : Bool) :
    MaybeSimplifyNot ⟨loc, .EUnary op value flag⟩ =
      if op = UnOpNot ∧ KnownPrimitiveType value = PrimitiveBoolean then some value
      else none := rfl

/-- Go function `Not` on a negation whose operand has type Boolean gives the
operand. -/
theorem Not_not (loc : Loc) (a : Expr) (flag : Bool)
    (ha : KnownPrimitiveType a = PrimitiveBoolean) :
    Not ⟨loc, .EUnary UnOpNot a flag⟩ = a := by
  unfold Not
  rw [MaybeSimplifyNot_EUnary, if_pos ⟨rfl, ha⟩]

/-- C30 (counterexample): `!true` has type Boolean; `Not` of it is `true`, and
`Not` of that is the literal `false`, not `!true`. -/
theorem double_not_changes_shape :
    KnownPrimitiveType notTrue = PrimitiveBoolean ∧
    Not notTrue = trueLiteral ∧
    Not (Not notTrue) = falseLiteral ∧
    Not (Not notTrue) ≠ notTrue := by
  refine ⟨rfl, rfl, rfl, ?_⟩
  intro h
  have h2 : falseLiteral = notTrue := h
  cases h2

/-- C30 (amended): for every expression `a` of type Boolean, `Not` applied to
the negation `!a` is `a` itself; so `Not(Not(a))` is `a` whenever `Not(a)` is
the plain negation `!a` (`MaybeSimplifyNot` does not simplify `a`), and also
when `a` is a boolean literal or a comparison with `==`, `!=`, `===` or `!==`.
`Not` applied to `!!x` is `!x`, never `!!!x`. -/
theorem double_negation (loc loc2 : Loc) (a l r x : Expr) (flag flag2 value : Bool) :
    (KnownPrimitiveType a = PrimitiveBoolean → Not ⟨loc, .EUnary UnOpNot a flag⟩ = a) ∧
    (KnownPrimitiveType a = PrimitiveBoolean → MaybeSimplifyNot a = none → Not (Not a) = a) ∧
    Not (Not ⟨loc, .EBoolean value⟩) = ⟨loc, .EBoolean value⟩ ∧
    (∀ op, op ∈ [BinOpLooseEq, BinOpLooseNe, BinOpStrictEq, BinOpStrictNe] →
      Not (Not ⟨loc, .EBinary op l r⟩) = ⟨loc, .EBinary op l r⟩) ∧
    Not ⟨loc, .EUnary UnOpNot ⟨loc2, .EUnary UnOpNot x flag2⟩ flag⟩ =
      ⟨loc2, .EUnary UnOpNot x flag2⟩ := by
  refine ⟨Not_not loc a flag, ?_, ?_, ?_, Not_not loc _ flag rfl⟩
  · intro ha hm
    have h : Not a = ⟨a.loc, .EUnary UnOpNot a false⟩ := by
      unfold Not
      rw [hm]
    rw [h]
    exact Not_not _ a false ha
  · cases value <;> rfl
  · intro op hop
    simp only [List.mem_cons, List.mem_singleton, List.not_mem_nil, or_false] at hop
    rcases hop with rfl | rfl | rfl | rfl <;> rfl

/-! ## Idempotence of the boolean simplifier -/

/-- C22 (counterexample): the ternary `!!a ? x() : false` simplifies to
`!!a && x()`, in which the test is as it was, and that simplifies further to
`a && x()`. -/
theorem boolean_simplifier_is_not_idempotent :
    SimplifyBooleanExpr booleanTernary = notNotAAndCall ∧
    SimplifyBooleanExpr notNotAAndCall = aAndCall ∧
    SimplifyBooleanExpr (SimplifyBooleanExpr booleanTernary) ≠
      SimplifyBooleanExpr booleanTernary := by
  refine ⟨rfl, rfl, ?_⟩
  intro h
  have h2 : aAndCall = notNotAAndCall := h
  cases h2

/-- The negation of an operand that is not itself a negation keeps its shape. -/
theorem SimplifyBooleanExpr_single_not (loc : Loc) (value : Expr) (flag : Bool)
    (hv : value.data.isNot = false) :
    SimplifyBooleanExpr ⟨loc, .EUnary UnOpNot value flag⟩ =
      ⟨loc, .EUnary UnOpNot (SimplifyBooleanExpr value) flag⟩ := by
  rcases SimplifyBooleanExpr_EUnary loc UnOpNot value flag with
    ⟨loc2, value2, flag2, _, hval, _⟩ | ⟨_, h⟩ | ⟨h, _⟩
  · rw [hval] at hv
    cases hv
  · exact h
  · exact absurd rfl h

theorem SimplifyBooleanExpr_other_unary (loc : Loc) (op : OpCode) (value : Expr) (flag : Bool)
    (hop : op ≠ UnOpNot) :
    SimplifyBooleanExpr ⟨loc, .EUnary op value flag⟩ = ⟨loc, .EUnary op value flag⟩ := by
  rcases SimplifyBooleanExpr_EUnary loc op value flag with
    ⟨loc2, value2, flag2, h, _, _⟩ | ⟨h, _⟩ | ⟨_, h⟩
  · exact absurd h hop
  · exact absurd h hop
  · exact h

/-- A comparison that does not test a 32-bit integer against zero is left
alone. -/
theorem SimplifyBooleanExpr_comparison_kept (loc : Loc) (op : OpCode) (left right : Expr)
    (hop : op = BinOpStrictEq ∨ op = BinOpStrictNe ∨ op = BinOpLooseEq ∨ op = BinOpLooseNe)
    (hz : comparesIntegerWithZero left right = false) :
    SimplifyBooleanExpr ⟨loc, .EBinary op left right⟩ = ⟨loc, .EBinary op left right⟩ := by
  rw [SimplifyBooleanExpr_EBinary, if_pos hop, if_neg]
  intro h
  have h2 : comparesIntegerWithZero left right = true := h
  rw [hz] at h2
  cases h2

/-- The equation of the `&&` / `||` case in terms of `rightOperandIsNeutral`. -/
theorem SimplifyBooleanExpr_logical (loc : Loc) (op : OpCode) (left right : Expr)
    (hop : op = BinOpLogicalAnd ∨ op = BinOpLogicalOr) :
    SimplifyBooleanExpr ⟨loc, .EBinary op left right⟩ =
      if rightOperandIsNeutral op (SimplifyBooleanExpr right) = true then
        SimplifyBooleanExpr left
      else ⟨loc, .EBinary op (SimplifyBooleanExpr left) (SimplifyBooleanExpr right)⟩ := by
  rw [SimplifyBooleanExpr_EBinary]
  unfold rightOperandIsNeutral hasKnownPureBoolean
  rcases hop with rfl | rfl
  · rw [if_neg (by decide), if_pos rfl]
    rcases ToBooleanWithSideEffects (SimplifyBooleanExpr right).data with ⟨b, s, k⟩
    cases b <;> cases s <;> cases k <;> simp
  · rw [if_neg (by decide), if_neg (by decide), if_pos rfl]
    rcases ToBooleanWithSideEffects (SimplifyBooleanExpr right).data with ⟨b, s, k⟩
    cases b <;> cases s <;> cases k <;> simp

/-- The equation of the ternary case when no branch has a known boolean value
without side effects. -/
theorem SimplifyBooleanExpr_plain_EIf (loc : Loc) (test yes no : Expr)
    (hy : hasKnownPureBoolean (SimplifyBooleanExpr yes) = false)
    (hn : hasKnownPureBoolean (SimplifyBooleanExpr no) = false) :
    SimplifyBooleanExpr ⟨loc, .EIf test yes no⟩ =
      ⟨loc, .EIf test (SimplifyBooleanExpr yes) (SimplifyBooleanExpr no)⟩ := by
  rw [SimplifyBooleanExpr_EIf]
  unfold hasKnownPureBoolean at hy hn
  rw [if_neg, if_neg]
  · intro h
    rw [h.1, h.2] at hn
    simp at hn
  · intro h
    rw [h.1, h.2] at hy
    simp at hy

/-! ## Index32 -/

/-- C31: for every 32-bit unsigned index `i`, `MakeIndex32(i).GetIndex()` is
`i`, and the zero value of `Index32` is not valid. -/
theorem index32_round_trip (i : Nat) (hi : i < 2 ^ 32) :
    (MakeIndex32 i).GetIndex = i ∧ Index32.zero.IsValid = false := by
  refine ⟨?_, rfl⟩
  unfold Index32.GetIndex MakeIndex32 complement32
  simp only
  omega

/-- Witness for C31 at the index `7`. -/
theorem index32_round_trip_witness :
    (MakeIndex32 7).GetIndex = 7 ∧ Index32.zero.IsValid = false :=
  index32_round_trip 7 (by norm_num)

/-! ## Relational guards -/

/-- C32: for an identifier `x`, a guard that compares `typeof y` with a string
literal by `<`, `<=`, `>` or `>=`, and a branch polarity: with the typeof on
the left the helper answers true exactly when `x` is unbound, the text is
`"u"`, the typeof is flagged `ValueWasOriginallyIdentifier`, `y` is the same
reference as `x`, and the branch is the yes branch exactly for `<` and `<=`;
with the operands flipped the last condition is that the branch is the yes
branch exactly for `>` and `>=`. A value that is not an identifier is never
accepted. -/
theorem relational_guard_narrowing (idLoc loc tLoc tIdLoc sLoc : Loc) (ref ref2 : Ref)
    (mustKeep canBeRemoved mustKeep2 canBeRemoved2 flag : Bool) (text : List Nat) (op : OpCode)
    (isYesBranch : Bool) (isUnbound : Ref → Bool) (value guard : Expr)
    (hop : op = BinOpLt ∨ op = BinOpLe ∨ op = BinOpGt ∨ op = BinOpGe) :
    isSideEffectFreeUnboundIdentifierRef ⟨idLoc, .EIdentifier ref mustKeep canBeRemoved⟩
        ⟨loc, .EBinary op
          ⟨tLoc, .EUnary UnOpTypeof ⟨tIdLoc, .EIdentifier ref2 mustKeep2 canBeRemoved2⟩ flag⟩
          (stringLiteral sLoc text)⟩ isYesBranch isUnbound =
      (isUnbound ref && decide (text = strU) && flag && decide (ref2 = ref) &&
        (isYesBranch == (decide (op = BinOpLt) || decide (op = BinOpLe)))) ∧
    isSideEffectFreeUnboundIdentifierRef ⟨idLoc, .EIdentifier ref mustKeep canBeRemoved⟩
        ⟨loc, .EBinary op (stringLiteral sLoc text)
          ⟨tLoc, .EUnary UnOpTypeof ⟨tIdLoc, .EIdentifier ref2 mustKeep2 canBeRemoved2⟩ flag⟩⟩
        isYesBranch isUnbound =
      (isUnbound ref && decide (text = strU) && flag && decide (ref2 = ref) &&
        (isYesBranch == (decide (op = BinOpGt) || decide (op = BinOpGe)))) ∧
    (value.data.isEIdentifier = false →
      isSideEffectFreeUnboundIdentifierRef value guard isYesBranch isUnbound = false) := by
  refine ⟨?_, ?_, ?_⟩
  · by_cases htext : text = strU <;> by_cases href : ref2 = ref <;> cases isYesBranch <;>
      cases flag <;> cases hu : isUnbound ref <;>
      rcases hop with rfl | rfl | rfl | rfl <;>
      simp [isSideEffectFreeUnboundIdentifierRef, stringLiteral, Expr.data,
        E.isEString, hu, UTF16EqualsString, htext, href]
  · by_cases htext : text = strU <;> by_cases href : ref2 = ref <;> cases isYesBranch <;>
      cases flag <;> cases hu : isUnbound ref <;>
      rcases hop with rfl | rfl | rfl | rfl <;>
      simp [isSideEffectFreeUnboundIdentifierRef, stringLiteral, Expr.data,
        E.isEString, hu, UTF16EqualsString, htext, href]
  · intro hv
    obtain ⟨vLoc, d⟩ := value
    cases d <;> first | rfl | cases hv

/-- Witness for C32 at `typeof x < "u"` and `"u" > typeof x` on the yes branch,
with `x` unbound. -/
theorem relational_guard_narrowing_witness :
    isSideEffectFreeUnboundIdentifierRef (identX false)
        ⟨loc0, .EBinary BinOpLt typeofX (stringLiteral loc0 strU)⟩ true allUnbound = true ∧
    isSideEffectFreeUnboundIdentifierRef (identX false)
        ⟨loc0, .EBinary BinOpGt (stringLiteral loc0 strU) typeofX⟩ true allUnbound = true :=
  ⟨(relational_guard_narrowing loc0 loc0 loc0 loc0 loc0 refX refX false false false false true
      strU BinOpLt true allUnbound (identX false) (identX false) (Or.inl rfl)).1,
   (relational_guard_narrowing loc0 loc0 loc0 loc0 loc0 refX refX false false false false true
      strU BinOpGt true allUnbound (identX false) (identX false) (Or.inr (Or.inr (Or.inl rfl)))).2.1⟩

/-! ## The two type oracles on integers -/

/-- C33 does not hold: `isInt32OrUint32` accepts `a | x` and `~1n`, which
`KnownPrimitiveType` classifies as Mixed (number or bigint) and as BigInt; the
boolean simplifier relies on the first oracle and turns `(a | x) === 0` into
`!(a | x)`. -/
theorem int32_oracle_accepts_bigint :
    isInt32OrUint32 aBitOrX.data = true ∧
    KnownPrimitiveType aBitOrX = PrimitiveMixed ∧
    isInt32OrUint32 complementOfBigInt.data = true ∧
    KnownPrimitiveType complementOfBigInt = PrimitiveBigInt ∧
    SimplifyBooleanExpr aBitOrXIsZero = ⟨loc0, .EUnary UnOpNot aBitOrX false⟩ :=
  ⟨rfl, rfl, rfl, rfl, rfl⟩

/-! ## A failed reconstruction -/

/-- C39: when `TryToInsertOptionalChain(guard, expr)` returns false, the
expression it leaves is `expr` itself: no chain state and no other field of any
node has changed. -/
theorem failed_reconstruction_is_untouched (guard e : Expr)
    (h : (TryToInsertOptionalChain guard e).1 = false) :
    (TryToInsertOptionalChain guard e).2 = e := by
  rw [TryToInsertOptionalChain_spec] at h ⊢
  have h2 : hasGuardedTarget guard e = false := h
  show (if hasGuardedTarget guard e = true then _ else _) = _
  rw [if_neg (by simp [h2])]

/-- Witness for C39 at the guard `x` and the expression `a.b.c()`. -/
theorem failed_reconstruction_is_untouched_witness :
    (TryToInsertOptionalChain (identX false)
        (aDotBDotCCall OptionalChain.OptionalChainNone OptionalChain.OptionalChainNone
          OptionalChain.OptionalChainNone)).2 =
      aDotBDotCCall OptionalChain.OptionalChainNone OptionalChain.OptionalChainNone
        OptionalChain.OptionalChainNone :=
  failed_reconstruction_is_untouched (identX false) _ rfl

/-! ## Negation, truth values and types -/

theorem MaybeSimplifyNot_EInlinedEnum (loc : Loc) (value : Expr) (original : Ref) :
    MaybeSimplifyNot ⟨loc, .EInlinedEnum value original⟩ = MaybeSimplifyNot value := rfl

theorem MaybeSimplifyNot_EBinary (loc : Loc) (op : OpCode) (left right : Expr) :
    MaybeSimplifyNot ⟨loc, .EBinary op left right⟩ =
      if op = BinOpLooseEq then some ⟨loc, .EBinary BinOpLooseNe left right⟩
      else if op = BinOpLooseNe then some ⟨loc, .EBinary BinOpLooseEq left right⟩
      else if op = BinOpStrictEq then some ⟨loc, .EBinary BinOpStrictNe left right⟩
      else if op = BinOpStrictNe then some ⟨loc, .EBinary BinOpStrictEq left right⟩
      else if op = BinOpComma then some ⟨loc, .EBinary op left (Not right)⟩
      else none := rfl

theorem Not_of_some (e r : Expr) (h : MaybeSimplifyNot e = some r) : Not e = r := by
  unfold Not
  rw [h]

theorem Not_of_none (e : Expr) (h : MaybeSimplifyNot e = none) :
    Not e = ⟨e.loc, .EUnary UnOpNot e false⟩ := by
  unfold Not
  rw [h]

/-- Whatever `MaybeSimplifyNot` returns has type Boolean. -/
theorem MaybeSimplifyNot_type (n : Nat) : ∀ e : Expr, e.size ≤ n →
    ∀ r, MaybeSimplifyNot e = some r → KnownPrimitiveType r = PrimitiveBoolean := by
  induction n with
  | zero =>
    intro e he
    have := Expr.size_pos e
    omega
  | succ n ih =>
    intro e he r h
    obtain ⟨loc, d⟩ := e
    cases d with
    | EInlinedEnum value original =>
      rw [Expr.size_EInlinedEnum] at he
      rw [MaybeSimplifyNot_EInlinedEnum] at h
      exact ih value (by omega) r h
    | EUnary op value flag =>
      rw [MaybeSimplifyNot_EUnary] at h
      by_cases hc : op = UnOpNot ∧ KnownPrimitiveType value = PrimitiveBoolean
      · rw [if_pos hc] at h
        cases h
        exact hc.2
      · rw [if_neg hc] at h
        cases h
    | EBinary op left right =>
      rw [Expr.size_EBinary] at he
      rw [MaybeSimplifyNot_EBinary] at h
      split at h
      · cases h; rfl
      · split at h
        · cases h; rfl
        · split at h
          · cases h; rfl
          · split at h
            · cases h; rfl
            · split at h
              · rename_i hcomma
                cases h
                subst hcomma
                show KnownPrimitiveType (Not right) = PrimitiveBoolean
                cases hm : MaybeSimplifyNot right with
                | none => rw [Not_of_none right hm]; rfl
                | some result =>
                  rw [Not_of_some right result hm]
                  exact ih right (by omega) result hm
              · cases h
    | ENull => cases h; rfl
    | EUndefined => cases h; rfl
    | EBoolean value => cases h; rfl
    | ENumber value => cases h; rfl
    | EBigInt value => cases h; rfl
    | EString value => cases h; rfl
    | EFunction fn => cases h; rfl
    | EArrow args body isAsync preferExpr => cases h; rfl
    | ERegExp value => cases h; rfl
    | _ => cases h

/-- C36: for every expression `e`, `Not(e)` has type Boolean; and whenever
`MaybeSimplifyNot(e)` succeeds, the expression it returns has type Boolean,
the comma case `!(a, b)` => `a, !b` and the inlined-enum case included. -/
theorem not_has_boolean_type (e : Expr) :
    KnownPrimitiveType (Not e) = PrimitiveBoolean ∧
    (∀ r, MaybeSimplifyNot e = some r → KnownPrimitiveType r = PrimitiveBoolean) ∧
    MaybeSimplifyNot aCommaTrue = some ⟨loc0, .EBinary BinOpComma identA falseLiteral⟩ ∧
    KnownPrimitiveType ⟨loc0, .EBinary BinOpComma identA falseLiteral⟩ = PrimitiveBoolean ∧
    MaybeSimplifyNot ⟨loc0, .EInlinedEnum trueLiteral refX⟩ = some falseLiteral := by
  refine ⟨?_, MaybeSimplifyNot_type e.size e (Nat.le_refl _), rfl, rfl, rfl⟩
  cases hm : MaybeSimplifyNot e with
  | none => rw [Not_of_none e hm]; rfl
  | some result =>
    rw [Not_of_some e result hm]
    exact MaybeSimplifyNot_type e.size e (Nat.le_refl _) result hm

theorem ToBooleanWithSideEffects_not (loc : Loc) (d : E) (flag : Bool) :
    ToBooleanWithSideEffects (.EUnary UnOpNot ⟨loc, d⟩ flag) =
      if (ToBooleanWithSideEffects d).2.2 then
        (!(ToBooleanWithSideEffects d).1, (ToBooleanWithSideEffects d).2.1, true)
      else (false, CouldHaveSideEffects, false) := rfl

theorem ToBooleanWithSideEffects_comma (left : Expr) (loc : Loc) (d : E) :
    ToBooleanWithSideEffects (.EBinary BinOpComma left ⟨loc, d⟩) =
      if (ToBooleanWithSideEffects d).2.2 then
        ((ToBooleanWithSideEffects d).1, CouldHaveSideEffects, true)
      else (false, CouldHaveSideEffects, false) := rfl

/-- The plain negation of an expression with a known truth value has the
opposite known truth value. -/
theorem ToBooleanWithSideEffects_plain_not (eLoc : Loc) (d : E) (flag : Bool)
    (h : (ToBooleanWithSideEffects d).2.2 = true) :
    (ToBooleanWithSideEffects (.EUnary UnOpNot ⟨eLoc, d⟩ flag)).2.2 = true ∧
    (ToBooleanWithSideEffects (.EUnary UnOpNot ⟨eLoc, d⟩ flag)).1 =
      !(ToBooleanWithSideEffects d).1 := by
  rw [ToBooleanWithSideEffects_not, h]
  exact ⟨rfl, rfl⟩

/-- Go function `Not` turns a known truth value into the opposite known truth
value. -/
theorem Not_truth_value (n : Nat) : ∀ e : Expr, e.size ≤ n →
    (ToBooleanWithSideEffects e.data).2.2 = true →
    (ToBooleanWithSideEffects (Not e).data).2.2 = true ∧
    (ToBooleanWithSideEffects (Not e).data).1 = !(ToBooleanWithSideEffects e.data).1 := by
  induction n with
  | zero =>
    intro e he
    have := Expr.size_pos e
    omega
  | succ n ih =>
    intro e he hk
    cases hm : MaybeSimplifyNot e with
    | none =>
      rw [Not_of_none e hm]
      obtain ⟨eLoc, ed⟩ := e
      exact ToBooleanWithSideEffects_plain_not eLoc ed false hk
    | some r =>
      rw [Not_of_some e r hm]
      obtain ⟨loc, d⟩ := e
      cases d with
      | EInlinedEnum value original =>
        rw [Expr.size_EInlinedEnum] at he
        rw [MaybeSimplifyNot_EInlinedEnum] at hm
        obtain ⟨vLoc, vd⟩ := value
        have hk2 : (ToBooleanWithSideEffects (Expr.mk vLoc vd).data).2.2 = true := hk
        have := ih ⟨vLoc, vd⟩ (by omega) hk2
        rw [Not_of_some _ r hm] at this
        exact this
      | EUnary op value flag =>
        rw [MaybeSimplifyNot_EUnary] at hm
        by_cases hc : op = UnOpNot ∧ KnownPrimitiveType value = PrimitiveBoolean
        · rw [if_pos hc] at hm
          cases hm
          obtain ⟨hop, _⟩ := hc
          subst hop
          obtain ⟨vLoc, vd⟩ := r
          have hk2 : (ToBooleanWithSideEffects (.EUnary UnOpNot ⟨vLoc, vd⟩ flag)).2.2 = true := hk
          rw [ToBooleanWithSideEffects_not] at hk2
          show (ToBooleanWithSideEffects vd).2.2 = true ∧
            (ToBooleanWithSideEffects vd).1 =
              !(ToBooleanWithSideEffects (.EUnary UnOpNot ⟨vLoc, vd⟩ flag)).1
          rw [ToBooleanWithSideEffects_not]
          cases hv : (ToBooleanWithSideEffects vd).2.2
          · rw [hv] at hk2
            cases hk2
          · simp
        · rw [if_neg hc] at hm
          cases hm
      | EBinary op left right =>
        rw [Expr.size_EBinary] at he
        rw [MaybeSimplifyNot_EBinary] at hm
        obtain ⟨rLoc, rd⟩ := right
        split at hm
        · rename_i h1; subst h1
          have hk2 : false = true := hk
          cases hk2
        · split at hm
          · rename_i h1; subst h1
            have hk2 : false = true := hk
            cases hk2
          · split at hm
            · rename_i h1; subst h1
              have hk2 : false = true := hk
              cases hk2
            · split at hm
              · rename_i h1; subst h1
                have hk2 : false = true := hk
                cases hk2
              · split at hm
                · rename_i hcomma
                  cases hm
                  subst hcomma
                  have hk2 : (ToBooleanWithSideEffects
                      (.EBinary BinOpComma left ⟨rLoc, rd⟩)).2.2 = true := hk
                  rw [ToBooleanWithSideEffects_comma] at hk2
                  have hr : (ToBooleanWithSideEffects (Expr.mk rLoc rd).data).2.2 = true := by
                    show (ToBooleanWithSideEffects rd).2.2 = true
                    revert hk2
                    cases (ToBooleanWithSideEffects rd).2.2 <;> simp
                  have ihr := ih ⟨rLoc, rd⟩ (by omega) hr
                  rcases hN : Not ⟨rLoc, rd⟩ with ⟨nLoc, nd⟩
                  rw [hN] at ihr
                  show (ToBooleanWithSideEffects (.EBinary BinOpComma left ⟨nLoc, nd⟩)).2.2 =
                      true ∧
                    (ToBooleanWithSideEffects (.EBinary BinOpComma left ⟨nLoc, nd⟩)).1 =
                      !(ToBooleanWithSideEffects (.EBinary BinOpComma left ⟨rLoc, rd⟩)).1
                  rw [ToBooleanWithSideEffects_comma, ToBooleanWithSideEffects_comma]
                  have h1 : (ToBooleanWithSideEffects nd).2.2 = true := ihr.1
                  have h2 : (ToBooleanWithSideEffects nd).1 = !(ToBooleanWithSideEffects rd).1 :=
                    ihr.2
                  have h3 : (ToBooleanWithSideEffects rd).2.2 = true := hr
                  rw [h1, h3, h2]
                  exact ⟨rfl, rfl⟩
                · cases hm
      | ENull => cases hm; exact ⟨rfl, rfl⟩
      | EUndefined => cases hm; exact ⟨rfl, rfl⟩
      | EBoolean value => cases hm; exact ⟨rfl, rfl⟩
      | ENumber value =>
        cases hm
        refine ⟨rfl, ?_⟩
        show (value.isZero || value.isNaN) = !(!value.isZero && !value.isNaN)
        cases value.isZero <;> cases value.isNaN <;> rfl
      | EBigInt value =>
        cases hm
        refine ⟨rfl, ?_⟩
        show decide (value = "0") = !decide (value ≠ "0")
        by_cases hv : value = "0" <;> simp [hv]
      | EString value =>
        cases hm
        refine ⟨rfl, ?_⟩
        show decide (value.length = 0) = !decide (value.length > 0)
        by_cases hv : value.length = 0
        · simp [hv]
        · have : 0 < value.length := Nat.pos_of_ne_zero hv
          simp [hv, this]
      | EFunction fn => cases hm; exact ⟨rfl, rfl⟩
      | EArrow args body isAsync preferExpr => cases hm; exact ⟨rfl, rfl⟩
      | ERegExp value => cases hm; exact ⟨rfl, rfl⟩
      | _ => cases hm

theorem MaybeSimplifyNot_literal (loc : Loc) (d : E) (h : d.isLiteralOrFunction = true) :
    MaybeSimplifyNot ⟨loc, d⟩ = some ⟨loc, .EBoolean (!(ToBooleanWithSideEffects d).1)⟩ := by
  cases d with
  | ENull => rfl
  | EUndefined => rfl
  | EBoolean value => rfl
  | ENumber value =>
    show some (Expr.mk loc (.EBoolean (value.isZero || value.isNaN))) =
      some ⟨loc, .EBoolean (!(!value.isZero && !value.isNaN))⟩
    cases value.isZero <;> cases value.isNaN <;> rfl
  | EBigInt value =>
    show some (Expr.mk loc (.EBoolean (decide (value = "0")))) =
      some ⟨loc, .EBoolean (!decide (value ≠ "0"))⟩
    by_cases hv : value = "0" <;> simp [hv]
  | EString value =>
    show some (Expr.mk loc (.EBoolean (decide (value.length = 0)))) =
      some ⟨loc, .EBoolean (!decide (value.length > 0))⟩
    by_cases hv : value.length = 0
    · simp [hv]
    · have : 0 < value.length := Nat.pos_of_ne_zero hv
      simp [hv, this]
  | EFunction fn => rfl
  | EArrow args body isAsync preferExpr => rfl
  | ERegExp value => rfl
  | _ => cases h

/-- C35: `Not` negates the statically known truth value: if the boolean value
of `e` is known to be `b`, the boolean value of `Not(e)` is known to be the
opposite of `b`. When `MaybeSimplifyNot` is applied to a literal, a function,
an arrow or a regular expression, it succeeds and its result is the boolean
literal opposite to the truth value of the operand. -/
theorem not_negates_known_truth_value (e : Expr)
    (hk : (ToBooleanWithSideEffects e.data).2.2 = true) :
    ((ToBooleanWithSideEffects (Not e).data).2.2 = true ∧
      (ToBooleanWithSideEffects (Not e).data).1 = !(ToBooleanWithSideEffects e.data).1) ∧
    (∀ (loc : Loc) (d : E), d.isLiteralOrFunction = true →
      MaybeSimplifyNot ⟨loc, d⟩ =
        some ⟨loc, .EBoolean (!(ToBooleanWithSideEffects d).1)⟩) :=
  ⟨Not_truth_value e.size e (Nat.le_refl _) hk, MaybeSimplifyNot_literal⟩

/-- Witness for C35 at `!typeof x`, known to be falsy: `Not` gives
`!!typeof x`, known to be truthy. -/
theorem not_negates_known_truth_value_witness :
    (ToBooleanWithSideEffects notTypeofX.data).1 = false ∧
    Not notTypeofX = ⟨loc0, .EUnary UnOpNot notTypeofX false⟩ ∧
    (ToBooleanWithSideEffects (Not notTypeofX).data).2.2 = true ∧
    (ToBooleanWithSideEffects (Not notTypeofX).data).1 = true :=
  ⟨rfl, rfl, (not_negates_known_truth_value notTypeofX rfl).1⟩

/-! ## The side-effect tag and the classifier -/

theorem ToBooleanWithSideEffects_EInlinedEnum (loc : Loc) (d : E) (original : Ref) :
    ToBooleanWithSideEffects (.EInlinedEnum ⟨loc, d⟩ original) = ToBooleanWithSideEffects d := rfl

theorem ToBooleanWithSideEffects_EUnary (op : OpCode) (loc : Loc) (d : E) (flag : Bool) :
    ToBooleanWithSideEffects (.EUnary op ⟨loc, d⟩ flag) =
      if op = UnOpVoid then (false, CouldHaveSideEffects, true)
      else if op = UnOpTypeof then
        if flag then (true, NoSideEffects, true) else (true, CouldHaveSideEffects, true)
      else if op = UnOpNot then
        if (ToBooleanWithSideEffects d).2.2 then
          (!(ToBooleanWithSideEffects d).1, (ToBooleanWithSideEffects d).2.1, true)
        else (false, CouldHaveSideEffects, false)
      else (false, CouldHaveSideEffects, false) := rfl

/-- The boolean evaluation of a binary expression never reports the absence
of side effects. -/
theorem ToBooleanWithSideEffects_EBinary_tag (op : OpCode) (left right : Expr) :
    (ToBooleanWithSideEffects (.EBinary op left right)).2.1 = CouldHaveSideEffects := by
  obtain ⟨rLoc, rd⟩ := right
  show (if op = BinOpLogicalOr then
      (if ((ToBooleanWithSideEffects rd).2.2 && (ToBooleanWithSideEffects rd).1) = true then
        (true, CouldHaveSideEffects, true) else (false, CouldHaveSideEffects, false))
    else if op = BinOpLogicalAnd then
      (if ((ToBooleanWithSideEffects rd).2.2 && !(ToBooleanWithSideEffects rd).1) = true then
        (false, CouldHaveSideEffects, true) else (false, CouldHaveSideEffects, false))
    else if op = BinOpComma then
      (if (ToBooleanWithSideEffects rd).2.2 = true then
        ((ToBooleanWithSideEffects rd).1, CouldHaveSideEffects, true)
      else (false, CouldHaveSideEffects, false))
    else ((false, CouldHaveSideEffects, false) : Bool × SideEffects × Bool)).2.1 = _
  repeat' split
  all_goals rfl

theorem ExprCanBeRemovedIfUnused_EInlinedEnum (loc : Loc) (value : Expr) (original : Ref)
    (isUnbound : Ref → Bool) :
    ExprCanBeRemovedIfUnused ⟨loc, .EInlinedEnum value original⟩ isUnbound =
      ExprCanBeRemovedIfUnused value isUnbound := rfl

theorem ExprCanBeRemovedIfUnused_not (loc : Loc) (value : Expr) (flag : Bool)
    (isUnbound : Ref → Bool) :
    ExprCanBeRemovedIfUnused ⟨loc, .EUnary UnOpNot value flag⟩ isUnbound =
      ExprCanBeRemovedIfUnused value isUnbound := rfl

theorem ExprCanBeRemovedIfUnused_typeof (loc : Loc) (value : Expr) (flag : Bool)
    (isUnbound : Ref → Bool) :
    ExprCanBeRemovedIfUnused ⟨loc, .EUnary UnOpTypeof value flag⟩ isUnbound =
      if value.data.isEIdentifier && flag then some true
      else ExprCanBeRemovedIfUnused value isUnbound := rfl

/-- An expression whose boolean value is known without side effects is
removable. -/
theorem removable_of_known_pure_boolean (isUnbound : Ref → Bool) (n : Nat) : ∀ e : Expr,
    e.size ≤ n → flaggedTypeofHasIdentifier e = true →
    (ToBooleanWithSideEffects e.data).2.2 = true →
    (ToBooleanWithSideEffects e.data).2.1 = NoSideEffects →
    ExprCanBeRemovedIfUnused e isUnbound = some true := by
  induction n with
  | zero =>
    intro e he
    have := Expr.size_pos e
    omega
  | succ n ih =>
    intro e he hw hk hs
    obtain ⟨loc, d⟩ := e
    cases d with
    | EInlinedEnum value original =>
      rw [Expr.size_EInlinedEnum] at he
      obtain ⟨vLoc, vd⟩ := value
      rw [ExprCanBeRemovedIfUnused_EInlinedEnum]
      exact ih ⟨vLoc, vd⟩ (by omega) hw hk hs
    | EUnary op value flag =>
      rw [Expr.size_EUnary] at he
      obtain ⟨vLoc, vd⟩ := value
      have hk2 : (ToBooleanWithSideEffects (.EUnary op ⟨vLoc, vd⟩ flag)).2.2 = true := hk
      have hs2 : (ToBooleanWithSideEffects (.EUnary op ⟨vLoc, vd⟩ flag)).2.1 = NoSideEffects := hs
      have hw2 : (if op = UnOpTypeof then !flag || (Expr.mk vLoc vd).data.isEIdentifier
          else if op = UnOpNot then flaggedTypeofHasIdentifier ⟨vLoc, vd⟩ else true) = true := hw
      rw [ToBooleanWithSideEffects_EUnary] at hk2 hs2
      by_cases h1 : op = UnOpVoid
      · subst h1
        cases hs2
      · rw [if_neg h1] at hk2 hs2
        by_cases h2 : op = UnOpTypeof
        · subst h2
          rw [if_pos rfl] at hs2 hw2
          cases flag
          · cases hs2
          · rw [ExprCanBeRemovedIfUnused_typeof]
            have hid : (Expr.mk vLoc vd).data.isEIdentifier = true := by simpa using hw2
            rw [hid]
            rfl
        · rw [if_neg h2] at hk2 hs2 hw2
          by_cases h3 : op = UnOpNot
          · subst h3
            rw [if_pos rfl] at hk2 hs2 hw2
            rw [ExprCanBeRemovedIfUnused_not]
            cases hv : (ToBooleanWithSideEffects vd).2.2
            · rw [hv] at hk2
              cases hk2
            · rw [hv] at hs2
              exact ih ⟨vLoc, vd⟩ (by omega) hw2 hv hs2
          · rw [if_neg h3] at hk2
            cases hk2
    | EBinary op left right =>
      have hs2 : (ToBooleanWithSideEffects (.EBinary op left right)).2.1 = NoSideEffects := hs
      rw [ToBooleanWithSideEffects_EBinary_tag] at hs2
      cases hs2
    | ENull => rfl
    | EUndefined => rfl
    | EBoolean value => rfl
    | ENumber value => rfl
    | EBigInt value => rfl
    | EString value => rfl
    | EFunction fn => rfl
    | EArrow args body isAsync preferExpr => rfl
    | ERegExp value => rfl
    | EObject properties isSingleLine => cases hs
    | EArray items isSingleLine => cases hs
    | EClass cls => cases hs
    | _ => cases hk

/-- C37: the side-effect tag agrees with the classifier. For every expression
`e` in which every `typeof` flagged `ValueWasOriginallyIdentifier` has an
identifier as its operand, if `ToBooleanWithSideEffects(e)` is known with
`NoSideEffects`, then `ExprCanBeRemovedIfUnused(e, isUnbound)` is true, for
every oracle. -/
theorem pure_boolean_is_removable (e : Expr) (isUnbound : Ref → Bool)
    (hw : flaggedTypeofHasIdentifier e = true)
    (hk : (ToBooleanWithSideEffects e.data).2.2 = true)
    (hs : (ToBooleanWithSideEffects e.data).2.1 = NoSideEffects) :
    ExprCanBeRemovedIfUnused e isUnbound = some true :=
  removable_of_known_pure_boolean isUnbound e.size e (Nat.le_refl _) hw hk hs

/-- Witness for C37 at `!typeof x` with `x` unbound. -/
theorem pure_boolean_is_removable_witness :
    ToBooleanWithSideEffects notTypeofX.data = (false, NoSideEffects, true) ∧
    ExprCanBeRemovedIfUnused notTypeofX allUnbound = some true :=
  ⟨rfl, pure_boolean_is_removable notTypeofX allUnbound rfl rfl rfl⟩

/-! ## The left-associative join -/

theorem joinAtCommaTail_comma (f : Expr → Expr) (loc : Loc) (left right : Expr) :
    joinAtCommaTail f ⟨loc, .EBinary BinOpComma left right⟩ =
      ⟨loc, .EBinary BinOpComma left (joinAtCommaTail f right)⟩ := rfl

theorem joinAtCommaTail_of_not_comma (f : Expr → Expr) (a : Expr)
    (h : a.isBinaryWith BinOpComma = false) : joinAtCommaTail f a = f a := by
  obtain ⟨loc, d⟩ := a
  cases d with
  | EBinary op left right =>
    have h2 : decide (op = BinOpComma) = false := h
    have h3 : joinAtCommaTail f ⟨loc, .EBinary op left right⟩ =
        if op = BinOpComma then ⟨loc, .EBinary op left (joinAtCommaTail f right)⟩
        else f ⟨loc, .EBinary op left right⟩ := rfl
    rw [h3, if_neg (by simpa using h2)]
  | _ => rfl

/-- First branch of the join: a comma expression on the left keeps its left
operand and joins its right operand. -/
theorem JoinWithLeftAssociativeOp_comma (op : OpCode) (loc : Loc) (x y b : Expr) :
    JoinWithLeftAssociativeOp op ⟨loc, .EBinary BinOpComma x y⟩ b =
      ⟨loc, .EBinary BinOpComma x (JoinWithLeftAssociativeOp op y b)⟩ := by
  obtain ⟨bLoc, bd⟩ := b
  cases bd <;> rfl

/-- Second branch of the join: an `op` node on the right is rotated. -/
theorem JoinWithLeftAssociativeOp_rotate (op : OpCode) (a : Expr) (bLoc : Loc)
    (bLeft bRight : Expr) (h : a.isBinaryWith BinOpComma = false) :
    JoinWithLeftAssociativeOp op a ⟨bLoc, .EBinary op bLeft bRight⟩ =
      JoinWithLeftAssociativeOp op (JoinWithLeftAssociativeOp op a bLeft) bRight := by
  rw [JoinWithLeftAssociativeOp_EBinary, joinAtCommaTail_of_not_comma _ _ h, if_pos rfl]

/-- Third branch of the join: a new `op` node. -/
theorem JoinWithLeftAssociativeOp_node (op : OpCode) (a b : Expr)
    (h : a.isBinaryWith BinOpComma = false) (hb : b.isBinaryWith op = false) :
    JoinWithLeftAssociativeOp op a b = ⟨a.loc, .EBinary op a b⟩ := by
  obtain ⟨bLoc, bd⟩ := b
  cases bd with
  | EBinary bOp bLeft bRight =>
    have h2 : decide (bOp = op) = false := hb
    rw [JoinWithLeftAssociativeOp_EBinary, joinAtCommaTail_of_not_comma _ _ h,
      if_neg (by simpa using h2)]
  | _ => exact joinAtCommaTail_of_not_comma _ _ h

theorem Expr.isBinaryWith_EBinary (op o : OpCode) (loc : Loc) (left right : Expr) :
    Expr.isBinaryWith op ⟨loc, .EBinary o left right⟩ = decide (o = op) := rfl

theorem opOperands_EBinary (op o : OpCode) (loc : Loc) (left right : Expr) :
    opOperands op ⟨loc, .EBinary o left right⟩ =
      if o = op then opOperands op left ++ opOperands op right
      else [⟨loc, .EBinary o left right⟩] := rfl

theorem opOperands_of_not_op (op : OpCode) (b : Expr) (hb : b.isBinaryWith op = false) :
    opOperands op b = [b] := by
  obtain ⟨bLoc, bd⟩ := b
  cases bd with
  | EBinary bOp bLeft bRight =>
    have h2 : decide (bOp = op) = false := hb
    rw [opOperands_EBinary, if_neg (by simpa using h2)]
  | _ => rfl

/-- The flattened operands are never empty and none of them is an `op` node. -/
theorem opOperands_spec (op : OpCode) (n : Nat) : ∀ b : Expr, b.size ≤ n →
    opOperands op b ≠ [] ∧ ∀ y ∈ opOperands op b, y.isBinaryWith op = false := by
  induction n with
  | zero =>
    intro b hb
    have := Expr.size_pos b
    omega
  | succ n ih =>
    intro b hb
    cases hop : b.isBinaryWith op with
    | false =>
      rw [opOperands_of_not_op op b hop]
      refine ⟨by simp, ?_⟩
      intro y hy
      rw [List.mem_singleton] at hy
      rw [hy]
      exact hop
    | true =>
      obtain ⟨bLoc, bd⟩ := b
      cases bd with
      | EBinary bOp bLeft bRight =>
        have h2 : decide (bOp = op) = true := hop
        have h3 : bOp = op := by simpa using h2
        rw [Expr.size_EBinary] at hb
        have hl := ih bLeft (by omega)
        have hr := ih bRight (by omega)
        rw [opOperands_EBinary, if_pos h3]
        refine ⟨by simp [hl.1], ?_⟩
        intro y hy
        rw [List.mem_append] at hy
        rcases hy with hy | hy
        · exact hl.2 y hy
        · exact hr.2 y hy
      | _ => cases hop

theorem leftFold_loc (op : OpCode) (bs : List Expr) : ∀ a : Expr,
    (leftFold op a bs).loc = a.loc := by
  induction bs with
  | nil => intro a; rfl
  | cons y ys ih =>
    intro a
    show (leftFold op ⟨a.loc, .EBinary op a y⟩ ys).loc = a.loc
    rw [ih]
    rfl

theorem leftFold_append (op : OpCode) (a : Expr) (xs ys : List Expr) :
    leftFold op a (xs ++ ys) = leftFold op (leftFold op a xs) ys := by
  unfold leftFold
  rw [List.foldl_append]

theorem leftFold_concat (op : OpCode) (a : Expr) (xs : List Expr) (y : Expr) :
    leftFold op a (xs ++ [y]) = ⟨a.loc, .EBinary op (leftFold op a xs) y⟩ := by
  rw [leftFold_append]
  show (⟨(leftFold op a xs).loc, .EBinary op (leftFold op a xs) y⟩ : Expr) = _
  rw [leftFold_loc]

/-- A fold over at least one operand is an `op` node whose right operand is
the last operand. -/
theorem leftFold_last (op : OpCode) (a : Expr) (bs : List Expr) (h : bs ≠ []) :
    leftFold op a bs = ⟨a.loc, .EBinary op (leftFold op a bs.dropLast) (bs.getLast h)⟩ := by
  have h2 := leftFold_concat op a bs.dropLast (bs.getLast h)
  rw [List.dropLast_append_getLast h] at h2
  exact h2

/-- The join of an expression that is not a comma expression is the left
fold over the flattened operands. -/
theorem JoinWithLeftAssociativeOp_fold (op : OpCode) (hop : op ≠ BinOpComma) (n : Nat) :
    ∀ b : Expr, b.size ≤ n → ∀ a : Expr, a.isBinaryWith BinOpComma = false →
      JoinWithLeftAssociativeOp op a b = leftFold op a (opOperands op b) := by
  induction n with
  | zero =>
    intro b hb
    have := Expr.size_pos b
    omega
  | succ n ih =>
    intro b hb a ha
    cases hbo : b.isBinaryWith op with
    | false =>
      rw [opOperands_of_not_op op b hbo, JoinWithLeftAssociativeOp_node op a b ha hbo]
      rfl
    | true =>
      obtain ⟨bLoc, bd⟩ := b
      cases bd with
      | EBinary bOp bLeft bRight =>
        have h2 : decide (bOp = op) = true := hbo
        have h3 : bOp = op := by simpa using h2
        subst h3
        rw [Expr.size_EBinary] at hb
        rw [JoinWithLeftAssociativeOp_rotate bOp a bLoc bLeft bRight ha, opOperands_EBinary,
          if_pos rfl, leftFold_append, ih bLeft (by omega) a ha]
        apply ih bRight (by omega)
        have hne := (opOperands_spec bOp bLeft.size bLeft (Nat.le_refl _)).1
        rw [leftFold_last bOp a _ hne, Expr.isBinaryWith_EBinary]
        simpa using hop
      | _ => cases hbo

/-- C34: for every operator `op` other than comma and every `a` that is not a
comma expression, `JoinWithLeftAssociativeOp(op, a, b)` is the left fold of
`op` over `a` followed by the operands of `b` obtained by fully flattening its
nested `op` nodes, in their left-to-right order; the result is an `op` node
whose right operand, the last of these operands, is not an `op` node. When the
left operand is a comma expression `(x, y)` the result is
`x, JoinWithLeftAssociativeOp(op, y, b)`. -/
theorem join_is_left_fold (op : OpCode) (a b : Expr) (hop : op ≠ BinOpComma)
    (ha : a.isBinaryWith BinOpComma = false) :
    JoinWithLeftAssociativeOp op a b = leftFold op a (opOperands op b) ∧
    (∃ l r, JoinWithLeftAssociativeOp op a b = ⟨a.loc, .EBinary op l r⟩ ∧
      r ∈ opOperands op b ∧ r.isBinaryWith op = false) ∧
    (∀ y ∈ opOperands op b, y.isBinaryWith op = false) ∧
    (∀ (loc : Loc) (x y : Expr),
      JoinWithLeftAssociativeOp op ⟨loc, .EBinary BinOpComma x y⟩ b =
        ⟨loc, .EBinary BinOpComma x (JoinWithLeftAssociativeOp op y b)⟩) := by
  have hf := JoinWithLeftAssociativeOp_fold op hop b.size b (Nat.le_refl _) a ha
  have hs := opOperands_spec op b.size b (Nat.le_refl _)
  refine ⟨hf, ⟨leftFold op a (opOperands op b).dropLast, (opOperands op b).getLast hs.1, ?_,
    List.getLast_mem hs.1, hs.2 _ (List.getLast_mem hs.1)⟩, hs.2, ?_⟩
  · rw [hf]
    exact leftFold_last op a _ hs.1
  · intro loc x y
    exact JoinWithLeftAssociativeOp_comma op loc x y b

/-- Witness for C34: `a && (b && (c && d))` gives `((a && b) && c) && d`. -/
theorem join_is_left_fold_witness :
    JoinWithLeftAssociativeOp BinOpLogicalAnd identA bAndCAndD =
      ⟨loc0, .EBinary BinOpLogicalAnd
        ⟨loc0, .EBinary BinOpLogicalAnd
          ⟨loc0, .EBinary BinOpLogicalAnd identA identB⟩ identC⟩ identD⟩ ∧
    opOperands BinOpLogicalAnd bAndCAndD = [identB, identC, identD] :=
  ⟨(join_is_left_fold BinOpLogicalAnd identA bAndCAndD (by decide) rfl).1.trans rfl, rfl⟩

/-! ## Termination of the left-associative join -/

theorem JoinWithLeftAssociativeOpFuel_comma (fuel : Nat) (op : OpCode) (loc : Loc)
    (x y b : Expr) :
    JoinWithLeftAssociativeOpFuel (fuel + 1) op ⟨loc, .EBinary BinOpComma x y⟩ b =
      match JoinWithLeftAssociativeOpFuel fuel op y b with
      | some right => some ⟨loc, .EBinary BinOpComma x right⟩
      | none => none := rfl

theorem JoinWithLeftAssociativeOpFuel_rotate (fuel : Nat) (op : OpCode) (a : Expr) (bLoc : Loc)
    (bLeft bRight : Expr) (h : a.isBinaryWith BinOpComma = false) :
    JoinWithLeftAssociativeOpFuel (fuel + 1) op a ⟨bLoc, .EBinary op bLeft bRight⟩ =
      match JoinWithLeftAssociativeOpFuel fuel op a bLeft with
      | some inner => JoinWithLeftAssociativeOpFuel fuel op inner bRight
      | none => none := by
  have key : ∀ a : Expr, a.isBinaryWith BinOpComma = false →
      JoinWithLeftAssociativeOpFuel (fuel + 1) op a ⟨bLoc, .EBinary op bLeft bRight⟩ =
        if op = op then
          match JoinWithLeftAssociativeOpFuel fuel op a bLeft with
          | some inner => JoinWithLeftAssociativeOpFuel fuel op inner bRight
          | none => none
        else some ⟨a.loc, .EBinary op a ⟨bLoc, .EBinary op bLeft bRight⟩⟩ := by
    intro a h
    obtain ⟨loc, d⟩ := a
    cases d with
    | EBinary aOp aLeft aRight =>
      cases aOp <;> first | rfl | cases h
    | _ => rfl
  rw [key a h, if_pos rfl]

theorem JoinWithLeftAssociativeOpFuel_node (fuel : Nat) (op : OpCode) (a b : Expr)
    (h : a.isBinaryWith BinOpComma = false) (hb : b.isBinaryWith op = false) :
    JoinWithLeftAssociativeOpFuel (fuel + 1) op a b = some ⟨a.loc, .EBinary op a b⟩ := by
  obtain ⟨bLoc, bd⟩ := b
  cases bd with
  | EBinary bOp bLeft bRight =>
    have h2 : decide (bOp = op) = false := hb
    have h3 : ¬ bOp = op := by simpa using h2
    have key : JoinWithLeftAssociativeOpFuel (fuel + 1) op a ⟨bLoc, .EBinary bOp bLeft bRight⟩ =
        if bOp = op then
          match JoinWithLeftAssociativeOpFuel fuel op a bLeft with
          | some inner => JoinWithLeftAssociativeOpFuel fuel op inner bRight
          | none => none
        else some ⟨a.loc, .EBinary op a ⟨bLoc, .EBinary bOp bLeft bRight⟩⟩ := by
      obtain ⟨loc, d⟩ := a
      cases d with
      | EBinary aOp aLeft aRight =>
        cases aOp <;> first | rfl | cases h
      | _ => rfl
    rw [key, if_neg h3]
  | _ =>
    obtain ⟨loc, d⟩ := a
    cases d with
    | EBinary aOp aLeft aRight =>
      cases aOp <;> first | rfl | cases h
    | _ => rfl

/-- With fuel at least `size a + 2 * size b` the literal recursion returns the
join. -/
theorem JoinWithLeftAssociativeOpFuel_enough (op : OpCode) (fuel : Nat) : ∀ a b : Expr,
    a.size + 2 * b.size ≤ fuel →
      JoinWithLeftAssociativeOpFuel fuel op a b = some (JoinWithLeftAssociativeOp op a b) := by
  induction fuel with
  | zero =>
    intro a b h
    have := Expr.size_pos a
    omega
  | succ fuel ih =>
    intro a b h
    cases hac : a.isBinaryWith BinOpComma with
    | true =>
      obtain ⟨loc, d⟩ := a
      cases d with
      | EBinary aOp x y =>
        have h2 : decide (aOp = BinOpComma) = true := hac
        have h3 : aOp = BinOpComma := by simpa using h2
        subst h3
        rw [Expr.size_EBinary] at h
        rw [JoinWithLeftAssociativeOpFuel_comma, ih y b (by omega),
          JoinWithLeftAssociativeOp_comma]
      | _ => cases hac
    | false =>
      cases hbo : b.isBinaryWith op with
      | false =>
        rw [JoinWithLeftAssociativeOpFuel_node fuel op a b hac hbo,
          JoinWithLeftAssociativeOp_node op a b hac hbo]
      | true =>
        obtain ⟨bLoc, bd⟩ := b
        cases bd with
        | EBinary bOp bLeft bRight =>
          have h2 : decide (bOp = op) = true := hbo
          have h3 : bOp = op := by simpa using h2
          subst h3
          rw [Expr.size_EBinary] at h
          have hl := Expr.size_pos bLeft
          rw [JoinWithLeftAssociativeOpFuel_rotate fuel bOp a bLoc bLeft bRight hac,
            ih a bLeft (by omega),
            JoinWithLeftAssociativeOp_rotate bOp a bLoc bLeft bRight hac]
          apply ih
          rw [JoinWithLeftAssociativeOp_size]
          omega
        | _ => cases hbo

/-- Every recursive call has a smaller `b`, or the same `b` and a smaller
`a`. -/
theorem joinRecursiveCalls_decrease (op : OpCode) (a b : Expr) :
    ∀ call ∈ joinRecursiveCalls op a b,
      call.2.size < b.size ∨ (call.2.size = b.size ∧ call.1.size < a.size) := by
  intro call hc
  cases hac : a.isBinaryWith BinOpComma with
  | true =>
    obtain ⟨loc, d⟩ := a
    cases d with
    | EBinary aOp x y =>
      have h2 : decide (aOp = BinOpComma) = true := hac
      have h3 : aOp = BinOpComma := by simpa using h2
      subst h3
      have hc2 : call ∈ [(y, b)] := hc
      rw [List.mem_singleton] at hc2
      subst hc2
      right
      refine ⟨rfl, ?_⟩
      rw [Expr.size_EBinary]
      show y.size < _
      omega
    | _ => cases hac
  | false =>
    obtain ⟨bLoc, bd⟩ := b
    have key : joinRecursiveCalls op a ⟨bLoc, bd⟩ =
        match (⟨bLoc, bd⟩ : Expr) with
        | ⟨_, .EBinary bOp bLeft bRight⟩ =>
          if bOp = op then [(a, bLeft), (JoinWithLeftAssociativeOp op a bLeft, bRight)] else []
        | _ => [] := by
      obtain ⟨loc, d⟩ := a
      cases d with
      | EBinary aOp aLeft aRight =>
        cases aOp <;> first | rfl | cases hac
      | _ => rfl
    rw [key] at hc
    cases bd with
    | EBinary bOp bLeft bRight =>
      have hc2 : call ∈ (if bOp = op then
          [(a, bLeft), (JoinWithLeftAssociativeOp op a bLeft, bRight)] else []) := hc
      by_cases h3 : bOp = op
      · rw [if_pos h3] at hc2
        left
        rw [Expr.size_EBinary]
        simp only [List.mem_cons, List.mem_singleton, List.not_mem_nil, or_false] at hc2
        rcases hc2 with hc2 | hc2
        · subst hc2
          show bLeft.size < _
          omega
        · subst hc2
          show bRight.size < _
          omega
      · rw [if_neg h3] at hc2
        cases hc2
    | _ => cases hc

/-- C40: `JoinWithLeftAssociativeOp` terminates on every input: the literal
recursion returns the join once the fuel reaches `size a + 2 * size b`, and at
every recursive call, the nested one whose first argument grows included, the
pair `(size of b, size of a)` decreases lexicographically. -/
theorem join_terminates (op : OpCode) (a b : Expr) :
    (∀ fuel, a.size + 2 * b.size ≤ fuel →
      JoinWithLeftAssociativeOpFuel fuel op a b = some (JoinWithLeftAssociativeOp op a b)) ∧
    (∀ call ∈ joinRecursiveCalls op a b,
      Prod.Lex (fun m n : Nat => m < n) (fun m n : Nat => m < n)
        (call.2.size, call.1.size) (b.size, a.size)) ∧
    (∀ (bLoc : Loc) (bLeft bRight : Expr), a.isBinaryWith BinOpComma = false →
      b = ⟨bLoc, .EBinary op bLeft bRight⟩ →
      joinRecursiveCalls op a b = [(a, bLeft), (JoinWithLeftAssociativeOp op a bLeft, bRight)] ∧
      a.size < (JoinWithLeftAssociativeOp op a bLeft).size) := by
  refine ⟨fun fuel h => JoinWithLeftAssociativeOpFuel_enough op fuel a b h, ?_, ?_⟩
  · intro call hc
    rcases joinRecursiveCalls_decrease op a b call hc with h | ⟨h1, h2⟩
    · exact Prod.Lex.left _ _ h
    · rw [h1]
      exact Prod.Lex.right _ h2
  · intro bLoc bLeft bRight ha hb
    subst hb
    refine ⟨?_, ?_⟩
    · have key : ∀ a : Expr, a.isBinaryWith BinOpComma = false →
          joinRecursiveCalls op a ⟨bLoc, .EBinary op bLeft bRight⟩ =
            if op = op then [(a, bLeft), (JoinWithLeftAssociativeOp op a bLeft, bRight)]
            else [] := by
        intro a h
        obtain ⟨loc, d⟩ := a
        cases d with
        | EBinary aOp aLeft aRight =>
          cases aOp <;> first | rfl | cases h
        | _ => rfl
      rw [key a ha, if_pos rfl]
    · rw [JoinWithLeftAssociativeOp_size]
      omega

/-! ## Symmetry of the two equality oracles -/

theorem decide_symm {α : Type} [DecidableEq α] (x y : α) :
    decide (x = y) = decide (y = x) := by
  by_cases h : x = y
  · subst h; rfl
  · simp [h, Ne.symm h]

theorem Float64.eq_comm (a b : Float64) : a.eq b = b.eq a := by
  unfold Float64.eq
  rw [decide_symm a.sign b.sign, decide_symm (a.exponent % 2048) (b.exponent % 2048),
    decide_symm (a.mantissa % 2 ^ 52) (b.mantissa % 2 ^ 52)]
  cases a.isNaN <;> cases b.isNaN <;> cases a.isZero <;> cases b.isZero <;> rfl

theorem Float64.signedZeros_symm (a b : Float64) :
    (a.isZero && b.isZero && decide (a.sign ≠ b.sign)) =
      (b.isZero && a.isZero && decide (b.sign ≠ a.sign)) := by
  have h : decide (a.sign ≠ b.sign) = decide (b.sign ≠ a.sign) := by
    by_cases hs : a.sign = b.sign
    · rw [hs]
    · simp [hs, Ne.symm hs]
  rw [h]
  cases a.isZero <;> cases b.isZero <;> rfl

/-- On two operands without wrappers the `switch` of
`CheckEqualityIfNoSideEffects` is symmetric. -/
theorem checkEqualityLeft_symm (a b : E) (ha : enumDepth a = 0) (hb : enumDepth b = 0) :
    checkEqualityLeft a b = checkEqualityLeft b a := by
  cases a with
  | EInlinedEnum aV aO =>
    obtain ⟨aVLoc, aVD⟩ := aV
    rw [enumDepth_EInlinedEnum] at ha
    omega
  | EBoolean aV =>
    cases b with
    | EInlinedEnum bV bO =>
      obtain ⟨bVLoc, bVD⟩ := bV
      rw [enumDepth_EInlinedEnum] at hb
      omega
    | EBoolean bV =>
      show (decide (aV = bV), true) = (decide (bV = aV), true)
      rw [decide_symm aV bV]
    | _ => rfl
  | ENumber aV =>
    cases b with
    | EInlinedEnum bV bO =>
      obtain ⟨bVLoc, bVD⟩ := bV
      rw [enumDepth_EInlinedEnum] at hb
      omega
    | ENumber bV =>
      show (aV.eq bV, true) = (bV.eq aV, true)
      rw [Float64.eq_comm aV bV]
    | _ => rfl
  | EBigInt aV =>
    cases b with
    | EInlinedEnum bV bO =>
      obtain ⟨bVLoc, bVD⟩ := bV
      rw [enumDepth_EInlinedEnum] at hb
      omega
    | EBigInt bV =>
      show (decide (aV = bV), true) = (decide (bV = aV), true)
      rw [decide_symm aV bV]
    | _ => rfl
  | EString aV =>
    cases b with
    | EInlinedEnum bV bO =>
      obtain ⟨bVLoc, bVD⟩ := bV
      rw [enumDepth_EInlinedEnum] at hb
      omega
    | EString bV =>
      show (decide (aV = bV), true) = (decide (bV = aV), true)
      rw [decide_symm aV bV]
    | _ => rfl
  | _ =>
    cases b with
    | EInlinedEnum bV bO =>
      obtain ⟨bVLoc, bVD⟩ := bV
      rw [enumDepth_EInlinedEnum] at hb
      omega
    | _ => rfl

theorem lookSize_EInlinedEnum (loc : Loc) (d : E) (original : Ref) :
    lookSize (.EInlinedEnum ⟨loc, d⟩ original) = lookSize d + 1 := rfl

theorem lookSize_EDot (loc : Loc) (d : E) (name : String) (c : OptionalChain) (r u : Bool) :
    lookSize (.EDot ⟨loc, d⟩ name c r u) = lookSize d + 1 := rfl

theorem lookSize_EIndex (l1 l2 : Loc) (t i : E) (c : OptionalChain) (r u : Bool) :
    lookSize (.EIndex ⟨l1, t⟩ ⟨l2, i⟩ c r u) = lookSize t + lookSize i + 1 := rfl

theorem lookSize_EIf (l1 l2 l3 : Loc) (t y n : E) :
    lookSize (.EIf ⟨l1, t⟩ ⟨l2, y⟩ ⟨l3, n⟩) = lookSize t + lookSize y + lookSize n + 1 := rfl

theorem lookSize_EUnary (op : OpCode) (loc : Loc) (d : E) (flag : Bool) :
    lookSize (.EUnary op ⟨loc, d⟩ flag) = lookSize d + 1 := rfl

theorem lookSize_EBinary (op : OpCode) (l1 l2 : Loc) (l r : E) :
    lookSize (.EBinary op ⟨l1, l⟩ ⟨l2, r⟩) = lookSize l + lookSize r + 1 := rfl

theorem lookSize_ECall (loc : Loc) (t : E) (args : List Expr) (c : OptionalChain) (u : Bool)
    (k : CallKind) :
    lookSize (.ECall ⟨loc, t⟩ args c u k) = lookSize t + lookSizeArgs args + 1 := rfl

theorem lookSizeArgs_cons (loc : Loc) (d : E) (rest : List Expr) :
    lookSizeArgs (⟨loc, d⟩ :: rest) = lookSize d + lookSizeArgs rest := rfl

/-- Removing the wrappers does not grow the count. -/
theorem lookSize_unwrap_le (n : Nat) : ∀ e : E, enumDepth e ≤ n →
    lookSize e.unwrapInlinedEnum ≤ lookSize e := by
  induction n with
  | zero =>
    intro e h
    cases e with
    | EInlinedEnum value original =>
      obtain ⟨loc, d⟩ := value
      rw [enumDepth_EInlinedEnum] at h
      omega
    | _ => exact Nat.le_refl _
  | succ n ih =>
    intro e h
    cases e with
    | EInlinedEnum value original =>
      obtain ⟨loc, d⟩ := value
      rw [enumDepth_EInlinedEnum] at h
      rw [E.unwrapInlinedEnum_EInlinedEnum, lookSize_EInlinedEnum]
      have := ih d (by omega)
      omega
    | _ => exact Nat.le_refl _

theorem valuesLookTheSameLeft_EIdentifier (a b : Ref) (x y x2 y2 : Bool) :
    valuesLookTheSameLeft (.EIdentifier a x y) (.EIdentifier b x2 y2) =
      (decide (a = b) || false) := rfl

theorem valuesLookTheSameLeft_EDot (aLoc bLoc : Loc) (aT bT : E) (aN bN : String)
    (aC bC : OptionalChain) (aR bR aU bU : Bool) :
    valuesLookTheSameLeft (.EDot ⟨aLoc, aT⟩ aN aC aR aU) (.EDot ⟨bLoc, bT⟩ bN bC bR bU) =
      ((decide (aC = bC) && decide (aR = bR) && decide (aU = bU)) && decide (aN = bN) &&
        valuesLookTheSameLeft aT bT.unwrapInlinedEnum || false) := rfl

theorem valuesLookTheSameLeft_EIndex (aLoc aLoc2 bLoc bLoc2 : Loc) (aT aI bT bI : E)
    (aC bC : OptionalChain) (aR bR aU bU : Bool) :
    valuesLookTheSameLeft (.EIndex ⟨aLoc, aT⟩ ⟨aLoc2, aI⟩ aC aR aU)
        (.EIndex ⟨bLoc, bT⟩ ⟨bLoc2, bI⟩ bC bR bU) =
      ((decide (aC = bC) && decide (aR = bR) && decide (aU = bU)) &&
        valuesLookTheSameLeft aT bT.unwrapInlinedEnum &&
        valuesLookTheSameLeft aI bI.unwrapInlinedEnum || false) := rfl

theorem valuesLookTheSameLeft_EIf (a1 a2 a3 b1 b2 b3 : Loc) (aT aY aN bT bY bN : E) :
    valuesLookTheSameLeft (.EIf ⟨a1, aT⟩ ⟨a2, aY⟩ ⟨a3, aN⟩) (.EIf ⟨b1, bT⟩ ⟨b2, bY⟩ ⟨b3, bN⟩) =
      (valuesLookTheSameLeft aT bT.unwrapInlinedEnum &&
        valuesLookTheSameLeft aY bY.unwrapInlinedEnum &&
        valuesLookTheSameLeft aN bN.unwrapInlinedEnum || false) := rfl

theorem valuesLookTheSameLeft_EUnary (aOp bOp : OpCode) (aLoc bLoc : Loc) (aV bV : E)
    (aF bF : Bool) :
    valuesLookTheSameLeft (.EUnary aOp ⟨aLoc, aV⟩ aF) (.EUnary bOp ⟨bLoc, bV⟩ bF) =
      (decide (aOp = bOp) && valuesLookTheSameLeft aV bV.unwrapInlinedEnum || false) := rfl

theorem valuesLookTheSameLeft_EBinary (aOp bOp : OpCode) (a1 a2 b1 b2 : Loc) (aL aR bL bR : E) :
    valuesLookTheSameLeft (.EBinary aOp ⟨a1, aL⟩ ⟨a2, aR⟩) (.EBinary bOp ⟨b1, bL⟩ ⟨b2, bR⟩) =
      (decide (aOp = bOp) && valuesLookTheSameLeft aL bL.unwrapInlinedEnum &&
        valuesLookTheSameLeft aR bR.unwrapInlinedEnum || false) := rfl

theorem valuesLookTheSameLeft_ECall (aLoc bLoc : Loc) (aT bT : E) (aArgs bArgs : List Expr)
    (aC bC : OptionalChain) (aU bU : Bool) (aK bK : CallKind) :
    valuesLookTheSameLeft (.ECall ⟨aLoc, aT⟩ aArgs aC aU aK) (.ECall ⟨bLoc, bT⟩ bArgs bC bU bK) =
      if ((decide (aC = bC) && decide (aU = bU) && decide (aK = bK)) &&
          decide (aArgs.length = bArgs.length) &&
          valuesLookTheSameLeft aT bT.unwrapInlinedEnum) = true then
        valuesLookTheSameArgs aArgs bArgs
      else false := rfl

theorem valuesLookTheSameArgs_cons (aLoc bLoc : Loc) (a b : E) (aRest bRest : List Expr) :
    valuesLookTheSameArgs (⟨aLoc, a⟩ :: aRest) (⟨bLoc, b⟩ :: bRest) =
      if valuesLookTheSameLeft a b.unwrapInlinedEnum then valuesLookTheSameArgs aRest bRest
      else false := rfl

/-- The loop over the arguments is symmetric when the comparison of the
arguments is. -/
theorem valuesLookTheSameArgs_symm (n : Nat)
    (hrec : ∀ x y : E, lookSize x < n →
      valuesLookTheSameLeft x y.unwrapInlinedEnum = valuesLookTheSameLeft y x.unwrapInlinedEnum) :
    ∀ xs ys : List Expr, lookSizeArgs xs < n →
      valuesLookTheSameArgs xs ys = valuesLookTheSameArgs ys xs := by
  intro xs
  induction xs with
  | nil =>
    intro ys _
    cases ys with
    | nil => rfl
    | cons y ys =>
      obtain ⟨yLoc, yD⟩ := y
      rfl
  | cons x xs ih =>
    intro ys h
    obtain ⟨xLoc, xD⟩ := x
    rw [lookSizeArgs_cons] at h
    cases ys with
    | nil => rfl
    | cons y ys =>
      obtain ⟨yLoc, yD⟩ := y
      rw [valuesLookTheSameArgs_cons, valuesLookTheSameArgs_cons, hrec xD yD (by omega),
        ih ys (by omega)]

/-- The comparison of two operands is symmetric once it is symmetric on
operands without wrappers. -/
theorem valuesLookTheSameLeft_symm_wrapped (n : Nat)
    (ih : ∀ a b : E, lookSize a < n → enumDepth a = 0 → enumDepth b = 0 →
      valuesLookTheSameLeft a b = valuesLookTheSameLeft b a)
    (x y : E) (h : lookSize x < n) :
    valuesLookTheSameLeft x y.unwrapInlinedEnum = valuesLookTheSameLeft y x.unwrapInlinedEnum := by
  have hx := lookSize_unwrap_le (enumDepth x) x (Nat.le_refl _)
  rw [valuesLookTheSameLeft_unwrap_left _ (enumDepth x) x (Nat.le_refl _),
    valuesLookTheSameLeft_unwrap_left _ (enumDepth y) y (Nat.le_refl _)]
  exact ih _ _ (by omega) (E.unwrapInlinedEnum_depth _ x (Nat.le_refl _))
    (E.unwrapInlinedEnum_depth _ y (Nat.le_refl _))

/-- On two operands without wrappers the `switch` of `ValuesLookTheSame` is
symmetric. -/
theorem valuesLookTheSameLeft_symm (n : Nat) : ∀ a b : E, lookSize a < n →
    enumDepth a = 0 → enumDepth b = 0 →
    valuesLookTheSameLeft a b = valuesLookTheSameLeft b a := by
  induction n with
  | zero =>
    intro a b h
    omega
  | succ n ih =>
    intro a b h ha hb
    have hrec := valuesLookTheSameLeft_symm_wrapped n ih
    cases a with
    | EInlinedEnum aV aO =>
      obtain ⟨aVLoc, aVD⟩ := aV
      rw [enumDepth_EInlinedEnum] at ha
      omega
    | EDot aT aN aC aR aU =>
      obtain ⟨aTLoc, aTD⟩ := aT
      cases b with
      | EInlinedEnum bV bO =>
        obtain ⟨bVLoc, bVD⟩ := bV
        rw [enumDepth_EInlinedEnum] at hb
        omega
      | EDot bT bN bC bR bU =>
        obtain ⟨bTLoc, bTD⟩ := bT
        rw [valuesLookTheSameLeft_EDot, valuesLookTheSameLeft_EDot,
          hrec _ bTD (by rw [lookSize_EDot] at h; omega),
          decide_symm aC bC, decide_symm aR bR, decide_symm aU bU, decide_symm aN bN]
      | EIndex bT bI bC bR bU =>
        obtain ⟨bTLoc, bTD⟩ := bT
        obtain ⟨bILoc, bID⟩ := bI
        rfl
      | ECall bT bArgs bC bU bK =>
        obtain ⟨bTLoc, bTD⟩ := bT
        rfl
      | EUnary bOp bV bF =>
        obtain ⟨bVLoc, bVD⟩ := bV
        rfl
      | EBinary bOp bL bR =>
        obtain ⟨bLLoc, bLD⟩ := bL
        obtain ⟨bRLoc, bRD⟩ := bR
        rfl
      | EIf bT bY bN =>
        obtain ⟨bTLoc, bTD⟩ := bT
        obtain ⟨bYLoc, bYD⟩ := bY
        obtain ⟨bNLoc, bND⟩ := bN
        rfl
      | _ => rfl
    | EIndex aT aI aC aR aU =>
      obtain ⟨aTLoc, aTD⟩ := aT
      obtain ⟨aILoc, aID⟩ := aI
      cases b with
      | EInlinedEnum bV bO =>
        obtain ⟨bVLoc, bVD⟩ := bV
        rw [enumDepth_EInlinedEnum] at hb
        omega
      | EDot bT bN bC bR bU =>
        obtain ⟨bTLoc, bTD⟩ := bT
        rfl
      | EIndex bT bI bC bR bU =>
        obtain ⟨bTLoc, bTD⟩ := bT
        obtain ⟨bILoc, bID⟩ := bI
        rw [valuesLookTheSameLeft_EIndex, valuesLookTheSameLeft_EIndex,
          hrec _ bTD (by rw [lookSize_EIndex] at h; omega),
          hrec _ bID (by rw [lookSize_EIndex] at h; omega),
          decide_symm aC bC, decide_symm aR bR, decide_symm aU bU]
      | ECall bT bArgs bC bU bK =>
        obtain ⟨bTLoc, bTD⟩ := bT
        rfl
      | EUnary bOp bV bF =>
        obtain ⟨bVLoc, bVD⟩ := bV
        rfl
      | EBinary bOp bL bR =>
        obtain ⟨bLLoc, bLD⟩ := bL
        obtain ⟨bRLoc, bRD⟩ := bR
        rfl
      | EIf bT bY bN =>
        obtain ⟨bTLoc, bTD⟩ := bT
        obtain ⟨bYLoc, bYD⟩ := bY
        obtain ⟨bNLoc, bND⟩ := bN
        rfl
      | _ => rfl
    | ECall aT aArgs aC aU aK =>
      obtain ⟨aTLoc, aTD⟩ := aT
      cases b with
      | EInlinedEnum bV bO =>
        obtain ⟨bVLoc, bVD⟩ := bV
        rw [enumDepth_EInlinedEnum] at hb
        omega
      | EDot bT bN bC bR bU =>
        obtain ⟨bTLoc, bTD⟩ := bT
        rfl
      | EIndex bT bI bC bR bU =>
        obtain ⟨bTLoc, bTD⟩ := bT
        obtain ⟨bILoc, bID⟩ := bI
        rfl
      | ECall bT bArgs bC bU bK =>
        obtain ⟨bTLoc, bTD⟩ := bT
        rw [valuesLookTheSameLeft_ECall, valuesLookTheSameLeft_ECall,
          hrec _ bTD (by rw [lookSize_ECall] at h; omega),
          decide_symm aC bC, decide_symm aU bU, decide_symm aK bK,
          decide_symm aArgs.length bArgs.length,
          valuesLookTheSameArgs_symm n hrec aArgs bArgs (by rw [lookSize_ECall] at h; omega)]
      | EUnary bOp bV bF =>
        obtain ⟨bVLoc, bVD⟩ := bV
        rfl
      | EBinary bOp bL bR =>
        obtain ⟨bLLoc, bLD⟩ := bL
        obtain ⟨bRLoc, bRD⟩ := bR
        rfl
      | EIf bT bY bN =>
        obtain ⟨bTLoc, bTD⟩ := bT
        obtain ⟨bYLoc, bYD⟩ := bY
        obtain ⟨bNLoc, bND⟩ := bN
        rfl
      | _ => rfl
    | EUnary aOp aV aF =>
      obtain ⟨aVLoc, aVD⟩ := aV
      cases b with
      | EInlinedEnum bV bO =>
        obtain ⟨bVLoc, bVD⟩ := bV
        rw [enumDepth_EInlinedEnum] at hb
        omega
      | EDot bT bN bC bR bU =>
        obtain ⟨bTLoc, bTD⟩ := bT
        rfl
      | EIndex bT bI bC bR bU =>
        obtain ⟨bTLoc, bTD⟩ := bT
        obtain ⟨bILoc, bID⟩ := bI
        rfl
      | ECall bT bArgs bC bU bK =>
        obtain ⟨bTLoc, bTD⟩ := bT
        rfl
      | EUnary bOp bV bF =>
        obtain ⟨bVLoc, bVD⟩ := bV
        rw [valuesLookTheSameLeft_EUnary, valuesLookTheSameLeft_EUnary,
          hrec _ bVD (by rw [lookSize_EUnary] at h; omega), decide_symm aOp bOp]
      | EBinary bOp bL bR =>
        obtain ⟨bLLoc, bLD⟩ := bL
        obtain ⟨bRLoc, bRD⟩ := bR
        rfl
      | EIf bT bY bN =>
        obtain ⟨bTLoc, bTD⟩ := bT
        obtain ⟨bYLoc, bYD⟩ := bY
        obtain ⟨bNLoc, bND⟩ := bN
        rfl
      | _ => rfl
    | EBinary aOp aL aR =>
      obtain ⟨aLLoc, aLD⟩ := aL
      obtain ⟨aRLoc, aRD⟩ := aR
      cases b with
      | EInlinedEnum bV bO =>
        obtain ⟨bVLoc, bVD⟩ := bV
        rw [enumDepth_EInlinedEnum] at hb
        omega
      | EDot bT bN bC bR bU =>
        obtain ⟨bTLoc, bTD⟩ := bT
        rfl
      | EIndex bT bI bC bR bU =>
        obtain ⟨bTLoc, bTD⟩ := bT
        obtain ⟨bILoc, bID⟩ := bI
        rfl
      | ECall bT bArgs bC bU bK =>
        obtain ⟨bTLoc, bTD⟩ := bT
        rfl
      | EUnary bOp bV bF =>
        obtain ⟨bVLoc, bVD⟩ := bV
        rfl
      | EBinary bOp bL bR =>
        obtain ⟨bLLoc, bLD⟩ := bL
        obtain ⟨bRLoc, bRD⟩ := bR
        rw [valuesLookTheSameLeft_EBinary, valuesLookTheSameLeft_EBinary,
          hrec _ bLD (by rw [lookSize_EBinary] at h; omega),
          hrec _ bRD (by rw [lookSize_EBinary] at h; omega), decide_symm aOp bOp]
      | EIf bT bY bN =>
        obtain ⟨bTLoc, bTD⟩ := bT
        obtain ⟨bYLoc, bYD⟩ := bY
        obtain ⟨bNLoc, bND⟩ := bN
        rfl
      | _ => rfl
    | EIf aT aY aN =>
      obtain ⟨aTLoc, aTD⟩ := aT
      obtain ⟨aYLoc, aYD⟩ := aY
      obtain ⟨aNLoc, aND⟩ := aN
      cases b with
      | EInlinedEnum bV bO =>
        obtain ⟨bVLoc, bVD⟩ := bV
        rw [enumDepth_EInlinedEnum] at hb
        omega
      | EDot bT bN bC bR bU =>
        obtain ⟨bTLoc, bTD⟩ := bT
        rfl
      | EIndex bT bI bC bR bU =>
        obtain ⟨bTLoc, bTD⟩ := bT
        obtain ⟨bILoc, bID⟩ := bI
        rfl
      | ECall bT bArgs bC bU bK =>
        obtain ⟨bTLoc, bTD⟩ := bT
        rfl
      | EUnary bOp bV bF =>
        obtain ⟨bVLoc, bVD⟩ := bV
        rfl
      | EBinary bOp bL bR =>
        obtain ⟨bLLoc, bLD⟩ := bL
        obtain ⟨bRLoc, bRD⟩ := bR
        rfl
      | EIf bT bY bN =>
        obtain ⟨bTLoc, bTD⟩ := bT
        obtain ⟨bYLoc, bYD⟩ := bY
        obtain ⟨bNLoc, bND⟩ := bN
        rw [valuesLookTheSameLeft_EIf, valuesLookTheSameLeft_EIf,
          hrec _ bTD (by rw [lookSize_EIf] at h; omega),
          hrec _ bYD (by rw [lookSize_EIf] at h; omega),
          hrec _ bND (by rw [lookSize_EIf] at h; omega)]
      | _ => rfl
    | EIdentifier aRef aX aY =>
      cases b with
      | EInlinedEnum bV bO =>
        obtain ⟨bVLoc, bVD⟩ := bV
        rw [enumDepth_EInlinedEnum] at hb
        omega
      | EDot bT bN bC bR bU =>
        obtain ⟨bTLoc, bTD⟩ := bT
        rfl
      | EIndex bT bI bC bR bU =>
        obtain ⟨bTLoc, bTD⟩ := bT
        obtain ⟨bILoc, bID⟩ := bI
        rfl
      | ECall bT bArgs bC bU bK =>
        obtain ⟨bTLoc, bTD⟩ := bT
        rfl
      | EUnary bOp bV bF =>
        obtain ⟨bVLoc, bVD⟩ := bV
        rfl
      | EBinary bOp bL bR =>
        obtain ⟨bLLoc, bLD⟩ := bL
        obtain ⟨bRLoc, bRD⟩ := bR
        rfl
      | EIf bT bY bN =>
        obtain ⟨bTLoc, bTD⟩ := bT
        obtain ⟨bYLoc, bYD⟩ := bY
        obtain ⟨bNLoc, bND⟩ := bN
        rfl
      | EIdentifier bRef bX bY =>
        rw [valuesLookTheSameLeft_EIdentifier, valuesLookTheSameLeft_EIdentifier,
          decide_symm aRef bRef]
      | _ => rfl
    | ENumber aV =>
      cases b with
      | EInlinedEnum bV bO =>
        obtain ⟨bVLoc, bVD⟩ := bV
        rw [enumDepth_EInlinedEnum] at hb
        omega
      | EDot bT bN bC bR bU =>
        obtain ⟨bTLoc, bTD⟩ := bT
        rfl
      | EIndex bT bI bC bR bU =>
        obtain ⟨bTLoc, bTD⟩ := bT
        obtain ⟨bILoc, bID⟩ := bI
        rfl
      | ECall bT bArgs bC bU bK =>
        obtain ⟨bTLoc, bTD⟩ := bT
        rfl
      | EUnary bOp bV bF =>
        obtain ⟨bVLoc, bVD⟩ := bV
        rfl
      | EBinary bOp bL bR =>
        obtain ⟨bLLoc, bLD⟩ := bL
        obtain ⟨bRLoc, bRD⟩ := bR
        rfl
      | EIf bT bY bN =>
        obtain ⟨bTLoc, bTD⟩ := bT
        obtain ⟨bYLoc, bYD⟩ := bY
        obtain ⟨bNLoc, bND⟩ := bN
        rfl
      | ENumber bV =>
        rw [valuesLookTheSameLeft_ENumber, valuesLookTheSameLeft_ENumber,
          Float64.signedZeros_symm aV bV, Float64.eq_comm aV bV]
      | _ => rfl
    | EBoolean aV =>
      cases b with
      | EInlinedEnum bV bO =>
        obtain ⟨bVLoc, bVD⟩ := bV
        rw [enumDepth_EInlinedEnum] at hb
        omega
      | EDot bT bN bC bR bU =>
        obtain ⟨bTLoc, bTD⟩ := bT
        rfl
      | EIndex bT bI bC bR bU =>
        obtain ⟨bTLoc, bTD⟩ := bT
        obtain ⟨bILoc, bID⟩ := bI
        rfl
      | ECall bT bArgs bC bU bK =>
        obtain ⟨bTLoc, bTD⟩ := bT
        rfl
      | EUnary bOp bV bF =>
        obtain ⟨bVLoc, bVD⟩ := bV
        rfl
      | EBinary bOp bL bR =>
        obtain ⟨bLLoc, bLD⟩ := bL
        obtain ⟨bRLoc, bRD⟩ := bR
        rfl
      | EIf bT bY bN =>
        obtain ⟨bTLoc, bTD⟩ := bT
        obtain ⟨bYLoc, bYD⟩ := bY
        obtain ⟨bNLoc, bND⟩ := bN
        rfl
      | EBoolean bV =>
        show (true && decide (aV = bV)) = (true && decide (bV = aV))
        rw [decide_symm aV bV]
      | _ => rfl
    | EBigInt aV =>
      cases b with
      | EInlinedEnum bV bO =>
        obtain ⟨bVLoc, bVD⟩ := bV
        rw [enumDepth_EInlinedEnum] at hb
        omega
      | EDot bT bN bC bR bU =>
        obtain ⟨bTLoc, bTD⟩ := bT
        rfl
      | EIndex bT bI bC bR bU =>
        obtain ⟨bTLoc, bTD⟩ := bT
        obtain ⟨bILoc, bID⟩ := bI
        rfl
      | ECall bT bArgs bC bU bK =>
        obtain ⟨bTLoc, bTD⟩ := bT
        rfl
      | EUnary bOp bV bF =>
        obtain ⟨bVLoc, bVD⟩ := bV
        rfl
      | EBinary bOp bL bR =>
        obtain ⟨bLLoc, bLD⟩ := bL
        obtain ⟨bRLoc, bRD⟩ := bR
        rfl
      | EIf bT bY bN =>
        obtain ⟨bTLoc, bTD⟩ := bT
        obtain ⟨bYLoc, bYD⟩ := bY
        obtain ⟨bNLoc, bND⟩ := bN
        rfl
      | EBigInt bV =>
        show (true && decide (aV = bV)) = (true && decide (bV = aV))
        rw [decide_symm aV bV]
      | _ => rfl
    | EString aV =>
      cases b with
      | EInlinedEnum bV bO =>
        obtain ⟨bVLoc, bVD⟩ := bV
        rw [enumDepth_EInlinedEnum] at hb
        omega
      | EDot bT bN bC bR bU =>
        obtain ⟨bTLoc, bTD⟩ := bT
        rfl
      | EIndex bT bI bC bR bU =>
        obtain ⟨bTLoc, bTD⟩ := bT
        obtain ⟨bILoc, bID⟩ := bI
        rfl
      | ECall bT bArgs bC bU bK =>
        obtain ⟨bTLoc, bTD⟩ := bT
        rfl
      | EUnary bOp bV bF =>
        obtain ⟨bVLoc, bVD⟩ := bV
        rfl
      | EBinary bOp bL bR =>
        obtain ⟨bLLoc, bLD⟩ := bL
        obtain ⟨bRLoc, bRD⟩ := bR
        rfl
      | EIf bT bY bN =>
        obtain ⟨bTLoc, bTD⟩ := bT
        obtain ⟨bYLoc, bYD⟩ := bY
        obtain ⟨bNLoc, bND⟩ := bN
        rfl
      | EString bV =>
        show (true && decide (aV = bV)) = (true && decide (bV = aV))
        rw [decide_symm aV bV]
      | _ => rfl
    | _ =>
      cases b with
      | EInlinedEnum bV bO =>
        obtain ⟨bVLoc, bVD⟩ := bV
        rw [enumDepth_EInlinedEnum] at hb
        omega
      | EDot bT bN bC bR bU =>
        obtain ⟨bTLoc, bTD⟩ := bT
        rfl
      | EIndex bT bI bC bR bU =>
        obtain ⟨bTLoc, bTD⟩ := bT
        obtain ⟨bILoc, bID⟩ := bI
        rfl
      | ECall bT bArgs bC bU bK =>
        obtain ⟨bTLoc, bTD⟩ := bT
        rfl
      | EUnary bOp bV bF =>
        obtain ⟨bVLoc, bVD⟩ := bV
        rfl
      | EBinary bOp bL bR =>
        obtain ⟨bLLoc, bLD⟩ := bL
        obtain ⟨bRLoc, bRD⟩ := bR
        rfl
      | EIf bT bY bN =>
        obtain ⟨bTLoc, bTD⟩ := bT
        obtain ⟨bYLoc, bYD⟩ := bY
        obtain ⟨bNLoc, bND⟩ := bN
        rfl
      | _ => rfl

/-- C38: `ValuesLookTheSame` and `CheckEqualityIfNoSideEffects` are symmetric,
with `HasSameFlagsAs` the equality of the flag fields: for all node data `a`
and `b` each of the two oracles gives the same answer on `(a, b)` and on
`(b, a)`; an inlined-enum wrapper around either side changes neither answer. -/
theorem equality_oracles_are_symmetric (a b : E) :
    ValuesLookTheSame a b = ValuesLookTheSame b a ∧
    CheckEqualityIfNoSideEffects a b = CheckEqualityIfNoSideEffects b a ∧
    (∀ (loc : Loc) (original : Ref),
      ValuesLookTheSame (.EInlinedEnum ⟨loc, a⟩ original) b = ValuesLookTheSame b a ∧
      ValuesLookTheSame a (.EInlinedEnum ⟨loc, b⟩ original) = ValuesLookTheSame b a ∧
      CheckEqualityIfNoSideEffects (.EInlinedEnum ⟨loc, a⟩ original) b =
        CheckEqualityIfNoSideEffects b a ∧
      CheckEqualityIfNoSideEffects a (.EInlinedEnum ⟨loc, b⟩ original) =
        CheckEqualityIfNoSideEffects b a) := by
  have hv : ∀ x y : E, ValuesLookTheSame x y = ValuesLookTheSame y x := by
    intro x y
    exact valuesLookTheSameLeft_symm_wrapped (lookSize x + 1)
      (valuesLookTheSameLeft_symm (lookSize x + 1)) x y (Nat.lt_succ_self _)
  have hc : ∀ x y : E, CheckEqualityIfNoSideEffects x y = CheckEqualityIfNoSideEffects y x := by
    intro x y
    rw [CheckEqualityIfNoSideEffects_unwrap, CheckEqualityIfNoSideEffects_unwrap]
    exact checkEqualityLeft_symm _ _ (E.unwrapInlinedEnum_depth _ x (Nat.le_refl _))
      (E.unwrapInlinedEnum_depth _ y (Nat.le_refl _))
  refine ⟨hv a b, hc a b, ?_⟩
  intro loc original
  refine ⟨?_, ?_, ?_, ?_⟩
  · rw [← hv a b]
    rfl
  · rw [← hv a b]
    rfl
  · rw [← hc a b, CheckEqualityIfNoSideEffects_unwrap, CheckEqualityIfNoSideEffects_unwrap]
    rfl
  · rw [← hc a b]
    rfl

/-! ## Normal forms of the boolean simplifier -/

theorem Expr.booleanNormal_EUnary (loc : Loc) (op : OpCode) (value : Expr) (flag : Bool) :
    Expr.booleanNormal ⟨loc, .EUnary op value flag⟩ =
      if op = UnOpNot then !value.data.isNot && value.booleanNormal else true := rfl

theorem Expr.booleanNormal_EBinary (loc : Loc) (op : OpCode) (left right : Expr) :
    Expr.booleanNormal ⟨loc, .EBinary op left right⟩ =
      if op = BinOpStrictEq ∨ op = BinOpStrictNe ∨ op = BinOpLooseEq ∨ op = BinOpLooseNe then
        !comparesIntegerWithZero left right
      else if op = BinOpLogicalAnd ∨ op = BinOpLogicalOr then
        left.booleanNormal && right.booleanNormal && !rightOperandIsNeutral op right
      else true := rfl

theorem Expr.booleanNormal_EIf (loc : Loc) (test yes no : Expr) :
    Expr.booleanNormal ⟨loc, .EIf test yes no⟩ =
      (yes.booleanNormal && no.booleanNormal && !hasKnownPureBoolean yes &&
        !hasKnownPureBoolean no) := rfl

theorem joinAtCommaTail_isBinary (f : Expr → Expr)
    (hf : ∀ a0 : Expr, ∃ loc op l r, f a0 = ⟨loc, .EBinary op l r⟩) :
    (a : Expr) → ∃ loc op l r, joinAtCommaTail f a = ⟨loc, .EBinary op l r⟩
  | ⟨loc, .EBinary op left right⟩ => by
    have h : joinAtCommaTail f ⟨loc, .EBinary op left right⟩ =
        if op = BinOpComma then ⟨loc, .EBinary op left (joinAtCommaTail f right)⟩
        else f ⟨loc, .EBinary op left right⟩ := rfl
    rw [h]
    split
    · exact ⟨_, _, _, _, rfl⟩
    · exact hf _
  | ⟨_, .nil⟩ | ⟨_, .ENull⟩ | ⟨_, .EUndefined⟩ | ⟨_, .EMissing⟩ | ⟨_, .EThis⟩
  | ⟨_, .EImportMeta⟩ | ⟨_, .EBoolean _⟩ | ⟨_, .ENumber _⟩ | ⟨_, .EBigInt _⟩
  | ⟨_, .EString _⟩ | ⟨_, .ERegExp _⟩ | ⟨_, .EIdentifier _ _ _⟩ | ⟨_, .EImportIdentifier _⟩
  | ⟨_, .EInlinedEnum _ _⟩ | ⟨_, .EDot _ _ _ _ _⟩ | ⟨_, .EIndex _ _ _ _ _⟩
  | ⟨_, .ECall _ _ _ _ _⟩ | ⟨_, .ENew _ _ _⟩ | ⟨_, .EUnary _ _ _⟩ | ⟨_, .EIf _ _ _⟩
  | ⟨_, .ETemplate _ _ _⟩ | ⟨_, .EArray _ _⟩ | ⟨_, .EObject _ _⟩ | ⟨_, .EFunction _⟩
  | ⟨_, .EArrow _ _ _ _⟩ | ⟨_, .EClass _⟩ | ⟨_, .ESpread _⟩ => hf _

/-- The join is always a binary node. -/
theorem JoinWithLeftAssociativeOp_isBinary (op : OpCode) :
    (b : Expr) → (a : Expr) → ∃ loc o l r, JoinWithLeftAssociativeOp op a b = ⟨loc, .EBinary o l r⟩
  | ⟨bLoc, .EBinary bOp bLeft bRight⟩, a => by
    rw [JoinWithLeftAssociativeOp_EBinary]
    apply joinAtCommaTail_isBinary
    intro a0
    split
    · exact JoinWithLeftAssociativeOp_isBinary op bRight _
    · exact ⟨_, _, _, _, rfl⟩
  | ⟨_, .nil⟩, a | ⟨_, .ENull⟩, a | ⟨_, .EUndefined⟩, a | ⟨_, .EMissing⟩, a | ⟨_, .EThis⟩, a
  | ⟨_, .EImportMeta⟩, a | ⟨_, .EBoolean _⟩, a | ⟨_, .ENumber _⟩, a | ⟨_, .EBigInt _⟩, a
  | ⟨_, .EString _⟩, a | ⟨_, .ERegExp _⟩, a | ⟨_, .EIdentifier _ _ _⟩, a
  | ⟨_, .EImportIdentifier _⟩, a
  | ⟨_, .EInlinedEnum _ _⟩, a | ⟨_, .EDot _ _ _ _ _⟩, a | ⟨_, .EIndex _ _ _ _ _⟩, a
  | ⟨_, .ECall _ _ _ _ _⟩, a | ⟨_, .ENew _ _ _⟩, a | ⟨_, .EUnary _ _ _⟩, a | ⟨_, .EIf _ _ _⟩, a
  | ⟨_, .ETemplate _ _ _⟩, a | ⟨_, .EArray _ _⟩, a | ⟨_, .EObject _ _⟩, a | ⟨_, .EFunction _⟩, a
  | ⟨_, .EArrow _ _ _ _⟩, a | ⟨_, .EClass _⟩, a | ⟨_, .ESpread _⟩, a =>
    joinAtCommaTail_isBinary _ (fun a0 => ⟨_, _, _, _, rfl⟩) a

/-- A ternary with a simplified branch of known boolean value without side
effects becomes a binary node. -/
theorem SimplifyBooleanExpr_collapsed_EIf (loc : Loc) (test yes no : Expr)
    (h : hasKnownPureBoolean (SimplifyBooleanExpr yes) = true ∨
      hasKnownPureBoolean (SimplifyBooleanExpr no) = true) :
    ∃ loc2 op l r, SimplifyBooleanExpr ⟨loc, .EIf test yes no⟩ = ⟨loc2, .EBinary op l r⟩ := by
  rw [SimplifyBooleanExpr_EIf]
  unfold hasKnownPureBoolean at h
  split
  · split
    · exact JoinWithLeftAssociativeOp_isBinary _ _ _
    · exact JoinWithLeftAssociativeOp_isBinary _ _ _
  · rename_i hy
    split
    · split
      · exact JoinWithLeftAssociativeOp_isBinary _ _ _
      · exact JoinWithLeftAssociativeOp_isBinary _ _ _
    · rename_i hn
      exfalso
      rcases h with h | h
      · apply hy
        simpa using h
      · apply hn
        simpa using h

/-- A comparison that tests a 32-bit integer against zero is replaced by its
left operand or by the negation of its left operand. -/
theorem SimplifyBooleanExpr_comparison_collapsed (loc : Loc) (op : OpCode) (left right : Expr)
    (hop : op = BinOpStrictEq ∨ op = BinOpStrictNe ∨ op = BinOpLooseEq ∨ op = BinOpLooseNe)
    (hz : comparesIntegerWithZero left right = true) :
    SimplifyBooleanExpr ⟨loc, .EBinary op left right⟩ =
      if op = BinOpStrictNe ∨ op = BinOpLooseNe then left else Not left := by
  rw [SimplifyBooleanExpr_EBinary, if_pos hop, if_pos]
  exact hz

/-- The fixed points of the boolean simplifier are the expressions in normal
form. -/
theorem SimplifyBooleanExpr_fixed_iff_normal (n : Nat) : ∀ e : Expr, e.size ≤ n →
    (SimplifyBooleanExpr e = e ↔ e.booleanNormal = true) := by
  induction n with
  | zero =>
    intro e he
    have := Expr.size_pos e
    omega
  | succ n ih =>
    intro e he
    obtain ⟨loc, d⟩ := e
    cases d with
    | EUnary op value flag =>
      rw [Expr.size_EUnary] at he
      rw [Expr.booleanNormal_EUnary]
      by_cases hop : op = UnOpNot
      · subst hop
        rw [if_pos rfl]
        obtain ⟨loc2, d2⟩ := value
        by_cases hv : d2.isNot = true
        · have hv2 : (Expr.mk loc2 d2).data.isNot = true := hv
          rw [hv2]
          cases d2 with
          | EUnary op2 value2 flag2 =>
            have hop2 : op2 = UnOpNot := by simpa [E.isNot] using hv
            subst hop2
            rw [SimplifyBooleanExpr_not_not]
            constructor
            · intro h
              have hs := congrArg Expr.size h
              have hle := SimplifyBooleanExpr_size value2
              rw [Expr.size_EUnary, Expr.size_EUnary] at hs
              omega
            · intro h
              cases h
          | _ => cases hv
        · have hv2 : (Expr.mk loc2 d2).data.isNot = false := by simpa using hv
          rw [SimplifyBooleanExpr_single_not loc _ flag hv2, hv2]
          have ihv := ih ⟨loc2, d2⟩ (by omega)
          constructor
          · intro h
            injection h with _ h2
            injection h2 with _ h3 _
            simpa using ihv.1 h3
          · intro h
            have h2 : (Expr.mk loc2 d2).booleanNormal = true := by simpa using h
            rw [ihv.2 h2]
      · rw [if_neg hop, SimplifyBooleanExpr_other_unary loc op value flag hop]
        simp
    | EBinary op left right =>
      rw [Expr.size_EBinary] at he
      rw [Expr.booleanNormal_EBinary]
      have hl := Expr.size_pos left
      have hr := Expr.size_pos right
      by_cases h1 : op = BinOpStrictEq ∨ op = BinOpStrictNe ∨ op = BinOpLooseEq ∨
          op = BinOpLooseNe
      · rw [if_pos h1]
        cases hz : comparesIntegerWithZero left right
        · rw [SimplifyBooleanExpr_comparison_kept loc op left right h1 hz]
          simp
        · rw [SimplifyBooleanExpr_comparison_collapsed loc op left right h1 hz]
          constructor
          · intro h
            have hs := congrArg Expr.size h
            rw [Expr.size_EBinary] at hs
            split at hs
            · omega
            · have := Not_size left
              omega
          · intro h
            cases h
      · rw [if_neg h1]
        by_cases h2 : op = BinOpLogicalAnd ∨ op = BinOpLogicalOr
        · rw [if_pos h2, SimplifyBooleanExpr_logical loc op left right h2]
          have ihl := ih left (by omega)
          have ihr := ih right (by omega)
          constructor
          · intro h
            split at h
            · have hs := congrArg Expr.size h
              have hle := SimplifyBooleanExpr_size left
              rw [Expr.size_EBinary] at hs
              omega
            · rename_i hneutral
              injection h with _ h3
              injection h3 with _ h4 h5
              rw [h5] at hneutral
              rw [ihl.1 h4, ihr.1 h5]
              simpa using hneutral
          · intro h
            rw [Bool.and_eq_true, Bool.and_eq_true] at h
            have hneutral : rightOperandIsNeutral op right = false := by
              have := h.2
              revert this
              cases rightOperandIsNeutral op right <;> simp
            rw [ihl.2 h.1.1, ihr.2 h.1.2, hneutral, if_neg (by simp)]
        · rw [if_neg h2]
          have hs : SimplifyBooleanExpr ⟨loc, .EBinary op left right⟩ =
              ⟨loc, .EBinary op left right⟩ := by
            rw [SimplifyBooleanExpr_EBinary, if_neg h1, if_neg (fun h => h2 (Or.inl h)),
              if_neg (fun h => h2 (Or.inr h))]
          rw [hs]
          simp
    | EIf test yes no =>
      rw [Expr.size_EIf] at he
      rw [Expr.booleanNormal_EIf]
      have ihy := ih yes (by omega)
      have ihn := ih no (by omega)
      constructor
      · intro h
        cases hy : hasKnownPureBoolean (SimplifyBooleanExpr yes)
        · cases hn : hasKnownPureBoolean (SimplifyBooleanExpr no)
          · rw [SimplifyBooleanExpr_plain_EIf loc test yes no hy hn] at h
            injection h with _ h2
            injection h2 with _ h3 h4
            rw [h3] at hy
            rw [h4] at hn
            rw [ihy.1 h3, ihn.1 h4, hy, hn]
            rfl
          · obtain ⟨loc2, op, l, r, hb⟩ :=
              SimplifyBooleanExpr_collapsed_EIf loc test yes no (Or.inr hn)
            rw [hb] at h
            cases h
        · obtain ⟨loc2, op, l, r, hb⟩ :=
            SimplifyBooleanExpr_collapsed_EIf loc test yes no (Or.inl hy)
          rw [hb] at h
          cases h
      · intro h
        rw [Bool.and_eq_true, Bool.and_eq_true, Bool.and_eq_true] at h
        have hy : hasKnownPureBoolean yes = false := by
          have := h.1.2
          revert this
          cases hasKnownPureBoolean yes <;> simp
        have hn : hasKnownPureBoolean no = false := by
          have := h.2
          revert this
          cases hasKnownPureBoolean no <;> simp
        have hfy := ihy.2 h.1.1.1
        have hfn := ihn.2 h.1.1.2
        rw [SimplifyBooleanExpr_plain_EIf loc test yes no (by rw [hfy]; exact hy)
          (by rw [hfn]; exact hn), hfy, hfn]
    | _ => exact ⟨fun _ => rfl, fun _ => rfl⟩

/-- An expression that `isInt32OrUint32` accepts is in normal form, has no
statically known boolean value, is not a negation, and has no simplified
negation. -/
theorem isInt32OrUint32_normal (n : Nat) : ∀ e : Expr, e.size ≤ n →
    isInt32OrUint32 e.data = true →
    e.booleanNormal = true ∧ (ToBooleanWithSideEffects e.data).2.2 = false ∧
      e.data.isNot = false ∧ MaybeSimplifyNot e = none := by
  induction n with
  | zero =>
    intro e he
    have := Expr.size_pos e
    omega
  | succ n ih =>
    intro e he hi
    obtain ⟨loc, d⟩ := e
    cases d with
    | EUnary op value flag =>
      have hop : op = UnOpCpl := by
        have h2 : decide (op = UnOpCpl) = true := hi
        simpa using h2
      subst hop
      obtain ⟨vLoc, vd⟩ := value
      exact ⟨rfl, rfl, rfl, rfl⟩
    | EBinary op left right =>
      rw [Expr.size_EBinary] at he
      obtain ⟨lLoc, ld⟩ := left
      obtain ⟨rLoc, rd⟩ := right
      have hi2 : (if op ∈ [BinOpBitwiseAnd, BinOpBitwiseOr, BinOpBitwiseXor, BinOpShl, BinOpShr,
            BinOpUShr] then true
          else if op = BinOpLogicalOr ∨ op = BinOpLogicalAnd then
            isInt32OrUint32 ld && isInt32OrUint32 rd
          else false) = true := hi
      by_cases hbit : op ∈ [BinOpBitwiseAnd, BinOpBitwiseOr, BinOpBitwiseXor, BinOpShl, BinOpShr,
          BinOpUShr]
      · simp only [List.mem_cons, List.mem_singleton, List.not_mem_nil, or_false] at hbit
        rcases hbit with rfl | rfl | rfl | rfl | rfl | rfl <;> exact ⟨rfl, rfl, rfl, rfl⟩
      · rw [if_neg hbit] at hi2
        by_cases hlog : op = BinOpLogicalOr ∨ op = BinOpLogicalAnd
        · rw [if_pos hlog, Bool.and_eq_true] at hi2
          have ihl := ih ⟨lLoc, ld⟩ (by omega) hi2.1
          have ihr := ih ⟨rLoc, rd⟩ (by omega) hi2.2
          have hk : (ToBooleanWithSideEffects rd).2.2 = false := ihr.2.1
          have hpure : hasKnownPureBoolean ⟨rLoc, rd⟩ = false := by
            show ((ToBooleanWithSideEffects rd).2.2 &&
              decide ((ToBooleanWithSideEffects rd).2.1 = NoSideEffects)) = false
            rw [hk]
            rfl
          have hneutral : ∀ o, rightOperandIsNeutral o ⟨rLoc, rd⟩ = false := by
            intro o
            unfold rightOperandIsNeutral
            rw [hpure]
            rfl
          rcases hlog with rfl | rfl
          · refine ⟨?_, ?_, rfl, rfl⟩
            · rw [Expr.booleanNormal_EBinary, if_neg (by decide), if_pos (Or.inr rfl), ihl.1,
                ihr.1, hneutral]
              rfl
            · show (if ((ToBooleanWithSideEffects rd).2.2 && (ToBooleanWithSideEffects rd).1) =
                  true then ((true, CouldHaveSideEffects, true) : Bool × SideEffects × Bool)
                else (false, CouldHaveSideEffects, false)).2.2 = false
              rw [hk]
              rfl
          · refine ⟨?_, ?_, rfl, rfl⟩
            · rw [Expr.booleanNormal_EBinary, if_neg (by decide), if_pos (Or.inl rfl), ihl.1,
                ihr.1, hneutral]
              rfl
            · show (if ((ToBooleanWithSideEffects rd).2.2 && !(ToBooleanWithSideEffects rd).1) =
                  true then ((false, CouldHaveSideEffects, true) : Bool × SideEffects × Bool)
                else (false, CouldHaveSideEffects, false)).2.2 = false
              rw [hk]
              rfl
        · rw [if_neg hlog] at hi2
          cases hi2
    | EIf test yes no =>
      rw [Expr.size_EIf] at he
      obtain ⟨yLoc, yd⟩ := yes
      obtain ⟨nLoc, nd⟩ := no
      have hi2 : (isInt32OrUint32 yd && isInt32OrUint32 nd) = true := hi
      rw [Bool.and_eq_true] at hi2
      have ihy := ih ⟨yLoc, yd⟩ (by omega) hi2.1
      have ihn := ih ⟨nLoc, nd⟩ (by omega) hi2.2
      have hpure : ∀ (l : Loc) (x : E), (ToBooleanWithSideEffects x).2.2 = false →
          hasKnownPureBoolean ⟨l, x⟩ = false := by
        intro l x hx
        show ((ToBooleanWithSideEffects x).2.2 &&
          decide ((ToBooleanWithSideEffects x).2.1 = NoSideEffects)) = false
        rw [hx]
        rfl
      refine ⟨?_, rfl, rfl, rfl⟩
      rw [Expr.booleanNormal_EIf, ihy.1, ihn.1, hpure yLoc yd ihy.2.1, hpure nLoc nd ihn.2.1]
      rfl
    | _ => cases hi

/-- A zero comparison of a 32-bit integer never breaks idempotence: the
operand handed back, negated or not, is a fixed point. -/
theorem SimplifyBooleanExpr_comparison_idempotent (loc : Loc) (op : OpCode) (left right : Expr)
    (hop : op = BinOpStrictEq ∨ op = BinOpStrictNe ∨ op = BinOpLooseEq ∨ op = BinOpLooseNe) :
    SimplifyBooleanExpr (SimplifyBooleanExpr ⟨loc, .EBinary op left right⟩) =
      SimplifyBooleanExpr ⟨loc, .EBinary op left right⟩ := by
  cases hz : comparesIntegerWithZero left right
  · have hs := SimplifyBooleanExpr_comparison_kept loc op left right hop hz
    rw [hs, hs]
  · have hint : isInt32OrUint32 left.data = true := by
      unfold comparesIntegerWithZero at hz
      cases hx : extractNumericValue right.data with
      | none => rw [hx] at hz; cases hz
      | some value =>
        rw [hx] at hz
        have hz2 : (value.isZero && isInt32OrUint32 left.data) = true := hz
        rw [Bool.and_eq_true] at hz2
        exact hz2.2
    obtain ⟨hnormal, _, hnot, hnone⟩ := isInt32OrUint32_normal left.size left (Nat.le_refl _) hint
    have hfixed := (SimplifyBooleanExpr_fixed_iff_normal left.size left (Nat.le_refl _)).2 hnormal
    rw [SimplifyBooleanExpr_comparison_collapsed loc op left right hop hz]
    split
    · exact hfixed
    · rw [Not_of_none left hnone, SimplifyBooleanExpr_single_not _ _ _ hnot, hfixed]

/-- Idempotence on both operands of `&&` or `||` gives idempotence on the
node. -/
theorem SimplifyBooleanExpr_logical_idempotent (loc : Loc) (op : OpCode) (left right : Expr)
    (hop : op = BinOpLogicalAnd ∨ op = BinOpLogicalOr)
    (hl : SimplifyBooleanExpr (SimplifyBooleanExpr left) = SimplifyBooleanExpr left)
    (hr : SimplifyBooleanExpr (SimplifyBooleanExpr right) = SimplifyBooleanExpr right) :
    SimplifyBooleanExpr (SimplifyBooleanExpr ⟨loc, .EBinary op left right⟩) =
      SimplifyBooleanExpr ⟨loc, .EBinary op left right⟩ := by
  rw [SimplifyBooleanExpr_logical loc op left right hop]
  cases hneutral : rightOperandIsNeutral op (SimplifyBooleanExpr right)
  · rw [if_neg (by simp), SimplifyBooleanExpr_logical loc op _ _ hop, hr, hneutral,
      if_neg (by simp), hl]
  · rw [if_pos rfl]
    exact hl

/-- Idempotence on both branches of a ternary that is not collapsed gives
idempotence on the ternary. -/
theorem SimplifyBooleanExpr_ternary_idempotent (loc : Loc) (test yes no : Expr)
    (hy : hasKnownPureBoolean (SimplifyBooleanExpr yes) = false)
    (hn : hasKnownPureBoolean (SimplifyBooleanExpr no) = false)
    (hyes : SimplifyBooleanExpr (SimplifyBooleanExpr yes) = SimplifyBooleanExpr yes)
    (hno : SimplifyBooleanExpr (SimplifyBooleanExpr no) = SimplifyBooleanExpr no) :
    SimplifyBooleanExpr (SimplifyBooleanExpr ⟨loc, .EIf test yes no⟩) =
      SimplifyBooleanExpr ⟨loc, .EIf test yes no⟩ := by
  rw [SimplifyBooleanExpr_plain_EIf loc test yes no hy hn,
    SimplifyBooleanExpr_plain_EIf loc test _ _ (by rw [hyes]; exact hy) (by rw [hno]; exact hn),
    hyes, hno]

/-- C22 (amended): `SimplifyBooleanExpr` is idempotent on `e` exactly when
`SimplifyBooleanExpr(e)` is in normal form, and the normal forms are exactly
its fixed points. Normal form means that at every node the simplifier reaches
(operands of `!`, `&&`, `||`, branches of a ternary) there is no `!` directly
under a `!`, no `==`, `!=`, `===`, `!==` of a 32-bit integer with zero, no
`&&` or `||` whose right operand has a known side-effect-free boolean value
that is truthy under `&&` or falsy under `||`, and no ternary with a branch
whose boolean value is known and side-effect-free. In particular the
simplifier is idempotent on every `==`, `!=`, `===`, `!==`; on `l && r` and
`l || r` when it is on `l` and on `r`; on a ternary none of whose simplified
branches has a known side-effect-free boolean value when it is on both
branches; and on `!!a` exactly when it is on `a`. -/
theorem boolean_idempotent_iff_normal (e : Expr) :
    (SimplifyBooleanExpr (SimplifyBooleanExpr e) = SimplifyBooleanExpr e ↔
      (SimplifyBooleanExpr e).booleanNormal = true) ∧
    (SimplifyBooleanExpr e = e ↔ e.booleanNormal = true) ∧
    (∀ (loc : Loc) (op : OpCode) (l r : Expr),
      op = BinOpStrictEq ∨ op = BinOpStrictNe ∨ op = BinOpLooseEq ∨ op = BinOpLooseNe →
      SimplifyBooleanExpr (SimplifyBooleanExpr ⟨loc, .EBinary op l r⟩) =
        SimplifyBooleanExpr ⟨loc, .EBinary op l r⟩) ∧
    (∀ (loc : Loc) (op : OpCode) (l r : Expr), op = BinOpLogicalAnd ∨ op = BinOpLogicalOr →
      SimplifyBooleanExpr (SimplifyBooleanExpr l) = SimplifyBooleanExpr l →
      SimplifyBooleanExpr (SimplifyBooleanExpr r) = SimplifyBooleanExpr r →
      SimplifyBooleanExpr (SimplifyBooleanExpr ⟨loc, .EBinary op l r⟩) =
        SimplifyBooleanExpr ⟨loc, .EBinary op l r⟩) ∧
    (∀ (loc : Loc) (t y n : Expr),
      hasKnownPureBoolean (SimplifyBooleanExpr y) = false →
      hasKnownPureBoolean (SimplifyBooleanExpr n) = false →
      SimplifyBooleanExpr (SimplifyBooleanExpr y) = SimplifyBooleanExpr y →
      SimplifyBooleanExpr (SimplifyBooleanExpr n) = SimplifyBooleanExpr n →
      SimplifyBooleanExpr (SimplifyBooleanExpr ⟨loc, .EIf t y n⟩) =
        SimplifyBooleanExpr ⟨loc, .EIf t y n⟩) ∧
    (∀ (loc loc2 : Loc) (a : Expr) (flag flag2 : Bool),
      SimplifyBooleanExpr
          (SimplifyBooleanExpr ⟨loc, .EUnary UnOpNot ⟨loc2, .EUnary UnOpNot a flag2⟩ flag⟩) =
        SimplifyBooleanExpr ⟨loc, .EUnary UnOpNot ⟨loc2, .EUnary UnOpNot a flag2⟩ flag⟩ ↔
      SimplifyBooleanExpr (SimplifyBooleanExpr a) = SimplifyBooleanExpr a) := by
  refine ⟨SimplifyBooleanExpr_fixed_iff_normal _ _ (Nat.le_refl _),
    SimplifyBooleanExpr_fixed_iff_normal _ _ (Nat.le_refl _),
    SimplifyBooleanExpr_comparison_idempotent, SimplifyBooleanExpr_logical_idempotent,
    SimplifyBooleanExpr_ternary_idempotent, ?_⟩
  intro loc loc2 a flag flag2
  rw [SimplifyBooleanExpr_not_not]

/-- Witness for C22 (amended): `(a | x) === 0`, `a && true` and
`a ? true : x()` simplify to the normal forms `!(a | x)`, `a` and `a || x()`,
so a second pass changes nothing; `a ? true : false` simplifies to
`a || false`, which is not in normal form, and a second pass gives `a`. -/
theorem boolean_idempotent_iff_normal_witness :
    SimplifyBooleanExpr aBitOrXIsZero = ⟨loc0, .EUnary UnOpNot aBitOrX false⟩ ∧
    SimplifyBooleanExpr (SimplifyBooleanExpr aBitOrXIsZero) = SimplifyBooleanExpr aBitOrXIsZero ∧
    SimplifyBooleanExpr aAndTrue = identA ∧
    SimplifyBooleanExpr (SimplifyBooleanExpr aAndTrue) = SimplifyBooleanExpr aAndTrue ∧
    SimplifyBooleanExpr aThenTrueElseCall = ⟨loc0, .EBinary BinOpLogicalOr identA impureCall⟩ ∧
    SimplifyBooleanExpr (SimplifyBooleanExpr aThenTrueElseCall) =
      SimplifyBooleanExpr aThenTrueElseCall ∧
    SimplifyBooleanExpr aThenTrueElseFalse = ⟨loc0, .EBinary BinOpLogicalOr identA falseLiteral⟩ ∧
    SimplifyBooleanExpr (SimplifyBooleanExpr aThenTrueElseFalse) = identA ∧
    SimplifyBooleanExpr (SimplifyBooleanExpr aThenTrueElseFalse) ≠
      SimplifyBooleanExpr aThenTrueElseFalse :=
  ⟨rfl, (boolean_idempotent_iff_normal aBitOrXIsZero).1.2 rfl,
    rfl, (boolean_idempotent_iff_normal aAndTrue).1.2 rfl,
    rfl, (boolean_idempotent_iff_normal aThenTrueElseCall).1.2 rfl,
    rfl, rfl,
    fun h => Bool.false_ne_true
      ((show (SimplifyBooleanExpr aThenTrueElseFalse).booleanNormal = false from rfl).symm.trans
        ((boolean_idempotent_iff_normal aThenTrueElseFalse).1.1 h))⟩


/-! ## Reduced forms of the reducer -/

theorem Expr.reduced_EDot (features : JSFeature) (isUnbound : Ref → Bool) (loc : Loc)
    (target : Expr) (name : String) (optionalChain : OptionalChain) (canBeRemoved unwrap : Bool) :
    Expr.reduced features isUnbound ⟨loc, .EDot target name optionalChain canBeRemoved unwrap⟩ =
      !canBeRemoved := rfl

theorem Expr.reduced_EIdentifier (features : JSFeature) (isUnbound : Ref → Bool) (loc : Loc)
    (ref : Ref) (mustKeep canBeRemoved : Bool) :
    Expr.reduced features isUnbound ⟨loc, .EIdentifier ref mustKeep canBeRemoved⟩ =
      (mustKeep || !(canBeRemoved || !isUnbound ref)) := rfl

theorem Expr.reduced_ETemplate (features : JSFeature) (isUnbound : Ref → Bool) (loc : Loc)
    (tagOrNil : Expr) (headCooked : List Nat) (parts : List TemplatePart) :
    Expr.reduced features isUnbound ⟨loc, .ETemplate tagOrNil headCooked parts⟩ =
      (!tagOrNil.data.isNil || isRunTemplate loc tagOrNil headCooked parts) := rfl

theorem Expr.reduced_EArray (features : JSFeature) (isUnbound : Ref → Bool) (loc : Loc)
    (items : List Expr) (isSingleLine : Bool) :
    Expr.reduced features isUnbound ⟨loc, .EArray items isSingleLine⟩ =
      (items.any (fun item => item.data.isESpread) &&
        Expr.reducedList features isUnbound items) := rfl

theorem Expr.reduced_EObject (features : JSFeature) (isUnbound : Ref → Bool) (loc : Loc)
    (properties : List Property) (isSingleLine : Bool) :
    Expr.reduced features isUnbound ⟨loc, .EObject properties isSingleLine⟩ =
      (properties.any (fun property => decide (property.kind = PropertyKind.PropertySpread)) &&
        Expr.reducedProperties features isUnbound properties) := rfl

theorem Expr.reduced_EIf (features : JSFeature) (isUnbound : Ref → Bool) (loc : Loc)
    (test yes no : Expr) :
    Expr.reduced features isUnbound ⟨loc, .EIf test yes no⟩ =
      (yes.reduced features isUnbound && !yes.data.isNil &&
        no.reduced features isUnbound && !no.data.isNil) := rfl

theorem Expr.reduced_EUnary (features : JSFeature) (isUnbound : Ref → Bool) (loc : Loc)
    (op : OpCode) (value : Expr) (flag : Bool) :
    Expr.reduced features isUnbound ⟨loc, .EUnary op value flag⟩ =
      !decide (op = UnOpVoid ∨ op = UnOpNot ∨ op = UnOpTypeof) := rfl

theorem Expr.reduced_EBinary (features : JSFeature) (isUnbound : Ref → Bool) (loc : Loc)
    (op : OpCode) (left right : Expr) :
    Expr.reduced features isUnbound ⟨loc, .EBinary op left right⟩ =
      if op = BinOpStrictEq ∨ op = BinOpStrictNe then false
      else if op = BinOpComma then
        decide (loc = left.loc) &&
          left.reduced features isUnbound && !left.data.isNil &&
          right.reduced features isUnbound && !right.data.isNil
      else if op = BinOpLooseEq ∨ op = BinOpLooseNe then
        !(IsPrimitiveWithSideEffects left.data && IsPrimitiveWithSideEffects right.data)
      else if op = BinOpLogicalAnd ∨ op = BinOpLogicalOr ∨ op = BinOpNullishCoalescing then
        (decide (op = BinOpNullishCoalescing) || left.booleanNormal) &&
          right.reduced features isUnbound && !right.data.isNil &&
          !optionalChainApplies features op left right
      else if op = BinOpAdd then stringChainNormal ⟨loc, .EBinary op left right⟩
      else true := rfl

theorem Expr.reduced_ECall (features : JSFeature) (isUnbound : Ref → Bool) (loc : Loc)
    (target : Expr) (args : List Expr) (optionalChain : OptionalChain) (canBeUnwrapped : Bool)
    (kind : CallKind) :
    Expr.reduced features isUnbound ⟨loc, .ECall target args optionalChain canBeUnwrapped kind⟩ =
      (!canBeUnwrapped && !isShortenedIIFE target args) := rfl

theorem Expr.reduced_ENew (features : JSFeature) (isUnbound : Ref → Bool) (loc : Loc)
    (target : Expr) (args : List Expr) (canBeUnwrapped : Bool) :
    Expr.reduced features isUnbound ⟨loc, .ENew target args canBeUnwrapped⟩ =
      !canBeUnwrapped := rfl

theorem Expr.reducedList_cons (features : JSFeature) (isUnbound : Ref → Bool) (item : Expr)
    (rest : List Expr) :
    Expr.reducedList features isUnbound (item :: rest) =
      (item.reduced features isUnbound && !item.data.isNil &&
        Expr.reducedList features isUnbound rest) := rfl

theorem Expr.reducedProperties_cons (features : JSFeature) (isUnbound : Ref → Bool)
    (kind : PropertyKind) (flags : PropertyFlags) (key valueOrNil initializerOrNil : Expr)
    (classStaticBlock : List Stmt) (rest : List Property) :
    Expr.reducedProperties features isUnbound
        (⟨kind, flags, key, valueOrNil, initializerOrNil, classStaticBlock⟩ :: rest) =
      ((decide (kind = PropertyKind.PropertySpread) ||
        (valueOrNil.reduced features isUnbound && !valueOrNil.data.isNil) ||
        (flags.isComputed && valueOrNil.data.isPlaceholderZero)) &&
        Expr.reducedProperties features isUnbound rest) := rfl

theorem spineHasString_EBinary (loc : Loc) (op : OpCode) (left right : Expr) :
    spineHasString ⟨loc, .EBinary op left right⟩ =
      if op = BinOpAdd then right.data.isEString || spineHasString left else false := rfl

theorem stringChainNormal_EBinary (loc : Loc) (op : OpCode) (left right : Expr) :
    stringChainNormal ⟨loc, .EBinary op left right⟩ =
      if op = BinOpAdd then
        if right.data.isEString then !spineHasString left && right.data.isEmptyString
        else stringChainNormal left
      else true := rfl

/-- The second result of `simplifyUnusedStringAdditionChain` is
`spineHasString`; without a string on the spine, and on a chain in normal
form, the first result is the expression itself. -/
theorem simplifyUnusedStringAdditionChain_normal (n : Nat) : ∀ e : Expr, e.size ≤ n →
    (simplifyUnusedStringAdditionChain e).2 = spineHasString e ∧
    (spineHasString e = false → (simplifyUnusedStringAdditionChain e).1 = e) ∧
    (stringChainNormal e = true → (simplifyUnusedStringAdditionChain e).1 = e) := by
  induction n with
  | zero =>
    intro e he
    have := Expr.size_pos e
    omega
  | succ n ih =>
    intro e he
    obtain ⟨loc, d⟩ := e
    cases d with
    | EString value =>
      refine ⟨rfl, ?_, ?_⟩
      · intro h
        have h2 : true = false := h
        cases h2
      intro h
      have h2 : decide (value = []) = true := h
      have h3 : value = [] := by simpa using h2
      subst h3
      rfl
    | EBinary op left right =>
      rw [Expr.size_EBinary] at he
      obtain ⟨ih1, ih2, ih3⟩ := ih left (by omega)
      rw [simplifyUnusedStringAdditionChain_EBinary, spineHasString_EBinary,
        stringChainNormal_EBinary]
      by_cases hop : op = BinOpAdd
      · rw [if_pos hop, if_pos hop, if_pos hop]
        cases hr : right.data.isEString
        · rw [if_neg (by simp), if_neg (by simp)]
          refine ⟨by rw [ih1]; rfl, ?_, ?_⟩
          · intro h
            have h2 : spineHasString left = false := by simpa using h
            show (Expr.mk loc (.EBinary op (simplifyUnusedStringAdditionChain left).1 right)) = _
            rw [ih2 h2]
          · intro h
            show (Expr.mk loc (.EBinary op (simplifyUnusedStringAdditionChain left).1 right)) = _
            rw [ih3 h]
        · rw [if_pos rfl, if_pos rfl]
          refine ⟨?_, fun h => by simp at h, ?_⟩
          · cases (simplifyUnusedStringAdditionChain left).2 <;> rfl
          · intro h
            rw [Bool.and_eq_true] at h
            have h2 : spineHasString left = false := by
              have := h.1
              revert this
              cases spineHasString left <;> simp
            rw [ih1, h2, if_neg (by simp)]
            show (Expr.mk loc (.EBinary op (simplifyUnusedStringAdditionChain left).1
              ⟨right.loc, .EString []⟩)) = _
            rw [ih2 h2]
            obtain ⟨rLoc, rd⟩ := right
            cases rd with
            | EString value =>
              have h3 : decide (value = []) = true := h.2
              have h4 : value = [] := by simpa using h3
              subst h4
              rfl
            | _ => cases hr
      · rw [if_neg hop, if_neg hop, if_neg hop]
        exact ⟨rfl, fun _ => rfl, fun _ => rfl⟩
    | _ => exact ⟨rfl, fun _ => rfl, fun _ => rfl⟩

/-- Where the optional-chain rewrite does not apply, the logical node is
built from its operands as they are. -/
theorem logicalWithOptionalChain_of_not_applies (loc : Loc) (op : OpCode) (left right : Expr)
    (features : JSFeature) (h : optionalChainApplies features op left right = false) :
    logicalWithOptionalChain loc op left right features = ⟨loc, .EBinary op left right⟩ := by
  obtain ⟨hc⟩ := features
  cases hc with
  | true => exact logicalWithOptionalChain_keeps loc op left right ⟨true⟩ (Or.inl rfl)
  | false =>
    obtain ⟨leftLoc, d⟩ := left
    cases d with
    | EBinary binaryOp binaryLeft binaryRight =>
      by_cases hop : (binaryOp = BinOpLooseNe ∧ op = BinOpLogicalAnd) ∨
          (binaryOp = BinOpLooseEq ∧ op = BinOpLogicalOr)
      · have hcmp : binaryOp = BinOpLooseNe ∨ binaryOp = BinOpLooseEq := by
          rcases hop with ⟨h1, _⟩ | ⟨h1, _⟩
          · exact Or.inl h1
          · exact Or.inr h1
        have h2 : ((decide (binaryOp = BinOpLooseNe ∧ op = BinOpLogicalAnd) ||
              decide (binaryOp = BinOpLooseEq ∧ op = BinOpLogicalOr)) &&
            (if binaryRight.data.isENull then
              binaryLeft.data.isUnflaggedIdentifier && hasGuardedTarget binaryLeft right
            else if binaryLeft.data.isENull then
              binaryRight.data.isUnflaggedIdentifier && hasGuardedTarget binaryRight right
            else false)) = false := h
        have h3 : (decide (binaryOp = BinOpLooseNe ∧ op = BinOpLogicalAnd) ||
              decide (binaryOp = BinOpLooseEq ∧ op = BinOpLogicalOr)) = true := by
          simpa using hop
        rw [h3, Bool.true_and] at h2
        obtain ⟨rLoc, rd⟩ := binaryRight
        by_cases hr : rd.isENull = true
        · have hrd : rd = .ENull := by
            cases rd <;> first | rfl | cases hr
          subst hrd
          have h2 : (binaryLeft.data.isUnflaggedIdentifier &&
            hasGuardedTarget binaryLeft right) = false := h2
          have key := logicalWithOptionalChain_null_right loc leftLoc rLoc op binaryOp binaryLeft
            right ⟨false⟩ hop
          rw [if_neg] at key
          · exact key
          · intro hx
            rw [hx.2.1, hx.2.2] at h2
            cases h2
        · have hr2 : (Expr.mk rLoc rd).data.isENull = false := by simpa using hr
          rw [hr2, if_neg (by simp)] at h2
          obtain ⟨lLoc, ld⟩ := binaryLeft
          by_cases hl : ld.isENull = true
          · have hld : ld = .ENull := by
              cases ld <;> first | rfl | cases hl
            subst hld
            have h2 : ((Expr.mk rLoc rd).data.isUnflaggedIdentifier &&
              hasGuardedTarget ⟨rLoc, rd⟩ right) = false := h2
            have key := logicalWithOptionalChain_null_left loc leftLoc lLoc op binaryOp
              ⟨rLoc, rd⟩ right ⟨false⟩ hop
            rw [if_neg] at key
            · exact key
            · intro hx
              rw [hx.2.1, hx.2.2] at h2
              cases h2
          · exact logicalWithOptionalChain_keeps loc op _ right ⟨false⟩ (Or.inr (by
              show ((decide (binaryOp = BinOpLooseNe ∧ op = BinOpLogicalAnd) ||
                  decide (binaryOp = BinOpLooseEq ∧ op = BinOpLogicalOr)) &&
                (rd.isENull || ld.isENull)) = false
              have hr3 : rd.isENull = false := by simpa using hr
              have hl3 : ld.isENull = false := by simpa using hl
              rw [hr3, hl3]
              simp))
      · exact logicalWithOptionalChain_keeps loc op _ right ⟨false⟩ (Or.inr (by
          show ((decide (binaryOp = BinOpLooseNe ∧ op = BinOpLogicalAnd) ||
              decide (binaryOp = BinOpLooseEq ∧ op = BinOpLogicalOr)) &&
            (binaryRight.data.isENull || binaryLeft.data.isENull)) = false
          have : (decide (binaryOp = BinOpLooseNe ∧ op = BinOpLogicalAnd) ||
              decide (binaryOp = BinOpLooseEq ∧ op = BinOpLogicalOr)) = false := by
            simpa using hop
          rw [this]
          rfl))
    | _ => exact logicalWithOptionalChain_keeps loc op _ right ⟨false⟩ (Or.inr rfl)

/-- A call that is not a shortened immediately-invoked function is left as it
is. -/
theorem shortenIIFE_of_not_shortened (loc : Loc) (target : Expr) (args : List Expr)
    (optionalChain : OptionalChain) (kind : CallKind)
    (h : isShortenedIIFE target args = false) :
    shortenIIFE loc target args optionalChain kind =
      ⟨loc, .ECall target args optionalChain false kind⟩ := by
  obtain ⟨targetLoc, d⟩ := target
  cases args with
  | cons arg rest => cases d <;> rfl
  | nil =>
    cases d with
    | EFunction fn =>
      obtain ⟨fnArgs, fnBody, isAsync, isGenerator⟩ := fn
      cases fnArgs <;> cases fnBody <;> first | rfl | (have h2 : true = false := h; cases h2)
    | EArrow arrowArgs arrowBody isAsync preferExpr =>
      cases arrowArgs with
      | cons a as => cases arrowBody <;> rfl
      | nil =>
        cases arrowBody with
        | nil =>
          have h2 : true = false := h
          cases h2
        | cons s ss =>
          obtain ⟨stmtLoc, sd⟩ := s
          cases ss with
          | cons s2 ss2 => cases sd <;> cases isAsync <;> rfl
          | nil =>
            cases sd <;> cases isAsync <;> first
              | rfl
              | (have h2 : true = false := h
                 cases h2)
    | _ => rfl

/-- The loop of the array case with a spread keeps a list whose items are
fixed points and not empty. -/
theorem simplifyUnusedKeepNonEmpty_of_fixed (features : JSFeature) (isUnbound : Ref → Bool)
    (items : List Expr)
    (h : ∀ item ∈ items, SimplifyUnusedExpr item features isUnbound = item ∧
      item.data.isNil = false) :
    simplifyUnusedKeepNonEmpty (fun y => SimplifyUnusedExpr y features isUnbound) items
        features isUnbound = items := by
  induction items with
  | nil => rfl
  | cons item rest ih =>
    obtain ⟨h1, h2⟩ := h item (List.mem_cons_self _ _)
    rw [simplifyUnusedKeepNonEmpty_cons, SimplifyUnusedExpr_self, h1, h2, if_neg (by simp),
      ih (fun v hv => h v (List.mem_cons_of_mem _ hv))]

/-- The loop of the object case with a spread keeps a list of properties each
of which is a spread, has a value that is a fixed point and not empty, or has a
computed key and the placeholder value. -/
theorem simplifyUnusedObjectWithSpread_of_fixed (features : JSFeature) (isUnbound : Ref → Bool)
    (properties : List Property)
    (h : ∀ property ∈ properties, property.kind = PropertyKind.PropertySpread ∨
      (SimplifyUnusedExpr property.valueOrNil features isUnbound = property.valueOrNil ∧
        property.valueOrNil.data.isNil = false) ∨
      (property.flags.isComputed = true ∧ property.valueOrNil.data.isPlaceholderZero = true)) :
    simplifyUnusedObjectWithSpread (fun y => SimplifyUnusedExpr y features isUnbound) properties
        features isUnbound = properties := by
  induction properties with
  | nil => rfl
  | cons property rest ih =>
    have ih2 := ih (fun v hv => h v (List.mem_cons_of_mem _ hv))
    have hp := h property (List.mem_cons_self _ _)
    obtain ⟨kind, flags, key, valueOrNil, initializerOrNil, classStaticBlock⟩ := property
    rw [simplifyUnusedObjectWithSpread_cons, SimplifyUnusedExpr_self, ih2]
    by_cases hk : kind ≠ PropertyKind.PropertySpread
    · rw [if_pos hk]
      rcases hp with hp | ⟨hfix, hnil⟩ | ⟨hcomp, hzero⟩
      · exact absurd hp hk
      · have hfix2 : SimplifyUnusedExpr valueOrNil features isUnbound = valueOrNil := hfix
        have hnil2 : valueOrNil.data.isNil = false := hnil
        rw [hfix2, hnil2, if_pos (show (!false) = true from rfl)]
      · have hcomp2 : flags.isComputed = true := hcomp
        have hzero2 : valueOrNil.data.isPlaceholderZero = true := hzero
        obtain ⟨vLoc, vd⟩ := valueOrNil
        cases vd with
        | ENumber value =>
          have h3 : decide (value = ⟨false, 0, 0⟩) = true := hzero2
          have h4 : value = ⟨false, 0, 0⟩ := by simpa using h3
          subst h4
          have h5 : SimplifyUnusedExpr ⟨vLoc, .ENumber ⟨false, 0, 0⟩⟩ features isUnbound =
              Expr.empty := rfl
          rw [h5, if_neg (show ¬ ((!Expr.empty.data.isNil) = true) by decide), hcomp2,
            if_neg (show ¬ ((!true) = true) by decide)]
          rfl
        | _ => cases hzero2
    · rw [if_neg hk]

theorem isRunOfUnknownParts_cons (value : Expr) (tailCooked : List Nat)
    (rest : List TemplatePart) :
    isRunOfUnknownParts (⟨value, tailCooked⟩ :: rest) =
      (decide (tailCooked = []) && decide (KnownPrimitiveType value = PrimitiveUnknown) &&
        isRunOfUnknownParts rest) := rfl

/-- A run of parts of unknown type is the list of its values, each with an
empty tail. -/
theorem isRunOfUnknownParts_spec (parts : List TemplatePart)
    (h : isRunOfUnknownParts parts = true) :
    parts = (parts.map TemplatePart.value).map (fun value => ⟨value, []⟩) ∧
    ∀ value ∈ parts.map TemplatePart.value, KnownPrimitiveType value = PrimitiveUnknown := by
  induction parts with
  | nil => exact ⟨rfl, fun v hv => by cases hv⟩
  | cons part rest ih =>
    obtain ⟨value, tailCooked⟩ := part
    rw [isRunOfUnknownParts_cons, Bool.and_eq_true, Bool.and_eq_true] at h
    obtain ⟨ih1, ih2⟩ := ih h.2
    have ht : tailCooked = [] := by simpa using h.1.1
    have hk : KnownPrimitiveType value = PrimitiveUnknown := by simpa using h.1.2
    subst ht
    refine ⟨?_, ?_⟩
    · show TemplatePart.mk value [] :: rest = TemplatePart.mk value [] :: _
      rw [← ih1]
    · intro v hv
      rcases List.mem_cons.1 hv with hv | hv
      · rw [hv]; exact hk
      · exact ih2 v hv

/-- A run template is a fixed point of the reducer. -/
theorem SimplifyUnusedExpr_run_template (features : JSFeature) (isUnbound : Ref → Bool)
    (loc : Loc) (tagOrNil : Expr) (headCooked : List Nat) (parts : List TemplatePart)
    (ht : tagOrNil.data.isNil = true) (h : isRunTemplate loc tagOrNil headCooked parts = true) :
    SimplifyUnusedExpr ⟨loc, .ETemplate tagOrNil headCooked parts⟩ features isUnbound =
      ⟨loc, .ETemplate tagOrNil headCooked parts⟩ := by
  unfold isRunTemplate at h
  rw [Bool.and_eq_true, Bool.and_eq_true, Bool.and_eq_true] at h
  obtain ⟨⟨⟨hloc, hhead⟩, hfirst⟩, hrun⟩ := h
  have hhead2 : headCooked = [] := by simpa using hhead
  subst hhead2
  obtain ⟨tagLoc, tagData⟩ := tagOrNil
  have htag : tagData = .nil := by
    cases tagData <;> first | rfl | cases ht
  subst htag
  have hloc2 : tagLoc = ⟨0⟩ := by simpa using hloc
  subst hloc2
  obtain ⟨hparts, hall⟩ := isRunOfUnknownParts_spec parts hrun
  cases parts with
  | nil => cases hfirst
  | cons part rest =>
    obtain ⟨value, tailCooked⟩ := part
    have hl : loc = value.loc := by simpa using hfirst
    subst hl
    have key := templateRun_fixed features isUnbound value (rest.map TemplatePart.value) hall
    have hshape : (TemplatePiece.run value.loc (value :: rest.map TemplatePart.value)).toExpr =
        ⟨value.loc, .ETemplate Expr.empty [] (TemplatePart.mk value tailCooked :: rest)⟩ := by
      show (Expr.mk value.loc (.ETemplate Expr.empty []
        ((value :: rest.map TemplatePart.value).map fun v => ⟨v, []⟩))) = _
      have hp2 : TemplatePart.mk value tailCooked :: rest =
          (value :: rest.map TemplatePart.value).map (fun v => ⟨v, []⟩) := hparts
      rw [← hp2]
    rw [hshape] at key
    exact key


theorem Expr.reducedList_mem (features : JSFeature) (isUnbound : Ref → Bool)
    (items : List Expr) (h : Expr.reducedList features isUnbound items = true) :
    ∀ item ∈ items, item.reduced features isUnbound = true ∧ item.data.isNil = false ∧
      item.size ≤ Expr.sizeList items := by
  induction items with
  | nil => intro item hi; cases hi
  | cons first rest ih =>
    intro item hi
    rw [Expr.reducedList_cons, Bool.and_eq_true, Bool.and_eq_true] at h
    rw [Expr.sizeList_cons]
    rcases List.mem_cons.1 hi with hi | hi
    · subst hi
      refine ⟨h.1.1, ?_, by omega⟩
      have := h.1.2
      revert this
      cases item.data.isNil <;> simp
    · have := ih h.2 item hi
      exact ⟨this.1, this.2.1, by omega⟩

theorem Expr.reducedProperties_mem (features : JSFeature) (isUnbound : Ref → Bool)
    (properties : List Property) (h : Expr.reducedProperties features isUnbound properties = true) :
    ∀ property ∈ properties,
      (property.kind = PropertyKind.PropertySpread ∨
        (property.valueOrNil.reduced features isUnbound = true ∧
          property.valueOrNil.data.isNil = false) ∨
        (property.flags.isComputed = true ∧
          property.valueOrNil.data.isPlaceholderZero = true)) ∧
      property.valueOrNil.size ≤ Expr.sizeProperties properties := by
  induction properties with
  | nil => intro property hi; cases hi
  | cons first rest ih =>
    intro property hi
    obtain ⟨kind, flags, key, valueOrNil, initializerOrNil, classStaticBlock⟩ := first
    rw [Expr.reducedProperties_cons, Bool.and_eq_true] at h
    rw [Expr.sizeProperties_cons]
    rcases List.mem_cons.1 hi with hi | hi
    · subst hi
      refine ⟨?_, by show valueOrNil.size ≤ _; omega⟩
      have h1 := h.1
      rw [Bool.or_eq_true, Bool.or_eq_true] at h1
      rcases h1 with (h1 | h1) | h1
      · exact Or.inl (by simpa using h1)
      · rw [Bool.and_eq_true] at h1
        refine Or.inr (Or.inl ⟨h1.1, ?_⟩)
        have := h1.2
        revert this
        show (!valueOrNil.data.isNil) = true → valueOrNil.data.isNil = false
        cases valueOrNil.data.isNil <;> simp
      · rw [Bool.and_eq_true] at h1
        exact Or.inr (Or.inr h1)
    · have := ih h.2 property hi
      exact ⟨this.1, by omega⟩

/-- Every expression in reduced form is a fixed point of the reducer. -/
theorem SimplifyUnusedExpr_fixed_of_reduced (features : JSFeature) (isUnbound : Ref → Bool)
    (n : Nat) : ∀ r : Expr, r.size ≤ n → r.reduced features isUnbound = true →
      SimplifyUnusedExpr r features isUnbound = r := by
  induction n with
  | zero =>
    intro r hr
    have := Expr.size_pos r
    omega
  | succ n ih =>
    intro r hr h
    obtain ⟨loc, d⟩ := r
    have hfalse : ∀ {p : Prop}, false = true → p := fun h => by cases h
    cases d with
    | EInlinedEnum value original => exact hfalse h
    | ENull => exact hfalse h
    | EUndefined => exact hfalse h
    | EMissing => exact hfalse h
    | EBoolean value => exact hfalse h
    | ENumber value => exact hfalse h
    | EBigInt value => exact hfalse h
    | EString value => exact hfalse h
    | EThis => exact hfalse h
    | ERegExp value => exact hfalse h
    | EFunction fn => exact hfalse h
    | EArrow args body isAsync preferExpr => exact hfalse h
    | EImportMeta => exact hfalse h
    | EDot target name optionalChain canBeRemoved unwrap =>
      rw [Expr.reduced_EDot] at h
      cases canBeRemoved
      · rfl
      · cases h
    | EIdentifier ref mustKeep canBeRemoved =>
      rw [Expr.reduced_EIdentifier] at h
      rw [SimplifyUnusedExpr_EIdentifier]
      cases mustKeep
      · rw [if_neg (by simp)]
        cases hc : (canBeRemoved || !isUnbound ref)
        · rw [if_neg (by simp)]
        · rw [hc] at h
          cases h
      · rw [if_pos rfl]
    | ETemplate tagOrNil headCooked parts =>
      rw [Expr.reduced_ETemplate] at h
      by_cases ht : tagOrNil.data.isNil = true
      · rw [ht] at h
        exact SimplifyUnusedExpr_run_template features isUnbound loc tagOrNil headCooked parts ht
          (by simpa using h)
      · rw [SimplifyUnusedExpr_ETemplate, if_neg ht]
    | EArray items isSingleLine =>
      rw [Expr.size_EArray] at hr
      rw [Expr.reduced_EArray, Bool.and_eq_true] at h
      have hitems := Expr.reducedList_mem features isUnbound items h.2
      rw [SimplifyUnusedExpr_EArray, if_pos h.1,
        simplifyUnusedKeepNonEmpty_of_fixed features isUnbound items]
      intro item hi
      have := hitems item hi
      exact ⟨ih item (by omega) this.1, this.2.1⟩
    | EObject properties isSingleLine =>
      rw [Expr.size_EObject] at hr
      rw [Expr.reduced_EObject, Bool.and_eq_true] at h
      have hprops := Expr.reducedProperties_mem features isUnbound properties h.2
      rw [SimplifyUnusedExpr_EObject, if_pos h.1,
        simplifyUnusedObjectWithSpread_of_fixed features isUnbound properties]
      intro property hi
      obtain ⟨hcase, hsize⟩ := hprops property hi
      rcases hcase with hcase | ⟨h1, h2⟩ | hcase
      · exact Or.inl hcase
      · exact Or.inr (Or.inl ⟨ih property.valueOrNil (by omega) h1, h2⟩)
      · exact Or.inr (Or.inr hcase)
    | EIf test yes no =>
      rw [Expr.size_EIf] at hr
      rw [Expr.reduced_EIf, Bool.and_eq_true, Bool.and_eq_true, Bool.and_eq_true] at h
      obtain ⟨⟨⟨hy, hyn⟩, hn⟩, hnn⟩ := h
      have hyn2 : yes.data.isNil = false := by
        revert hyn
        cases yes.data.isNil <;> simp
      have hnn2 : no.data.isNil = false := by
        revert hnn
        cases no.data.isNil <;> simp
      rw [SimplifyUnusedExpr_EIf, ih yes (by omega) hy, ih no (by omega) hn, hyn2, hnn2]
      rfl
    | EUnary op value flag =>
      rw [Expr.reduced_EUnary] at h
      have hop : ¬ (op = UnOpVoid ∨ op = UnOpNot ∨ op = UnOpTypeof) := by simpa using h
      rw [SimplifyUnusedExpr_EUnary, if_neg (fun hx => hop (by tauto)),
        if_neg (fun hx => hop (by tauto))]
    | EBinary op left right =>
      rw [Expr.size_EBinary] at hr
      rw [Expr.reduced_EBinary] at h
      rw [SimplifyUnusedExpr_EBinary]
      by_cases h1 : op = BinOpStrictEq ∨ op = BinOpStrictNe
      · rw [if_pos h1] at h
        cases h
      · rw [if_neg h1] at h
        by_cases h2 : op = BinOpComma
        · subst h2
          rw [if_pos rfl, Bool.and_eq_true, Bool.and_eq_true, Bool.and_eq_true,
            Bool.and_eq_true] at h
          obtain ⟨⟨⟨⟨hloc, hl⟩, hln⟩, hrr⟩, hrn⟩ := h
          have hloc2 : loc = left.loc := by simpa using hloc
          have hln2 : left.data.isNil = false := by
            revert hln
            cases left.data.isNil <;> simp
          have hrn2 : right.data.isNil = false := by
            revert hrn
            cases right.data.isNil <;> simp
          rw [if_pos (Or.inr (Or.inr rfl)), ih left (by omega) hl, ih right (by omega) hrr]
          unfold JoinWithComma
          rw [hln2, hrn2, if_neg (by simp), if_neg (by simp), hloc2]
        · rw [if_neg h2] at h
          have h12 : ¬ (op = BinOpStrictEq ∨ op = BinOpStrictNe ∨ op = BinOpComma) := by tauto
          rw [if_neg h12]
          by_cases h3 : op = BinOpLooseEq ∨ op = BinOpLooseNe
          · rw [if_pos h3] at h
            rw [if_pos h3, if_neg]
            intro hx
            rw [hx] at h
            cases h
          · rw [if_neg h3] at h
            rw [if_neg h3]
            by_cases h4 : op = BinOpLogicalAnd ∨ op = BinOpLogicalOr ∨
                op = BinOpNullishCoalescing
            · rw [if_pos h4, Bool.and_eq_true, Bool.and_eq_true, Bool.and_eq_true] at h
              obtain ⟨⟨⟨hleft, hrr⟩, hrn⟩, hchain⟩ := h
              have hrn2 : right.data.isNil = false := by
                revert hrn
                cases right.data.isNil <;> simp
              have hchain2 : optionalChainApplies features op left right = false := by
                revert hchain
                cases optionalChainApplies features op left right <;> simp
              have hll : logicalLeft op left = left := by
                unfold logicalLeft
                by_cases hq : op = BinOpNullishCoalescing
                · rw [if_neg (by simpa using hq)]
                · rw [if_pos hq]
                  have hnormal : left.booleanNormal = true := by
                    rw [Bool.or_eq_true] at hleft
                    rcases hleft with hleft | hleft
                    · exact absurd (by simpa using hleft) hq
                    · exact hleft
                  exact (SimplifyBooleanExpr_fixed_iff_normal left.size left
                    (Nat.le_refl _)).2 hnormal
              rw [if_pos h4, ih right (by omega) hrr, hrn2, if_neg (by simp), hll,
                logicalWithOptionalChain_of_not_applies loc op left right features hchain2]
            · rw [if_neg h4] at h
              rw [if_neg h4]
              by_cases h5 : op = BinOpAdd
              · rw [if_pos h5] at h
                rw [if_pos h5]
                exact (simplifyUnusedStringAdditionChain_normal _ _ (Nat.le_refl _)).2.2 h
              · rw [if_neg h5]
    | ECall target args optionalChain canBeUnwrapped kind =>
      rw [Expr.reduced_ECall, Bool.and_eq_true] at h
      cases canBeUnwrapped
      · have hs : isShortenedIIFE target args = false := by
          have := h.2
          revert this
          cases isShortenedIIFE target args <;> simp
        rw [SimplifyUnusedExpr_impure_ECall,
          shortenIIFE_of_not_shortened loc target args optionalChain kind hs]
      · have := h.1
        cases this
    | ENew target args canBeUnwrapped =>
      rw [Expr.reduced_ENew] at h
      cases canBeUnwrapped
      · rw [SimplifyUnusedExpr_ENew, if_neg (by simp)]
      · cases h
    | _ => rfl

/-- The optional-chain rewrite never applies under `??`. -/
theorem optionalChainApplies_nullish (features : JSFeature) (left right : Expr) :
    optionalChainApplies features BinOpNullishCoalescing left right = false := by
  obtain ⟨leftLoc, d⟩ := left
  unfold optionalChainApplies
  cases d with
  | EBinary binaryOp binaryLeft binaryRight =>
    have h : (decide (binaryOp = BinOpLooseNe ∧ BinOpNullishCoalescing = BinOpLogicalAnd) ||
        decide (binaryOp = BinOpLooseEq ∧ BinOpNullishCoalescing = BinOpLogicalOr)) = false := by
      simp
    show (!features.hasOptionalChain && ((decide (binaryOp = BinOpLooseNe ∧
        BinOpNullishCoalescing = BinOpLogicalAnd) ||
      decide (binaryOp = BinOpLooseEq ∧ BinOpNullishCoalescing = BinOpLogicalOr)) && _)) = false
    rw [h]
    simp
  | _ => simp

/-- Idempotence on both operands of `??` gives idempotence on the node. -/
theorem SimplifyUnusedExpr_nullish_idempotent (features : JSFeature) (isUnbound : Ref → Bool)
    (loc : Loc) (left right : Expr)
    (hl : SimplifyUnusedExpr (SimplifyUnusedExpr left features isUnbound) features isUnbound =
      SimplifyUnusedExpr left features isUnbound)
    (hr : SimplifyUnusedExpr (SimplifyUnusedExpr right features isUnbound) features isUnbound =
      SimplifyUnusedExpr right features isUnbound) :
    SimplifyUnusedExpr
        (SimplifyUnusedExpr ⟨loc, .EBinary BinOpNullishCoalescing left right⟩ features isUnbound)
        features isUnbound =
      SimplifyUnusedExpr ⟨loc, .EBinary BinOpNullishCoalescing left right⟩ features isUnbound := by
  have hll : logicalLeft BinOpNullishCoalescing left = left := rfl
  have key : ∀ x : Expr,
      SimplifyUnusedExpr ⟨loc, .EBinary BinOpNullishCoalescing left x⟩ features isUnbound =
        if (SimplifyUnusedExpr x features isUnbound).data.isNil then
          SimplifyUnusedExpr left features isUnbound
        else ⟨loc, .EBinary BinOpNullishCoalescing left
          (SimplifyUnusedExpr x features isUnbound)⟩ := by
    intro x
    rw [SimplifyUnusedExpr_EBinary, if_neg (by decide), if_neg (by decide),
      if_pos (by decide), hll,
      logicalWithOptionalChain_of_not_applies loc _ left _ features
        (optionalChainApplies_nullish features left _)]
  rw [key right]
  cases hn : (SimplifyUnusedExpr right features isUnbound).data.isNil
  · rw [if_neg (by simp), key, hr, hn, if_neg (by simp)]
  · rw [if_pos rfl]
    exact hl

/-- Idempotence of the boolean simplifier on the left operand of `&&` or `||`,
of the reducer on the simplified left operand and on the right operand, gives
idempotence on the node where the optional-chain rewrite does not apply. -/
theorem SimplifyUnusedExpr_logical_idempotent (features : JSFeature) (isUnbound : Ref → Bool)
    (loc : Loc) (op : OpCode) (left right : Expr)
    (hop : op = BinOpLogicalAnd ∨ op = BinOpLogicalOr)
    (hb : SimplifyBooleanExpr (SimplifyBooleanExpr left) = SimplifyBooleanExpr left)
    (hl : SimplifyUnusedExpr (SimplifyUnusedExpr (SimplifyBooleanExpr left) features isUnbound)
        features isUnbound =
      SimplifyUnusedExpr (SimplifyBooleanExpr left) features isUnbound)
    (hr : SimplifyUnusedExpr (SimplifyUnusedExpr right features isUnbound) features isUnbound =
      SimplifyUnusedExpr right features isUnbound)
    (hc : optionalChainApplies features op (SimplifyBooleanExpr left)
      (SimplifyUnusedExpr right features isUnbound) = false) :
    SimplifyUnusedExpr (SimplifyUnusedExpr ⟨loc, .EBinary op left right⟩ features isUnbound)
        features isUnbound =
      SimplifyUnusedExpr ⟨loc, .EBinary op left right⟩ features isUnbound := by
  have h1 : ¬ (op = BinOpStrictEq ∨ op = BinOpStrictNe ∨ op = BinOpComma) := by
    rcases hop with rfl | rfl <;> decide
  have h2 : ¬ (op = BinOpLooseEq ∨ op = BinOpLooseNe) := by
    rcases hop with rfl | rfl <;> decide
  have h3 : op = BinOpLogicalAnd ∨ op = BinOpLogicalOr ∨ op = BinOpNullishCoalescing := by
    rcases hop with rfl | rfl <;> decide
  have h4 : op ≠ BinOpNullishCoalescing := by
    rcases hop with rfl | rfl <;> decide
  have hll : ∀ x : Expr, logicalLeft op x = SimplifyBooleanExpr x := by
    intro x
    unfold logicalLeft
    rw [if_pos h4]
  rw [SimplifyUnusedExpr_EBinary, if_neg h1, if_neg h2, if_pos h3, hll]
  cases hn : (SimplifyUnusedExpr right features isUnbound).data.isNil
  · rw [if_neg (by simp),
      logicalWithOptionalChain_of_not_applies loc op _ _ features hc,
      SimplifyUnusedExpr_EBinary, if_neg h1, if_neg h2, if_pos h3, hll, hb, hr, hn,
      if_neg (by simp), logicalWithOptionalChain_of_not_applies loc op _ _ features hc]
  · rw [if_pos rfl]
    exact hl

/-- Idempotence on both branches of a ternary whose reduced branches are both
kept, and idempotence on the test of a ternary whose reduced branches are both
empty, give idempotence on the ternary. -/
theorem SimplifyUnusedExpr_ternary_idempotent (features : JSFeature) (isUnbound : Ref → Bool)
    (loc : Loc) (test yes no : Expr) :
    ((SimplifyUnusedExpr yes features isUnbound).data.isNil = false →
      (SimplifyUnusedExpr no features isUnbound).data.isNil = false →
      SimplifyUnusedExpr (SimplifyUnusedExpr yes features isUnbound) features isUnbound =
        SimplifyUnusedExpr yes features isUnbound →
      SimplifyUnusedExpr (SimplifyUnusedExpr no features isUnbound) features isUnbound =
        SimplifyUnusedExpr no features isUnbound →
      SimplifyUnusedExpr (SimplifyUnusedExpr ⟨loc, .EIf test yes no⟩ features isUnbound)
          features isUnbound =
        SimplifyUnusedExpr ⟨loc, .EIf test yes no⟩ features isUnbound) ∧
    ((SimplifyUnusedExpr yes features isUnbound).data.isNil = true →
      (SimplifyUnusedExpr no features isUnbound).data.isNil = true →
      SimplifyUnusedExpr (SimplifyUnusedExpr test features isUnbound) features isUnbound =
        SimplifyUnusedExpr test features isUnbound →
      SimplifyUnusedExpr (SimplifyUnusedExpr ⟨loc, .EIf test yes no⟩ features isUnbound)
          features isUnbound =
        SimplifyUnusedExpr ⟨loc, .EIf test yes no⟩ features isUnbound) := by
  refine ⟨?_, ?_⟩
  · intro hy hn hyes hno
    rw [SimplifyUnusedExpr_EIf, hy, hn]
    show SimplifyUnusedExpr ⟨loc, .EIf test _ _⟩ features isUnbound = ⟨loc, .EIf test _ _⟩
    rw [SimplifyUnusedExpr_EIf, hyes, hno, hy, hn]
    rfl
  · intro hy hn htest
    rw [SimplifyUnusedExpr_EIf, hy, hn]
    exact htest

/-! ## The weight of a reduction -/

theorem Expr.weight_pos : (e : Expr) → 1 ≤ e.weight
  | ⟨_, d⟩ => by
    cases d <;> first
      | exact Nat.le_refl 1
      | exact Nat.le_add_left 1 _

theorem Expr.weight_EInlinedEnum (loc : Loc) (value : Expr) (original : Ref) :
    Expr.weight ⟨loc, .EInlinedEnum value original⟩ = value.weight + 1 := rfl

theorem Expr.weight_EUnary (loc : Loc) (op : OpCode) (value : Expr) (flag : Bool) :
    Expr.weight ⟨loc, .EUnary op value flag⟩ = value.weight + 1 := rfl

theorem Expr.weight_EBinary (loc : Loc) (op : OpCode) (left right : Expr) :
    Expr.weight ⟨loc, .EBinary op left right⟩ = left.weight + right.weight + 1 := rfl

theorem Expr.weight_EIf (loc : Loc) (test yes no : Expr) :
    Expr.weight ⟨loc, .EIf test yes no⟩ = test.weight + yes.weight + no.weight + 1 := rfl

theorem Expr.weight_EDot (loc : Loc) (target : Expr) (name : String)
    (optionalChain : OptionalChain) (remove unwrap : Bool) :
    Expr.weight ⟨loc, .EDot target name optionalChain remove unwrap⟩ = target.weight + 1 := rfl

theorem Expr.weight_EIndex (loc : Loc) (target index : Expr) (optionalChain : OptionalChain)
    (remove unwrap : Bool) :
    Expr.weight ⟨loc, .EIndex target index optionalChain remove unwrap⟩ =
      target.weight + index.weight + 1 := rfl

theorem Expr.weight_ECall (loc : Loc) (target : Expr) (args : List Expr)
    (optionalChain : OptionalChain) (unwrap : Bool) (kind : CallKind) :
    Expr.weight ⟨loc, .ECall target args optionalChain unwrap kind⟩ =
      target.weight + Expr.weightArgs args + 1 := rfl

theorem Expr.weight_ENew (loc : Loc) (target : Expr) (args : List Expr) (unwrap : Bool) :
    Expr.weight ⟨loc, .ENew target args unwrap⟩ = target.weight + Expr.weightArgs args + 1 := rfl

theorem Expr.weight_ETemplate (loc : Loc) (tagOrNil : Expr) (headCooked : List Nat)
    (parts : List TemplatePart) :
    Expr.weight ⟨loc, .ETemplate tagOrNil headCooked parts⟩ =
      tagOrNil.weight + Expr.weightParts parts + 1 := rfl

theorem Expr.weight_EArray (loc : Loc) (items : List Expr) (isSingleLine : Bool) :
    Expr.weight ⟨loc, .EArray items isSingleLine⟩ = Expr.weightList items + 1 := rfl

theorem Expr.weight_EObject (loc : Loc) (properties : List Property) (isSingleLine : Bool) :
    Expr.weight ⟨loc, .EObject properties isSingleLine⟩ =
      Expr.weightProperties properties + 1 := rfl

theorem Expr.weight_EArrow (loc : Loc) (args : List Binding) (body : List Stmt)
    (isAsync preferExpr : Bool) :
    Expr.weight ⟨loc, .EArrow args body isAsync preferExpr⟩ = Expr.weightStmts body + 1 := rfl

theorem Expr.weightList_cons (item : Expr) (rest : List Expr) :
    Expr.weightList (item :: rest) = item.weight + 1 + Expr.weightList rest := rfl

theorem Expr.weightArgs_cons (arg : Expr) (rest : List Expr) :
    Expr.weightArgs (arg :: rest) = arg.weight + 3 + Expr.weightArgs rest := rfl

theorem Expr.weightParts_cons (value : Expr) (tailCooked : List Nat) (rest : List TemplatePart) :
    Expr.weightParts (⟨value, tailCooked⟩ :: rest) =
      value.weight + 4 + Expr.weightParts rest := rfl

theorem Expr.weightProperties_cons (kind : PropertyKind) (flags : PropertyFlags)
    (key valueOrNil initializerOrNil : Expr) (classStaticBlock : List Stmt)
    (rest : List Property) :
    Expr.weightProperties
        (⟨kind, flags, key, valueOrNil, initializerOrNil, classStaticBlock⟩ :: rest) =
      key.weight + valueOrNil.weight + 4 + Expr.weightProperties rest := rfl

theorem Expr.weight_empty : Expr.empty.weight = 1 := rfl

theorem JoinWithComma_weight (a b : Expr) :
    (JoinWithComma a b).weight ≤ a.weight + b.weight + 1 := by
  unfold JoinWithComma
  split
  · omega
  · split
    · omega
    · rw [Expr.weight_EBinary]

theorem MaybeSimplifyNot_weight : (e : Expr) → (r : Expr) → MaybeSimplifyNot e = some r →
    r.weight ≤ e.weight + 1
  | ⟨loc, .EInlinedEnum value original⟩, r, h => by
    have ih := MaybeSimplifyNot_weight value r h
    have hs : Expr.weight ⟨loc, .EInlinedEnum value original⟩ = value.weight + 1 := rfl
    omega
  | ⟨_, .EUnary op value _⟩, r, h => by
    have h' : (if op = UnOpNot ∧ KnownPrimitiveType value = PrimitiveBoolean then some value
      else none) = some r := h
    by_cases hc : op = UnOpNot ∧ KnownPrimitiveType value = PrimitiveBoolean
    · rw [if_pos hc] at h'
      cases h'
      rw [Expr.weight_EUnary]
      omega
    · rw [if_neg hc] at h'
      cases h'
  | ⟨loc, .EBinary op left right⟩, r, h => by
    have h' : (if op = BinOpLooseEq then some (⟨loc, .EBinary BinOpLooseNe left right⟩ : Expr)
      else if op = BinOpLooseNe then some ⟨loc, .EBinary BinOpLooseEq left right⟩
      else if op = BinOpStrictEq then some ⟨loc, .EBinary BinOpStrictNe left right⟩
      else if op = BinOpStrictNe then some ⟨loc, .EBinary BinOpStrictEq left right⟩
      else if op = BinOpComma then
        some ⟨loc, .EBinary op left
          (match MaybeSimplifyNot right with
           | some result => result
           | none => ⟨right.loc, .EUnary UnOpNot right false⟩)⟩
      else none) = some r := h
    have hright : Expr.weight (match MaybeSimplifyNot right with
           | some result => result
           | none => ⟨right.loc, .EUnary UnOpNot right false⟩) ≤ right.weight + 1 := by
      cases hm : MaybeSimplifyNot right with
      | none => exact Nat.le_refl _
      | some result => exact MaybeSimplifyNot_weight right result hm
    split at h'
    · cases h'; simp only [Expr.weight_EBinary]; omega
    · split at h'
      · cases h'; simp only [Expr.weight_EBinary]; omega
      · split at h'
        · cases h'; simp only [Expr.weight_EBinary]; omega
        · split at h'
          · cases h'; simp only [Expr.weight_EBinary]; omega
          · split at h'
            · cases h'; simp only [Expr.weight_EBinary]; omega
            · cases h'
  | ⟨_, .ENull⟩, r, h | ⟨_, .EUndefined⟩, r, h | ⟨_, .EBoolean _⟩, r, h
  | ⟨_, .ENumber _⟩, r, h | ⟨_, .EBigInt _⟩, r, h | ⟨_, .EString _⟩, r, h
  | ⟨_, .EFunction _⟩, r, h | ⟨_, .EArrow _ _ _ _⟩, r, h | ⟨_, .ERegExp _⟩, r, h => by
    cases h
    exact Nat.le_add_left 1 _
  | ⟨_, .nil⟩, _, h | ⟨_, .EMissing⟩, _, h | ⟨_, .EThis⟩, _, h | ⟨_, .EImportMeta⟩, _, h
  | ⟨_, .EIdentifier _ _ _⟩, _, h | ⟨_, .EImportIdentifier _⟩, _, h
  | ⟨_, .EDot _ _ _ _ _⟩, _, h | ⟨_, .EIndex _ _ _ _ _⟩, _, h | ⟨_, .ECall _ _ _ _ _⟩, _, h
  | ⟨_, .ENew _ _ _⟩, _, h | ⟨_, .EIf _ _ _⟩, _, h | ⟨_, .ETemplate _ _ _⟩, _, h
  | ⟨_, .EArray _ _⟩, _, h | ⟨_, .EObject _ _⟩, _, h | ⟨_, .EClass _⟩, _, h
  | ⟨_, .ESpread _⟩, _, h => by cases h

theorem Not_weight (e : Expr) : (Not e).weight ≤ e.weight + 1 := by
  unfold Not
  cases hm : MaybeSimplifyNot e with
  | none => exact Nat.le_refl _
  | some result => exact MaybeSimplifyNot_weight e result hm

theorem joinAtCommaTail_weight (f : Expr → Expr) (k : Nat)
    (hf : ∀ a0 : Expr, (f a0).weight = a0.weight + k) :
    (a : Expr) → (joinAtCommaTail f a).weight = a.weight + k
  | ⟨loc, .EBinary op left right⟩ => by
    have ih := joinAtCommaTail_weight f k hf right
    have h : joinAtCommaTail f ⟨loc, .EBinary op left right⟩ =
        if op = BinOpComma then ⟨loc, .EBinary op left (joinAtCommaTail f right)⟩
        else f ⟨loc, .EBinary op left right⟩ := rfl
    rw [h]
    split
    · simp only [Expr.weight_EBinary, ih]; omega
    · exact hf _
  | ⟨_, .nil⟩ | ⟨_, .ENull⟩ | ⟨_, .EUndefined⟩ | ⟨_, .EMissing⟩ | ⟨_, .EThis⟩
  | ⟨_, .EImportMeta⟩ | ⟨_, .EBoolean _⟩ | ⟨_, .ENumber _⟩ | ⟨_, .EBigInt _⟩
  | ⟨_, .EString _⟩ | ⟨_, .ERegExp _⟩ | ⟨_, .EIdentifier _ _ _⟩ | ⟨_, .EImportIdentifier _⟩
  | ⟨_, .EInlinedEnum _ _⟩ | ⟨_, .EDot _ _ _ _ _⟩ | ⟨_, .EIndex _ _ _ _ _⟩
  | ⟨_, .ECall _ _ _ _ _⟩ | ⟨_, .ENew _ _ _⟩ | ⟨_, .EUnary _ _ _⟩ | ⟨_, .EIf _ _ _⟩
  | ⟨_, .ETemplate _ _ _⟩ | ⟨_, .EArray _ _⟩ | ⟨_, .EObject _ _⟩ | ⟨_, .EFunction _⟩
  | ⟨_, .EArrow _ _ _ _⟩ | ⟨_, .EClass _⟩ | ⟨_, .ESpread _⟩ => hf _


theorem Expr.weight_mk_EBinary (op : OpCode) (a b : Expr) :
    Expr.weight ⟨a.loc, .EBinary op a b⟩ = a.weight + (b.weight + 1) := by
  rw [Expr.weight_EBinary]; omega

theorem JoinWithLeftAssociativeOp_weight (op : OpCode) :
    (b : Expr) → (a : Expr) → (JoinWithLeftAssociativeOp op a b).weight = a.weight + (b.weight + 1)
  | ⟨bLoc, .EBinary bOp bLeft bRight⟩, a => by
    rw [JoinWithLeftAssociativeOp_EBinary]
    apply joinAtCommaTail_weight
    intro a0
    split
    · rw [JoinWithLeftAssociativeOp_weight op bRight, JoinWithLeftAssociativeOp_weight op bLeft,
        Expr.weight_EBinary]
      omega
    · exact Expr.weight_mk_EBinary _ _ _
  | ⟨_, .nil⟩, a | ⟨_, .ENull⟩, a | ⟨_, .EUndefined⟩, a | ⟨_, .EMissing⟩, a | ⟨_, .EThis⟩, a
  | ⟨_, .EImportMeta⟩, a | ⟨_, .EBoolean _⟩, a | ⟨_, .ENumber _⟩, a | ⟨_, .EBigInt _⟩, a
  | ⟨_, .EString _⟩, a | ⟨_, .ERegExp _⟩, a | ⟨_, .EIdentifier _ _ _⟩, a
  | ⟨_, .EImportIdentifier _⟩, a
  | ⟨_, .EInlinedEnum _ _⟩, a | ⟨_, .EDot _ _ _ _ _⟩, a | ⟨_, .EIndex _ _ _ _ _⟩, a
  | ⟨_, .ECall _ _ _ _ _⟩, a | ⟨_, .ENew _ _ _⟩, a | ⟨_, .EUnary _ _ _⟩, a | ⟨_, .EIf _ _ _⟩, a
  | ⟨_, .ETemplate _ _ _⟩, a | ⟨_, .EArray _ _⟩, a | ⟨_, .EObject _ _⟩, a | ⟨_, .EFunction _⟩, a
  | ⟨_, .EArrow _ _ _ _⟩, a | ⟨_, .EClass _⟩, a | ⟨_, .ESpread _⟩, a =>
    joinAtCommaTail_weight _ _ (fun a0 => Expr.weight_mk_EBinary op a0 _) a

theorem SimplifyBooleanExpr_weight : (e : Expr) → (SimplifyBooleanExpr e).weight ≤ e.weight
  | ⟨loc, .EUnary op value flag⟩ => by
    rcases SimplifyBooleanExpr_EUnary loc op value flag with
      ⟨loc2, value2, flag2, _, hv, h⟩ | ⟨_, h⟩ | ⟨_, h⟩
    · rw [h]
      have hle : (SimplifyBooleanExpr value2).weight ≤ value2.weight := by
        subst hv
        exact SimplifyBooleanExpr_weight value2
      rw [Expr.weight_EUnary, hv, Expr.weight_EUnary]
      omega
    · rw [h, Expr.weight_EUnary, Expr.weight_EUnary]
      have := SimplifyBooleanExpr_weight value
      omega
    · rw [h]
  | ⟨loc, .EBinary op left right⟩ => by
    have ihl := SimplifyBooleanExpr_weight left
    have ihr := SimplifyBooleanExpr_weight right
    have hr := Expr.weight_pos right
    have hn := Not_weight left
    rw [SimplifyBooleanExpr_EBinary]
    repeat' split
    all_goals first
      | omega
      | (simp only [Expr.weight_EBinary]; omega)
  | ⟨loc, .EIf test yes no⟩ => by
    have ihy := SimplifyBooleanExpr_weight yes
    have ihn := SimplifyBooleanExpr_weight no
    have hy := Expr.weight_pos (SimplifyBooleanExpr yes)
    have hn := Expr.weight_pos (SimplifyBooleanExpr no)
    have hnot := Not_weight test
    rw [SimplifyBooleanExpr_EIf]
    repeat' split
    all_goals first
      | omega
      | (simp only [Expr.weight_EIf, JoinWithLeftAssociativeOp_weight]; omega)
  | ⟨_, .nil⟩ | ⟨_, .ENull⟩ | ⟨_, .EUndefined⟩ | ⟨_, .EMissing⟩ | ⟨_, .EThis⟩
  | ⟨_, .EImportMeta⟩ | ⟨_, .EBoolean _⟩ | ⟨_, .ENumber _⟩ | ⟨_, .EBigInt _⟩
  | ⟨_, .EString _⟩ | ⟨_, .ERegExp _⟩ | ⟨_, .EIdentifier _ _ _⟩ | ⟨_, .EImportIdentifier _⟩
  | ⟨_, .EInlinedEnum _ _⟩ | ⟨_, .EDot _ _ _ _ _⟩ | ⟨_, .EIndex _ _ _ _ _⟩
  | ⟨_, .ECall _ _ _ _ _⟩ | ⟨_, .ENew _ _ _⟩
  | ⟨_, .ETemplate _ _ _⟩ | ⟨_, .EArray _ _⟩ | ⟨_, .EObject _ _⟩ | ⟨_, .EFunction _⟩
  | ⟨_, .EArrow _ _ _ _⟩ | ⟨_, .EClass _⟩ | ⟨_, .ESpread _⟩ => Nat.le_refl _

theorem Expr.cost_le (e : Expr) : e.cost ≤ e.weight + 1 := by
  unfold Expr.cost
  split <;> omega

theorem Expr.cost_of_not_nil (e : Expr) (h : e.data.isNil = false) : e.cost = e.weight + 1 := by
  unfold Expr.cost
  rw [h, if_neg (by simp)]

theorem Expr.cost_of_nil (e : Expr) (h : e.data.isNil = true) : e.cost = 0 := by
  unfold Expr.cost
  rw [if_pos h]

theorem JoinWithComma_cost (a b : Expr) : (JoinWithComma a b).cost ≤ a.cost + b.cost := by
  unfold JoinWithComma
  by_cases ha : a.data.isNil = true
  · rw [if_pos ha]; omega
  · rw [if_neg ha]
    by_cases hb : b.data.isNil = true
    · rw [if_pos hb]; omega
    · rw [if_neg hb, Expr.cost_of_not_nil a (by simpa using ha),
        Expr.cost_of_not_nil b (by simpa using hb),
        Expr.cost_of_not_nil ⟨a.loc, .EBinary BinOpComma a b⟩ rfl,
        Expr.weight_EBinary]
      omega

/-- The comma-join of a list is its start, one of its items, or a comma. -/
theorem foldl_JoinWithComma_cases (xs : List Expr) : ∀ init : Expr,
    xs.foldl JoinWithComma init = init ∨ xs.foldl JoinWithComma init ∈ xs ∨
      ∃ loc l r, xs.foldl JoinWithComma init = ⟨loc, .EBinary BinOpComma l r⟩ := by
  induction xs with
  | nil => intro init; exact Or.inl rfl
  | cons x rest ih =>
    intro init
    rw [List.foldl_cons]
    rcases ih (JoinWithComma init x) with h | h | h
    · rw [h]
      unfold JoinWithComma
      split
      · exact Or.inr (Or.inl (List.mem_cons_self _ _))
      · split
        · exact Or.inl rfl
        · exact Or.inr (Or.inr ⟨_, _, _, rfl⟩)
    · exact Or.inr (Or.inl (List.mem_cons_of_mem _ h))
    · exact Or.inr (Or.inr h)

theorem piecesCost_cons (piece : TemplatePiece) (rest : List TemplatePiece) :
    piecesCost (piece :: rest) = piece.toExpr.cost + piecesCost rest := rfl

theorem foldl_JoinWithComma_cost (pieces : List TemplatePiece) : ∀ init : Expr,
    ((pieces.map TemplatePiece.toExpr).foldl JoinWithComma init).cost ≤
      init.cost + piecesCost pieces := by
  induction pieces with
  | nil => intro init; exact Nat.le_refl _
  | cons piece rest ih =>
    intro init
    rw [List.map_cons, List.foldl_cons, piecesCost_cons]
    have h1 := ih (JoinWithComma init piece.toExpr)
    have h2 := JoinWithComma_cost init piece.toExpr
    omega

/-- The string rewrite of a chain of `+` never adds weight. -/
theorem simplifyUnusedStringAdditionChain_weight (n : Nat) : ∀ e : Expr, e.size ≤ n →
    (simplifyUnusedStringAdditionChain e).1.weight ≤ e.weight := by
  induction n with
  | zero =>
    intro e he
    have := Expr.size_pos e
    omega
  | succ n ih =>
    intro e he
    obtain ⟨loc, d⟩ := e
    cases d with
    | EString value => exact Nat.le_refl 1
    | EBinary op left right =>
      rw [Expr.size_EBinary] at he
      have ih1 := ih left (by omega)
      rw [simplifyUnusedStringAdditionChain_EBinary, Expr.weight_EBinary]
      have hr := Expr.weight_pos right
      split
      · split
        · split
          · show (simplifyUnusedStringAdditionChain left).1.weight ≤ _
            omega
          · show (Expr.mk loc (.EBinary op (simplifyUnusedStringAdditionChain left).1
              ⟨right.loc, .EString []⟩)).weight ≤ _
            rw [Expr.weight_EBinary]
            have h1 : (Expr.mk right.loc (.EString [])).weight = 1 := rfl
            omega
        · show (Expr.mk loc (.EBinary op (simplifyUnusedStringAdditionChain left).1
            right)).weight ≤ _
          rw [Expr.weight_EBinary]
          omega
      · show (Expr.mk loc (.EBinary op left right)).weight ≤ _
        rw [Expr.weight_EBinary]
    | _ => exact Nat.le_refl _

/-- A chain of `+` that the string rewrite leaves as it is, is in normal
form. -/
theorem stringChainNormal_of_fixed (n : Nat) : ∀ e : Expr, e.size ≤ n →
    (simplifyUnusedStringAdditionChain e).1 = e → stringChainNormal e = true := by
  induction n with
  | zero =>
    intro e he
    have := Expr.size_pos e
    omega
  | succ n ih =>
    intro e he h
    obtain ⟨loc, d⟩ := e
    cases d with
    | EString value =>
      have h2 : (Expr.mk loc (.EString [])) = ⟨loc, .EString value⟩ := h
      injection h2 with _ h3
      injection h3 with h4
      subst h4
      rfl
    | EBinary op left right =>
      rw [Expr.size_EBinary] at he
      have ih1 := ih left (by omega)
      have hn := simplifyUnusedStringAdditionChain_normal left.size left (Nat.le_refl _)
      have hw := simplifyUnusedStringAdditionChain_weight left.size left (Nat.le_refl _)
      rw [simplifyUnusedStringAdditionChain_EBinary] at h
      rw [stringChainNormal_EBinary]
      by_cases hop : op = BinOpAdd
      · rw [if_pos hop] at h
        rw [if_pos hop]
        cases hr : right.data.isEString
        · rw [hr, if_neg (by simp)] at h
          rw [if_neg (by simp)]
          have h2 : (Expr.mk loc (.EBinary op (simplifyUnusedStringAdditionChain left).1
            right)) = ⟨loc, .EBinary op left right⟩ := h
          injection h2 with _ h3
          injection h3 with _ h4 _
          exact ih1 h4
        · rw [hr, if_pos rfl] at h
          rw [if_pos rfl]
          cases hs : spineHasString left
          · rw [hn.1, hs, if_neg (by simp)] at h
            have h2 : (Expr.mk loc (.EBinary op (simplifyUnusedStringAdditionChain left).1
              ⟨right.loc, .EString []⟩)) = ⟨loc, .EBinary op left right⟩ := h
            injection h2 with _ h3
            injection h3 with _ _ h4
            rw [← h4]
            rfl
          · rw [hn.1, hs, if_pos rfl] at h
            have h2 : (simplifyUnusedStringAdditionChain left).1 =
              ⟨loc, .EBinary op left right⟩ := h
            rw [h2, Expr.weight_EBinary] at hw
            omega
      · rw [if_neg hop]
    | _ => rfl

theorem markOptionalChain_weight (a : Expr) (n : Nat) : ∀ e : Expr, chainDepth e ≤ n →
    (markOptionalChain a e).weight = e.weight := by
  induction n with
  | zero =>
    intro e he
    obtain ⟨loc, d⟩ := e
    cases d with
    | EDot target name optionalChain remove unwrap =>
      have h : chainDepth ⟨loc, .EDot target name optionalChain remove unwrap⟩ =
        chainDepth target + 1 := rfl
      omega
    | EIndex target index optionalChain remove unwrap =>
      have h : chainDepth ⟨loc, .EIndex target index optionalChain remove unwrap⟩ =
        chainDepth target + 1 := rfl
      omega
    | ECall target args optionalChain unwrap kind =>
      have h : chainDepth ⟨loc, .ECall target args optionalChain unwrap kind⟩ =
        chainDepth target + 1 := rfl
      omega
    | _ => rfl
  | succ n ih =>
    intro e he
    obtain ⟨loc, d⟩ := e
    cases d with
    | EDot target name optionalChain remove unwrap =>
      have h : chainDepth ⟨loc, .EDot target name optionalChain remove unwrap⟩ =
        chainDepth target + 1 := rfl
      have ih1 := ih target (by omega)
      have hm : markOptionalChain a ⟨loc, .EDot target name optionalChain remove unwrap⟩ =
          if ValuesLookTheSame a.data target.data then
            ⟨loc, .EDot target name OptionalChain.OptionalChainStart remove unwrap⟩
          else ⟨loc, .EDot (markOptionalChain a target) name (continueChain optionalChain)
            remove unwrap⟩ := rfl
      rw [hm]
      split
      · rfl
      · rw [Expr.weight_EDot, Expr.weight_EDot, ih1]
    | EIndex target index optionalChain remove unwrap =>
      have h : chainDepth ⟨loc, .EIndex target index optionalChain remove unwrap⟩ =
        chainDepth target + 1 := rfl
      have ih1 := ih target (by omega)
      have hm : markOptionalChain a ⟨loc, .EIndex target index optionalChain remove unwrap⟩ =
          if ValuesLookTheSame a.data target.data then
            ⟨loc, .EIndex target index OptionalChain.OptionalChainStart remove unwrap⟩
          else ⟨loc, .EIndex (markOptionalChain a target) index (continueChain optionalChain)
            remove unwrap⟩ := rfl
      rw [hm]
      split
      · rfl
      · rw [Expr.weight_EIndex, Expr.weight_EIndex, ih1]
    | ECall target args optionalChain unwrap kind =>
      have h : chainDepth ⟨loc, .ECall target args optionalChain unwrap kind⟩ =
        chainDepth target + 1 := rfl
      have ih1 := ih target (by omega)
      have hm : markOptionalChain a ⟨loc, .ECall target args optionalChain unwrap kind⟩ =
          if ValuesLookTheSame a.data target.data then
            ⟨loc, .ECall target args OptionalChain.OptionalChainStart unwrap kind⟩
          else ⟨loc, .ECall (markOptionalChain a target) args (continueChain optionalChain)
            unwrap kind⟩ := rfl
      rw [hm]
      split
      · rfl
      · rw [Expr.weight_ECall, Expr.weight_ECall, ih1]
    | _ => rfl

/-- Where the optional-chain rewrite applies, what is left is the right
operand with its chain marked, which weighs what the right operand does. -/
theorem logicalWithOptionalChain_of_applies (loc : Loc) (op : OpCode) (left right : Expr)
    (features : JSFeature) (h : optionalChainApplies features op left right = true) :
    (logicalWithOptionalChain loc op left right features).weight = right.weight := by
  obtain ⟨hc⟩ := features
  cases hc with
  | true =>
    have h2 : false = true := h
    cases h2
  | false =>
    obtain ⟨leftLoc, d⟩ := left
    cases d with
    | EBinary binaryOp binaryLeft binaryRight =>
      have h2 : ((decide (binaryOp = BinOpLooseNe ∧ op = BinOpLogicalAnd) ||
            decide (binaryOp = BinOpLooseEq ∧ op = BinOpLogicalOr)) &&
          (if binaryRight.data.isENull then
            binaryLeft.data.isUnflaggedIdentifier && hasGuardedTarget binaryLeft right
          else if binaryLeft.data.isENull then
            binaryRight.data.isUnflaggedIdentifier && hasGuardedTarget binaryRight right
          else false)) = true := h
      rw [Bool.and_eq_true] at h2
      obtain ⟨h3, h4⟩ := h2
      have hop : (binaryOp = BinOpLooseNe ∧ op = BinOpLogicalAnd) ∨
          (binaryOp = BinOpLooseEq ∧ op = BinOpLogicalOr) := by simpa using h3
      obtain ⟨rLoc, rd⟩ := binaryRight
      by_cases hr : rd.isENull = true
      · have hrd : rd = .ENull := by
          cases rd <;> first | rfl | cases hr
        subst hrd
        have h4 : (binaryLeft.data.isUnflaggedIdentifier &&
          hasGuardedTarget binaryLeft right) = true := h4
        rw [Bool.and_eq_true] at h4
        have key := logicalWithOptionalChain_null_right loc leftLoc rLoc op binaryOp binaryLeft
          right ⟨false⟩ hop
        rw [if_pos ⟨rfl, h4.1, h4.2⟩] at key
        have key2 : logicalWithOptionalChain loc op
            ⟨leftLoc, .EBinary binaryOp binaryLeft ⟨rLoc, .ENull⟩⟩ right ⟨false⟩ =
            markOptionalChain binaryLeft right := key
        rw [key2]
        exact markOptionalChain_weight binaryLeft _ right (Nat.le_refl _)
      · have hr2 : (Expr.mk rLoc rd).data.isENull = false := by simpa using hr
        rw [hr2, if_neg (by simp)] at h4
        obtain ⟨lLoc, ld⟩ := binaryLeft
        by_cases hl : ld.isENull = true
        · have hld : ld = .ENull := by
            cases ld <;> first | rfl | cases hl
          subst hld
          have h4 : ((Expr.mk rLoc rd).data.isUnflaggedIdentifier &&
            hasGuardedTarget ⟨rLoc, rd⟩ right) = true := h4
          rw [Bool.and_eq_true] at h4
          have key := logicalWithOptionalChain_null_left loc leftLoc lLoc op binaryOp
            ⟨rLoc, rd⟩ right ⟨false⟩ hop
          rw [if_pos ⟨rfl, h4.1, h4.2⟩] at key
          have key2 : logicalWithOptionalChain loc op
              ⟨leftLoc, .EBinary binaryOp ⟨lLoc, .ENull⟩ ⟨rLoc, rd⟩⟩ right ⟨false⟩ =
              markOptionalChain ⟨rLoc, rd⟩ right := key
          rw [key2]
          exact markOptionalChain_weight _ _ right (Nat.le_refl _)
        · have hl2 : (Expr.mk lLoc ld).data.isENull = false := by simpa using hl
          rw [hl2, if_neg (by simp)] at h4
          cases h4
    | _ =>
      have h2 : false = true := h
      cases h2

theorem logicalWithOptionalChain_weight (loc : Loc) (op : OpCode) (left right : Expr)
    (features : JSFeature) :
    (logicalWithOptionalChain loc op left right features).weight ≤
      left.weight + right.weight + 1 := by
  cases h : optionalChainApplies features op left right
  · rw [logicalWithOptionalChain_of_not_applies loc op left right features h,
      Expr.weight_EBinary]
  · rw [logicalWithOptionalChain_of_applies loc op left right features h]
    omega

theorem Expr.weight_of_nil (e : Expr) (h : e.data.isNil = true) : e.weight = 1 := by
  obtain ⟨loc, d⟩ := e
  cases d <;> first | rfl | cases h

theorem Expr.weight_le_of_cost (e : Expr) (k : Nat) (h : e.cost ≤ k + 1) (hk : 1 ≤ k) :
    e.weight ≤ k := by
  cases hn : e.data.isNil
  · rw [Expr.cost_of_not_nil e hn] at h
    omega
  · rw [Expr.weight_of_nil e hn]
    exact hk

theorem Expr.size_le_sizeList (items : List Expr) :
    ∀ item ∈ items, item.size ≤ Expr.sizeList items := by
  induction items with
  | nil => intro item hi; cases hi
  | cons first rest ih =>
    intro item hi
    rw [Expr.sizeList_cons]
    rcases List.mem_cons.1 hi with hi | hi
    · subst hi; omega
    · have := ih item hi
      omega

theorem Expr.size_le_sizeProperties (properties : List Property) :
    ∀ property ∈ properties, property.valueOrNil.size ≤ Expr.sizeProperties properties := by
  induction properties with
  | nil => intro property hi; cases hi
  | cons first rest ih =>
    intro property hi
    obtain ⟨kind, flags, key, valueOrNil, initializerOrNil, classStaticBlock⟩ := first
    rw [Expr.sizeProperties_cons]
    rcases List.mem_cons.1 hi with hi | hi
    · subst hi
      show valueOrNil.size ≤ _
      omega
    · have := ih property hi
      omega

theorem Expr.size_le_sizeParts (parts : List TemplatePart) :
    ∀ part ∈ parts, part.value.size ≤ Expr.sizeParts parts := by
  induction parts with
  | nil => intro part hi; cases hi
  | cons first rest ih =>
    intro part hi
    obtain ⟨value, tailCooked⟩ := first
    rw [Expr.sizeParts_cons]
    rcases List.mem_cons.1 hi with hi | hi
    · subst hi
      show value.size ≤ _
      omega
    · have := ih part hi
      omega

/-- Shortening an immediately-invoked function never adds weight. -/
theorem shortenIIFE_weight (loc : Loc) (target : Expr) (args : List Expr)
    (optionalChain : OptionalChain) (kind : CallKind) :
    (shortenIIFE loc target args optionalChain kind).weight ≤
      target.weight + Expr.weightArgs args + 1 := by
  obtain ⟨targetLoc, d⟩ := target
  cases args with
  | cons arg rest => cases d <;> exact Nat.le_refl _
  | nil =>
    cases d with
    | EFunction fn =>
      obtain ⟨fnArgs, fnBody, isAsync, isGenerator⟩ := fn
      cases fnArgs <;> cases fnBody <;> first
        | exact Nat.le_refl _
        | exact Nat.le_add_left 1 _
    | EArrow arrowArgs arrowBody isAsync preferExpr =>
      cases arrowArgs with
      | cons a as => cases arrowBody <;> exact Nat.le_refl _
      | nil =>
        cases arrowBody with
        | nil => exact Nat.le_add_left 1 _
        | cons s ss =>
          obtain ⟨stmtLoc, sd⟩ := s
          cases ss with
          | cons s2 ss2 => cases sd <;> cases isAsync <;> exact Nat.le_refl _
          | nil =>
            cases sd <;> cases isAsync <;> first
              | exact Nat.le_refl _
              | exact Nat.le_succ_of_le (Nat.le_succ _)
    | _ => exact Nat.le_refl _

/-- A call that shortening leaves as it is, is not a shortened
immediately-invoked function. -/
theorem isShortenedIIFE_of_fixed (loc : Loc) (target : Expr) (args : List Expr)
    (optionalChain : OptionalChain) (kind : CallKind)
    (h : shortenIIFE loc target args optionalChain kind =
      ⟨loc, .ECall target args optionalChain false kind⟩) :
    isShortenedIIFE target args = false := by
  obtain ⟨targetLoc, d⟩ := target
  cases args with
  | cons arg rest => cases d <;> rfl
  | nil =>
    cases d with
    | EFunction fn =>
      obtain ⟨fnArgs, fnBody, isAsync, isGenerator⟩ := fn
      cases fnArgs <;> cases fnBody <;> first | rfl | cases h
    | EArrow arrowArgs arrowBody isAsync preferExpr =>
      cases arrowArgs with
      | cons a as => cases arrowBody <;> rfl
      | nil =>
        cases arrowBody with
        | nil => cases h
        | cons s ss =>
          obtain ⟨stmtLoc, sd⟩ := s
          cases ss with
          | cons s2 ss2 => cases sd <;> cases isAsync <;> rfl
          | nil =>
            cases sd with
            | SExpr value flag =>
              cases isAsync with
              | false =>
                exfalso
                have hw := congrArg Expr.weight h
                have hw2 : value.weight = value.weight + 0 + 1 + 0 + 1 := hw
                omega
              | true =>
                exfalso
                have h2 : (Expr.mk loc (.ECall
                  ⟨targetLoc, .EArrow [] [⟨stmtLoc, .SReturn value⟩] true true⟩ []
                  optionalChain false kind)) =
                  ⟨loc, .ECall ⟨targetLoc, .EArrow [] [⟨stmtLoc, .SExpr value flag⟩] true
                    preferExpr⟩ [] optionalChain false kind⟩ := h
                injection h2 with _ h3
                injection h3 with h4
                injection h4 with _ h5
                injection h5 with _ h6
                injection h6 with h7
                injection h7 with _ h8
                cases h8
            | SReturn value =>
              cases isAsync with
              | false =>
                exfalso
                have hw := congrArg Expr.weight h
                have hw2 : value.weight = value.weight + 0 + 1 + 0 + 1 := hw
                omega
              | true => rfl
            | _ => cases isAsync <;> rfl
    | _ => rfl

theorem simplifyUnusedAndJoin_cost (features : JSFeature) (isUnbound : Ref → Bool)
    (items : List Expr)
    (h : ∀ item ∈ items, (SimplifyUnusedExpr item features isUnbound).weight ≤ item.weight) :
    ∀ result : Expr,
      (simplifyUnusedAndJoin (fun y => SimplifyUnusedExpr y features isUnbound) items result
        features isUnbound).cost ≤ result.cost + Expr.weightList items := by
  induction items with
  | nil => intro result; exact Nat.le_refl _
  | cons item rest ih =>
    intro result
    rw [simplifyUnusedAndJoin_cons, SimplifyUnusedExpr_self, Expr.weightList_cons]
    have h1 := ih (fun v hv => h v (List.mem_cons_of_mem _ hv))
      (JoinWithComma result (SimplifyUnusedExpr item features isUnbound))
    have h2 := JoinWithComma_cost result (SimplifyUnusedExpr item features isUnbound)
    have h3 := Expr.cost_le (SimplifyUnusedExpr item features isUnbound)
    have h4 := h item (List.mem_cons_self _ _)
    omega

theorem simplifyUnusedKeepNonEmpty_weight (features : JSFeature) (isUnbound : Ref → Bool)
    (items : List Expr)
    (h : ∀ item ∈ items, (SimplifyUnusedExpr item features isUnbound).weight ≤ item.weight) :
    Expr.weightList (simplifyUnusedKeepNonEmpty
        (fun y => SimplifyUnusedExpr y features isUnbound) items features isUnbound) ≤
      Expr.weightList items := by
  induction items with
  | nil => exact Nat.le_refl _
  | cons item rest ih =>
    have h1 := ih (fun v hv => h v (List.mem_cons_of_mem _ hv))
    have h4 := h item (List.mem_cons_self _ _)
    rw [simplifyUnusedKeepNonEmpty_cons, SimplifyUnusedExpr_self, Expr.weightList_cons]
    split
    · omega
    · rw [Expr.weightList_cons]
      omega

theorem simplifyUnusedKeepNonEmpty_length (again : Expr → Expr) (features : JSFeature)
    (isUnbound : Ref → Bool) (items : List Expr) :
    (simplifyUnusedKeepNonEmpty again items features isUnbound).length ≤ items.length := by
  induction items with
  | nil => exact Nat.le_refl _
  | cons item rest ih =>
    rw [simplifyUnusedKeepNonEmpty_cons]
    split
    · rw [List.length_cons]; omega
    · rw [List.length_cons, List.length_cons]; omega

/-- A list that the loop of the array case with a spread leaves as it is holds
fixed points that are not empty. -/
theorem simplifyUnusedKeepNonEmpty_of_eq (features : JSFeature) (isUnbound : Ref → Bool)
    (items : List Expr)
    (h : simplifyUnusedKeepNonEmpty (fun y => SimplifyUnusedExpr y features isUnbound) items
      features isUnbound = items) :
    ∀ item ∈ items, SimplifyUnusedExpr item features isUnbound = item ∧
      item.data.isNil = false := by
  induction items with
  | nil => intro item hi; cases hi
  | cons first rest ih =>
    rw [simplifyUnusedKeepNonEmpty_cons, SimplifyUnusedExpr_self] at h
    cases hn : (SimplifyUnusedExpr first features isUnbound).data.isNil
    · rw [hn, if_neg (by simp)] at h
      injection h with h1 h2
      intro item hi
      rcases List.mem_cons.1 hi with hi | hi
      · subst hi
        refine ⟨h1, ?_⟩
        rw [← h1]
        exact hn
      · exact ih h2 item hi
    · rw [hn, if_pos rfl] at h
      have hl := simplifyUnusedKeepNonEmpty_length
        (fun y => SimplifyUnusedExpr y features isUnbound) features isUnbound rest
      rw [h, List.length_cons] at hl
      omega

theorem simplifyUnusedObjectWithSpread_weight (features : JSFeature) (isUnbound : Ref → Bool)
    (properties : List Property)
    (h : ∀ property ∈ properties,
      (SimplifyUnusedExpr property.valueOrNil features isUnbound).weight ≤
        property.valueOrNil.weight) :
    Expr.weightProperties (simplifyUnusedObjectWithSpread
        (fun y => SimplifyUnusedExpr y features isUnbound) properties features isUnbound) ≤
      Expr.weightProperties properties := by
  induction properties with
  | nil => exact Nat.le_refl _
  | cons property rest ih =>
    have h1 := ih (fun v hv => h v (List.mem_cons_of_mem _ hv))
    have h4 := h property (List.mem_cons_self _ _)
    obtain ⟨kind, flags, key, valueOrNil, initializerOrNil, classStaticBlock⟩ := property
    have h5 : (SimplifyUnusedExpr valueOrNil features isUnbound).weight ≤ valueOrNil.weight := h4
    have h6 := Expr.weight_pos valueOrNil
    rw [simplifyUnusedObjectWithSpread_cons, SimplifyUnusedExpr_self,
      Expr.weightProperties_cons]
    split
    · split
      · rw [Expr.weightProperties_cons]
        omega
      · split
        · omega
        · rw [Expr.weightProperties_cons]
          have h7 : (Expr.mk valueOrNil.loc (.ENumber ⟨false, 0, 0⟩)).weight = 1 := rfl
          omega
    · rw [Expr.weightProperties_cons]
      omega

theorem simplifyUnusedObjectWithSpread_length (again : Expr → Expr) (features : JSFeature)
    (isUnbound : Ref → Bool) (properties : List Property) :
    (simplifyUnusedObjectWithSpread again properties features isUnbound).length ≤
      properties.length := by
  induction properties with
  | nil => exact Nat.le_refl _
  | cons property rest ih =>
    obtain ⟨kind, flags, key, valueOrNil, initializerOrNil, classStaticBlock⟩ := property
    rw [simplifyUnusedObjectWithSpread_cons]
    split
    · split
      · rw [List.length_cons, List.length_cons]; omega
      · split
        · rw [List.length_cons]; omega
        · rw [List.length_cons, List.length_cons]; omega
    · rw [List.length_cons, List.length_cons]; omega

/-- A list of properties that the loop of the object case with a spread leaves
as it is holds spreads, values that are fixed points and not empty, and
computed keys with the placeholder value. -/
theorem simplifyUnusedObjectWithSpread_of_eq (features : JSFeature) (isUnbound : Ref → Bool)
    (properties : List Property)
    (h : simplifyUnusedObjectWithSpread (fun y => SimplifyUnusedExpr y features isUnbound)
      properties features isUnbound = properties) :
    ∀ property ∈ properties, property.kind = PropertyKind.PropertySpread ∨
      (SimplifyUnusedExpr property.valueOrNil features isUnbound = property.valueOrNil ∧
        property.valueOrNil.data.isNil = false) ∨
      (property.flags.isComputed = true ∧ property.valueOrNil.data.isPlaceholderZero = true) := by
  induction properties with
  | nil => intro property hi; cases hi
  | cons first rest ih =>
    obtain ⟨kind, flags, key, valueOrNil, initializerOrNil, classStaticBlock⟩ := first
    rw [simplifyUnusedObjectWithSpread_cons, SimplifyUnusedExpr_self] at h
    by_cases hk : kind ≠ PropertyKind.PropertySpread
    · rw [if_pos hk] at h
      cases hn : (SimplifyUnusedExpr valueOrNil features isUnbound).data.isNil
      · rw [hn, if_pos (show (!false) = true from rfl)] at h
        injection h with h1 h2
        injection h1 with _ _ _ h3 _ _
        intro property hi
        rcases List.mem_cons.1 hi with hi | hi
        · subst hi
          refine Or.inr (Or.inl ⟨h3, ?_⟩)
          show valueOrNil.data.isNil = false
          rw [← h3]
          exact hn
        · exact ih h2 property hi
      · rw [hn, if_neg (show ¬ ((!true) = true) by decide)] at h
        cases hc : flags.isComputed
        · rw [hc, if_pos (show (!false) = true from rfl)] at h
          have hl := simplifyUnusedObjectWithSpread_length
            (fun y => SimplifyUnusedExpr y features isUnbound) features isUnbound rest
          rw [h, List.length_cons] at hl
          omega
        · rw [hc, if_neg (show ¬ ((!true) = true) by decide)] at h
          injection h with h1 h2
          injection h1 with _ _ _ h3 _ _
          intro property hi
          rcases List.mem_cons.1 hi with hi | hi
          · subst hi
            refine Or.inr (Or.inr ⟨hc, ?_⟩)
            show valueOrNil.data.isPlaceholderZero = true
            rw [← h3]
            rfl
          · exact ih h2 property hi
    · rw [if_neg hk] at h
      injection h with h1 h2
      intro property hi
      rcases List.mem_cons.1 hi with hi | hi
      · subst hi
        exact Or.inl (not_not.1 hk)
      · exact ih h2 property hi

theorem simplifyUnusedPropertiesAndJoin_cost (features : JSFeature) (isUnbound : Ref → Bool)
    (properties : List Property)
    (h : ∀ property ∈ properties,
      (SimplifyUnusedExpr property.valueOrNil features isUnbound).weight ≤
        property.valueOrNil.weight) :
    ∀ result : Expr,
      (simplifyUnusedPropertiesAndJoin (fun y => SimplifyUnusedExpr y features isUnbound)
        properties result features isUnbound).cost ≤
        result.cost + Expr.weightProperties properties := by
  induction properties with
  | nil => intro result; exact Nat.le_refl _
  | cons property rest ih =>
    intro result
    have h4 := h property (List.mem_cons_self _ _)
    obtain ⟨kind, flags, key, valueOrNil, initializerOrNil, classStaticBlock⟩ := property
    have h5 : (SimplifyUnusedExpr valueOrNil features isUnbound).weight ≤ valueOrNil.weight := h4
    rw [simplifyUnusedPropertiesAndJoin_cons, SimplifyUnusedExpr_self,
      Expr.weightProperties_cons]
    have h1 := ih (fun v hv => h v (List.mem_cons_of_mem _ hv))
      (JoinWithComma
        (if flags.isComputed then
          JoinWithComma result ⟨key.loc, .EBinary BinOpAdd key ⟨key.loc, .EString []⟩⟩
         else result)
        (SimplifyUnusedExpr valueOrNil features isUnbound))
    have h2 := JoinWithComma_cost
      (if flags.isComputed then
        JoinWithComma result ⟨key.loc, .EBinary BinOpAdd key ⟨key.loc, .EString []⟩⟩
       else result)
      (SimplifyUnusedExpr valueOrNil features isUnbound)
    have h3 := Expr.cost_le (SimplifyUnusedExpr valueOrNil features isUnbound)
    have h6 : (if flags.isComputed then
          JoinWithComma result ⟨key.loc, .EBinary BinOpAdd key ⟨key.loc, .EString []⟩⟩
         else result).cost ≤ result.cost + key.weight + 3 := by
      split
      · have h7 := JoinWithComma_cost result
          ⟨key.loc, .EBinary BinOpAdd key ⟨key.loc, .EString []⟩⟩
        have h8 : (Expr.mk key.loc (.EBinary BinOpAdd key ⟨key.loc, .EString []⟩)).cost =
            key.weight + 1 + 1 + 1 := rfl
        omega
      · omega
    omega

theorem simplifyUnusedArgsAndJoin_cost (features : JSFeature) (isUnbound : Ref → Bool)
    (args : List Expr)
    (h : ∀ arg ∈ args, (SimplifyUnusedExpr arg features isUnbound).weight ≤ arg.weight) :
    ∀ result : Expr,
      (simplifyUnusedArgsAndJoin (fun y => SimplifyUnusedExpr y features isUnbound) args result
        features isUnbound).cost ≤ result.cost + Expr.weightArgs args := by
  induction args with
  | nil => intro result; exact Nat.le_refl _
  | cons arg rest ih =>
    intro result
    have h4 := h arg (List.mem_cons_self _ _)
    rw [simplifyUnusedArgsAndJoin_cons, SimplifyUnusedExpr_self, Expr.weightArgs_cons]
    have h1 := ih (fun v hv => h v (List.mem_cons_of_mem _ hv))
      (JoinWithComma result
        (if arg.data.isESpread then
          ⟨arg.loc, .EArray
            (if (SimplifyUnusedExpr arg features isUnbound).data.isNil then []
             else [SimplifyUnusedExpr arg features isUnbound]) true⟩
         else SimplifyUnusedExpr arg features isUnbound))
    have h2 := JoinWithComma_cost result
        (if arg.data.isESpread then
          ⟨arg.loc, .EArray
            (if (SimplifyUnusedExpr arg features isUnbound).data.isNil then []
             else [SimplifyUnusedExpr arg features isUnbound]) true⟩
         else SimplifyUnusedExpr arg features isUnbound)
    have h6 : (if arg.data.isESpread then
          (Expr.mk arg.loc (.EArray
            (if (SimplifyUnusedExpr arg features isUnbound).data.isNil then []
             else [SimplifyUnusedExpr arg features isUnbound]) true))
         else SimplifyUnusedExpr arg features isUnbound).cost ≤ arg.weight + 3 := by
      split
      · split
        · have h8 : (Expr.mk arg.loc (.EArray [] true)).cost = 2 := rfl
          omega
        · have h8 : (Expr.mk arg.loc
              (.EArray [SimplifyUnusedExpr arg features isUnbound] true)).cost =
              (SimplifyUnusedExpr arg features isUnbound).weight + 1 + 0 + 1 + 1 := rfl
          omega
      · have h3 := Expr.cost_le (SimplifyUnusedExpr arg features isUnbound)
        omega
    omega

theorem TemplatePiece.run_cost (loc : Loc) (values : List Expr) :
    (TemplatePiece.run loc values).toExpr.cost =
      Expr.weightParts (values.map fun value => ⟨value, []⟩) + 3 := by
  show (Expr.mk loc (.ETemplate Expr.empty [] (values.map fun value => ⟨value, []⟩))).cost = _
  rw [Expr.cost_of_not_nil
    ⟨loc, .ETemplate Expr.empty [] (values.map fun value => ⟨value, []⟩)⟩ rfl,
    Expr.weight_ETemplate, Expr.weight_empty]
  omega

/-- The pieces of a template cost no more than its parts and one template:
every run costs one template more than its parts, every part of known type
costs a template less than it weighs, and two runs have such a part between
them. -/
theorem templatePieces_cost (features : JSFeature) (isUnbound : Ref → Bool)
    (parts : List TemplatePart)
    (h : ∀ part ∈ parts,
      (SimplifyUnusedExpr part.value features isUnbound).weight ≤ part.value.weight) :
    piecesCost (templatePieces (fun y => SimplifyUnusedExpr y features isUnbound) parts) +
        (if startsWithRun
            (templatePieces (fun y => SimplifyUnusedExpr y features isUnbound) parts) then 0
          else 3) ≤
      Expr.weightParts parts + 3 := by
  induction parts with
  | nil => exact Nat.le_refl _
  | cons part rest ih =>
    have ih1 := ih (fun v hv => h v (List.mem_cons_of_mem _ hv))
    have h4 := h part (List.mem_cons_self _ _)
    obtain ⟨value, tailCooked⟩ := part
    have h5 : (SimplifyUnusedExpr value features isUnbound).weight ≤ value.weight := h4
    rw [templatePieces_cons, Expr.weightParts_cons]
    by_cases hk : KnownPrimitiveType value ≠ PrimitiveUnknown
    · rw [if_pos hk, piecesCost_cons]
      have h6 : startsWithRun (TemplatePiece.reduced (SimplifyUnusedExpr value features isUnbound) ::
        templatePieces (fun y => SimplifyUnusedExpr y features isUnbound) rest) = false := rfl
      rw [h6, if_neg (by simp)]
      have h7 := Expr.cost_le (SimplifyUnusedExpr value features isUnbound)
      have h8 : (TemplatePiece.reduced (SimplifyUnusedExpr value features isUnbound)).toExpr =
        SimplifyUnusedExpr value features isUnbound := rfl
      rw [h8]
      split at ih1 <;> omega
    · rw [if_neg hk]
      cases hp : templatePieces (fun y => SimplifyUnusedExpr y features isUnbound) rest with
      | nil =>
        have h6 : prependRun value.loc [value] [] = [TemplatePiece.run value.loc [value]] := rfl
        rw [h6, piecesCost_cons, TemplatePiece.run_cost]
        have h7 : startsWithRun [TemplatePiece.run value.loc [value]] = true := rfl
        have h8 : Expr.weightParts ([value].map fun v => ⟨v, []⟩) = value.weight + 4 + 0 := rfl
        have h9 : piecesCost [] = 0 := rfl
        rw [h7, if_pos rfl, h8, h9]
        omega
      | cons piece more =>
        rw [hp] at ih1
        cases piece with
        | reduced r =>
          have h6 : prependRun value.loc [value] (TemplatePiece.reduced r :: more) =
            TemplatePiece.run value.loc [value] :: TemplatePiece.reduced r :: more := rfl
          have h7 : startsWithRun (TemplatePiece.run value.loc [value] ::
            TemplatePiece.reduced r :: more) = true := rfl
          have h8 : Expr.weightParts ([value].map fun v => ⟨v, []⟩) = value.weight + 4 + 0 := rfl
          have h9 : startsWithRun (TemplatePiece.reduced r :: more) = false := rfl
          rw [h9, if_neg (by simp)] at ih1
          rw [h6, piecesCost_cons, TemplatePiece.run_cost, h7, if_pos rfl, h8]
          omega
        | run loc2 values2 =>
          have h6 : prependRun value.loc [value] (TemplatePiece.run loc2 values2 :: more) =
            TemplatePiece.run value.loc (value :: values2) :: more := rfl
          have h7 : startsWithRun (TemplatePiece.run value.loc (value :: values2) :: more) =
            true := rfl
          have h8 : Expr.weightParts ((value :: values2).map fun v => ⟨v, []⟩) =
            value.weight + 4 + Expr.weightParts (values2.map fun v => ⟨v, []⟩) := rfl
          have h9 : startsWithRun (TemplatePiece.run loc2 values2 :: more) = true := rfl
          rw [h9, if_pos rfl, piecesCost_cons, TemplatePiece.run_cost] at ih1
          rw [h6, piecesCost_cons, TemplatePiece.run_cost, h7, if_pos rfl, h8]
          omega

/-- The reducer never adds weight. -/
theorem SimplifyUnusedExpr_weight (features : JSFeature) (isUnbound : Ref → Bool) (n : Nat) :
    ∀ e : Expr, e.size ≤ n → (SimplifyUnusedExpr e features isUnbound).weight ≤ e.weight := by
  induction n with
  | zero =>
    intro e he
    have := Expr.size_pos e
    omega
  | succ n ih =>
    intro e he
    obtain ⟨loc, d⟩ := e
    cases d with
    | EInlinedEnum value original =>
      rw [Expr.size_EInlinedEnum] at he
      rw [SimplifyUnusedExpr_EInlinedEnum, Expr.weight_EInlinedEnum]
      have := ih value (by omega)
      omega
    | ENull => exact Nat.le_refl 1
    | EUndefined => exact Nat.le_refl 1
    | EMissing => exact Nat.le_refl 1
    | EBoolean value => exact Nat.le_refl 1
    | ENumber value => exact Nat.le_refl 1
    | EBigInt value => exact Nat.le_refl 1
    | EString value => exact Nat.le_refl 1
    | EThis => exact Nat.le_refl 1
    | ERegExp value => exact Nat.le_refl 1
    | EFunction fn => exact Nat.le_refl 1
    | EArrow args body isAsync preferExpr => exact Nat.le_add_left 1 _
    | EImportMeta => exact Nat.le_refl 1
    | EDot target name optionalChain canBeRemoved unwrap =>
      rw [SimplifyUnusedExpr_EDot]
      split
      · exact Expr.weight_pos _
      · exact Nat.le_refl _
    | EIdentifier ref mustKeep canBeRemoved =>
      rw [SimplifyUnusedExpr_EIdentifier]
      split
      · exact Nat.le_refl _
      · split
        · exact Nat.le_refl 1
        · exact Nat.le_refl _
    | ETemplate tagOrNil headCooked parts =>
      rw [Expr.size_ETemplate] at he
      rw [SimplifyUnusedExpr_ETemplate]
      split
      · rw [Expr.weight_ETemplate]
        have hparts := templatePieces_cost features isUnbound parts (fun part hp =>
          ih part.value (by have := Expr.size_le_sizeParts parts part hp; omega))
        have hfold := foldl_JoinWithComma_cost
          (templatePieces (fun y => SimplifyUnusedExpr y features isUnbound) parts) Expr.empty
        have hc : Expr.empty.cost = 0 := rfl
        have htag := Expr.weight_pos tagOrNil
        have hw := Expr.weight_le_of_cost (JoinAllWithComma
          ((templatePieces (fun y => SimplifyUnusedExpr y features isUnbound) parts).map
            TemplatePiece.toExpr)) (Expr.weightParts parts + 2) (by
          show (((templatePieces (fun y => SimplifyUnusedExpr y features isUnbound) parts).map
            TemplatePiece.toExpr).foldl JoinWithComma Expr.empty).cost ≤ _
          omega) (by omega)
        omega
      · exact Nat.le_refl _
    | EArray items isSingleLine =>
      rw [Expr.size_EArray] at he
      have hitems : ∀ item ∈ items,
          (SimplifyUnusedExpr item features isUnbound).weight ≤ item.weight :=
        fun item hi => ih item (by have := Expr.size_le_sizeList items item hi; omega)
      rw [SimplifyUnusedExpr_EArray]
      split
      · rw [Expr.weight_EArray, Expr.weight_EArray]
        have := simplifyUnusedKeepNonEmpty_weight features isUnbound items hitems
        omega
      · rw [Expr.weight_EArray]
        have hc : Expr.empty.cost = 0 := rfl
        have := simplifyUnusedAndJoin_cost features isUnbound items hitems Expr.empty
        exact Expr.weight_le_of_cost _ _ (by omega) (by omega)
    | EObject properties isSingleLine =>
      rw [Expr.size_EObject] at he
      have hprops : ∀ property ∈ properties,
          (SimplifyUnusedExpr property.valueOrNil features isUnbound).weight ≤
            property.valueOrNil.weight :=
        fun property hi => ih property.valueOrNil
          (by have := Expr.size_le_sizeProperties properties property hi; omega)
      rw [SimplifyUnusedExpr_EObject]
      split
      · rw [Expr.weight_EObject, Expr.weight_EObject]
        have := simplifyUnusedObjectWithSpread_weight features isUnbound properties hprops
        omega
      · rw [Expr.weight_EObject]
        have hc : Expr.empty.cost = 0 := rfl
        have := simplifyUnusedPropertiesAndJoin_cost features isUnbound properties hprops
          Expr.empty
        exact Expr.weight_le_of_cost _ _ (by omega) (by omega)
    | EIf test yes no =>
      rw [Expr.size_EIf] at he
      have h1 := ih test (by omega)
      have h2 := ih yes (by omega)
      have h3 := ih no (by omega)
      rw [SimplifyUnusedExpr_EIf, Expr.weight_EIf]
      split
      · omega
      · split
        · rw [JoinWithLeftAssociativeOp_weight]
          omega
        · split
          · rw [JoinWithLeftAssociativeOp_weight]
            omega
          · rw [Expr.weight_EIf]
            omega
    | EUnary op value flag =>
      rw [Expr.size_EUnary] at he
      have h1 := ih value (by omega)
      rw [SimplifyUnusedExpr_EUnary, Expr.weight_EUnary]
      split
      · omega
      · split
        · split
          · exact Nat.le_add_left 1 _
          · omega
        · rw [Expr.weight_EUnary]
    | EBinary op left right =>
      rw [Expr.size_EBinary] at he
      have h1 := ih left (by omega)
      have h2 := ih right (by omega)
      have hj := JoinWithComma_weight (SimplifyUnusedExpr left features isUnbound)
        (SimplifyUnusedExpr right features isUnbound)
      rw [SimplifyUnusedExpr_EBinary, Expr.weight_EBinary]
      split
      · omega
      · split
        · split
          · omega
          · rw [Expr.weight_EBinary]
        · split
          · have hb : (logicalLeft op left).weight ≤ left.weight := by
              unfold logicalLeft
              split
              · exact SimplifyBooleanExpr_weight left
              · exact Nat.le_refl _
            have hs : (logicalLeft op left).size ≤ left.size := by
              unfold logicalLeft
              split
              · exact SimplifyBooleanExpr_size left
              · exact Nat.le_refl _
            split
            · have := ih (logicalLeft op left) (by omega)
              omega
            · have := logicalWithOptionalChain_weight loc op (logicalLeft op left)
                (SimplifyUnusedExpr right features isUnbound) features
              omega
          · split
            · have := simplifyUnusedStringAdditionChain_weight _
                ⟨loc, .EBinary op left right⟩ (Nat.le_refl _)
              rw [Expr.weight_EBinary] at this
              exact this
            · rw [Expr.weight_EBinary]
    | ECall target args optionalChain canBeUnwrapped kind =>
      rw [Expr.size_ECall] at he
      rw [Expr.weight_ECall]
      cases canBeUnwrapped with
      | true =>
        have hargs : ∀ arg ∈ args,
            (SimplifyUnusedExpr arg features isUnbound).weight ≤ arg.weight :=
          fun arg hi => ih arg (by have := Expr.size_le_sizeList args arg hi; omega)
        rw [SimplifyUnusedExpr_pure_ECall]
        have hc : Expr.empty.cost = 0 := rfl
        have := simplifyUnusedArgsAndJoin_cost features isUnbound args hargs Expr.empty
        exact Expr.weight_le_of_cost _ _ (by omega) (by omega)
      | false =>
        rw [SimplifyUnusedExpr_impure_ECall]
        exact shortenIIFE_weight loc target args optionalChain kind
    | ENew target args canBeUnwrapped =>
      rw [Expr.size_ENew] at he
      rw [SimplifyUnusedExpr_ENew, Expr.weight_ENew]
      split
      · have hargs : ∀ arg ∈ args,
            (SimplifyUnusedExpr arg features isUnbound).weight ≤ arg.weight :=
          fun arg hi => ih arg (by have := Expr.size_le_sizeList args arg hi; omega)
        have hc : Expr.empty.cost = 0 := rfl
        have := simplifyUnusedArgsAndJoin_cost features isUnbound args hargs Expr.empty
        exact Expr.weight_le_of_cost _ _ (by omega) (by omega)
      · rw [Expr.weight_ENew]
    | _ => exact Nat.le_refl _

theorem Expr.empty_ne (loc : Loc) (d : E) (h : d.isNil = false) : Expr.empty ≠ ⟨loc, d⟩ := by
  intro heq
  have h2 : Expr.empty.data.isNil = (Expr.mk loc d).data.isNil :=
    congrArg (fun e => e.data.isNil) heq
  have h3 : true = d.isNil := h2
  rw [h] at h3
  cases h3

theorem Expr.weight_le_weightParts (parts : List TemplatePart) :
    ∀ part ∈ parts, part.value.weight + 4 ≤ Expr.weightParts parts := by
  induction parts with
  | nil => intro part hi; cases hi
  | cons first rest ih =>
    intro part hi
    obtain ⟨value, tailCooked⟩ := first
    rw [Expr.weightParts_cons]
    rcases List.mem_cons.1 hi with hi | hi
    · subst hi
      show value.weight + 4 ≤ _
      omega
    · have := ih part hi
      omega

theorem isRunOfUnknownParts_map (values : List Expr)
    (h : ∀ value ∈ values, KnownPrimitiveType value = PrimitiveUnknown) :
    isRunOfUnknownParts (values.map fun value => ⟨value, []⟩) = true := by
  induction values with
  | nil => rfl
  | cons value rest ih =>
    rw [List.map_cons, isRunOfUnknownParts_cons, ih (fun v hv => h v (List.mem_cons_of_mem _ hv)),
      h value (List.mem_cons_self _ _)]
    rfl

theorem Expr.reducedList_of_forall (features : JSFeature) (isUnbound : Ref → Bool)
    (items : List Expr)
    (h : ∀ item ∈ items, item.reduced features isUnbound = true ∧ item.data.isNil = false) :
    Expr.reducedList features isUnbound items = true := by
  induction items with
  | nil => rfl
  | cons item rest ih =>
    obtain ⟨h1, h2⟩ := h item (List.mem_cons_self _ _)
    rw [Expr.reducedList_cons, h1, h2, ih (fun v hv => h v (List.mem_cons_of_mem _ hv))]
    rfl

theorem Expr.reducedProperties_of_forall (features : JSFeature) (isUnbound : Ref → Bool)
    (properties : List Property)
    (h : ∀ property ∈ properties, property.kind = PropertyKind.PropertySpread ∨
      (property.valueOrNil.reduced features isUnbound = true ∧
        property.valueOrNil.data.isNil = false) ∨
      (property.flags.isComputed = true ∧ property.valueOrNil.data.isPlaceholderZero = true)) :
    Expr.reducedProperties features isUnbound properties = true := by
  induction properties with
  | nil => rfl
  | cons property rest ih =>
    have hp := h property (List.mem_cons_self _ _)
    obtain ⟨kind, flags, key, valueOrNil, initializerOrNil, classStaticBlock⟩ := property
    rw [Expr.reducedProperties_cons, ih (fun v hv => h v (List.mem_cons_of_mem _ hv)),
      Bool.and_true, Bool.or_eq_true, Bool.or_eq_true]
    rcases hp with hp | ⟨h1, h2⟩ | ⟨h1, h2⟩
    · exact Or.inl (Or.inl (by simpa using hp))
    · have h3 : valueOrNil.reduced features isUnbound = true := h1
      have h4 : valueOrNil.data.isNil = false := h2
      refine Or.inl (Or.inr ?_)
      rw [h3, h4]
      rfl
    · have h3 : flags.isComputed = true := h1
      have h4 : valueOrNil.data.isPlaceholderZero = true := h2
      refine Or.inr ?_
      rw [h3, h4]
      rfl

/-- A comma-join of two expressions that is a binary node at least as heavy as
both is the comma of the two. -/
theorem JoinWithComma_eq_binary (a b : Expr) (loc : Loc) (op : OpCode) (l r : Expr)
    (h : JoinWithComma a b = ⟨loc, .EBinary op l r⟩) (ha : a.weight ≤ l.weight)
    (hb : b.weight ≤ r.weight) :
    op = BinOpComma ∧ a = l ∧ b = r ∧ loc = l.loc ∧ l.data.isNil = false ∧
      r.data.isNil = false := by
  unfold JoinWithComma at h
  have hl := Expr.weight_pos l
  have hr := Expr.weight_pos r
  by_cases ha0 : a.data.isNil = true
  · rw [if_pos ha0] at h
    rw [h, Expr.weight_EBinary] at hb
    omega
  · rw [if_neg ha0] at h
    by_cases hb0 : b.data.isNil = true
    · rw [if_pos hb0] at h
      rw [h, Expr.weight_EBinary] at ha
      omega
    · rw [if_neg hb0] at h
      injection h with h1 h2
      injection h2 with h3 h4 h5
      subst h4
      subst h5
      exact ⟨h3.symm, rfl, rfl, h1.symm, by simpa using ha0, by simpa using hb0⟩

/-- Every fixed point of the reducer is in reduced form. -/
theorem Expr.reduced_of_fixed (features : JSFeature) (isUnbound : Ref → Bool) (n : Nat) :
    ∀ r : Expr, r.size ≤ n → SimplifyUnusedExpr r features isUnbound = r →
      r.reduced features isUnbound = true := by
  have W : ∀ e : Expr, (SimplifyUnusedExpr e features isUnbound).weight ≤ e.weight :=
    fun e => SimplifyUnusedExpr_weight features isUnbound e.size e (Nat.le_refl _)
  induction n with
  | zero =>
    intro r hr
    have := Expr.size_pos r
    omega
  | succ n ih =>
    intro r hr h
    obtain ⟨loc, d⟩ := r
    cases d with
    | EInlinedEnum value original =>
      rw [SimplifyUnusedExpr_EInlinedEnum] at h
      have hw := W value
      rw [h, Expr.weight_EInlinedEnum] at hw
      omega
    | ENull => exact absurd h (Expr.empty_ne loc _ rfl)
    | EUndefined => exact absurd h (Expr.empty_ne loc _ rfl)
    | EMissing => exact absurd h (Expr.empty_ne loc _ rfl)
    | EBoolean value => exact absurd h (Expr.empty_ne loc _ rfl)
    | ENumber value => exact absurd h (Expr.empty_ne loc _ rfl)
    | EBigInt value => exact absurd h (Expr.empty_ne loc _ rfl)
    | EString value => exact absurd h (Expr.empty_ne loc _ rfl)
    | EThis => exact absurd h (Expr.empty_ne loc _ rfl)
    | ERegExp value => exact absurd h (Expr.empty_ne loc _ rfl)
    | EFunction fn => exact absurd h (Expr.empty_ne loc _ rfl)
    | EArrow args body isAsync preferExpr => exact absurd h (Expr.empty_ne loc _ rfl)
    | EImportMeta => exact absurd h (Expr.empty_ne loc _ rfl)
    | EDot target name optionalChain canBeRemoved unwrap =>
      rw [SimplifyUnusedExpr_EDot] at h
      rw [Expr.reduced_EDot]
      cases canBeRemoved
      · rfl
      · rw [if_pos rfl] at h
        exact absurd h (Expr.empty_ne loc _ rfl)
    | EIdentifier ref mustKeep canBeRemoved =>
      rw [SimplifyUnusedExpr_EIdentifier] at h
      rw [Expr.reduced_EIdentifier]
      cases mustKeep
      · cases hc : (canBeRemoved || !isUnbound ref)
        · rfl
        · rw [if_neg (by simp), hc, if_pos rfl] at h
          exact absurd h (Expr.empty_ne loc _ rfl)
      · rfl
    | ETemplate tagOrNil headCooked parts =>
      rw [SimplifyUnusedExpr_ETemplate] at h
      rw [Expr.reduced_ETemplate]
      cases ht : tagOrNil.data.isNil
      · rfl
      · rw [ht, if_pos rfl] at h
        show isRunTemplate loc tagOrNil headCooked parts = true
        have h2 : ((templatePieces (fun y => SimplifyUnusedExpr y features isUnbound) parts).map
            TemplatePiece.toExpr).foldl JoinWithComma Expr.empty =
            ⟨loc, .ETemplate tagOrNil headCooked parts⟩ := h
        rcases foldl_JoinWithComma_cases
          ((templatePieces (fun y => SimplifyUnusedExpr y features isUnbound) parts).map
            TemplatePiece.toExpr) Expr.empty with hc | hc | ⟨l, a, b, hc⟩
        · rw [hc] at h2
          exact absurd h2 (Expr.empty_ne loc _ rfl)
        · rw [h2] at hc
          obtain ⟨piece, hpiece, hpe⟩ := List.mem_map.1 hc
          cases piece with
          | reduced value =>
            obtain ⟨part, hpart, hv⟩ := templatePieces_reduced _ parts value hpiece
            have hpe2 : value = ⟨loc, .ETemplate tagOrNil headCooked parts⟩ := hpe
            have hw := W part.value
            have hw2 := Expr.weight_le_weightParts parts part hpart
            rw [← hv, hpe2, Expr.weight_ETemplate] at hw
            omega
          | run loc2 values =>
            obtain ⟨first, rest, hv, hl, hall⟩ := templatePieces_run _ parts loc2 values hpiece
            have hpe2 : (Expr.mk loc2 (.ETemplate Expr.empty []
              (values.map fun value => ⟨value, []⟩))) =
              ⟨loc, .ETemplate tagOrNil headCooked parts⟩ := hpe
            injection hpe2 with h3 h4
            injection h4 with h5 h6 h7
            subst h3
            subst h5
            subst h6
            subst h7
            have hrun := isRunOfUnknownParts_map values hall
            subst hv
            unfold isRunTemplate
            rw [hrun, hl]
            simp
            rfl
        · rw [hc] at h2
          injection h2 with _ h3
          cases h3
    | EArray items isSingleLine =>
      rw [Expr.size_EArray] at hr
      rw [SimplifyUnusedExpr_EArray] at h
      rw [Expr.reduced_EArray]
      cases hs : items.any (fun item => item.data.isESpread)
      · rw [hs, if_neg (by simp)] at h
        have hc := simplifyUnusedAndJoin_cost features isUnbound items (fun item _ => W item)
          Expr.empty
        have hc0 : Expr.empty.cost = 0 := rfl
        rw [h, Expr.cost_of_not_nil ⟨loc, .EArray items isSingleLine⟩ rfl,
          Expr.weight_EArray] at hc
        omega
      · rw [hs, if_pos rfl] at h
        injection h with _ h2
        injection h2 with h3 _
        have hitems := simplifyUnusedKeepNonEmpty_of_eq features isUnbound items h3
        rw [Bool.true_and]
        apply Expr.reducedList_of_forall
        intro item hi
        have hsz := Expr.size_le_sizeList items item hi
        exact ⟨ih item (by omega) (hitems item hi).1, (hitems item hi).2⟩
    | EObject properties isSingleLine =>
      rw [Expr.size_EObject] at hr
      rw [SimplifyUnusedExpr_EObject] at h
      rw [Expr.reduced_EObject]
      cases hs : properties.any
        (fun property => decide (property.kind = PropertyKind.PropertySpread))
      · rw [hs, if_neg (by simp)] at h
        have hc := simplifyUnusedPropertiesAndJoin_cost features isUnbound properties
          (fun property _ => W property.valueOrNil) Expr.empty
        have hc0 : Expr.empty.cost = 0 := rfl
        rw [h, Expr.cost_of_not_nil ⟨loc, .EObject properties isSingleLine⟩ rfl,
          Expr.weight_EObject] at hc
        omega
      · rw [hs, if_pos rfl] at h
        injection h with _ h2
        injection h2 with h3 _
        have hprops := simplifyUnusedObjectWithSpread_of_eq features isUnbound properties h3
        rw [Bool.true_and]
        apply Expr.reducedProperties_of_forall
        intro property hi
        have hsz := Expr.size_le_sizeProperties properties property hi
        rcases hprops property hi with hp | ⟨h1, h2⟩ | hp
        · exact Or.inl hp
        · exact Or.inr (Or.inl ⟨ih property.valueOrNil (by omega) h1, h2⟩)
        · exact Or.inr (Or.inr hp)
    | EIf test yes no =>
      rw [Expr.size_EIf] at hr
      rw [SimplifyUnusedExpr_EIf] at h
      rw [Expr.reduced_EIf]
      cases hy : (SimplifyUnusedExpr yes features isUnbound).data.isNil
      · cases hn : (SimplifyUnusedExpr no features isUnbound).data.isNil
        · rw [hy, hn] at h
          have h2 : (Expr.mk loc (.EIf test (SimplifyUnusedExpr yes features isUnbound)
            (SimplifyUnusedExpr no features isUnbound))) = ⟨loc, .EIf test yes no⟩ := h
          injection h2 with _ h3
          injection h3 with _ h4 h5
          rw [h4] at hy
          rw [h5] at hn
          rw [ih yes (by omega) h4, ih no (by omega) h5, hy, hn]
          rfl
        · rw [hy, hn] at h
          have h2 : JoinWithLeftAssociativeOp BinOpLogicalAnd test
            (SimplifyUnusedExpr yes features isUnbound) = ⟨loc, .EIf test yes no⟩ := h
          obtain ⟨l, o, a, b, hj⟩ := JoinWithLeftAssociativeOp_isBinary BinOpLogicalAnd
            (SimplifyUnusedExpr yes features isUnbound) test
          rw [hj] at h2
          injection h2 with _ h3
          cases h3
      · cases hn : (SimplifyUnusedExpr no features isUnbound).data.isNil
        · rw [hy, hn] at h
          have h2 : JoinWithLeftAssociativeOp BinOpLogicalOr test
            (SimplifyUnusedExpr no features isUnbound) = ⟨loc, .EIf test yes no⟩ := h
          obtain ⟨l, o, a, b, hj⟩ := JoinWithLeftAssociativeOp_isBinary BinOpLogicalOr
            (SimplifyUnusedExpr no features isUnbound) test
          rw [hj] at h2
          injection h2 with _ h3
          cases h3
        · rw [hy, hn] at h
          have h2 : SimplifyUnusedExpr test features isUnbound = ⟨loc, .EIf test yes no⟩ := h
          have hw := W test
          rw [h2, Expr.weight_EIf] at hw
          omega
    | EUnary op value flag =>
      rw [SimplifyUnusedExpr_EUnary] at h
      rw [Expr.reduced_EUnary]
      have hw := W value
      by_cases h1 : op = UnOpVoid ∨ op = UnOpNot
      · rw [if_pos h1] at h
        rw [h, Expr.weight_EUnary] at hw
        omega
      · rw [if_neg h1] at h
        by_cases h2 : op = UnOpTypeof
        · rw [if_pos h2] at h
          split at h
          · exact absurd h (Expr.empty_ne loc _ rfl)
          · rw [h, Expr.weight_EUnary] at hw
            omega
        · have h3 : ¬ (op = UnOpVoid ∨ op = UnOpNot ∨ op = UnOpTypeof) := by tauto
          rw [decide_eq_false h3]
          rfl
    | EBinary op left right =>
      rw [Expr.size_EBinary] at hr
      rw [SimplifyUnusedExpr_EBinary] at h
      rw [Expr.reduced_EBinary]
      have hjoin : JoinWithComma (SimplifyUnusedExpr left features isUnbound)
          (SimplifyUnusedExpr right features isUnbound) = ⟨loc, .EBinary op left right⟩ →
          op = BinOpComma ∧ SimplifyUnusedExpr left features isUnbound = left ∧
            SimplifyUnusedExpr right features isUnbound = right ∧ loc = left.loc ∧
            left.data.isNil = false ∧ right.data.isNil = false :=
        fun hj => JoinWithComma_eq_binary _ _ loc op left right hj (W left) (W right)
      by_cases h1 : op = BinOpStrictEq ∨ op = BinOpStrictNe
      · rw [if_pos (by tauto)] at h
        have hc := (hjoin h).1
        rcases h1 with h1 | h1 <;> rw [h1] at hc <;> cases hc
      · rw [if_neg h1]
        by_cases h2 : op = BinOpComma
        · rw [if_pos (Or.inr (Or.inr h2))] at h
          obtain ⟨_, hl, hrr, hloc, hln, hrn⟩ := hjoin h
          rw [if_pos h2, ih left (by omega) hl, ih right (by omega) hrr, hln, hrn,
            decide_eq_true hloc]
          rfl
        · rw [if_neg h2]
          have h12 : ¬ (op = BinOpStrictEq ∨ op = BinOpStrictNe ∨ op = BinOpComma) := by tauto
          rw [if_neg h12] at h
          by_cases h3 : op = BinOpLooseEq ∨ op = BinOpLooseNe
          · rw [if_pos h3] at h
            rw [if_pos h3]
            cases hp : (IsPrimitiveWithSideEffects left.data &&
              IsPrimitiveWithSideEffects right.data)
            · rfl
            · rw [hp, if_pos rfl] at h
              exact absurd (hjoin h).1 h2
          · rw [if_neg h3] at h
            rw [if_neg h3]
            by_cases h4 : op = BinOpLogicalAnd ∨ op = BinOpLogicalOr ∨
                op = BinOpNullishCoalescing
            · rw [if_pos h4] at h
              rw [if_pos h4]
              have hb : (logicalLeft op left).weight ≤ left.weight := by
                unfold logicalLeft
                split
                · exact SimplifyBooleanExpr_weight left
                · exact Nat.le_refl _
              have hwr := W right
              cases hn : (SimplifyUnusedExpr right features isUnbound).data.isNil
              · rw [hn, if_neg (by simp)] at h
                cases ha : optionalChainApplies features op (logicalLeft op left)
                  (SimplifyUnusedExpr right features isUnbound)
                · rw [logicalWithOptionalChain_of_not_applies loc op _ _ features ha] at h
                  injection h with _ h5
                  injection h5 with _ h6 h7
                  rw [h6, h7] at ha
                  rw [h7] at hn
                  have hleft : (decide (op = BinOpNullishCoalescing) || left.booleanNormal) =
                      true := by
                    by_cases hq : op = BinOpNullishCoalescing
                    · rw [decide_eq_true hq]
                      rfl
                    · have h8 : SimplifyBooleanExpr left = left := by
                        unfold logicalLeft at h6
                        rw [if_pos hq] at h6
                        exact h6
                      rw [(SimplifyBooleanExpr_fixed_iff_normal left.size left
                        (Nat.le_refl _)).1 h8]
                      exact Bool.or_true _
                  rw [hleft, ih right (by omega) h7, hn, ha]
                  rfl
                · have hw := logicalWithOptionalChain_of_applies loc op _ _ features ha
                  rw [h, Expr.weight_EBinary] at hw
                  omega
              · rw [hn, if_pos rfl] at h
                have hw := W (logicalLeft op left)
                rw [h, Expr.weight_EBinary] at hw
                omega
            · rw [if_neg h4] at h
              rw [if_neg h4]
              by_cases h5 : op = BinOpAdd
              · rw [if_pos h5] at h
                rw [if_pos h5]
                exact stringChainNormal_of_fixed _ _ (Nat.le_refl _) h
              · rw [if_neg h5]
    | ECall target args optionalChain canBeUnwrapped kind =>
      rw [Expr.reduced_ECall]
      cases canBeUnwrapped with
      | false =>
        rw [SimplifyUnusedExpr_impure_ECall] at h
        rw [isShortenedIIFE_of_fixed loc target args optionalChain kind h]
        rfl
      | true =>
        rw [SimplifyUnusedExpr_pure_ECall] at h
        have hc := simplifyUnusedArgsAndJoin_cost features isUnbound args (fun arg _ => W arg)
          Expr.empty
        have hc0 : Expr.empty.cost = 0 := rfl
        rw [h, Expr.cost_of_not_nil ⟨loc, .ECall target args optionalChain true kind⟩ rfl,
          Expr.weight_ECall] at hc
        omega
    | ENew target args canBeUnwrapped =>
      rw [SimplifyUnusedExpr_ENew] at h
      rw [Expr.reduced_ENew]
      cases canBeUnwrapped with
      | false => rfl
      | true =>
        rw [if_pos rfl] at h
        have hc := simplifyUnusedArgsAndJoin_cost features isUnbound args (fun arg _ => W arg)
          Expr.empty
        have hc0 : Expr.empty.cost = 0 := rfl
        rw [h, Expr.cost_of_not_nil ⟨loc, .ENew target args true⟩ rfl,
          Expr.weight_ENew] at hc
        omega
    | _ => rfl

/-- C19 (amended): `SimplifyUnusedExpr` is idempotent on `e` exactly when the
reduction of `e` is in reduced form, for every feature set and every oracle,
and the expressions in reduced form are exactly the fixed points of the
reducer. Reduced form is read off the result alone: it is the empty
expression, or a node the reducer keeps (an identifier or property access it
may not remove, an index, a spread, a class, a tagged template, a run
template, an array or object with a spread, a ternary, a unary or binary
operator other than `void`, `!`, `typeof`, `===`, `!==`, a call or `new` not
marked pure and not a shortened immediately-invoked function) in which the
operands the reducer would reduce again (array items, property values, ternary
branches, both sides of a comma, the right side of `&&`, `||`, `??`) are in
reduced form and not empty, the left side of `&&` and `||` is in boolean
normal form, no optional-chain rewrite applies, a `==` or `!=` has an operand
that is not a primitive, a comma sits at the location of its left operand, and
a chain of `+` holds no string literal other than one empty string. In
particular the reducer is idempotent on `l ?? r` when it is on `l` and on `r`;
on `l && r` and `l || r` where no optional-chain rewrite applies when the
boolean simplifier is idempotent on `l` and the reducer is on the simplified
`l` and on `r`; and on a ternary with both reduced branches kept, or both
empty, when it is on the branches, or on the test. -/
theorem idempotent_iff_reduced (e : Expr) (features : JSFeature) (isUnbound : Ref → Bool) :
    (SimplifyUnusedExpr (SimplifyUnusedExpr e features isUnbound) features isUnbound =
        SimplifyUnusedExpr e features isUnbound ↔
      (SimplifyUnusedExpr e features isUnbound).reduced features isUnbound = true) ∧
    (∀ r : Expr, SimplifyUnusedExpr r features isUnbound = r ↔
      r.reduced features isUnbound = true) ∧
    (∀ (loc : Loc) (l r : Expr),
      SimplifyUnusedExpr (SimplifyUnusedExpr l features isUnbound) features isUnbound =
        SimplifyUnusedExpr l features isUnbound →
      SimplifyUnusedExpr (SimplifyUnusedExpr r features isUnbound) features isUnbound =
        SimplifyUnusedExpr r features isUnbound →
      SimplifyUnusedExpr
          (SimplifyUnusedExpr ⟨loc, .EBinary BinOpNullishCoalescing l r⟩ features isUnbound)
          features isUnbound =
        SimplifyUnusedExpr ⟨loc, .EBinary BinOpNullishCoalescing l r⟩ features isUnbound) ∧
    (∀ (loc : Loc) (op : OpCode) (l r : Expr), op = BinOpLogicalAnd ∨ op = BinOpLogicalOr →
      SimplifyBooleanExpr (SimplifyBooleanExpr l) = SimplifyBooleanExpr l →
      SimplifyUnusedExpr (SimplifyUnusedExpr (SimplifyBooleanExpr l) features isUnbound)
          features isUnbound =
        SimplifyUnusedExpr (SimplifyBooleanExpr l) features isUnbound →
      SimplifyUnusedExpr (SimplifyUnusedExpr r features isUnbound) features isUnbound =
        SimplifyUnusedExpr r features isUnbound →
      optionalChainApplies features op (SimplifyBooleanExpr l)
        (SimplifyUnusedExpr r features isUnbound) = false →
      SimplifyUnusedExpr (SimplifyUnusedExpr ⟨loc, .EBinary op l r⟩ features isUnbound)
          features isUnbound =
        SimplifyUnusedExpr ⟨loc, .EBinary op l r⟩ features isUnbound) ∧
    (∀ (loc : Loc) (t y n : Expr),
      ((SimplifyUnusedExpr y features isUnbound).data.isNil = false →
        (SimplifyUnusedExpr n features isUnbound).data.isNil = false →
        SimplifyUnusedExpr (SimplifyUnusedExpr y features isUnbound) features isUnbound =
          SimplifyUnusedExpr y features isUnbound →
        SimplifyUnusedExpr (SimplifyUnusedExpr n features isUnbound) features isUnbound =
          SimplifyUnusedExpr n features isUnbound →
        SimplifyUnusedExpr (SimplifyUnusedExpr ⟨loc, .EIf t y n⟩ features isUnbound)
            features isUnbound =
          SimplifyUnusedExpr ⟨loc, .EIf t y n⟩ features isUnbound) ∧
      ((SimplifyUnusedExpr y features isUnbound).data.isNil = true →
        (SimplifyUnusedExpr n features isUnbound).data.isNil = true →
        SimplifyUnusedExpr (SimplifyUnusedExpr t features isUnbound) features isUnbound =
          SimplifyUnusedExpr t features isUnbound →
        SimplifyUnusedExpr (SimplifyUnusedExpr ⟨loc, .EIf t y n⟩ features isUnbound)
            features isUnbound =
          SimplifyUnusedExpr ⟨loc, .EIf t y n⟩ features isUnbound)) :=
  ⟨⟨Expr.reduced_of_fixed features isUnbound _ _ (Nat.le_refl _),
      SimplifyUnusedExpr_fixed_of_reduced features isUnbound _ _ (Nat.le_refl _)⟩,
    fun r => ⟨Expr.reduced_of_fixed features isUnbound _ r (Nat.le_refl _),
      SimplifyUnusedExpr_fixed_of_reduced features isUnbound _ r (Nat.le_refl _)⟩,
    SimplifyUnusedExpr_nullish_idempotent features isUnbound,
    SimplifyUnusedExpr_logical_idempotent features isUnbound,
    SimplifyUnusedExpr_ternary_idempotent features isUnbound⟩

/-- Witness for C19 (amended): `a && x()` and `a ?? x()` reduce to themselves
and `a ? 1 : x()` reduces to `a || x()`, all in reduced form, so a second pass
changes nothing; `!!a ? 1 : x()` reduces to `!!a || x()` and the
immediately-invoked arrow `(() => { 1 })()` to `1`, neither in reduced form, so
a second pass changes both. -/
theorem idempotent_iff_reduced_witness :
    SimplifyUnusedExpr aAndCall chainSupported allUnbound = aAndCall ∧
    SimplifyUnusedExpr (SimplifyUnusedExpr aAndCall chainSupported allUnbound) chainSupported
        allUnbound =
      SimplifyUnusedExpr aAndCall chainSupported allUnbound ∧
    SimplifyUnusedExpr aNullishCall chainSupported allUnbound = aNullishCall ∧
    SimplifyUnusedExpr (SimplifyUnusedExpr aNullishCall chainSupported allUnbound) chainSupported
        allUnbound =
      SimplifyUnusedExpr aNullishCall chainSupported allUnbound ∧
    SimplifyUnusedExpr aThenOneElseCall chainSupported allUnbound =
      ⟨loc0, .EBinary BinOpLogicalOr identA impureCall⟩ ∧
    SimplifyUnusedExpr (SimplifyUnusedExpr aThenOneElseCall chainSupported allUnbound)
        chainSupported allUnbound =
      SimplifyUnusedExpr aThenOneElseCall chainSupported allUnbound ∧
    (SimplifyUnusedExpr sampleTernary chainSupported allUnbound).reduced chainSupported
      allUnbound = false ∧
    SimplifyUnusedExpr (SimplifyUnusedExpr sampleTernary chainSupported allUnbound)
        chainSupported allUnbound ≠
      SimplifyUnusedExpr sampleTernary chainSupported allUnbound ∧
    (SimplifyUnusedExpr iifeOfOne chainSupported allBound).reduced chainSupported
      allBound = false ∧
    SimplifyUnusedExpr (SimplifyUnusedExpr iifeOfOne chainSupported allBound) chainSupported
        allBound ≠
      SimplifyUnusedExpr iifeOfOne chainSupported allBound :=
  ⟨rfl, (idempotent_iff_reduced aAndCall chainSupported allUnbound).1.2 rfl,
    rfl, (idempotent_iff_reduced aNullishCall chainSupported allUnbound).1.2 rfl,
    rfl, (idempotent_iff_reduced aThenOneElseCall chainSupported allUnbound).1.2 rfl,
    rfl,
    fun h => Bool.false_ne_true
      ((show (SimplifyUnusedExpr sampleTernary chainSupported allUnbound).reduced chainSupported
          allUnbound = false from rfl).symm.trans
        ((idempotent_iff_reduced sampleTernary chainSupported allUnbound).1.1 h)),
    rfl,
    fun h => Bool.false_ne_true
      ((show (SimplifyUnusedExpr iifeOfOne chainSupported allBound).reduced chainSupported
          allBound = false from rfl).symm.trans
        ((idempotent_iff_reduced iifeOfOne chainSupported allBound).1.1 h))⟩

end JsAst
